import Mathlib

/-!
Intcode machines of dmac/adventofcode2019.

A shallow embedding of the Go sources.  Go's `int` is the 64-bit two's-complement
integer: values are carried as `Int` and every arithmetic result the program computes
on data (`a+b`, `a*b`, `idx += c.relBase`, `c.relBase += n`, the length `idx+1` handed
to `make`) is reduced with `Go.wrapInt`.  A slice is a `List`.  A `make` whose length is computed at run time
panics when the length is negative or above the largest length the runtime accepts
(`Go.maxSliceLen`); a length the runtime accepts is taken to be served, the host running
out of physical memory being outside the model.  A panic is an explicit
`fault` result that carries the machine state at the moment of the panic, and a
goroutine that cannot proceed (a mutex that is already held, a `Wait` on an empty open
queue) is an explicit `blocked` result.  Statements about an instruction that uses a
channel assume that channel's mutex is free when the instruction starts.

`Day11` and `Day13` are the nine-opcode machines, `Day7` the eight-opcode machine and its
amplifier ring, `Day2` the two-opcode machine.  On days 11 and 13 a machine's two
channels are carried by value.  On day 7 the ring shares its channels, so a channel
pointer is an index into the list of allocated buffers.  The goroutines of the ring are
interleaved instruction by instruction under an explicit scheduling: an instruction
touches at most one channel, under that channel's mutex, and memory is private to its
machine.

`Load` is the text parsing of `loadProgram`, `Day7.permutations` the permutation
generator of day 7, and `Day10` the fraction arithmetic of day 10 (`factors`, `gcd`,
`simplifyFraction`), where a Go map is a list of entries with one entry per key and a
loop has a `fuel` argument bounding its iterations.
-/

namespace Go

/-- Reduction of an integer to the signed 64-bit range, the value a Go `int`
computation yields on overflow. -/
def wrapInt (x : Int) : Int :=
  (x + 9223372036854775808) % 18446744073709551616 - 9223372036854775808

/-- The range of a Go `int`. -/
def inRange (x : Int) : Prop :=
  -9223372036854775808 ≤ x ∧ x ≤ 9223372036854775807

/-- Go `make([]T, n)` for an integer element type: `n` zero cells. -/
def makeSlice (n : Nat) : List Int :=
  List.replicate n 0

/-- The largest length `make([]int, n)` accepts.  The runtime's `makeslice` panics with
`len out of range` when `n` is negative or when `n` cells of eight bytes exceed
`maxAlloc`, which is `2^48` bytes with the 48-bit heap addresses of linux/amd64: the
bound is `2^45` cells. -/
def maxSliceLen : Int := 35184372088832

/-- Go `make([]int, n)` for a length computed at run time: `none` is the panic
`makeslice: len out of range`. -/
def makeInts (n : Int) : Option (List Int) :=
  if 0 ≤ n ∧ n ≤ maxSliceLen then some (makeSlice n.toNat) else none

/-- Go `copy(dst, src)`: the first `min (len dst) (len src)` cells of `dst` are
overwritten with those of `src`; the result is the new content of `dst`. -/
def copySlice (dst src : List Int) : List Int :=
  src.take dst.length ++ dst.drop src.length

/-- Go `s[idx]` with its run-time bounds check: `none` is the index-out-of-range panic. -/
def sliceGet (s : List Int) (idx : Int) : Option Int :=
  if 0 ≤ idx ∧ idx < s.length then s[idx.toNat]? else none

end Go

namespace Day11

open Go

/-- Source: `type mode int`. -/
abbrev mode := Int

abbrev modePosition : mode := 0
abbrev modeImmediate : mode := 1
abbrev modeRelative : mode := 2

/-- Source: `intBuffer`.  `ints` is the queue, `closed` the flag, and `locked` tells
whether the mutex `rw.wait.L` is currently held. -/
structure intBuffer where
  ints : List Int
  closed : Bool
  locked : Bool
deriving DecidableEq, Repr

/-- Source: `computer`.  The two channel pointers are modelled as the channels they
point to; they are two distinct objects. -/
structure computer where
  pc : Int
  relBase : Int
  memory : List Int
  input : intBuffer
  output : intBuffer
  running : Bool
deriving DecidableEq, Repr

/-- The panics the machine can raise. -/
inductive Fault where
  | unknownOpcode (code : Int)
  | unknownMode (m : Int)
  | immediateWrite
  | indexOutOfRange (idx : Int)
  | lenOutOfRange
deriving DecidableEq, Repr

/-- Result of a channel operation: it returns `a` leaving the buffer as `rw`, or the
calling goroutine stays blocked with the buffer as `rw`. -/
inductive BufRes (α : Type) where
  | ok (a : α) (rw : intBuffer)
  | blocked (rw : intBuffer)
deriving DecidableEq, Repr

/-- Result of a machine operation: it returns `a` in state `c`, panics in state `c`,
or blocks on a channel in state `c`. -/
inductive Res (α : Type) where
  | ok (a : α) (c : computer)
  | fault (f : Fault) (c : computer)
  | blocked (c : computer)
deriving DecidableEq, Repr

/-- Sequencing of machine operations: a panic or a block ends the sequence. -/
def Res.bind {α β : Type} (r : Res α) (f : α → computer → Res β) : Res β :=
  match r with
  | .ok a c => f a c
  | .fault e c => .fault e c
  | .blocked c => .blocked c

/-- The machine state an operation ends in, whatever its outcome. -/
def Res.state {α : Type} : Res α → computer
  | .ok _ c => c
  | .fault _ c => c
  | .blocked c => c

/-- Source: `rw.wait.L.Lock()`; `none` when the mutex is held, in which case the
caller never gets past the call. -/
def intBuffer.Lock (rw : intBuffer) : Option intBuffer :=
  if rw.locked then none else some { rw with locked := true }

/-- Source: `rw.wait.L.Unlock()`. -/
def intBuffer.Unlock (rw : intBuffer) : intBuffer :=
  { rw with locked := false }

/-- Source: `intBuffer.ReadInt` (11.go 215-227).  On an empty open queue the caller
parks in `Wait`, which releases the mutex.  On an empty closed queue the function
returns `(0, false)` through the early `return`, which has no `Unlock`. -/
def intBuffer.ReadInt (rw : intBuffer) : BufRes (Int × Bool) :=
  match rw.Lock with
  | none => .blocked rw
  | some rw1 =>
    match rw1.ints with
    | [] => if rw1.closed then .ok (0, false) rw1 else .blocked rw1.Unlock
    | n :: rest => .ok (n, true) ({ rw1 with ints := rest }).Unlock

/-- Source: `intBuffer.WriteInt` (11.go 229-234). -/
def intBuffer.WriteInt (rw : intBuffer) (n : Int) : BufRes Unit :=
  match rw.Lock with
  | none => .blocked rw
  | some rw1 => .ok () ({ rw1 with ints := rw1.ints ++ [n] }).Unlock

/-- Source: `intBuffer.Close` (11.go 236-241). -/
def intBuffer.Close (rw : intBuffer) : BufRes Unit :=
  match rw.Lock with
  | none => .blocked rw
  | some rw1 => .ok () ({ rw1 with closed := true }).Unlock

/-- The loop of `parseOpcodeModes`: `for value > 0 { modes = append(modes, value%10);
value /= 10 }`.  `fuel` bounds the number of iterations. -/
def parseLoop : Nat → Int → List mode → List mode
  | 0, _, modes => modes
  | fuel + 1, value, modes =>
    if value > 0 then parseLoop fuel (value.tdiv 10) (modes ++ [value.tmod 10]) else modes

/-- Source: `parseOpcodeModes` (11.go 43-51).  Go's `%` and `/` truncate toward zero.
The loop divides a positive `value` by ten at each iteration, so `value` iterations
always suffice. -/
def parseOpcodeModes (value : Int) : Int × List mode :=
  let code := value.tmod 100
  let value := value.tdiv 100
  (code, parseLoop value.toNat value [])

/-- Source: `fillModes` (11.go 53-60). -/
def fillModes (modes : List mode) (size : Nat) : List mode :=
  if modes.length < size then copySlice (makeSlice size) modes else modes

/-- Source: `newComputer` (11.go 62-69). -/
def newComputer (prg : List Int) (input output : intBuffer) : computer :=
  { pc := 0, relBase := 0, memory := [] ++ prg, input := input, output := output,
    running := true }

/-- Source: `computer.next` (11.go 71-75).  The increment cannot overflow: `pc` is
below the length of a slice. -/
def computer.next (c : computer) : Res Int :=
  match sliceGet c.memory c.pc with
  | none => .fault (.indexOutOfRange c.pc) c
  | some n => .ok n { c with pc := c.pc + 1 }

/-- Source: `computer.expandMemoryForIndex` (11.go 77-83).  The length `idx+1` is a
Go `int`: at `idx = 2^63-1` it wraps to `-2^63`.  When `make` panics the machine is left
as it was. -/
def computer.expandMemoryForIndex (c : computer) (idx : Int) : Res Unit :=
  if idx ≥ c.memory.length then
    match makeInts (wrapInt (idx + 1)) with
    | none => .fault .lenOutOfRange c
    | some mem => .ok () { c with memory := copySlice mem c.memory }
  else .ok () c

/-- The tail shared by `read`: `c.expandMemoryForIndex(idx); return c.memory[idx]`. -/
def computer.load (c : computer) (idx : Int) : Res Int :=
  (c.expandMemoryForIndex idx).bind fun _ c1 =>
    match sliceGet c1.memory idx with
    | none => .fault (.indexOutOfRange idx) c1
    | some n => .ok n c1

/-- The tail of `write`: `c.expandMemoryForIndex(idx); c.memory[idx] = n`. -/
def computer.store (c : computer) (idx : Int) (n : Int) : Res Unit :=
  (c.expandMemoryForIndex idx).bind fun _ c1 =>
    match sliceGet c1.memory idx with
    | none => .fault (.indexOutOfRange idx) c1
    | some _ => .ok () { c1 with memory := c1.memory.set idx.toNat n }

/-- The machine `expandMemoryForIndex(idx)` leaves when it returns for an index that is
a Go `int`: the memory padded with zero cells up to index `idx`. -/
def computer.grown (c : computer) (idx : Int) : computer :=
  if idx ≥ c.memory.length then
    { c with memory := copySlice (makeSlice (idx + 1).toNat) c.memory }
  else c

/-- Source: `computer.read` (11.go 85-98). -/
def computer.read (c : computer) (m : mode) : Res Int :=
  c.next.bind fun idx c =>
    if m = modeImmediate then .ok idx c
    else if m = modePosition then c.load idx
    else if m = modeRelative then c.load (wrapInt (idx + c.relBase))
    else .fault (.unknownMode m) c

/-- Source: `computer.write` (11.go 100-111).  The `switch` has no `default`: a mode
other than 0, 1, 2 falls through to the store with the fetched word as address. -/
def computer.write (c : computer) (n : Int) (m : mode) : Res Unit :=
  c.next.bind fun idx c =>
    if m = modeImmediate then .fault .immediateWrite c
    else if m = modePosition then c.store idx n
    else if m = modeRelative then c.store (wrapInt (idx + c.relBase)) n
    else c.store idx n

/-- `modes[i]` for a list that `fillModes` has made long enough. -/
def modeAt (modes : List mode) (i : Nat) : mode :=
  modes.getD i 0

/-- Source: `add` (11.go 113-118). -/
def add (c : computer) (modes : List mode) : Res Unit :=
  let modes := fillModes modes 3
  (c.read (modeAt modes 0)).bind fun a c =>
  (c.read (modeAt modes 1)).bind fun b c =>
  c.write (wrapInt (a + b)) (modeAt modes 2)

/-- Source: `mul` (11.go 120-125). -/
def mul (c : computer) (modes : List mode) : Res Unit :=
  let modes := fillModes modes 3
  (c.read (modeAt modes 0)).bind fun a c =>
  (c.read (modeAt modes 1)).bind fun b c =>
  c.write (wrapInt (a * b)) (modeAt modes 2)

/-- Source: `input` (11.go 127-131).  The presence flag of `ReadInt` is dropped. -/
def input (c : computer) (modes : List mode) : Res Unit :=
  let modes := fillModes modes 1
  match c.input.ReadInt with
  | .blocked rw => .blocked { c with input := rw }
  | .ok (n, _) rw => ({ c with input := rw }).write n (modeAt modes 0)

/-- Source: `output` (11.go 133-136). -/
def output (c : computer) (modes : List mode) : Res Unit :=
  let modes := fillModes modes 1
  (c.read (modeAt modes 0)).bind fun n c =>
  match c.output.WriteInt n with
  | .blocked rw => .blocked { c with output := rw }
  | .ok _ rw => .ok () { c with output := rw }

/-- Source: `jit` (11.go 138-145). -/
def jit (c : computer) (modes : List mode) : Res Unit :=
  let modes := fillModes modes 2
  (c.read (modeAt modes 0)).bind fun n c =>
  (c.read (modeAt modes 1)).bind fun v c =>
  if n ≠ 0 then .ok () { c with pc := v } else .ok () c

/-- Source: `jif` (11.go 147-154). -/
def jif (c : computer) (modes : List mode) : Res Unit :=
  let modes := fillModes modes 2
  (c.read (modeAt modes 0)).bind fun n c =>
  (c.read (modeAt modes 1)).bind fun v c =>
  if n = 0 then .ok () { c with pc := v } else .ok () c

/-- Source: `lt` (11.go 156-165). -/
def lt (c : computer) (modes : List mode) : Res Unit :=
  let modes := fillModes modes 3
  (c.read (modeAt modes 0)).bind fun a c =>
  (c.read (modeAt modes 1)).bind fun b c =>
  if a < b then c.write 1 (modeAt modes 2) else c.write 0 (modeAt modes 2)

/-- Source: `eq` (11.go 167-176). -/
def eq (c : computer) (modes : List mode) : Res Unit :=
  let modes := fillModes modes 3
  (c.read (modeAt modes 0)).bind fun a c =>
  (c.read (modeAt modes 1)).bind fun b c =>
  if a = b then c.write 1 (modeAt modes 2) else c.write 0 (modeAt modes 2)

/-- Source: `rel` (11.go 178-181). -/
def rel (c : computer) (modes : List mode) : Res Unit :=
  let modes := fillModes modes 1
  (c.read (modeAt modes 0)).bind fun n c =>
  .ok () { c with relBase := wrapInt (c.relBase + n) }

/-- Source: `halt` (11.go 183-185). -/
def halt (c : computer) (_ : List mode) : Res Unit :=
  .ok () { c with running := false }

/-- Source: `type opcode func(c *computer, modes []mode)`. -/
abbrev opcode := computer → List mode → Res Unit

/-- Source: the map `opcodes` (11.go 189-200); `none` is a missing key. -/
def opcodes (code : Int) : Option opcode :=
  if code = 1 then some add
  else if code = 2 then some mul
  else if code = 3 then some input
  else if code = 4 then some output
  else if code = 5 then some jit
  else if code = 6 then some jif
  else if code = 7 then some lt
  else if code = 8 then some eq
  else if code = 9 then some rel
  else if code = 99 then some halt
  else none

/-- One iteration of the loop body of `runProgram` (11.go 34-39). -/
def computer.step (c : computer) : Res Unit :=
  c.next.bind fun w c =>
    let cm := parseOpcodeModes w
    match opcodes cm.1 with
    | none => .fault (.unknownOpcode cm.1) c
    | some op => op c cm.2

/-- How a call of `runProgram` ends: it returns, panics, stays blocked on a channel, or
has not ended within the number of iterations looked at. -/
inductive Run where
  | returned (c : computer)
  | fault (f : Fault) (c : computer)
  | blocked (c : computer)
  | unfinished (c : computer)
deriving DecidableEq, Repr

/-- Source: `computer.runProgram` (11.go 32-41): `for c.running { ... }`, with `fuel`
the number of loop iterations looked at. -/
def computer.runProgram : Nat → computer → Run
  | fuel, c =>
    if c.running then
      match fuel with
      | 0 => .unfinished c
      | fuel + 1 =>
        match c.step with
        | .ok _ c1 => computer.runProgram fuel c1
        | .fault f c1 => .fault f c1
        | .blocked c1 => .blocked c1
    else .returned c

/-- The mode the handler of an opcode with `k` parameters uses for its parameter `i`:
`fillModes(modes, k)[i]` with `modes` as decoded from the instruction word `w`. -/
def paramMode (w : Int) (k i : Nat) : mode :=
  modeAt (fillModes (parseOpcodeModes w).2 k) i

/-- An open, empty channel whose mutex is free, as `newIntBuffer` returns it. -/
def newIntBuffer : intBuffer :=
  { ints := [], closed := false, locked := false }

/-- A sample program whose first instruction multiplies cell 4 by the literal 3 into
cell 4. -/
def sampleMul : computer :=
  newComputer [1002, 4, 3, 4, 33] newIntBuffer newIntBuffer

/-- A sample program: jump-if-true on the literal 7 to the literal target 4. -/
def sampleJump : computer :=
  newComputer [1105, 7, 4, 99, 99] newIntBuffer newIntBuffer

/-- A sample program: add the content of cell 3 to the relative base. -/
def sampleRel : computer :=
  newComputer [9, 3, 99, 19] newIntBuffer newIntBuffer

/-- A sample program: read one input to cell 5, then output it; the input queue holds
7 and 8. -/
def sampleIn : computer :=
  newComputer [3, 5, 4, 5, 99] { ints := [7, 8], closed := false, locked := false }
    newIntBuffer

/-- A sample state: about to output the literal 42 after 6 was already written. -/
def sampleOut : computer :=
  newComputer [104, 42, 99] newIntBuffer { ints := [6], closed := false, locked := false }

/-- A sample program whose first word has code 99 and mode digits 2, 1. -/
def sampleHalt : computer :=
  newComputer [1299, 5] newIntBuffer newIntBuffer

/-- A sample program whose first word decodes to the code 55. -/
def sampleUnknown : computer :=
  newComputer [155, 0, 99] newIntBuffer newIntBuffer

/-- A sample state whose word at `pc` is the largest Go `int`, `2^63 - 1`. -/
def sampleFar : computer :=
  newComputer [9223372036854775807] newIntBuffer newIntBuffer

/-- A sample state whose word at `pc` is `maxSliceLen`, one more than the last index a
slice can have. -/
def sampleLimit : computer :=
  newComputer [35184372088832] newIntBuffer newIntBuffer

/-- A sample program: add cell 0 to itself into the cell at address `2^63 - 1`. -/
def sampleAddFar : computer :=
  newComputer [1, 0, 0, 9223372036854775807, 99] newIntBuffer newIntBuffer

/-- A sample program: read one input to the cell at address `2^63 - 1`; the input queue
holds 7. -/
def sampleInFar : computer :=
  newComputer [3, 9223372036854775807, 99] { ints := [7], closed := false, locked := false }
    newIntBuffer

/-- A sample program: read one input to the cell at address `2^63 - 1`; the input
channel is closed and empty. -/
def sampleInFarClosed : computer :=
  newComputer [3, 9223372036854775807, 99] { ints := [], closed := true, locked := false }
    newIntBuffer

/-- A sample program: set the relative base to `2^63 - 1`, then output the cell at
relative offset 0. -/
def sampleRelFar : computer :=
  newComputer [109, 9223372036854775807, 204, 0, 99] newIntBuffer newIntBuffer

/-- A sample state: `pc` at the second word of a four-word memory, `relBase` 2. -/
def sampleOperand : computer :=
  { pc := 1, relBase := 2, memory := [4, 3, 9, 7], input := newIntBuffer,
    output := newIntBuffer, running := true }

end Day11

namespace Day11

/-- A sample state whose word at `pc` is negative: `pc` at the second word of
`[4, -3, 9, 7]`, `relBase` 2. -/
def sampleNegative : computer :=
  { pc := 1, relBase := 2, memory := [4, -3, 9, 7], input := newIntBuffer,
    output := newIntBuffer, running := true }

end Day11

namespace Day7

open Go

/-- Source: `type mode int` (7.go). -/
abbrev mode := Int

abbrev modePosition : mode := 0
abbrev modeImmediate : mode := 1

/-- Source: `intBuffer` (7.go 199-202): the queue `ints`, and `locked` telling whether
the mutex `rw.wait.L` is currently held.  This variant has no `closed` flag. -/
structure intBuffer where
  ints : List Int
  locked : Bool
deriving DecidableEq, Repr

/-- The buffers allocated so far; a `*intBuffer` is an index into this list. -/
abbrev Heap := List intBuffer

/-- Source: `computer` (7.go 20-28).  `input` and `output` are pointers. -/
structure computer where
  pc : Int
  memory : List Int
  input : Nat
  output : Nat
  running : Bool
deriving DecidableEq, Repr

/-- The panics the machine can raise. -/
inductive Fault where
  | unknownOpcode (code : Int)
  | unknownMode (m : Int)
  | indexOutOfRange (idx : Int)
  | nilPointer
deriving DecidableEq, Repr

/-- Result of a channel operation: it returns `a` leaving the buffer as `rw`, or the
calling goroutine stays blocked with the buffer as `rw`. -/
inductive BufRes (α : Type) where
  | ok (a : α) (rw : intBuffer)
  | blocked (rw : intBuffer)
deriving DecidableEq, Repr

/-- Result of a machine operation on a machine `c` and the buffers `h`: it returns `a`,
panics, or blocks on a channel. -/
inductive Res (α : Type) where
  | ok (a : α) (c : computer) (h : Heap)
  | fault (f : Fault) (c : computer) (h : Heap)
  | blocked (c : computer) (h : Heap)
deriving DecidableEq, Repr

/-- Sequencing of machine operations: a panic or a block ends the sequence. -/
def Res.bind {α β : Type} (r : Res α) (f : α → computer → Heap → Res β) : Res β :=
  match r with
  | .ok a c h => f a c h
  | .fault e c h => .fault e c h
  | .blocked c h => .blocked c h

/-- Source: `rw.wait.L.Lock()`; `none` when the mutex is held. -/
def intBuffer.Lock (rw : intBuffer) : Option intBuffer :=
  if rw.locked then none else some { rw with locked := true }

/-- Source: `rw.wait.L.Unlock()`. -/
def intBuffer.Unlock (rw : intBuffer) : intBuffer :=
  { rw with locked := false }

/-- Source: `newIntBuffer` (7.go 204-209): the value of the fresh buffer. -/
def emptyBuffer : intBuffer :=
  { ints := [], locked := false }

/-- Source: `intBuffer.ReadInt` (7.go 211-220).  On an empty queue the caller parks in
`Wait`, which releases the mutex. -/
def intBuffer.ReadInt (rw : intBuffer) : BufRes Int :=
  match rw.Lock with
  | none => .blocked rw
  | some rw1 =>
    match rw1.ints with
    | [] => .blocked rw1.Unlock
    | n :: rest => .ok n ({ rw1 with ints := rest }).Unlock

/-- Source: `intBuffer.WriteInt` (7.go 222-227). -/
def intBuffer.WriteInt (rw : intBuffer) (n : Int) : BufRes Unit :=
  match rw.Lock with
  | none => .blocked rw
  | some rw1 => .ok () ({ rw1 with ints := rw1.ints ++ [n] }).Unlock

/-- The loop of `parseOpcodeModes` (7.go 45-48); `fuel` bounds the iterations. -/
def parseLoop : Nat → Int → List mode → List mode
  | 0, _, modes => modes
  | fuel + 1, value, modes =>
    if value > 0 then parseLoop fuel (value.tdiv 10) (modes ++ [value.tmod 10]) else modes

/-- Source: `parseOpcodeModes` (7.go 41-50). -/
def parseOpcodeModes (value : Int) : Int × List mode :=
  let code := value.tmod 100
  let value := value.tdiv 100
  (code, parseLoop value.toNat value [])

/-- Source: `fillModes` (7.go 52-59). -/
def fillModes (modes : List mode) (size : Nat) : List mode :=
  if modes.length < size then copySlice (makeSlice size) modes else modes

/-- `modes[i]` for a list that `fillModes` has made long enough. -/
def modeAt (modes : List mode) (i : Nat) : mode :=
  modes.getD i 0

/-- Source: `newComputer` (7.go 61-68). -/
def newComputer (prg : List Int) (input output : Nat) : computer :=
  { pc := 0, memory := [] ++ prg, input := input, output := output, running := true }

/-- Source: `computer.next` (7.go 70-74). -/
def computer.next (c : computer) (h : Heap) : Res Int :=
  match sliceGet c.memory c.pc with
  | none => .fault (.indexOutOfRange c.pc) c h
  | some n => .ok n { c with pc := c.pc + 1 } h

/-- Source: `computer.read` (7.go 76-86). -/
def computer.read (c : computer) (h : Heap) (m : mode) : Res Int :=
  (c.next h).bind fun n c h =>
    if m = modePosition then
      match sliceGet c.memory n with
      | none => .fault (.indexOutOfRange n) c h
      | some x => .ok x c h
    else if m = modeImmediate then .ok n c h
    else .fault (.unknownMode m) c h

/-- Source: `computer.write` (7.go 88-90): `c.memory[c.next()] = n`. -/
def computer.write (c : computer) (h : Heap) (n : Int) : Res Unit :=
  (c.next h).bind fun idx c h =>
    match sliceGet c.memory idx with
    | none => .fault (.indexOutOfRange idx) c h
    | some _ => .ok () { c with memory := c.memory.set idx.toNat n } h

/-- Source: `add` (7.go 92-97). -/
def add (c : computer) (h : Heap) (modes : List mode) : Res Unit :=
  let modes := fillModes modes 3
  (c.read h (modeAt modes 0)).bind fun a c h =>
  (c.read h (modeAt modes 1)).bind fun b c h =>
  c.write h (wrapInt (a + b))

/-- Source: `mul` (7.go 99-103). -/
def mul (c : computer) (h : Heap) (modes : List mode) : Res Unit :=
  let modes := fillModes modes 3
  (c.read h (modeAt modes 0)).bind fun a c h =>
  (c.read h (modeAt modes 1)).bind fun b c h =>
  c.write h (wrapInt (a * b))

/-- Source: `input` (7.go 105-109). -/
def input (c : computer) (h : Heap) (modes : List mode) : Res Unit :=
  let _modes := fillModes modes 1
  match h[c.input]? with
  | none => .fault .nilPointer c h
  | some rw =>
    match rw.ReadInt with
    | .blocked rw1 => .blocked c (h.set c.input rw1)
    | .ok n rw1 => c.write (h.set c.input rw1) n

/-- Source: `output` (7.go 111-114). -/
def output (c : computer) (h : Heap) (modes : List mode) : Res Unit :=
  let modes := fillModes modes 1
  (c.read h (modeAt modes 0)).bind fun n c h =>
  match h[c.output]? with
  | none => .fault .nilPointer c h
  | some rw =>
    match rw.WriteInt n with
    | .blocked rw1 => .blocked c (h.set c.output rw1)
    | .ok _ rw1 => .ok () c (h.set c.output rw1)

/-- Source: `jit` (7.go 116-123). -/
def jit (c : computer) (h : Heap) (modes : List mode) : Res Unit :=
  let modes := fillModes modes 2
  (c.read h (modeAt modes 0)).bind fun n c h =>
  (c.read h (modeAt modes 1)).bind fun v c h =>
  if n ≠ 0 then .ok () { c with pc := v } h else .ok () c h

/-- Source: `jif` (7.go 125-132). -/
def jif (c : computer) (h : Heap) (modes : List mode) : Res Unit :=
  let modes := fillModes modes 2
  (c.read h (modeAt modes 0)).bind fun n c h =>
  (c.read h (modeAt modes 1)).bind fun v c h =>
  if n = 0 then .ok () { c with pc := v } h else .ok () c h

/-- Source: `lt` (7.go 134-143). -/
def lt (c : computer) (h : Heap) (modes : List mode) : Res Unit :=
  let modes := fillModes modes 3
  (c.read h (modeAt modes 0)).bind fun a c h =>
  (c.read h (modeAt modes 1)).bind fun b c h =>
  if a < b then c.write h 1 else c.write h 0

/-- Source: `eq` (7.go 145-154). -/
def eq (c : computer) (h : Heap) (modes : List mode) : Res Unit :=
  let modes := fillModes modes 3
  (c.read h (modeAt modes 0)).bind fun a c h =>
  (c.read h (modeAt modes 1)).bind fun b c h =>
  if a = b then c.write h 1 else c.write h 0

/-- Source: `halt` (7.go 156-158). -/
def halt (c : computer) (h : Heap) (_ : List mode) : Res Unit :=
  .ok () { c with running := false } h

/-- Source: `type opcode func(c *computer, modes []mode)`. -/
abbrev opcode := computer → Heap → List mode → Res Unit

/-- Source: the map `opcodes` (7.go 162-172); `none` is a missing key. -/
def opcodes (code : Int) : Option opcode :=
  if code = 1 then some add
  else if code = 2 then some mul
  else if code = 3 then some input
  else if code = 4 then some output
  else if code = 5 then some jit
  else if code = 6 then some jif
  else if code = 7 then some lt
  else if code = 8 then some eq
  else if code = 99 then some halt
  else none

/-- One iteration of the loop body of `runProgram` (7.go 32-37). -/
def computer.step (c : computer) (h : Heap) : Res Unit :=
  (c.next h).bind fun w c h =>
    let cm := parseOpcodeModes w
    match opcodes cm.1 with
    | none => .fault (.unknownOpcode cm.1) c h
    | some op => op c h cm.2

/-- How a call of `runProgram` ends: it returns, panics, stays blocked on a channel, or
has not ended within the number of iterations looked at. -/
inductive Run where
  | returned (c : computer) (h : Heap)
  | fault (f : Fault) (c : computer) (h : Heap)
  | blocked (c : computer) (h : Heap)
  | unfinished (c : computer) (h : Heap)
deriving DecidableEq, Repr

/-- Source: `computer.runProgram` (7.go 30-39), run by one goroutine alone, with `fuel`
the number of loop iterations looked at. -/
def computer.runProgram : Nat → computer → Heap → Run
  | fuel, c, h =>
    if c.running then
      match fuel with
      | 0 => .unfinished c h
      | fuel + 1 =>
        match c.step h with
        | .ok _ c1 h1 => computer.runProgram fuel c1 h1
        | .fault f c1 h1 => .fault f c1 h1
        | .blocked c1 h1 => .blocked c1 h1
    else .returned c h

end Day7

namespace Day11

/-- Successive calls `WriteInt(v)` for the values of a list, in order. -/
def intBuffer.writeAll (rw : intBuffer) : List Int → BufRes Unit
  | [] => .ok () rw
  | v :: vs =>
    match rw.WriteInt v with
    | .ok _ rw1 => rw1.writeAll vs
    | .blocked rw1 => .blocked rw1

/-- `k` successive calls of `ReadInt`, with the list of their results. -/
def intBuffer.readMany (rw : intBuffer) : Nat → BufRes (List (Int × Bool))
  | 0 => .ok [] rw
  | k + 1 =>
    match rw.ReadInt with
    | .blocked rw1 => .blocked rw1
    | .ok r rw1 =>
      match rw1.readMany k with
      | .blocked rw2 => .blocked rw2
      | .ok rs rw2 => .ok (r :: rs) rw2

end Day11

namespace Day7

/-- Successive calls `WriteInt(v)` for the values of a list, in order. -/
def intBuffer.writeAll (rw : intBuffer) : List Int → BufRes Unit
  | [] => .ok () rw
  | v :: vs =>
    match rw.WriteInt v with
    | .ok _ rw1 => rw1.writeAll vs
    | .blocked rw1 => .blocked rw1

/-- `k` successive calls of `ReadInt`, with the list of their results. -/
def intBuffer.readMany (rw : intBuffer) : Nat → BufRes (List Int)
  | 0 => .ok [] rw
  | k + 1 =>
    match rw.ReadInt with
    | .blocked rw1 => .blocked rw1
    | .ok r rw1 =>
      match rw1.readMany k with
      | .blocked rw2 => .blocked rw2
      | .ok rs rw2 => .ok (r :: rs) rw2

end Day7

namespace Day13

open Go

/-- Source: `type mode int` (13.go). -/
abbrev mode := Int

abbrev modePosition : mode := 0
abbrev modeImmediate : mode := 1
abbrev modeRelative : mode := 2

/-- Source: `intBuffer` (13.go 203-206): the queue `ints`, and `locked` telling whether
the mutex `rw.wait.L` is currently held.  This variant has no `closed` flag. -/
structure intBuffer where
  ints : List Int
  locked : Bool
deriving DecidableEq, Repr

/-- Source: `computer` (13.go).  The two channel pointers are modelled as the channels they
point to; they are two distinct objects. -/
structure computer where
  pc : Int
  relBase : Int
  memory : List Int
  input : intBuffer
  output : intBuffer
  running : Bool
deriving DecidableEq, Repr

/-- The panics the machine can raise. -/
inductive Fault where
  | unknownOpcode (code : Int)
  | unknownMode (m : Int)
  | immediateWrite
  | indexOutOfRange (idx : Int)
  | lenOutOfRange
deriving DecidableEq, Repr

/-- Result of a channel operation: it returns `a` leaving the buffer as `rw`, or the
calling goroutine stays blocked with the buffer as `rw`. -/
inductive BufRes (α : Type) where
  | ok (a : α) (rw : intBuffer)
  | blocked (rw : intBuffer)
deriving DecidableEq, Repr

/-- Result of a machine operation: it returns `a` in state `c`, panics in state `c`,
or blocks on a channel in state `c`. -/
inductive Res (α : Type) where
  | ok (a : α) (c : computer)
  | fault (f : Fault) (c : computer)
  | blocked (c : computer)
deriving DecidableEq, Repr

/-- Sequencing of machine operations: a panic or a block ends the sequence. -/
def Res.bind {α β : Type} (r : Res α) (f : α → computer → Res β) : Res β :=
  match r with
  | .ok a c => f a c
  | .fault e c => .fault e c
  | .blocked c => .blocked c

/-- The machine state an operation ends in, whatever its outcome. -/
def Res.state {α : Type} : Res α → computer
  | .ok _ c => c
  | .fault _ c => c
  | .blocked c => c

/-- Source: `rw.wait.L.Lock()`; `none` when the mutex is held, in which case the
caller never gets past the call. -/
def intBuffer.Lock (rw : intBuffer) : Option intBuffer :=
  if rw.locked then none else some { rw with locked := true }

/-- Source: `rw.wait.L.Unlock()`. -/
def intBuffer.Unlock (rw : intBuffer) : intBuffer :=
  { rw with locked := false }

/-- Source: `intBuffer.ReadInt` (13.go 215-224).  On an empty queue the caller parks in
`Wait`, which releases the mutex. -/
def intBuffer.ReadInt (rw : intBuffer) : BufRes Int :=
  match rw.Lock with
  | none => .blocked rw
  | some rw1 =>
    match rw1.ints with
    | [] => .blocked rw1.Unlock
    | n :: rest => .ok n ({ rw1 with ints := rest }).Unlock

/-- Source: `intBuffer.WriteInt` (13.go 226-231). -/
def intBuffer.WriteInt (rw : intBuffer) (n : Int) : BufRes Unit :=
  match rw.Lock with
  | none => .blocked rw
  | some rw1 => .ok () ({ rw1 with ints := rw1.ints ++ [n] }).Unlock

/-- The loop of `parseOpcodeModes`: `for value > 0 { modes = append(modes, value%10);
value /= 10 }`.  `fuel` bounds the number of iterations. -/
def parseLoop : Nat → Int → List mode → List mode
  | 0, _, modes => modes
  | fuel + 1, value, modes =>
    if value > 0 then parseLoop fuel (value.tdiv 10) (modes ++ [value.tmod 10]) else modes

/-- Source: `parseOpcodeModes` (13.go 44-52).  Go's `%` and `/` truncate toward zero.
The loop divides a positive `value` by ten at each iteration, so `value` iterations
always suffice. -/
def parseOpcodeModes (value : Int) : Int × List mode :=
  let code := value.tmod 100
  let value := value.tdiv 100
  (code, parseLoop value.toNat value [])

/-- Source: `fillModes` (13.go 54-61). -/
def fillModes (modes : List mode) (size : Nat) : List mode :=
  if modes.length < size then copySlice (makeSlice size) modes else modes

/-- Source: `newComputer` (13.go 63-70). -/
def newComputer (prg : List Int) (input output : intBuffer) : computer :=
  { pc := 0, relBase := 0, memory := [] ++ prg, input := input, output := output,
    running := true }

/-- Source: `computer.next` (13.go 72-76).  The increment cannot overflow: `pc` is
below the length of a slice. -/
def computer.next (c : computer) : Res Int :=
  match sliceGet c.memory c.pc with
  | none => .fault (.indexOutOfRange c.pc) c
  | some n => .ok n { c with pc := c.pc + 1 }

/-- Source: `computer.expandMemoryForIndex` (13.go 78-84).  The length `idx+1` is a
Go `int`: at `idx = 2^63-1` it wraps to `-2^63`.  When `make` panics the machine is left
as it was. -/
def computer.expandMemoryForIndex (c : computer) (idx : Int) : Res Unit :=
  if idx ≥ c.memory.length then
    match makeInts (wrapInt (idx + 1)) with
    | none => .fault .lenOutOfRange c
    | some mem => .ok () { c with memory := copySlice mem c.memory }
  else .ok () c

/-- The tail shared by `read`: `c.expandMemoryForIndex(idx); return c.memory[idx]`. -/
def computer.load (c : computer) (idx : Int) : Res Int :=
  (c.expandMemoryForIndex idx).bind fun _ c1 =>
    match sliceGet c1.memory idx with
    | none => .fault (.indexOutOfRange idx) c1
    | some n => .ok n c1

/-- The tail of `write`: `c.expandMemoryForIndex(idx); c.memory[idx] = n`. -/
def computer.store (c : computer) (idx : Int) (n : Int) : Res Unit :=
  (c.expandMemoryForIndex idx).bind fun _ c1 =>
    match sliceGet c1.memory idx with
    | none => .fault (.indexOutOfRange idx) c1
    | some _ => .ok () { c1 with memory := c1.memory.set idx.toNat n }

/-- Source: `computer.read` (13.go 86-99). -/
def computer.read (c : computer) (m : mode) : Res Int :=
  c.next.bind fun idx c =>
    if m = modeImmediate then .ok idx c
    else if m = modePosition then c.load idx
    else if m = modeRelative then c.load (wrapInt (idx + c.relBase))
    else .fault (.unknownMode m) c

/-- Source: `computer.write` (13.go 101-112).  The `switch` has no `default`: a mode
other than 0, 1, 2 falls through to the store with the fetched word as address. -/
def computer.write (c : computer) (n : Int) (m : mode) : Res Unit :=
  c.next.bind fun idx c =>
    if m = modeImmediate then .fault .immediateWrite c
    else if m = modePosition then c.store idx n
    else if m = modeRelative then c.store (wrapInt (idx + c.relBase)) n
    else c.store idx n

/-- `modes[i]` for a list that `fillModes` has made long enough. -/
def modeAt (modes : List mode) (i : Nat) : mode :=
  modes.getD i 0

/-- Source: `add` (13.go 114-119). -/
def add (c : computer) (modes : List mode) : Res Unit :=
  let modes := fillModes modes 3
  (c.read (modeAt modes 0)).bind fun a c =>
  (c.read (modeAt modes 1)).bind fun b c =>
  c.write (wrapInt (a + b)) (modeAt modes 2)

/-- Source: `mul` (13.go 121-126). -/
def mul (c : computer) (modes : List mode) : Res Unit :=
  let modes := fillModes modes 3
  (c.read (modeAt modes 0)).bind fun a c =>
  (c.read (modeAt modes 1)).bind fun b c =>
  c.write (wrapInt (a * b)) (modeAt modes 2)

/-- Source: `input` (13.go 128-132). -/
def input (c : computer) (modes : List mode) : Res Unit :=
  let modes := fillModes modes 1
  match c.input.ReadInt with
  | .blocked rw => .blocked { c with input := rw }
  | .ok n rw => ({ c with input := rw }).write n (modeAt modes 0)

/-- Source: `output` (13.go 134-137). -/
def output (c : computer) (modes : List mode) : Res Unit :=
  let modes := fillModes modes 1
  (c.read (modeAt modes 0)).bind fun n c =>
  match c.output.WriteInt n with
  | .blocked rw => .blocked { c with output := rw }
  | .ok _ rw => .ok () { c with output := rw }

/-- Source: `jit` (13.go 139-146). -/
def jit (c : computer) (modes : List mode) : Res Unit :=
  let modes := fillModes modes 2
  (c.read (modeAt modes 0)).bind fun n c =>
  (c.read (modeAt modes 1)).bind fun v c =>
  if n ≠ 0 then .ok () { c with pc := v } else .ok () c

/-- Source: `jif` (13.go 148-155). -/
def jif (c : computer) (modes : List mode) : Res Unit :=
  let modes := fillModes modes 2
  (c.read (modeAt modes 0)).bind fun n c =>
  (c.read (modeAt modes 1)).bind fun v c =>
  if n = 0 then .ok () { c with pc := v } else .ok () c

/-- Source: `lt` (13.go 157-166). -/
def lt (c : computer) (modes : List mode) : Res Unit :=
  let modes := fillModes modes 3
  (c.read (modeAt modes 0)).bind fun a c =>
  (c.read (modeAt modes 1)).bind fun b c =>
  if a < b then c.write 1 (modeAt modes 2) else c.write 0 (modeAt modes 2)

/-- Source: `eq` (13.go 168-177). -/
def eq (c : computer) (modes : List mode) : Res Unit :=
  let modes := fillModes modes 3
  (c.read (modeAt modes 0)).bind fun a c =>
  (c.read (modeAt modes 1)).bind fun b c =>
  if a = b then c.write 1 (modeAt modes 2) else c.write 0 (modeAt modes 2)

/-- Source: `rel` (13.go 179-182). -/
def rel (c : computer) (modes : List mode) : Res Unit :=
  let modes := fillModes modes 1
  (c.read (modeAt modes 0)).bind fun n c =>
  .ok () { c with relBase := wrapInt (c.relBase + n) }

/-- Source: `halt` (13.go 184-186). -/
def halt (c : computer) (_ : List mode) : Res Unit :=
  .ok () { c with running := false }

/-- Source: `type opcode func(c *computer, modes []mode)`. -/
abbrev opcode := computer → List mode → Res Unit

/-- Source: the map `opcodes` (13.go 190-201); `none` is a missing key. -/
def opcodes (code : Int) : Option opcode :=
  if code = 1 then some add
  else if code = 2 then some mul
  else if code = 3 then some input
  else if code = 4 then some output
  else if code = 5 then some jit
  else if code = 6 then some jif
  else if code = 7 then some lt
  else if code = 8 then some eq
  else if code = 9 then some rel
  else if code = 99 then some halt
  else none

/-- One iteration of the loop body of `runProgram` (13.go 35-40). -/
def computer.step (c : computer) : Res Unit :=
  c.next.bind fun w c =>
    let cm := parseOpcodeModes w
    match opcodes cm.1 with
    | none => .fault (.unknownOpcode cm.1) c
    | some op => op c cm.2

/-- How a call of `runProgram` ends: it returns, panics, stays blocked on a channel, or
has not ended within the number of iterations looked at. -/
inductive Run where
  | returned (c : computer)
  | fault (f : Fault) (c : computer)
  | blocked (c : computer)
  | unfinished (c : computer)
deriving DecidableEq, Repr

/-- Source: `computer.runProgram` (13.go 33-42): `for c.running { ... }`, with `fuel`
the number of loop iterations looked at. -/
def computer.runProgram : Nat → computer → Run
  | fuel, c =>
    if c.running then
      match fuel with
      | 0 => .unfinished c
      | fuel + 1 =>
        match c.step with
        | .ok _ c1 => computer.runProgram fuel c1
        | .fault f c1 => .fault f c1
        | .blocked c1 => .blocked c1
    else .returned c

/-- The mode the handler of an opcode with `k` parameters uses for its parameter `i`:
`fillModes(modes, k)[i]` with `modes` as decoded from the instruction word `w`. -/
def paramMode (w : Int) (k i : Nat) : mode :=
  modeAt (fillModes (parseOpcodeModes w).2 k) i

/-- A sample program: an input instruction whose target mode digit is 1, with one value
queued on the input channel. -/
def sampleInputImm : computer :=
  newComputer [103, 0, 99] { ints := [7], locked := false } { ints := [], locked := false }

end Day13

namespace Day11

/-- A sample program: an input instruction whose target mode digit is 1, on an open,
empty input channel. -/
def sampleInputImm : computer :=
  newComputer [103, 0, 99] newIntBuffer newIntBuffer

/-- A sample program: an addition whose target mode digit is 1. -/
def sampleAddImm : computer :=
  newComputer [10001, 0, 0, 0, 99] newIntBuffer newIntBuffer

end Day11

namespace Day2

open Go

/-- Source: `computer` (2.go 12-16). -/
structure computer where
  pc : Int
  memory : List Int
  running : Bool
deriving DecidableEq, Repr

/-- The panics of the two-opcode machine: the explicit "unknown opcode" panic, with the
number its message prints, and the run-time index-out-of-range panic. -/
inductive Fault where
  | unknownOpcode (printed : Int)
  | indexOutOfRange (idx : Int)
deriving DecidableEq, Repr

/-- Result of a machine operation: it returns `a` in state `c`, or panics in state `c`. -/
inductive Res (α : Type) where
  | ok (a : α) (c : computer)
  | fault (f : Fault) (c : computer)
deriving DecidableEq, Repr

/-- Sequencing of machine operations: a panic ends the sequence. -/
def Res.bind {α β : Type} (r : Res α) (f : α → computer → Res β) : Res β :=
  match r with
  | .ok a c => f a c
  | .fault e c => .fault e c

/-- Source: `newComputer` (2.go 18-20). -/
def newComputer : computer :=
  { pc := 0, memory := [], running := true }

/-- Source: `computer.next` (2.go 22-26). -/
def computer.next (c : computer) : Res Int :=
  match sliceGet c.memory c.pc with
  | none => .fault (.indexOutOfRange c.pc) c
  | some n => .ok n { c with pc := c.pc + 1 }

/-- The expression `c.memory[idx]`, with its bounds check. -/
def computer.get (c : computer) (idx : Int) : Res Int :=
  match sliceGet c.memory idx with
  | none => .fault (.indexOutOfRange idx) c
  | some n => .ok n c

/-- The statement `c.memory[idx] = n`, with its bounds check. -/
def computer.set (c : computer) (idx : Int) (n : Int) : Res Unit :=
  match sliceGet c.memory idx with
  | none => .fault (.indexOutOfRange idx) c
  | some _ => .ok () { c with memory := c.memory.set idx.toNat n }

/-- Source: `add` (2.go 28-33). -/
def add (c : computer) : Res Unit :=
  c.next.bind fun i c => (c.get i).bind fun a c =>
  c.next.bind fun j c => (c.get j).bind fun b c =>
  c.next.bind fun r c => c.set r (wrapInt (a + b))

/-- Source: `mul` (2.go 35-40). -/
def mul (c : computer) : Res Unit :=
  c.next.bind fun i c => (c.get i).bind fun a c =>
  c.next.bind fun j c => (c.get j).bind fun b c =>
  c.next.bind fun r c => c.set r (wrapInt (a * b))

/-- Source: `halt` (2.go 42-44). -/
def halt (c : computer) : Res Unit :=
  .ok () { c with running := false }

/-- Source: `type opcode func(*computer)`. -/
abbrev opcode := computer → Res Unit

/-- Source: the map `opcodes` (2.go 48-52), keyed by the whole instruction word. -/
def opcodes (code : Int) : Option opcode :=
  if code = 1 then some add
  else if code = 2 then some mul
  else if code = 99 then some halt
  else none

/-- One iteration of the loop body of `tryWithInputs` (2.go 60-64).  The panic message
prints `c.memory[c.pc]` after the fetch has advanced `pc`; evaluating it can itself
panic. -/
def computer.step (c : computer) : Res Unit :=
  c.next.bind fun w c =>
    match opcodes w with
    | none =>
      match sliceGet c.memory c.pc with
      | none => .fault (.indexOutOfRange c.pc) c
      | some x => .fault (.unknownOpcode x) c
    | some op => op c

/-- How the run loop ends: it is left with the machine halted, it panics, or it has not
ended within the number of iterations looked at. -/
inductive Run where
  | returned (c : computer)
  | fault (f : Fault) (c : computer)
  | unfinished (c : computer)
deriving DecidableEq, Repr

/-- Source: the loop `for c.running { ... }` of `tryWithInputs` (2.go 59-65), with `fuel`
the number of iterations looked at. -/
def computer.runLoop : Nat → computer → Run
  | fuel, c =>
    if c.running then
      match fuel with
      | 0 => .unfinished c
      | fuel + 1 =>
        match c.step with
        | .ok _ c1 => computer.runLoop fuel c1
        | .fault f c1 => .fault f c1
    else .returned c

/-- Source: the first four statements of `tryWithInputs` (2.go 55-58): the fresh machine
with the program copied in and cells 1 and 2 overwritten. -/
def tryInit (prg : List Int) (n v : Int) : Res Unit :=
  let c := newComputer
  let c := { c with memory := [] ++ prg }
  (c.set 1 n).bind fun _ c => c.set 2 v

/-- How a call of `tryWithInputs` ends. -/
inductive TryRes where
  | returned (r : Int)
  | fault (f : Fault)
  | unfinished
deriving DecidableEq, Repr

/-- Source: `tryWithInputs` (2.go 54-67). -/
def tryWithInputs (fuel : Nat) (prg : List Int) (n v : Int) : TryRes :=
  match tryInit prg n v with
  | .fault f _ => .fault f
  | .ok _ c =>
    match c.runLoop fuel with
    | .fault f _ => .fault f
    | .unfinished _ => .unfinished
    | .returned c1 =>
      match sliceGet c1.memory 0 with
      | none => .fault (.indexOutOfRange 0)
      | some r => .returned r

end Day2

namespace Day7

/-- Source: `amplifier` (7.go 174-178).  The machine is held by value; `input` and
`output` are pointers. -/
structure amplifier where
  c : computer
  input : Nat
  output : Nat
deriving DecidableEq, Repr

/-- Result of the straight-line set-up code: it returns `a` with the buffers as `h`,
panics, or blocks on a channel. -/
inductive Setup (α : Type) where
  | ok (a : α) (h : Heap)
  | fault (f : Fault)
  | blocked
deriving DecidableEq, Repr

/-- Source: `newIntBuffer` (7.go 204-209) as an allocation: the new pointer and the
extended list of buffers. -/
def newIntBuffer (h : Heap) : Nat × Heap :=
  (h.length, h ++ [emptyBuffer])

/-- The call `p.WriteInt(n)` through the pointer `p`. -/
def writeAt (h : Heap) (p : Nat) (n : Int) : Setup Unit :=
  match h[p]? with
  | none => .fault .nilPointer
  | some rw =>
    match rw.WriteInt n with
    | .ok _ rw1 => .ok () (h.set p rw1)
    | .blocked _ => .blocked

/-- Source: `newAmplifier` (7.go 180-189). -/
def newAmplifier (prg : List Int) (phase : Int) (input output : Nat) (h : Heap) :
    Setup amplifier :=
  let c := newComputer prg input output
  match writeAt h input phase with
  | .ok _ h1 => .ok { c := c, input := input, output := output } h1
  | .fault f => .fault f
  | .blocked => .blocked

/-- Source: `amplifier.addInput` (7.go 191-193). -/
def amplifier.addInput (a : amplifier) (h : Heap) (v : Int) : Setup Unit :=
  writeAt h a.input v

/-- Source: the first loop of `tryPhases` (7.go 246-249): one `newIntBuffer()` per
phase; the result is the slice `pipes`. -/
def allocPipes : List Int → Heap → List Nat × Heap
  | [], h => ([], h)
  | _ :: rest, h =>
    let ph := newIntBuffer h
    let r := allocPipes rest ph.2
    (ph.1 :: r.1, r.2)

/-- Source: the second loop of `tryPhases` (7.go 250-255), from index `i` on, with `n`
standing for `len(phases)`. -/
def buildAmps (prg : List Int) (pipes : List Nat) (n : Nat) :
    Nat → List Int → Heap → Setup (List amplifier)
  | _, [], h => .ok [] h
  | i, phase :: rest, h =>
    match pipes[i]?, pipes[(i + 1) % n]? with
    | some inp, some out =>
      match newAmplifier prg phase inp out h with
      | .ok amp h1 =>
        match buildAmps prg pipes n (i + 1) rest h1 with
        | .ok amps h2 => .ok (amp :: amps) h2
        | .fault f => .fault f
        | .blocked => .blocked
      | .fault f => .fault f
      | .blocked => .blocked
    | _, _ => .fault (.indexOutOfRange i)

/-- Source: `tryPhases` up to and including `amps[0].addInput(0)` (7.go 246-256): the
amplifiers and the buffers before any goroutine is started. -/
def tryPhasesSetup (prg phases : List Int) : Setup (List amplifier) :=
  let ph := allocPipes phases []
  match buildAmps prg ph.1 phases.length 0 phases ph.2 with
  | .ok amps h1 =>
    match amps with
    | [] => .fault (.indexOutOfRange 0)
    | a0 :: _ =>
      match a0.addInput h1 0 with
      | .ok _ h2 => .ok amps h2
      | .fault f => .fault f
      | .blocked => .blocked
  | .fault f => .fault f
  | .blocked => .blocked

/-- The running ring: the amplifiers (goroutine `i` runs `amps[i]`), the buffers, and a
record `log` of the values written by output instructions, oldest first, each with the
index of the goroutine that wrote it.  `log` is an observation, not program state. -/
structure Network where
  amps : List amplifier
  heap : Heap
  log : List (Nat × Int)
deriving DecidableEq, Repr

/-- The value appended to buffer `p` between the buffer lists `h` and `h1`, if one was. -/
def written (h h1 : Heap) (p : Nat) : Option Int :=
  match h[p]?, h1[p]? with
  | some b, some b1 => if b1.ints.length = b.ints.length + 1 then b1.ints.getLast? else none
  | _, _ => none

/-- Result of letting goroutines run: the ring goes on, or a goroutine has panicked. -/
inductive NetRes where
  | ok (net : Network)
  | fault (f : Fault) (net : Network)
deriving DecidableEq, Repr

/-- Goroutine `i` is scheduled for one iteration of its `runProgram` loop (7.go 262-265).
A goroutine whose machine has halted has nothing left to do.  A goroutine whose
instruction blocks on its channel stays parked: nothing changes, and the instruction is
carried out at a later scheduling. -/
def Network.sched (net : Network) (i : Nat) : NetRes :=
  match net.amps[i]? with
  | none => .ok net
  | some amp =>
    if amp.c.running then
      match amp.c.step net.heap with
      | .ok _ c1 h1 =>
        .ok { amps := net.amps.set i { amp with c := c1 }, heap := h1,
              log := match written net.heap h1 amp.c.output with
                | some v => net.log ++ [(i, v)]
                | none => net.log }
      | .blocked _ _ => .ok net
      | .fault f c1 h1 =>
        .fault f { amps := net.amps.set i { amp with c := c1 }, heap := h1, log := net.log }
    else .ok net

/-- The goroutines are scheduled in the order given by the list. -/
def Network.exec : List Nat → Network → NetRes
  | [], net => .ok net
  | i :: rest, net =>
    match net.sched i with
    | .ok net1 => Network.exec rest net1
    | .fault f net1 => .fault f net1

/-- Every machine of the ring has halted: `wg.Wait()` returns. -/
def Network.halted (net : Network) : Bool :=
  net.amps.all fun a => !a.c.running

/-- The last value goroutine `i` wrote to its output channel, if it wrote any. -/
def Network.lastWritten (net : Network) (i : Nat) : Option Int :=
  ((net.log.filter fun e => e.1 = i).map fun e => e.2).getLast?

/-- The ring after set-up and after the goroutines have been scheduled as in `order`;
`none` when set-up fails or a goroutine panics. -/
def ringAfter (order : List Nat) (prg phases : List Int) : Option Network :=
  match tryPhasesSetup prg phases with
  | .ok amps h =>
    match (Network.mk amps h []).exec order with
    | .ok net => some net
    | .fault _ _ => none
  | .fault _ => none
  | .blocked => none

/-- How a call of `tryPhases` ends: it returns a value, panics, blocks in its final
`ReadInt`, or its goroutines have not all halted under the scheduling looked at. -/
inductive TryRes where
  | returned (v : Int)
  | fault (f : Fault)
  | blocked
  | unfinished
deriving DecidableEq, Repr

/-- Source: `tryPhases` (7.go 245-270) under the scheduling `order` of its goroutines. -/
def tryPhases (order : List Nat) (prg phases : List Int) : TryRes :=
  match tryPhasesSetup prg phases with
  | .fault f => .fault f
  | .blocked => .blocked
  | .ok amps h =>
    match (Network.mk amps h []).exec order with
    | .fault f _ => .fault f
    | .ok net =>
      if net.halted then
        match net.amps.getLast? with
        | none => .fault (.indexOutOfRange (-1))
        | some lastAmp =>
          match net.heap[lastAmp.output]? with
          | none => .fault .nilPointer
          | some rw =>
            match rw.ReadInt with
            | .ok v _ => .returned v
            | .blocked _ => .blocked
      else .unfinished

/-- A scheduling that lets each of five goroutines run three iterations in turn. -/
def sampleOrder : List Nat :=
  [0, 0, 0, 1, 1, 1, 2, 2, 2, 3, 3, 3, 4, 4, 4]

end Day7

namespace Day11

/-- A sample program: two input instructions, on a closed, empty input channel whose
mutex is free. -/
def sampleClosedIn : computer :=
  newComputer [3, 0, 3, 1, 99] { ints := [], closed := true, locked := false } newIntBuffer

/-- A sample program that starts with `9, 0` and then outputs the cell at relative
offset 2. -/
def sampleRelPos : computer :=
  newComputer [9, 0, 204, 2, 99] newIntBuffer newIntBuffer

/-- A sample program that starts with `109, 7` and then outputs the cell at relative
offset 2. -/
def sampleRelImm : computer :=
  newComputer [109, 7, 204, 2, 99] newIntBuffer newIntBuffer

end Day11

namespace Day2

/-- The nine-opcode machine of day 11 in the state that corresponds to the two-opcode
machine `c`: same `pc`, memory and running flag, `relBase` 0, and the channels `i`, `o`. -/
def toDay11 (c : computer) (i o : Day11.intBuffer) : Day11.computer :=
  { pc := c.pc, relBase := 0, memory := c.memory, input := i, output := o,
    running := c.running }

end Day2

namespace Load

open Go

/-- Go `unicode.IsSpace` on a code point: the ASCII white space `\t \n \v \f \r` and
space, U+0085, U+00A0 and the code points of category Z. -/
def isSpace (ch : Char) : Bool :=
  let n := ch.toNat
  (9 ≤ n && n ≤ 13) || n = 32 || n = 133 || n = 160 || n = 5760
    || (8192 ≤ n && n ≤ 8202) || n = 8232 || n = 8233 || n = 8239 || n = 8287 || n = 12288

/-- Go `strings.TrimSpace`: leading and trailing white space removed. -/
def trimSpace (s : List Char) : List Char :=
  ((s.dropWhile isSpace).reverse.dropWhile isSpace).reverse

/-- Go `bytes.Split(b, []byte(","))`: the pieces between the commas; a text with `k`
commas has `k + 1` pieces, the empty text one empty piece.  The text is taken as its
sequence of code points; the comma is a single byte, so this is the byte-wise split. -/
def splitComma : List Char → List (List Char)
  | [] => [[]]
  | ch :: rest =>
    if ch = ',' then [] :: splitComma rest
    else
      match splitComma rest with
      | [] => [[ch]]
      | tok :: toks => (ch :: tok) :: toks

/-- The two errors of Go `strconv.Atoi`: `ErrSyntax` and `ErrRange`. -/
inductive AtoiError where
  | syntaxError
  | rangeError
deriving DecidableEq, Repr

/-- Result of `strconv.Atoi`: the number, or the error. -/
inductive AtoiRes where
  | ok (n : Int)
  | err (e : AtoiError)
deriving DecidableEq, Repr

/-- A character is one of the decimal digits `0`..`9`. -/
def isDigit (ch : Char) : Bool :=
  48 ≤ ch.toNat && ch.toNat ≤ 57

/-- The loop of Go `strconv.ParseUint(s, 10, 64)` from the value `n` read so far; the
result is the pair `(value, error)`.  The bytes are looked at from left to right: a byte
that is not a decimal digit is a syntax error, a digit that takes the value past
`2^64 - 1` is a range error with the value `2^64 - 1`, and the first of them ends the
loop. -/
def parseUintLoop : List Char → Nat → Nat × Option AtoiError
  | [], n => (n, none)
  | ch :: rest, n =>
    if isDigit ch then
      if n ≥ 1844674407370955162 then (18446744073709551615, some .rangeError)
      else
        let n1 := n * 10 + (ch.toNat - 48)
        if n1 > 18446744073709551615 then (18446744073709551615, some .rangeError)
        else parseUintLoop rest n1
    else (0, some .syntaxError)

/-- Go `strconv.ParseUint(s, 10, 64)`: the empty text is a syntax error. -/
def parseUint (s : List Char) : Nat × Option AtoiError :=
  if s = [] then (0, some .syntaxError) else parseUintLoop s 0

/-- Go `strconv.Atoi`, which is `strconv.ParseInt(s, 10, 0)`: an optional sign `+` or
`-`, then the unsigned number; a syntax error of `ParseUint` is returned as it is, and
the value (`2^64 - 1` after a range error of `ParseUint`) is checked against the range
of the 64-bit `int`.  For a text of at most 18 bytes `Atoi` takes a shortcut that gives
the same results. -/
def atoi (s : List Char) : AtoiRes :=
  match s with
  | [] => .err .syntaxError
  | ch :: rest =>
    let neg := decide (ch = '-')
    let ds := if ch = '+' ∨ ch = '-' then rest else s
    let r := parseUint ds
    if r.2 = some .syntaxError then .err .syntaxError
    else if neg = false ∧ r.1 ≥ 9223372036854775808 then .err .rangeError
    else if neg = true ∧ r.1 > 9223372036854775808 then .err .rangeError
    else .ok (if neg then -(r.1 : Int) else (r.1 : Int))

/-- Source: the loop of `loadProgram` (11.go 414-420) over the remaining tokens, with
the program collected so far; the result is the pair `(prg, err)` the function returns. -/
def parseTokens : List (List Char) → List Int → List Int × Option AtoiError
  | [], prg => (prg, none)
  | s :: rest, prg =>
    match atoi (trimSpace s) with
    | .err e => ([], some e)
    | .ok n => parseTokens rest (prg ++ [n])

/-- Source: `loadProgram` (11.go 408-422; the same text in 2.go, 7.go, 13.go) after the
file has been read: the text `b` is split, each token trimmed and parsed. -/
def parseProgram (b : List Char) : List Int × Option AtoiError :=
  parseTokens (splitComma b) []

end Load

namespace Day11

open Go

/-- Source: `type direction int` (11.go 243). -/
abbrev direction := Int

abbrev up : direction := 0
abbrev down : direction := 1
abbrev left : direction := 2
abbrev right : direction := 3

/-- Source: `point` (11.go 252-255). -/
structure point where
  x : Int
  y : Int
deriving DecidableEq, Repr

/-- Go `map[point]int`, as a list of entries with at most one entry per key. -/
abbrev Grid := List (point × Int)

/-- Go `r.grid[p]`: the value stored for `p`, the zero value when there is none. -/
def Grid.get (g : Grid) (p : point) : Int :=
  match g.find? fun e => e.1 = p with
  | some e => e.2
  | none => 0

/-- Go `r.grid[p] = v`. -/
def Grid.set (g : Grid) (p : point) (v : Int) : Grid :=
  (p, v) :: g.filter fun e => e.1 ≠ p

/-- Source: `robot` (11.go 257-268), without the machine `c` (which shares the two
buffers and is not used by `handleIO`) and the wait group. -/
structure robot where
  input : intBuffer
  output : intBuffer
  x : Int
  y : Int
  dir : direction
  grid : Grid
deriving DecidableEq, Repr

/-- The panics of `handleIO`. -/
inductive RobotFault where
  | unexpectedColor (color : Int)
  | unexpectedRotation (rot : Int)
  | unexpectedDirection (dir : Int)
deriving DecidableEq, Repr

/-- How `handleIO` ends: it returns, panics, blocks on a channel, or has not ended
within the number of loop iterations looked at. -/
inductive HandleRes where
  | done (r : robot)
  | fault (f : RobotFault) (r : robot)
  | blocked (r : robot)
  | unfinished (r : robot)
deriving DecidableEq, Repr

/-- Source: the `switch r.dir` of `handleIO` (11.go 312-347): the new direction and
position, `none` for the `default` panic. -/
def robot.turnMove (r : robot) (rot : Int) : Option robot :=
  if r.dir = up then
    if rot = 0 then some { r with dir := left, x := wrapInt (r.x - 1) }
    else some { r with dir := right, x := wrapInt (r.x + 1) }
  else if r.dir = down then
    if rot = 0 then some { r with dir := right, x := wrapInt (r.x + 1) }
    else some { r with dir := left, x := wrapInt (r.x - 1) }
  else if r.dir = left then
    if rot = 0 then some { r with dir := down, y := wrapInt (r.y + 1) }
    else some { r with dir := up, y := wrapInt (r.y - 1) }
  else if r.dir = right then
    if rot = 0 then some { r with dir := up, y := wrapInt (r.y - 1) }
    else some { r with dir := down, y := wrapInt (r.y + 1) }
  else none

/-- Source: `robot.handleIO` (11.go 291-350), with `fuel` the number of iterations of
its `for` loop looked at. -/
def robot.handleIO : Nat → robot → HandleRes
  | 0, r => .unfinished r
  | fuel + 1, r =>
    match r.output.ReadInt with
    | .blocked rw => .blocked { r with output := rw }
    | .ok (color, ok) rw =>
      if ok = false then .done { r with output := rw }
      else
        match rw.ReadInt with
        | .blocked rw1 => .blocked { r with output := rw1 }
        | .ok (rot, ok1) rw1 =>
          if ok1 = false then .done { r with output := rw1 }
          else if color ≠ 0 ∧ color ≠ 1 then
            .fault (.unexpectedColor color) { r with output := rw1 }
          else if rot ≠ 0 ∧ rot ≠ 1 then
            .fault (.unexpectedRotation rot) { r with output := rw1 }
          else
            let r1 : robot :=
              { r with output := rw1, grid := r.grid.set ⟨r.x, r.y⟩ color }
            match r1.turnMove rot with
            | none => .fault (.unexpectedDirection r1.dir) r1
            | some r2 =>
              match r2.input.WriteInt (r2.grid.get ⟨r2.x, r2.y⟩) with
              | .blocked rw2 => .blocked { r2 with input := rw2 }
              | .ok _ rw2 => robot.handleIO fuel { r2 with input := rw2 }

/-- From the claim's words: the direction after a turn to the left. -/
def turnLeft (d : direction) : direction :=
  if d = up then left else if d = left then down else if d = down then right else up

/-- From the claim's words: the direction after a turn to the right. -/
def turnRight (d : direction) : direction :=
  if d = up then right else if d = right then down else if d = down then left else up

/-- From the claim's words: the cell one step ahead of `p` in direction `d` (`up` is
towards smaller `y`), in Go `int` arithmetic. -/
def ahead (d : direction) (p : point) : point :=
  if d = up then ⟨p.x, wrapInt (p.y - 1)⟩
  else if d = down then ⟨p.x, wrapInt (p.y + 1)⟩
  else if d = left then ⟨wrapInt (p.x - 1), p.y⟩
  else ⟨wrapInt (p.x + 1), p.y⟩

/-- The robot's place, heading and paint, and the values pushed so far. -/
structure Painter where
  pos : point
  dir : direction
  grid : Grid
  pushed : List Int
deriving DecidableEq, Repr

/-- From the claim's words: the stream is taken in consecutive pairs (colour,
rotation); each complete pair paints the current cell, turns (0 left, 1 right), moves
one cell and pushes the colour of the cell moved onto; an unpaired last value is
dropped. -/
def paintPairs : List Int → Painter → Painter
  | color :: rot :: rest, s =>
    let grid := s.grid.set s.pos color
    let dir := if rot = 0 then turnLeft s.dir else turnRight s.dir
    let pos := ahead dir s.pos
    paintPairs rest { pos := pos, dir := dir, grid := grid,
                      pushed := s.pushed ++ [grid.get pos] }
  | _, s => s

/-- A sample robot: at the origin facing up on an empty grid, its input holding the
initial 1, its output closed with the stream `1, 0, 0, 1, 1`. -/
def sampleRobot : robot :=
  { input := { ints := [1], closed := false, locked := false },
    output := { ints := [1, 0, 0, 1, 1], closed := true, locked := false },
    x := 0, y := 0, dir := up, grid := [] }

end Day11

namespace Day7

/-- The copy program `3,0,4,0,99`: read one value, write it out, halt. -/
def copyPrg : List Int := [3, 0, 4, 0, 99]

/-- The configuration `[9,8,7,6,5]` of the five-node ring. -/
def ringPhases : List Int := [9, 8, 7, 6, 5]

/-- Amplifier `i` of the copy ring after `k` of its three instructions: before the
input instruction, after it (cell 0 holds its phase), after the output instruction, and
halted. -/
def copyAmp (i k : Nat) : amplifier :=
  if k = 0 then ⟨newComputer copyPrg i ((i + 1) % 5), i, (i + 1) % 5⟩
  else if k = 1 then ⟨⟨2, [ringPhases.getD i 0, 0, 4, 0, 99], i, (i + 1) % 5, true⟩, i, (i + 1) % 5⟩
  else if k = 2 then ⟨⟨4, [ringPhases.getD i 0, 0, 4, 0, 99], i, (i + 1) % 5, true⟩, i, (i + 1) % 5⟩
  else ⟨⟨5, [ringPhases.getD i 0, 0, 4, 0, 99], i, (i + 1) % 5, false⟩, i, (i + 1) % 5⟩

/-- Channel `j` of the copy ring when its reader has done `k` instructions and its
writer `kw`: the phase (until the reader has taken it), the seed on channel 0, and the
value written by the writer once it has done its output instruction. -/
def copyBuf (j k kw : Nat) : intBuffer :=
  ⟨(if k = 0 then [ringPhases.getD j 0] else []) ++ (if j = 0 then [0] else [])
      ++ (if 2 ≤ kw then [ringPhases.getD ((j + 4) % 5) 0] else []), false⟩

/-- The amplifiers of the copy ring when goroutine `i` has done `ks[i]` instructions. -/
def ringAmps (ks : List Nat) : List amplifier :=
  (List.range 5).map fun i => copyAmp i (ks.getD i 0)

/-- The channels of the copy ring when goroutine `i` has done `ks[i]` instructions. -/
def ringHeap (ks : List Nat) : Heap :=
  (List.range 5).map fun j => copyBuf j (ks.getD j 0) (ks.getD ((j + 4) % 5) 0)

/-- One more instruction for goroutine `i`, which has three instructions to do. -/
def bump (ks : List Nat) (i : Nat) : List Nat :=
  ks.set i (min 3 (ks.getD i 0 + 1))

/-- The progress of the five goroutines of the copy ring after a scheduling: each has
done as many instructions as it was scheduled, up to its three. -/
def ringProgress (order : List Nat) : List Nat :=
  (List.range 5).map fun i => min 3 (order.count i)

/-- A scheduling that lets the five goroutines run one instruction each in turn. -/
def roundRobin : List Nat :=
  [0, 1, 2, 3, 4, 0, 1, 2, 3, 4, 0, 1, 2, 3, 4]

/-- A scheduling that starts with the last goroutine and lets each run to its halt,
with schedulings of halted goroutines in between. -/
def backwards : List Nat :=
  [4, 4, 4, 4, 3, 3, 3, 4, 2, 2, 2, 2, 1, 1, 1, 3, 0, 0, 0]

end Day7

namespace Day7

open Go

/-- The day-11 channel that holds what the day-7 channel behind a pointer holds: the
same queue and mutex state, not closed. -/
def toBuffer11 : Option intBuffer → Day11.intBuffer
  | some b => ⟨b.ints, false, b.locked⟩
  | none => ⟨[], false, false⟩

/-- The nine-opcode machine of day 11 in the state that corresponds to the eight-opcode
machine `c` on the buffers `h`: same `pc`, memory and running flag, `relBase` 0, and
channels holding what the buffers behind `c.input` and `c.output` hold. -/
def liftDay11 (c : computer) (h : Heap) : Day11.computer :=
  ⟨c.pc, 0, c.memory, toBuffer11 h[c.input]?, toBuffer11 h[c.output]?, c.running⟩

/-- The instruction at `pc` does not have mode digit 1 on the parameter it writes
through: the third parameter of codes 1, 2, 7, 8 and the parameter of code 3. -/
def targetOk (c : computer) : Bool :=
  match sliceGet c.memory c.pc with
  | none => true
  | some w =>
    if (parseOpcodeModes w).1 = 1 ∨ (parseOpcodeModes w).1 = 2
        ∨ (parseOpcodeModes w).1 = 7 ∨ (parseOpcodeModes w).1 = 8 then
      decide (modeAt (fillModes (parseOpcodeModes w).2 3) 2 ≠ modeImmediate)
    else if (parseOpcodeModes w).1 = 3 then
      decide (modeAt (fillModes (parseOpcodeModes w).2 1) 0 ≠ modeImmediate)
    else true

/-- Every instruction the day-7 machine executes within `fuel` iterations of
`runProgram` satisfies `targetOk`. -/
def targetsOk : Nat → computer → Heap → Bool
  | 0, _, _ => true
  | fuel + 1, c, h =>
    if c.running then
      targetOk c &&
        match c.step h with
        | .ok _ c1 h1 => targetsOk fuel c1 h1
        | .fault _ _ _ => true
        | .blocked _ _ => true
    else true

/-- What an operation of the day-7 machine leaves in place: the length of the memory,
the two channel pointers, and the number of buffers. -/
def Frame (c : computer) (h : Heap) (c1 : computer) (h1 : Heap) : Prop :=
  c1.memory.length = c.memory.length ∧ c1.input = c.input ∧ c1.output = c.output
    ∧ h1.length = h.length

/-- The day-11 operation `r11` follows the day-7 operation `r7` started in `c`, `h`:
when `r7` returns, `r11` returns the same value in the corresponding state. -/
def Sim {α : Type} (c : computer) (h : Heap) (r7 : Res α) (r11 : Day11.Res α) : Prop :=
  ∀ a c1 h1, r7 = .ok a c1 h1 → r11 = .ok a (liftDay11 c1 h1) ∧ Frame c h c1 h1

/-- A sample program whose first instruction, `11101`, adds two literals and has mode
digit 1 on its target parameter. -/
def sampleImmediateTarget : List Int := [11101, 1, 1, 0, 99]

/-- A sample program: read a value, add it to itself through a target parameter with
mode digit 2, output the sum. -/
def sampleDouble : List Int := [3, 0, 20001, 0, 0, 0, 4, 0, 99]

end Day7

namespace Day7

/-- Source: `permutations` (7.go 272-285).  `fuel` bounds the depth of the recursion;
each recursive call is on a list one element shorter, so `len(s)` is always enough
(see `permutations`). -/
def permutationsAux : Nat → List Int → List (List Int)
  | fuel, s =>
    if s.length ≤ 1 then [s]
    else
      match fuel with
      | 0 => []
      | fuel + 1 =>
        (List.range s.length).flatMap fun i =>
          (permutationsAux fuel ([] ++ s.take i ++ s.drop (i + 1))).map fun tail =>
            [s.getD i 0] ++ tail

/-- Source: `permutations` (7.go 272-285), with the depth `len(s)` the recursion
reaches at most. -/
def permutations (s : List Int) : List (List Int) :=
  permutationsAux s.length s

end Day7

namespace Day10

open Go

/-- Source: `fraction` (10.go 17-21). -/
structure fraction where
  n : Int
  d : Int
  nan : Bool
deriving DecidableEq, Repr

/-- Source: `newFraction` (10.go 23-29). -/
def newFraction (n d : Int) : fraction :=
  if d = 0 then { n := n, d := d, nan := true } else { n := n, d := d, nan := false }

/-- How a call ends: it returns `a`, panics with an integer division by zero, or
has not ended within the number of loop iterations looked at. -/
inductive Res (α : Type) where
  | ok (a : α)
  | divideByZero
  | unfinished
deriving DecidableEq, Repr

/-- Go `x / y` on `int` for `y ≠ 0`: the quotient truncated toward zero; the one
quotient that does not fit, `MinInt / -1`, wraps. -/
def goDiv (x y : Int) : Int :=
  wrapInt (x.tdiv y)

/-- Go `x % y` on `int` for `y ≠ 0`: the remainder of the truncated division. -/
def goMod (x y : Int) : Int :=
  x.tmod y

/-- Go `map[int]struct{}`: the keys, each once. -/
abbrev KeySet := List Int

/-- Go `m[k] = struct{}{}`. -/
def KeySet.add (m : KeySet) (k : Int) : KeySet :=
  if k ∈ m then m else m ++ [k]

/-- Go `map[int]int`, as a list of entries with at most one entry per key. -/
abbrev Counts := List (Int × Int)

/-- Go `m[k]`: the value stored for `k`, the zero value when there is none. -/
def Counts.get (m : Counts) (k : Int) : Int :=
  match m.find? fun e => e.1 = k with
  | some e => e.2
  | none => 0

/-- Go `m[k] = v`. -/
def Counts.set (m : Counts) (k v : Int) : Counts :=
  (k, v) :: m.filter fun e => e.1 ≠ k

/-- Go `m[k]++`. -/
def Counts.incr (m : Counts) (k : Int) : Counts :=
  m.set k (wrapInt (m.get k + 1))

/-- Go `sort.Ints`: the same values in increasing order. -/
def sortInts (l : List Int) : List Int :=
  l.insertionSort fun a b => a ≤ b

/-- Source: the loop of `factors` (10.go 96-104) from the value `i` of the loop
variable on, with the set `m` built so far; `fuel` bounds the iterations. -/
def factorsLoop : Nat → Int → Int → Int → KeySet → Res KeySet
  | 0, _, _, _, _ => .unfinished
  | fuel + 1, n, dir, i, m =>
    if i = 0 then .divideByZero
    else
      let m1 := if goMod n i = 0 then (m.add i).add (goDiv n i) else m
      if i = n then .ok m1
      else factorsLoop fuel n dir (wrapInt (i + dir)) m1

/-- Source: `factors` (10.go 90-111). -/
def factors (fuel : Nat) (n : Int) : Res (List Int) :=
  let dir : Int := if n < 0 then -1 else 1
  match factorsLoop fuel n dir (wrapInt (1 * dir)) [] with
  | .ok m => .ok (sortInts m)
  | .divideByZero => .divideByZero
  | .unfinished => .unfinished

/-- Source: the loop `for f, count := range m` of `gcd` (10.go 129-133): the keys whose
count is 2. -/
def commonOf (m : Counts) : List Int :=
  (m.filter fun e => e.2 = 2).map fun e => e.1

/-- Source: `gcd` (10.go 113-140). -/
def gcd (fuel : Nat) (a b : Int) : Res Int :=
  if a = 0 then .ok b
  else if b = 0 then .ok a
  else
    match factors fuel a with
    | .divideByZero => .divideByZero
    | .unfinished => .unfinished
    | .ok af =>
      match factors fuel b with
      | .divideByZero => .divideByZero
      | .unfinished => .unfinished
      | .ok bf =>
        let m := bf.foldl Counts.incr (af.foldl Counts.incr [])
        let common := commonOf m
        if common.length = 0 then .ok 0
        else .ok ((sortInts common).getD ((sortInts common).length - 1) 0)

/-- Source: the two `if` statements of `simplifyFraction` (10.go 145-152), each
multiplying both `n` and `d` by -1: the values of `n` and `d` after them. -/
def signNormal (n d : Int) : Int × Int :=
  let nd : Int × Int :=
    if n < 0 ∧ d < 0 then (wrapInt (n * -1), wrapInt (d * -1)) else (n, d)
  if nd.1 ≥ 0 ∧ nd.2 < 0 then (wrapInt (nd.1 * -1), wrapInt (nd.2 * -1)) else nd

/-- Source: `simplifyFraction` (10.go 142-157). -/
def simplifyFraction (fuel : Nat) (frac : fraction) : Res fraction :=
  let nd := signNormal frac.n frac.d
  match gcd fuel nd.1 nd.2 with
  | .divideByZero => .divideByZero
  | .unfinished => .unfinished
  | .ok div =>
    if div = 0 then .divideByZero
    else .ok (newFraction (goDiv nd.1 div) (goDiv nd.2 div))

end Day10

namespace Go

theorem wrapInt_of_inRange {x : Int} (h : inRange x) : wrapInt x = x := by
  unfold inRange at h
  unfold wrapInt
  omega

theorem wrapInt_inRange (x : Int) : inRange (wrapInt x) := by
  unfold inRange wrapInt
  omega

theorem copySlice_makeSlice (src : List Int) (n : Nat) (h : src.length ≤ n) :
    copySlice (makeSlice n) src = src ++ List.replicate (n - src.length) 0 := by
  unfold copySlice makeSlice
  rw [List.length_replicate, List.take_of_length_le h, List.drop_replicate]

theorem sliceGet_eq_some {s : List Int} {idx : Int} (h0 : 0 ≤ idx) (h1 : idx < s.length) :
    sliceGet s idx = some (s.getD idx.toNat 0) := by
  have hlt : idx.toNat < s.length := by omega
  unfold sliceGet
  rw [if_pos ⟨h0, h1⟩, List.getD_eq_getElem?_getD, List.getElem?_eq_getElem hlt]
  rfl

theorem sliceGet_neg {s : List Int} {idx : Int} (h : idx < 0) : sliceGet s idx = none := by
  unfold sliceGet
  rw [if_neg]
  omega

end Go

namespace Day11
open Go

theorem grown_memory (c : computer) (idx : Int) :
    (c.grown idx).memory
      = c.memory ++ List.replicate ((idx + 1).toNat - c.memory.length) 0 := by
  unfold computer.grown
  split
  · rename_i h
    show copySlice (makeSlice (idx + 1).toNat) c.memory = _
    rw [copySlice_makeSlice]
    omega
  · rename_i h
    have : (idx + 1).toNat - c.memory.length = 0 := by omega
    rw [this]
    simp

theorem grown_frame (c : computer) (idx : Int) :
    (c.grown idx).pc = c.pc ∧ (c.grown idx).relBase = c.relBase
    ∧ (c.grown idx).input = c.input
    ∧ (c.grown idx).output = c.output
    ∧ (c.grown idx).running = c.running := by
  unfold computer.grown
  split <;> simp

theorem grown_length (c : computer) (idx : Int) (h : 0 ≤ idx) :
    idx < (c.grown idx).memory.length := by
  rw [grown_memory, List.length_append, List.length_replicate]
  omega

theorem expand_ok (c : computer) (idx : Int)
    (hg : idx < c.memory.length ∨ idx + 1 ≤ maxSliceLen) :
    c.expandMemoryForIndex idx = .ok () (c.grown idx) := by
  unfold computer.expandMemoryForIndex computer.grown
  by_cases h : idx ≥ c.memory.length
  · have h1 : idx + 1 ≤ maxSliceLen := by
      rcases hg with hg | hg
      · omega
      · exact hg
    have hw : wrapInt (idx + 1) = idx + 1 := by
      unfold maxSliceLen at h1
      unfold wrapInt
      omega
    have hm : makeInts (idx + 1) = some (makeSlice (idx + 1).toNat) := by
      unfold makeInts
      rw [if_pos ⟨by omega, h1⟩]
    rw [if_pos h, if_pos h, hw, hm]
  · rw [if_neg h, if_neg h]

theorem expand_fault (c : computer) (idx : Int) (h1 : c.memory.length ≤ idx)
    (h2 : maxSliceLen < idx + 1) (h3 : idx ≤ 9223372036854775807) :
    c.expandMemoryForIndex idx = .fault .lenOutOfRange c := by
  unfold computer.expandMemoryForIndex
  have hm : makeInts (wrapInt (idx + 1)) = none := by
    unfold makeInts
    rw [if_neg]
    unfold maxSliceLen at h2 ⊢
    unfold wrapInt
    omega
  rw [if_pos (by omega), hm]

theorem expand_inv {c c1 : computer} {idx : Int} {u : Unit}
    (h : c.expandMemoryForIndex idx = .ok u c1) :
    idx < c.memory.length ∧ c1 = c
    ∨ c.memory.length ≤ idx ∧ 0 ≤ wrapInt (idx + 1) ∧ wrapInt (idx + 1) ≤ maxSliceLen
      ∧ c1 = { c with memory := copySlice (makeSlice (wrapInt (idx + 1)).toNat) c.memory } := by
  unfold computer.expandMemoryForIndex at h
  by_cases hge : idx ≥ c.memory.length
  · rw [if_pos hge] at h
    unfold makeInts at h
    by_cases hr : 0 ≤ wrapInt (idx + 1) ∧ wrapInt (idx + 1) ≤ maxSliceLen
    · rw [if_pos hr] at h
      simp only [Res.ok.injEq] at h
      exact Or.inr ⟨by omega, hr.1, hr.2, h.2.symm⟩
    · rw [if_neg hr] at h
      cases h
  · rw [if_neg hge] at h
    simp only [Res.ok.injEq] at h
    exact Or.inl ⟨by omega, h.2.symm⟩

theorem expand_state (c : computer) (idx : Int) :
    (c.expandMemoryForIndex idx).state.pc = c.pc
    ∧ (c.expandMemoryForIndex idx).state.relBase = c.relBase
    ∧ (c.expandMemoryForIndex idx).state.input = c.input
    ∧ (c.expandMemoryForIndex idx).state.output = c.output
    ∧ (c.expandMemoryForIndex idx).state.running = c.running := by
  unfold computer.expandMemoryForIndex
  split
  · split <;> exact ⟨rfl, rfl, rfl, rfl, rfl⟩
  · exact ⟨rfl, rfl, rfl, rfl, rfl⟩

theorem next_ok (c : computer) (h0 : 0 ≤ c.pc) (h1 : c.pc < c.memory.length) :
    c.next = .ok (c.memory.getD c.pc.toNat 0) { c with pc := c.pc + 1 } := by
  unfold computer.next
  rw [sliceGet_eq_some h0 h1]

theorem load_ok (c : computer) (idx : Int) (h : 0 ≤ idx)
    (hg : idx < c.memory.length ∨ idx + 1 ≤ maxSliceLen) :
    c.load idx = .ok (c.memory.getD idx.toNat 0) (c.grown idx) := by
  unfold computer.load
  have hlen := grown_length c idx h
  rw [expand_ok c idx hg]
  simp only [Res.bind]
  rw [sliceGet_eq_some h hlen, grown_memory]
  by_cases hlt : idx.toNat < c.memory.length
  · simp [List.getD_eq_getElem?_getD, List.getElem?_append_left hlt]
  · have hge : c.memory.length ≤ idx.toNat := by omega
    simp only [List.getD_eq_getElem?_getD, List.getElem?_append_right hge,
      List.getElem?_replicate, List.getElem?_eq_none hge]
    split <;> rfl

theorem load_neg (c : computer) (idx : Int) (h : idx < 0) :
    c.load idx = .fault (.indexOutOfRange idx) c := by
  have he : c.expandMemoryForIndex idx = .ok () c := by
    unfold computer.expandMemoryForIndex
    rw [if_neg]
    omega
  unfold computer.load
  rw [he]
  simp only [Res.bind]
  rw [sliceGet_neg h]

theorem load_huge (c : computer) (idx : Int) (h1 : c.memory.length ≤ idx)
    (h2 : maxSliceLen < idx + 1) (h3 : idx ≤ 9223372036854775807) :
    c.load idx = .fault .lenOutOfRange c := by
  unfold computer.load
  rw [expand_fault c idx h1 h2 h3]
  rfl

theorem store_ok (c : computer) (idx n : Int) (h : 0 ≤ idx)
    (hg : idx < c.memory.length ∨ idx + 1 ≤ maxSliceLen) :
    c.store idx n = .ok () { c.grown idx with
      memory := (c.grown idx).memory.set idx.toNat n } := by
  unfold computer.store
  have hlen := grown_length c idx h
  rw [expand_ok c idx hg]
  simp only [Res.bind]
  rw [sliceGet_eq_some h hlen]

theorem store_neg (c : computer) (idx n : Int) (h : idx < 0) :
    c.store idx n = .fault (.indexOutOfRange idx) c := by
  have he : c.expandMemoryForIndex idx = .ok () c := by
    unfold computer.expandMemoryForIndex
    rw [if_neg]
    omega
  unfold computer.store
  rw [he]
  simp only [Res.bind]
  rw [sliceGet_neg h]

theorem store_huge (c : computer) (idx n : Int) (h1 : c.memory.length ≤ idx)
    (h2 : maxSliceLen < idx + 1) (h3 : idx ≤ 9223372036854775807) :
    c.store idx n = .fault .lenOutOfRange c := by
  unfold computer.store
  rw [expand_fault c idx h1 h2 h3]
  rfl

end Day11

namespace Day11
open Go

theorem load_frame (c : computer) (idx : Int) :
    (c.load idx).state.pc = c.pc ∧ (c.load idx).state.relBase = c.relBase := by
  unfold computer.load
  cases he : c.expandMemoryForIndex idx with
  | fault f c1 =>
    have hs := expand_state c idx
    rw [he] at hs
    exact ⟨hs.1, hs.2.1⟩
  | blocked c1 =>
    have hs := expand_state c idx
    rw [he] at hs
    exact ⟨hs.1, hs.2.1⟩
  | ok u c1 =>
    have hs := expand_state c idx
    rw [he] at hs
    simp only [Res.bind]
    split
    · exact ⟨hs.1, hs.2.1⟩
    · exact ⟨hs.1, hs.2.1⟩

theorem load_ok_inv {c c1 : computer} {idx a : Int} (h : c.load idx = .ok a c1) :
    0 ≤ idx ∧ (idx < c.memory.length ∨ idx + 1 ≤ maxSliceLen) ∧ c1 = c.grown idx
      ∧ a = c.memory.getD idx.toNat 0 := by
  unfold computer.load at h
  cases he : c.expandMemoryForIndex idx with
  | fault f c2 => rw [he] at h; cases h
  | blocked c2 => rw [he] at h; cases h
  | ok u c2 =>
    rw [he] at h
    simp only [Res.bind] at h
    cases hs : sliceGet c2.memory idx with
    | none => rw [hs] at h; cases h
    | some x =>
      have hb : 0 ≤ idx ∧ idx < c2.memory.length := by
        unfold sliceGet at hs
        by_cases hb : 0 ≤ idx ∧ idx < c2.memory.length
        · exact hb
        · rw [if_neg hb] at hs
          cases hs
      have hg : idx < c.memory.length ∨ idx + 1 ≤ maxSliceLen := by
        rcases expand_inv he with ⟨h1, -⟩ | ⟨h1, h2, h3, h4⟩
        · exact Or.inl h1
        · right
          have hl : (c2.memory.length : Int) = wrapInt (idx + 1) := by
            rw [h4]
            show ((copySlice (makeSlice (wrapInt (idx + 1)).toNat) c.memory).length : Int) = _
            unfold copySlice makeSlice
            simp only [List.length_append, List.length_take, List.length_drop,
              List.length_replicate]
            omega
          have hlt := hb.2
          rw [hl] at hlt
          have hw : wrapInt (idx + 1) = idx + 1 := by
            unfold wrapInt at hlt ⊢
            omega
          rw [← hw]
          exact h3
      have hok := load_ok c idx hb.1 hg
      unfold computer.load at hok
      rw [he] at hok
      simp only [Res.bind] at hok
      rw [hok] at h
      simp only [Res.ok.injEq] at h
      exact ⟨hb.1, hg, h.2.symm, h.1.symm⟩

theorem read_of_next {c c0 : computer} {w : Int} (h : c.next = .ok w c0) (m : mode) :
    c.read m =
      if m = modeImmediate then .ok w c0
      else if m = modePosition then c0.load w
      else if m = modeRelative then c0.load (wrapInt (w + c0.relBase))
      else .fault (.unknownMode m) c0 := by
  unfold computer.read
  rw [h]
  rfl

theorem write_of_next {c c0 : computer} {w : Int} (h : c.next = .ok w c0) (n : Int) (m : mode) :
    c.write n m =
      if m = modeImmediate then .fault .immediateWrite c0
      else if m = modePosition then c0.store w n
      else if m = modeRelative then c0.store (wrapInt (w + c0.relBase)) n
      else c0.store w n := by
  unfold computer.write
  rw [h]
  rfl

theorem next_inv {c c0 : computer} {w : Int} (h : c.next = .ok w c0) :
    0 ≤ c.pc ∧ c.pc < c.memory.length ∧ c.memory[c.pc.toNat]? = some w
      ∧ c0 = { c with pc := c.pc + 1 } := by
  unfold computer.next at h
  unfold sliceGet at h
  by_cases hb : 0 ≤ c.pc ∧ c.pc < c.memory.length
  · rw [if_pos hb] at h
    cases hg : c.memory[c.pc.toNat]? with
    | none => rw [hg] at h; cases h
    | some n =>
      rw [hg] at h
      simp only [Res.ok.injEq] at h
      exact ⟨hb.1, hb.2, by rw [h.1], h.2.symm⟩
  · rw [if_neg hb] at h
    cases h

theorem next_of_get {c : computer} {w : Int} (h0 : 0 ≤ c.pc) (h1 : c.pc < c.memory.length)
    (hw : c.memory[c.pc.toNat]? = some w) : c.next = .ok w { c with pc := c.pc + 1 } := by
  rw [next_ok c h0 h1, List.getD_eq_getElem?_getD, hw]
  rfl

theorem grown_eq (c : computer) (idx : Int) :
    c.grown idx
      = { c with memory := c.memory ++ List.replicate ((idx + 1).toNat - c.memory.length) 0 } := by
  unfold computer.grown
  split
  · rw [copySlice_makeSlice]
    omega
  · have h0 : (idx + 1).toNat - c.memory.length = 0 := by omega
    rw [h0]
    simp

/-- C2 (as amended): operand read.  With `w` the word at a valid `pc`: immediate mode
returns `w`; position mode returns the cell at `w` and relative mode the cell at
`w + relBase` (Go `int` addition); a non-negative address `A` at or beyond the end of
memory reads as 0 when the slice of `A + 1` cells can be made (`A + 1 ≤ maxSliceLen`),
memory then being extended with zero cells up to `A`; for every other address at or
beyond the end the read panics in `make`; whatever the mode and the outcome, `pc` has
advanced by exactly one and `relBase` is unchanged. -/
theorem read_spec (c : computer) (w : Int)
    (hpc0 : 0 ≤ c.pc) (hpc1 : c.pc < c.memory.length)
    (hw : c.memory[c.pc.toNat]? = some w) :
    c.read modeImmediate = .ok w { c with pc := c.pc + 1 }
    ∧ (∀ (m : mode) (A : Int),
        (m = modePosition ∧ A = w) ∨ (m = modeRelative ∧ A = wrapInt (w + c.relBase)) →
        0 ≤ A → A < c.memory.length ∨ A + 1 ≤ maxSliceLen →
        ∃ x, c.read m = .ok x { c with
              pc := c.pc + 1,
              memory := c.memory ++ List.replicate ((A + 1).toNat - c.memory.length) 0 }
          ∧ (A < c.memory.length → c.memory[A.toNat]? = some x)
          ∧ (c.memory.length ≤ A → x = 0))
    ∧ (∀ (m : mode) (A : Int),
        (m = modePosition ∧ A = w) ∨ (m = modeRelative ∧ A = wrapInt (w + c.relBase)) →
        (c.memory.length : Int) ≤ A → maxSliceLen < A + 1 → A ≤ 9223372036854775807 →
        c.read m = .fault .lenOutOfRange { c with pc := c.pc + 1 })
    ∧ (∀ m : mode, (c.read m).state.pc = c.pc + 1 ∧ (c.read m).state.relBase = c.relBase) := by
  have hn := next_of_get hpc0 hpc1 hw
  refine ⟨?_, ?_, ?_, ?_⟩
  · rw [read_of_next hn]
    rfl
  · intro m A hm hA hg
    refine ⟨c.memory.getD A.toNat 0, ?_, ?_, ?_⟩
    · rw [read_of_next hn]
      have hl := load_ok ({ c with pc := c.pc + 1 } : computer) A hA hg
      rw [grown_eq] at hl
      rcases hm with ⟨hm, rfl⟩ | ⟨hm, rfl⟩
      · subst hm
        rw [if_neg (by decide), if_pos rfl]
        exact hl
      · subst hm
        rw [if_neg (by decide), if_neg (by decide), if_pos rfl]
        exact hl
    · intro hlt
      have : A.toNat < c.memory.length := by omega
      rw [List.getD_eq_getElem?_getD, List.getElem?_eq_getElem this]
      rfl
    · intro hge
      have : c.memory.length ≤ A.toNat := by omega
      rw [List.getD_eq_getElem?_getD, List.getElem?_eq_none this]
      rfl
  · intro m A hm h1 h2 h3
    rw [read_of_next hn]
    have hl := load_huge ({ c with pc := c.pc + 1 } : computer) A h1 h2 h3
    rcases hm with ⟨hm, rfl⟩ | ⟨hm, rfl⟩
    · subst hm
      rw [if_neg (by decide), if_pos rfl]
      exact hl
    · subst hm
      rw [if_neg (by decide), if_neg (by decide), if_pos rfl]
      exact hl
  · intro m
    rw [read_of_next hn]
    split
    · exact ⟨rfl, rfl⟩
    · split
      · exact load_frame _ _
      · split
        · exact load_frame _ _
        · exact ⟨rfl, rfl⟩

/-- C2 (counterexample): a non-negative address beyond the end of memory does not
always read as 0.  With the word `2^63 - 1` at `pc`, `read(position)` panics: the length
`idx+1` handed to `make` has wrapped to `-2^63`.  With the word `2^45` the length
`2^45 + 1` is above what `make` accepts, and the read panics as well. -/
theorem read_far_panics :
    (0 ≤ sampleFar.pc ∧ sampleFar.pc < sampleFar.memory.length
      ∧ sampleFar.memory[sampleFar.pc.toNat]? = some 9223372036854775807)
    ∧ sampleFar.read modePosition = .fault .lenOutOfRange { sampleFar with pc := 1 }
    ∧ sampleLimit.read modePosition = .fault .lenOutOfRange { sampleLimit with pc := 1 } := by
  decide

end Day11

namespace Day11
open Go

theorem store_ok_memory (c : computer) (idx n : Int) (h : 0 ≤ idx)
    (hg : idx < c.memory.length ∨ idx + 1 ≤ maxSliceLen) :
    ∃ c1, c.store idx n = .ok () c1
      ∧ c1.memory = (c.memory ++ List.replicate ((idx + 1).toNat - c.memory.length) 0).set
          idx.toNat n
      ∧ c1.pc = c.pc ∧ c1.relBase = c.relBase ∧ c1.input = c.input ∧ c1.output = c.output
      ∧ c1.running = c.running := by
  refine ⟨_, store_ok c idx n h hg, ?_, ?_⟩
  · show ((c.grown idx).memory).set idx.toNat n = _
    rw [grown_memory]
  · exact grown_frame c idx

theorem grown_set_facts (mem : List Int) (A : Int) (n : Int) (hA : 0 ≤ A) :
    ((mem ++ List.replicate ((A + 1).toNat - mem.length) 0).set A.toNat n)[A.toNat]? = some n
    ∧ (∀ i : Nat, i < mem.length → i ≠ A.toNat →
        ((mem ++ List.replicate ((A + 1).toNat - mem.length) 0).set A.toNat n)[i]? = mem[i]?)
    ∧ (∀ i : Nat, mem.length ≤ i →
        i < ((mem ++ List.replicate ((A + 1).toNat - mem.length) 0).set A.toNat n).length →
        i ≠ A.toNat →
        ((mem ++ List.replicate ((A + 1).toNat - mem.length) 0).set A.toNat n)[i]? = some 0)
    ∧ ((mem ++ List.replicate ((A + 1).toNat - mem.length) 0).set A.toNat n).length
        = max mem.length (A.toNat + 1) := by
  have hlen : (mem ++ List.replicate ((A + 1).toNat - mem.length) 0).length
      = max mem.length (A.toNat + 1) := by
    rw [List.length_append, List.length_replicate]
    omega
  refine ⟨?_, ?_, ?_, ?_⟩
  · rw [List.getElem?_set_self]
    rw [hlen]
    omega
  · intro i hi hne
    rw [List.getElem?_set_ne (Ne.symm hne), List.getElem?_append_left hi]
  · intro i hi hlt hne
    rw [List.length_set, hlen] at hlt
    rw [List.getElem?_set_ne (Ne.symm hne), List.getElem?_append_right hi,
      List.getElem?_replicate, if_pos]
    omega
  · rw [List.length_set, hlen]

theorem write_eq_store (c2 c3 : computer) (t T v : Int) (m : mode)
    (ht : c2.next = .ok t c3) (hm : m ≠ modeImmediate)
    (hT : T = if m = modeRelative then wrapInt (t + c2.relBase) else t) :
    c2.write v m = c3.store T v := by
  obtain ⟨-, -, -, hc3⟩ := next_inv ht
  rw [write_of_next ht, if_neg hm, hT]
  by_cases h2 : m = modeRelative
  · have h0 : m ≠ modePosition := by rw [h2]; decide
    rw [if_neg h0, if_pos h2, if_pos h2, hc3]
  · rw [if_neg h2, if_neg h2]
    split <;> rfl

/-- C3 (as amended): operand write.  With `w` the word at a valid `pc` and `A` the
address resolved in position mode (`A = w`) or relative mode (`A = w + relBase`, Go `int`
addition), `A` non-negative: when `A` is below the length of memory or the slice of
`A + 1` cells can be made (`A + 1 ≤ maxSliceLen`), `write(n, m)` returns, cell `A` holds
`n`, every other cell below the old length keeps its value, every other newly created
cell is 0, `pc` has advanced by exactly one and `relBase` (like the channels and the
running flag) is unchanged; for every other address `write(n, m)` panics in `make`,
after the fetch and before any cell is written. -/
theorem write_spec (c : computer) (w n : Int) (m : mode) (A : Int)
    (hpc0 : 0 ≤ c.pc) (hpc1 : c.pc < c.memory.length)
    (hw : c.memory[c.pc.toNat]? = some w)
    (hm : (m = modePosition ∧ A = w) ∨ (m = modeRelative ∧ A = wrapInt (w + c.relBase)))
    (hA : 0 ≤ A) :
    (A < c.memory.length ∨ A + 1 ≤ maxSliceLen →
      ∃ c1, c.write n m = .ok () c1
        ∧ c1.memory[A.toNat]? = some n
        ∧ (∀ i : Nat, i < c.memory.length → i ≠ A.toNat → c1.memory[i]? = c.memory[i]?)
        ∧ (∀ i : Nat, c.memory.length ≤ i → i < c1.memory.length → i ≠ A.toNat →
            c1.memory[i]? = some 0)
        ∧ c1.memory.length = max c.memory.length (A.toNat + 1)
        ∧ c1.pc = c.pc + 1 ∧ c1.relBase = c.relBase
        ∧ c1.input = c.input ∧ c1.output = c.output ∧ c1.running = c.running)
    ∧ ((c.memory.length : Int) ≤ A → maxSliceLen < A + 1 → A ≤ 9223372036854775807 →
        c.write n m = .fault .lenOutOfRange { c with pc := c.pc + 1 }) := by
  have hn := next_of_get hpc0 hpc1 hw
  have hst : c.write n m = ({ c with pc := c.pc + 1 }).store A n := by
    rw [write_of_next hn]
    rcases hm with ⟨hm, rfl⟩ | ⟨hm, rfl⟩
    · subst hm
      rw [if_neg (by decide), if_pos rfl]
    · subst hm
      rw [if_neg (by decide), if_neg (by decide), if_pos rfl]
  constructor
  · intro hg
    obtain ⟨c1, h1, hmem, hpc, hrb, hin, hout, hrun⟩ :=
      store_ok_memory ({ c with pc := c.pc + 1 }) A n hA hg
    obtain ⟨f1, f2, f3, f4⟩ := grown_set_facts c.memory A n hA
    refine ⟨c1, hst.trans h1, ?_, ?_, ?_, ?_, hpc, hrb, hin, hout, hrun⟩
    · rw [hmem]; exact f1
    · rw [hmem]; exact f2
    · rw [hmem]; exact f3
    · rw [hmem]; exact f4
  · intro h1 h2 h3
    rw [hst]
    exact store_huge ({ c with pc := c.pc + 1 } : computer) A n h1 h2 h3

/-- C3 (counterexample): a write to a non-negative address does not always return.  With
the word `2^63 - 1` at `pc`, `write(8, position)` panics in `make`, whose length `idx+1`
has wrapped to `-2^63`; with the word `2^45` the length `2^45 + 1` is above what `make`
accepts.  No cell is written. -/
theorem write_far_panics :
    (0 ≤ sampleFar.pc ∧ sampleFar.pc < sampleFar.memory.length
      ∧ sampleFar.memory[sampleFar.pc.toNat]? = some 9223372036854775807)
    ∧ sampleFar.write 8 modePosition = .fault .lenOutOfRange { sampleFar with pc := 1 }
    ∧ sampleLimit.write 8 modePosition = .fault .lenOutOfRange { sampleLimit with pc := 1 } := by
  decide

end Day11

namespace Day11
open Go

theorem read_spec_witness :
    (0 ≤ sampleOperand.pc ∧ sampleOperand.pc < sampleOperand.memory.length
      ∧ sampleOperand.memory[sampleOperand.pc.toNat]? = some 3)
    ∧ sampleOperand.read modeImmediate = .ok 3 { sampleOperand with pc := 2 } :=
  ⟨by decide, (read_spec sampleOperand 3 (by decide) (by decide) (by decide)).1⟩

theorem write_spec_witness :
    ∃ c1, sampleOperand.write 8 modeRelative = .ok () c1
      ∧ c1.memory[(5 : Int).toNat]? = some 8
      ∧ (∀ i : Nat, i < sampleOperand.memory.length → i ≠ (5 : Int).toNat →
          c1.memory[i]? = sampleOperand.memory[i]?)
      ∧ (∀ i : Nat, sampleOperand.memory.length ≤ i → i < c1.memory.length →
          i ≠ (5 : Int).toNat → c1.memory[i]? = some 0)
      ∧ c1.memory.length = max sampleOperand.memory.length ((5 : Int).toNat + 1)
      ∧ c1.pc = sampleOperand.pc + 1 ∧ c1.relBase = sampleOperand.relBase
      ∧ c1.input = sampleOperand.input ∧ c1.output = sampleOperand.output
      ∧ c1.running = sampleOperand.running :=
  (write_spec sampleOperand 3 8 modeRelative 5 (by decide) (by decide) (by decide)
    (Or.inr (by decide)) (by decide)).1 (Or.inr (by decide))

theorem read_ok_inv {c c1 : computer} {a : Int} {m : mode} (h : c.read m = .ok a c1) :
    c1.pc = c.pc + 1 ∧ c1.relBase = c.relBase ∧ c1.input = c.input ∧ c1.output = c.output
      ∧ c1.running = c.running ∧ ∃ k, c1.memory = c.memory ++ List.replicate k 0 := by
  cases hn : c.next with
  | fault f c0 => unfold computer.read at h; rw [hn] at h; cases h
  | blocked c0 => unfold computer.read at h; rw [hn] at h; cases h
  | ok w c0 =>
    obtain ⟨-, -, -, hc0⟩ := next_inv hn
    rw [read_of_next hn] at h
    have key : ∀ idx, c0.load idx = .ok a c1 →
        c1.pc = c.pc + 1 ∧ c1.relBase = c.relBase ∧ c1.input = c.input ∧ c1.output = c.output
          ∧ c1.running = c.running ∧ ∃ k, c1.memory = c.memory ++ List.replicate k 0 := by
      intro idx hl
      have hs : c1 = c0.grown idx := (load_ok_inv hl).2.2.1
      obtain ⟨f1, f2, f3, f4, f5⟩ := grown_frame c0 idx
      have hm := grown_memory c0 idx
      rw [← hs] at f1 f2 f3 f4 f5 hm
      rw [hc0] at f1 f2 f3 f4 f5 hm
      exact ⟨f1, f2, f3, f4, f5, _, hm⟩
    split at h
    · cases h
      rw [hc0]
      exact ⟨rfl, rfl, rfl, rfl, rfl, 0, by simp⟩
    · split at h
      · exact key _ h
      · split at h
        · exact key _ h
        · cases h

end Day11

namespace Day11
open Go

theorem write_resolved (c2 c3 : computer) (t T v : Int) (m : mode)
    (ht : c2.next = .ok t c3) (hm : m ≠ modeImmediate)
    (hT : T = if m = modeRelative then wrapInt (t + c2.relBase) else t) (hT0 : 0 ≤ T)
    (hg : T < c2.memory.length ∨ T + 1 ≤ maxSliceLen) :
    ∃ c1, c2.write v m = .ok () c1
      ∧ c1.memory = (c2.memory ++ List.replicate ((T + 1).toNat - c2.memory.length) 0).set
          T.toNat v
      ∧ c1.pc = c2.pc + 1 ∧ c1.relBase = c2.relBase ∧ c1.input = c2.input
      ∧ c1.output = c2.output ∧ c1.running = c2.running := by
  obtain ⟨-, -, -, hc3⟩ := next_inv ht
  have hst := write_eq_store c2 c3 t T v m ht hm hT
  have hg3 : T < c3.memory.length ∨ T + 1 ≤ maxSliceLen := by
    rw [hc3]
    exact hg
  obtain ⟨c1, h1, hmem, hpc, hrb, hin, hout, hrun⟩ := store_ok_memory c3 T v hT0 hg3
  rw [hc3] at hmem hpc hrb hin hout hrun
  exact ⟨c1, hst.trans h1, hmem, hpc, hrb, hin, hout, hrun⟩

theorem write_resolved_huge (c2 c3 : computer) (t T v : Int) (m : mode)
    (ht : c2.next = .ok t c3) (hm : m ≠ modeImmediate)
    (hT : T = if m = modeRelative then wrapInt (t + c2.relBase) else t)
    (h1 : (c2.memory.length : Int) ≤ T) (h2 : maxSliceLen < T + 1)
    (h3 : T ≤ 9223372036854775807) :
    c2.write v m = .fault .lenOutOfRange c3 := by
  obtain ⟨-, -, -, hc3⟩ := next_inv ht
  rw [write_eq_store c2 c3 t T v m ht hm hT]
  exact store_huge c3 T v (by rw [hc3]; exact h1) h2 h3

theorem step_of_next {c c0 : computer} {w : Int} (h : c.next = .ok w c0) :
    c.step = match opcodes (parseOpcodeModes w).1 with
      | none => .fault (.unknownOpcode (parseOpcodeModes w).1) c0
      | some op => op c0 (parseOpcodeModes w).2 := by
  unfold computer.step
  rw [h]
  rfl

/-- C1 (as amended): the three-parameter arithmetic and comparison instructions.  When
the word `w` fetched at `pc` decodes to code 1, 2, 7 or 8, the first two operands read
(each by its own mode, in that order) as `a` and `b`, and the third parameter, whose mode
is not immediate, resolves to the address `T ≥ 0`, let `v` be `a+b` (code 1), `a*b`
(code 2) (Go `int` arithmetic: the exact sum or product whenever it fits in 64 bits), `1`
if `a<b` else `0` (code 7), `1` if `a=b` else `0` (code 8).  When `T` is below the length
of memory or the slice of `T + 1` cells can be made (`T + 1 ≤ maxSliceLen`), the
instruction completes, the memory it leaves is the memory after the two operand reads
with cell `T` set to `v`, and `pc` has advanced by exactly 4.  For every other `T` the
instruction panics in `make` after its three parameters are fetched, and nothing is
stored. -/
theorem alu_step_spec (c c0 c1 c2 c3 : computer) (w a b t T : Int)
    (hfetch : c.next = .ok w c0)
    (hcode : (parseOpcodeModes w).1 = 1 ∨ (parseOpcodeModes w).1 = 2
      ∨ (parseOpcodeModes w).1 = 7 ∨ (parseOpcodeModes w).1 = 8)
    (ha : c0.read (paramMode w 3 0) = .ok a c1)
    (hb : c1.read (paramMode w 3 1) = .ok b c2)
    (ht : c2.next = .ok t c3)
    (hm : paramMode w 3 2 ≠ modeImmediate)
    (hT : T = if paramMode w 3 2 = modeRelative then wrapInt (t + c2.relBase) else t)
    (hT0 : 0 ≤ T) :
    ∃ v,
      ((parseOpcodeModes w).1 = 1 → v = wrapInt (a + b) ∧ (inRange (a + b) → v = a + b))
      ∧ ((parseOpcodeModes w).1 = 2 → v = wrapInt (a * b) ∧ (inRange (a * b) → v = a * b))
      ∧ ((parseOpcodeModes w).1 = 7 → v = if a < b then 1 else 0)
      ∧ ((parseOpcodeModes w).1 = 8 → v = if a = b then 1 else 0)
      ∧ (T < c2.memory.length ∨ T + 1 ≤ maxSliceLen →
        ∃ c4, c.step = .ok () c4
          ∧ c4.memory = (c2.memory ++ List.replicate ((T + 1).toNat - c2.memory.length) 0).set
              T.toNat v
          ∧ c4.memory[T.toNat]? = some v
          ∧ c4.pc = c.pc + 4 ∧ c4.relBase = c.relBase ∧ c4.input = c.input
          ∧ c4.output = c.output ∧ c4.running = c.running)
      ∧ ((c2.memory.length : Int) ≤ T → maxSliceLen < T + 1 → T ≤ 9223372036854775807 →
          c.step = .fault .lenOutOfRange c3) := by
  obtain ⟨-, -, -, hc0⟩ := next_inv hfetch
  obtain ⟨a1, a2, a3, a4, a5, -⟩ := read_ok_inv ha
  obtain ⟨b1, b2, b3, b4, b5, -⟩ := read_ok_inv hb
  have hc0pc : c0.pc = c.pc + 1 := by rw [hc0]
  have hc0rb : c0.relBase = c.relBase := by rw [hc0]
  have hc0in : c0.input = c.input := by rw [hc0]
  have hc0out : c0.output = c.output := by rw [hc0]
  have hc0run : c0.running = c.running := by rw [hc0]
  have fin : ∀ v : Int, c.step = c2.write v (paramMode w 3 2) →
      (T < c2.memory.length ∨ T + 1 ≤ maxSliceLen →
        ∃ c4, c.step = .ok () c4
          ∧ c4.memory = (c2.memory ++ List.replicate ((T + 1).toNat - c2.memory.length) 0).set
              T.toNat v
          ∧ c4.memory[T.toNat]? = some v
          ∧ c4.pc = c.pc + 4 ∧ c4.relBase = c.relBase ∧ c4.input = c.input
          ∧ c4.output = c.output ∧ c4.running = c.running)
      ∧ ((c2.memory.length : Int) ≤ T → maxSliceLen < T + 1 → T ≤ 9223372036854775807 →
          c.step = .fault .lenOutOfRange c3) := by
    intro v hv
    constructor
    · intro hg
      obtain ⟨c4, h1, hmem, hpc, hrb, hin, hout, hrun⟩ :=
        write_resolved c2 c3 t T v (paramMode w 3 2) ht hm hT hT0 hg
      refine ⟨c4, hv.trans h1, hmem, ?_, ?_, ?_, ?_, ?_, ?_⟩
      · rw [hmem]
        exact (grown_set_facts c2.memory T v hT0).1
      · rw [hpc, b1, a1, hc0pc]; ring
      · rw [hrb, b2, a2, hc0rb]
      · rw [hin, b3, a3, hc0in]
      · rw [hout, b4, a4, hc0out]
      · rw [hrun, b5, a5, hc0run]
    · intro h1 h2 h3
      rw [hv]
      exact write_resolved_huge c2 c3 t T v (paramMode w 3 2) ht hm hT h1 h2 h3
  have hstep := step_of_next hfetch
  rcases hcode with h | h | h | h
  · have hop : c.step = c2.write (wrapInt (a + b)) (paramMode w 3 2) := by
      rw [hstep, h]
      show add c0 (parseOpcodeModes w).2 = _
      unfold add
      show ((c0.read (paramMode w 3 0)).bind fun a c =>
        (c.read (paramMode w 3 1)).bind fun b c =>
          c.write (wrapInt (a + b)) (paramMode w 3 2)) = _
      rw [ha]
      show ((c1.read (paramMode w 3 1)).bind fun b c =>
          c.write (wrapInt (a + b)) (paramMode w 3 2)) = _
      rw [hb]
      rfl
    refine ⟨_, fun _ => ⟨rfl, wrapInt_of_inRange⟩, ?_, ?_, ?_, fin _ hop⟩ <;> intro h2 <;>
      rw [h] at h2 <;> exact absurd h2 (by decide)
  · have hop : c.step = c2.write (wrapInt (a * b)) (paramMode w 3 2) := by
      rw [hstep, h]
      show mul c0 (parseOpcodeModes w).2 = _
      unfold mul
      show ((c0.read (paramMode w 3 0)).bind fun a c =>
        (c.read (paramMode w 3 1)).bind fun b c =>
          c.write (wrapInt (a * b)) (paramMode w 3 2)) = _
      rw [ha]
      show ((c1.read (paramMode w 3 1)).bind fun b c =>
          c.write (wrapInt (a * b)) (paramMode w 3 2)) = _
      rw [hb]
      rfl
    refine ⟨_, ?_, fun _ => ⟨rfl, wrapInt_of_inRange⟩, ?_, ?_, fin _ hop⟩ <;> intro h2 <;>
      rw [h] at h2 <;> exact absurd h2 (by decide)
  · have hop : c.step = c2.write (if a < b then 1 else 0) (paramMode w 3 2) := by
      rw [hstep, h]
      show lt c0 (parseOpcodeModes w).2 = _
      unfold lt
      show ((c0.read (paramMode w 3 0)).bind fun a c =>
        (c.read (paramMode w 3 1)).bind fun b c =>
          if a < b then c.write 1 (paramMode w 3 2) else c.write 0 (paramMode w 3 2)) = _
      rw [ha]
      show ((c1.read (paramMode w 3 1)).bind fun b c =>
          if a < b then c.write 1 (paramMode w 3 2) else c.write 0 (paramMode w 3 2)) = _
      rw [hb]
      show (if a < b then c2.write 1 (paramMode w 3 2) else c2.write 0 (paramMode w 3 2)) = _
      split <;> rfl
    refine ⟨_, ?_, ?_, fun _ => rfl, ?_, fin _ hop⟩ <;> intro h2 <;> rw [h] at h2 <;>
      exact absurd h2 (by decide)
  · have hop : c.step = c2.write (if a = b then 1 else 0) (paramMode w 3 2) := by
      rw [hstep, h]
      show eq c0 (parseOpcodeModes w).2 = _
      unfold eq
      show ((c0.read (paramMode w 3 0)).bind fun a c =>
        (c.read (paramMode w 3 1)).bind fun b c =>
          if a = b then c.write 1 (paramMode w 3 2) else c.write 0 (paramMode w 3 2)) = _
      rw [ha]
      show ((c1.read (paramMode w 3 1)).bind fun b c =>
          if a = b then c.write 1 (paramMode w 3 2) else c.write 0 (paramMode w 3 2)) = _
      rw [hb]
      show (if a = b then c2.write 1 (paramMode w 3 2) else c2.write 0 (paramMode w 3 2)) = _
      split <;> rfl
    refine ⟨_, ?_, ?_, ?_, fun _ => rfl, fin _ hop⟩ <;> intro h2 <;> rw [h] at h2 <;>
      exact absurd h2 (by decide)

end Day11

namespace Day11
open Go

theorem alu_step_spec_witness :
    sampleMul.next = .ok 1002 { sampleMul with pc := 1 }
    ∧ ∃ c4, sampleMul.step = .ok () c4 ∧ c4.memory[4]? = some 99 ∧ c4.pc = 4 := by
  obtain ⟨v, -, h2, -, -, hok, -⟩ :=
    alu_step_spec sampleMul { sampleMul with pc := 1 } { sampleMul with pc := 2 }
      { sampleMul with pc := 3 } { sampleMul with pc := 4 } 1002 33 3 4 4
      (by decide) (by decide) (by decide) (by decide) (by decide) (by decide) (by decide)
      (by decide)
  obtain ⟨c4, h1, -, h3, h4, -⟩ := hok (Or.inl (by decide))
  have hv : v = 99 := (h2 (by decide)).1
  rw [hv] at h3
  exact ⟨by decide, c4, h1, h3, by rw [h4]; decide⟩

/-- C1 (counterexample): the program `1,0,0,9223372036854775807,99`.  The word at `pc`
decodes to code 1, both operands read as 1 and the third parameter resolves in position
mode to `T = 2^63 - 1 ≥ 0`, but the instruction does not store `a+b` at `T`: it panics in
`make`, whose length `T+1` has wrapped to `-2^63`, and memory is left as it was. -/
theorem alu_far_panics :
    sampleAddFar.next = .ok 1 { sampleAddFar with pc := 1 }
    ∧ (parseOpcodeModes 1).1 = 1
    ∧ ({ sampleAddFar with pc := 1 } : computer).read (paramMode 1 3 0)
        = .ok 1 { sampleAddFar with pc := 2 }
    ∧ ({ sampleAddFar with pc := 2 } : computer).read (paramMode 1 3 1)
        = .ok 1 { sampleAddFar with pc := 3 }
    ∧ ({ sampleAddFar with pc := 3 } : computer).next
        = .ok 9223372036854775807 { sampleAddFar with pc := 4 }
    ∧ paramMode 1 3 2 = modePosition
    ∧ sampleAddFar.step = .fault .lenOutOfRange { sampleAddFar with pc := 4 } := by
  decide

end Day11

namespace Go

theorem digits_getD (i n : Nat) : (Nat.digits 10 n).getD i 0 = n / 10 ^ i % 10 := by
  induction i generalizing n with
  | zero =>
    rcases Nat.eq_zero_or_pos n with h | h
    · subst h; simp
    · rw [Nat.digits_def' (by decide) h]
      simp
  | succ i ih =>
    rcases Nat.eq_zero_or_pos n with h | h
    · subst h; simp
    · rw [Nat.digits_def' (by decide) h, List.getD_cons_succ, ih, Nat.div_div_eq_div_mul,
        pow_succ, Nat.mul_comm]

theorem digits_length_bounds (n : Nat) (h : 0 < n) :
    0 < (Nat.digits 10 n).length ∧ n < 10 ^ (Nat.digits 10 n).length
      ∧ 10 ^ ((Nat.digits 10 n).length - 1) ≤ n := by
  have hpos : 0 < (Nat.digits 10 n).length := by
    rw [Nat.digits_def' (by decide) h]
    simp
  refine ⟨hpos, Nat.lt_base_pow_length_digits (by decide), ?_⟩
  have h1 := Nat.base_pow_length_digits_le 10 n (by decide) (by omega)
  obtain ⟨k, hk⟩ : ∃ k, (Nat.digits 10 n).length = k + 1 := ⟨_, (Nat.succ_pred_eq_of_pos hpos).symm⟩
  rw [hk] at h1 ⊢
  rw [pow_succ] at h1
  simp only [Nat.add_sub_cancel]
  omega

theorem copySlice_fill (ms : List Int) (k : Nat) :
    (if ms.length < k then copySlice (makeSlice k) ms else ms)
      = ms ++ List.replicate (k - ms.length) 0 := by
  split
  · rename_i h
    exact copySlice_makeSlice ms k (by omega)
  · rename_i h
    have : k - ms.length = 0 := by omega
    rw [this]
    simp

end Go

namespace Day11
open Go

theorem parseLoop_digits (fuel n : Nat) (modes : List mode) (h : n ≤ fuel) :
    parseLoop fuel (n : Int) modes = modes ++ (Nat.digits 10 n).map Int.ofNat := by
  induction fuel generalizing n modes with
  | zero =>
    have : n = 0 := by omega
    subst this
    simp [parseLoop]
  | succ fuel ih =>
    rcases Nat.eq_zero_or_pos n with h0 | h0
    · subst h0
      simp [parseLoop]
    · have hpos : (n : Int) > 0 := by omega
      have hd : (n : Int).tdiv 10 = ((n / 10 : Nat) : Int) := by
        rw [Int.tdiv_eq_ediv (by omega) (by decide)]
        norm_cast
      have hm : (n : Int).tmod 10 = ((n % 10 : Nat) : Int) := by
        rw [Int.tmod_eq_emod (by omega) (by decide)]
        norm_cast
      unfold parseLoop
      rw [if_pos hpos, hd, hm, ih (n / 10) _ (by omega), Nat.digits_def' (by decide) h0]
      simp

theorem parseOpcodeModes_snd (v : Int) (hv : 0 ≤ v) :
    (parseOpcodeModes v).2 = (Nat.digits 10 (v / 100).toNat).map Int.ofNat := by
  have h1 : v.tdiv 100 = ((v / 100).toNat : Int) := by
    rw [Int.tdiv_eq_ediv hv (by decide), Int.toNat_of_nonneg]
    exact Int.ediv_nonneg hv (by decide)
  show parseLoop (v.tdiv 100).toNat (v.tdiv 100) [] = _
  rw [h1, Int.toNat_ofNat, parseLoop_digits _ _ _ (le_refl _)]
  simp

theorem modes_getD (v : Int) (hv : 0 ≤ v) (i : Nat) :
    (parseOpcodeModes v).2.getD i 0 = v / 100 / 10 ^ i % 10 := by
  have hq : 0 ≤ v / 100 := Int.ediv_nonneg hv (by decide)
  rw [parseOpcodeModes_snd v hv]
  have : ((Nat.digits 10 (v / 100).toNat).map Int.ofNat).getD i 0
      = Int.ofNat ((Nat.digits 10 (v / 100).toNat).getD i 0) := by
    rw [List.getD_eq_getElem?_getD, List.getD_eq_getElem?_getD, List.getElem?_map]
    cases (Nat.digits 10 (v / 100).toNat)[i]? <;> rfl
  rw [this, digits_getD]
  show (((v / 100).toNat / 10 ^ i % 10 : Nat) : Int) = _
  push_cast
  rw [Int.toNat_of_nonneg hq]

theorem fillModes_eq (ms : List mode) (k : Nat) :
    fillModes ms k = ms ++ List.replicate (k - ms.length) 0 :=
  copySlice_fill ms k

theorem paramMode_digit (v : Int) (hv : 0 ≤ v) (k i : Nat) :
    paramMode v k i = v / 100 / 10 ^ i % 10 := by
  unfold paramMode modeAt
  rw [fillModes_eq, ← modes_getD v hv i]
  rw [List.getD_eq_getElem?_getD, List.getD_eq_getElem?_getD]
  by_cases h : i < (parseOpcodeModes v).2.length
  · rw [List.getElem?_append_left h]
  · have h2 : (parseOpcodeModes v).2.length ≤ i := by omega
    rw [List.getElem?_append_right h2, List.getElem?_replicate, List.getElem?_eq_none h2]
    split <;> rfl

end Day11

namespace Day11
open Go

/-- C4: the decoder.  For a non-negative instruction word `v`, `parseOpcodeModes` returns
the code `v mod 100` and, as modes, the decimal digits of `v div 100`, least significant
first and without padding: element `i` is `(v div 100 div 10^i) mod 10`; the list is
empty when `v < 100`; otherwise its length `L` is the number of decimal digits of
`v div 100` (`10^(L-1) ≤ v div 100 < 10^L`) and its last element is non-zero. -/
theorem parseOpcodeModes_spec (v : Int) (hv : 0 ≤ v) :
    (parseOpcodeModes v).1 = v % 100
    ∧ (parseOpcodeModes v).2 = (Nat.digits 10 (v / 100).toNat).map Int.ofNat
    ∧ (∀ i : Nat, i < (parseOpcodeModes v).2.length →
        (parseOpcodeModes v).2[i]? = some (v / 100 / 10 ^ i % 10))
    ∧ (v < 100 → (parseOpcodeModes v).2 = [])
    ∧ (100 ≤ v →
        0 < (parseOpcodeModes v).2.length
        ∧ v / 100 < 10 ^ (parseOpcodeModes v).2.length
        ∧ 10 ^ ((parseOpcodeModes v).2.length - 1) ≤ v / 100
        ∧ ∃ d, (parseOpcodeModes v).2.getLast? = some d ∧ d ≠ 0) := by
  have hq : 0 ≤ v / 100 := Int.ediv_nonneg hv (by decide)
  have hsnd := parseOpcodeModes_snd v hv
  refine ⟨Int.tmod_eq_emod hv (by decide), hsnd, ?_, ?_, ?_⟩
  · intro i hi
    rw [← modes_getD v hv i, List.getD_eq_getElem?_getD, List.getElem?_eq_getElem hi]
    rfl
  · intro hlt
    have : (v / 100).toNat = 0 := by omega
    rw [hsnd, this]
    simp
  · intro hge
    have hn : 0 < (v / 100).toNat := by omega
    obtain ⟨b0, b1, b2⟩ := digits_length_bounds (v / 100).toNat hn
    have hlen : (parseOpcodeModes v).2.length = (Nat.digits 10 (v / 100).toNat).length := by
      rw [hsnd, List.length_map]
    have hcast : v / 100 = (((v / 100).toNat : Nat) : Int) := (Int.toNat_of_nonneg hq).symm
    refine ⟨by rw [hlen]; exact b0, ?_, ?_, ?_⟩
    · rw [hlen, hcast]
      exact_mod_cast b1
    · rw [hlen, hcast]
      exact_mod_cast b2
    · have hne : Nat.digits 10 (v / 100).toNat ≠ [] := by
        intro h
        rw [h] at b0
        exact absurd b0 (by decide)
      refine ⟨Int.ofNat ((Nat.digits 10 (v / 100).toNat).getLast hne), ?_, ?_⟩
      · rw [hsnd, List.getLast?_map, List.getLast?_eq_getLast _ hne]
        rfl
      · have := Nat.getLast_digit_ne_zero 10 (Nat.pos_iff_ne_zero.mp hn)
        intro h0
        exact this (Int.ofNat.inj h0)

theorem parseOpcodeModes_spec_witness :
    (0 : Int) ≤ 21107 ∧ (parseOpcodeModes 21107).1 = 21107 % 100
      ∧ (parseOpcodeModes 21107).2 = (Nat.digits 10 ((21107 : Int) / 100).toNat).map Int.ofNat :=
  ⟨by decide, (parseOpcodeModes_spec 21107 (by decide)).1,
    (parseOpcodeModes_spec 21107 (by decide)).2.1⟩

/-- C5: mode defaulting.  `fillModes(ms, k)` has length `max(len(ms), k)`, agrees with
`ms` below `len(ms)` and holds the position mode 0 from `len(ms)` up to `k-1`; hence for
a non-negative instruction word `v` and `i < k` the mode used for parameter `i` is the
decimal digit `(v div 100 div 10^i) mod 10`, and it is position whenever the decoder
produced no digit for index `i`. -/
theorem fillModes_spec (ms : List mode) (k : Nat) :
    (fillModes ms k).length = max ms.length k
    ∧ (∀ i : Nat, i < ms.length → (fillModes ms k)[i]? = ms[i]?)
    ∧ (∀ i : Nat, ms.length ≤ i → i < k → (fillModes ms k)[i]? = some modePosition)
    ∧ (∀ v : Int, 0 ≤ v → ∀ i : Nat, i < k →
        (fillModes (parseOpcodeModes v).2 k)[i]? = some (v / 100 / 10 ^ i % 10)
        ∧ paramMode v k i = v / 100 / 10 ^ i % 10
        ∧ ((parseOpcodeModes v).2.length ≤ i → paramMode v k i = modePosition)) := by
  refine ⟨?_, ?_, ?_, ?_⟩
  · rw [fillModes_eq, List.length_append, List.length_replicate]
    omega
  · intro i hi
    rw [fillModes_eq, List.getElem?_append_left hi]
  · intro i h1 h2
    rw [fillModes_eq, List.getElem?_append_right h1, List.getElem?_replicate, if_pos (by omega)]
  · intro v hv i hi
    have hd := paramMode_digit v hv k i
    have hlen : i < (fillModes (parseOpcodeModes v).2 k).length := by
      rw [fillModes_eq, List.length_append, List.length_replicate]
      omega
    refine ⟨?_, hd, ?_⟩
    · rw [← hd]
      unfold paramMode modeAt
      rw [List.getD_eq_getElem?_getD, List.getElem?_eq_getElem hlen]
      rfl
    · intro hge
      unfold paramMode modeAt
      rw [fillModes_eq, List.getD_eq_getElem?_getD, List.getElem?_append_right hge,
        List.getElem?_replicate]
      split <;> rfl

theorem fillModes_spec_witness :
    (0 : Int) ≤ 1002 ∧ 1 < 3 ∧ paramMode 1002 3 1 = 1002 / 100 / 10 ^ 1 % 10 :=
  ⟨by decide, by decide, ((fillModes_spec [] 3).2.2.2 1002 (by decide) 1 (by decide)).2.1⟩

end Day11

namespace Day11
open Go

theorem append_zeros_get (mem : List Int) (k i : Nat) (h : i < mem.length) :
    (mem ++ List.replicate k 0)[i]? = mem[i]? :=
  List.getElem?_append_left h

theorem read_ok_cells {c c1 : computer} {a : Int} {m : mode} (h : c.read m = .ok a c1) :
    c.memory.length ≤ c1.memory.length
      ∧ ∀ i : Nat, i < c.memory.length → c1.memory[i]? = c.memory[i]? := by
  obtain ⟨-, -, -, -, -, k, hk⟩ := read_ok_inv h
  refine ⟨?_, ?_⟩
  · rw [hk, List.length_append]
    omega
  · intro i hi
    rw [hk]
    exact append_zeros_get _ _ _ hi

/-- C6: the jumps.  When the word fetched at `p = pc` decodes to code 5 or 6 and the two
operands read (by their modes, in order) as `n` and `v`, the instruction completes in
the state left by the second read except for `pc`: for code 5, `pc = v` if `n ≠ 0` and
`p + 3` otherwise; for code 6, `pc = v` if `n = 0` and `p + 3` otherwise.  `relBase`,
the channels and the running flag are unchanged and every cell that existed keeps its
value. -/
theorem jump_step_spec (c c0 c1 c2 : computer) (w n v : Int)
    (hfetch : c.next = .ok w c0)
    (hcode : (parseOpcodeModes w).1 = 5 ∨ (parseOpcodeModes w).1 = 6)
    (hn : c0.read (paramMode w 2 0) = .ok n c1)
    (hv : c1.read (paramMode w 2 1) = .ok v c2) :
    ∃ c3, c.step = .ok () c3
      ∧ ((parseOpcodeModes w).1 = 5 → c3.pc = if n ≠ 0 then v else c.pc + 3)
      ∧ ((parseOpcodeModes w).1 = 6 → c3.pc = if n = 0 then v else c.pc + 3)
      ∧ c2.pc = c.pc + 3
      ∧ c3.memory = c2.memory
      ∧ (∀ i : Nat, i < c.memory.length → c3.memory[i]? = c.memory[i]?)
      ∧ c3.relBase = c.relBase ∧ c3.input = c.input ∧ c3.output = c.output
      ∧ c3.running = c.running := by
  obtain ⟨-, -, -, hc0⟩ := next_inv hfetch
  obtain ⟨a1, a2, a3, a4, a5, -⟩ := read_ok_inv hn
  obtain ⟨b1, b2, b3, b4, b5, -⟩ := read_ok_inv hv
  obtain ⟨la, ca⟩ := read_ok_cells hn
  obtain ⟨-, cb⟩ := read_ok_cells hv
  have hc0pc : c0.pc = c.pc + 1 := by rw [hc0]
  have hc0rb : c0.relBase = c.relBase := by rw [hc0]
  have hc0in : c0.input = c.input := by rw [hc0]
  have hc0out : c0.output = c.output := by rw [hc0]
  have hc0run : c0.running = c.running := by rw [hc0]
  have hc0mem : c0.memory = c.memory := by rw [hc0]
  have hpc2 : c2.pc = c.pc + 3 := by rw [b1, a1, hc0pc]; ring
  have hcells : ∀ i : Nat, i < c.memory.length → c2.memory[i]? = c.memory[i]? := by
    intro i hi
    rw [← hc0mem] at hi ⊢
    rw [cb i (by omega), ca i hi]
  have hrb : c2.relBase = c.relBase := by rw [b2, a2, hc0rb]
  have hin : c2.input = c.input := by rw [b3, a3, hc0in]
  have hout : c2.output = c.output := by rw [b4, a4, hc0out]
  have hrun : c2.running = c.running := by rw [b5, a5, hc0run]
  have hstep := step_of_next hfetch
  rcases hcode with h | h
  · have hop : c.step = if n ≠ 0 then .ok () { c2 with pc := v } else .ok () c2 := by
      rw [hstep, h]
      show jit c0 (parseOpcodeModes w).2 = _
      unfold jit
      show ((c0.read (paramMode w 2 0)).bind fun n c =>
        (c.read (paramMode w 2 1)).bind fun v c =>
          if n ≠ 0 then Res.ok () { c with pc := v } else .ok () c) = _
      rw [hn]
      show ((c1.read (paramMode w 2 1)).bind fun v c =>
          if n ≠ 0 then Res.ok () { c with pc := v } else .ok () c) = _
      rw [hv]
      rfl
    by_cases hz : n ≠ 0
    · rw [if_pos hz] at hop
      refine ⟨_, hop, fun _ => by rw [if_pos hz], ?_, hpc2, rfl, hcells, hrb, hin, hout, hrun⟩
      intro h2; rw [h] at h2; exact absurd h2 (by decide)
    · rw [if_neg hz] at hop
      refine ⟨_, hop, fun _ => by rw [if_neg hz]; exact hpc2, ?_, hpc2, rfl, hcells, hrb, hin,
        hout, hrun⟩
      intro h2; rw [h] at h2; exact absurd h2 (by decide)
  · have hop : c.step = if n = 0 then .ok () { c2 with pc := v } else .ok () c2 := by
      rw [hstep, h]
      show jif c0 (parseOpcodeModes w).2 = _
      unfold jif
      show ((c0.read (paramMode w 2 0)).bind fun n c =>
        (c.read (paramMode w 2 1)).bind fun v c =>
          if n = 0 then Res.ok () { c with pc := v } else .ok () c) = _
      rw [hn]
      show ((c1.read (paramMode w 2 1)).bind fun v c =>
          if n = 0 then Res.ok () { c with pc := v } else .ok () c) = _
      rw [hv]
      rfl
    by_cases hz : n = 0
    · rw [if_pos hz] at hop
      refine ⟨_, hop, ?_, fun _ => by rw [if_pos hz], hpc2, rfl, hcells, hrb, hin, hout, hrun⟩
      intro h2; rw [h] at h2; exact absurd h2 (by decide)
    · rw [if_neg hz] at hop
      refine ⟨_, hop, ?_, fun _ => by rw [if_neg hz]; exact hpc2, hpc2, rfl, hcells, hrb, hin,
        hout, hrun⟩
      intro h2; rw [h] at h2; exact absurd h2 (by decide)

theorem jump_step_spec_witness :
    sampleJump.next = .ok 1105 { sampleJump with pc := 1 }
    ∧ ∃ c3, sampleJump.step = .ok () c3 ∧ c3.pc = 4 := by
  obtain ⟨c3, h1, h2, -⟩ :=
    jump_step_spec sampleJump { sampleJump with pc := 1 } { sampleJump with pc := 2 }
      { sampleJump with pc := 3 } 1105 7 4 (by decide) (by decide) (by decide) (by decide)
  exact ⟨by decide, c3, h1, by rw [h2 (by decide)]; decide⟩

/-- C7: adjust-relative-base.  When the word fetched at `pc` decodes to code 9 and its
operand reads (by the first parameter's mode) as `n`, the instruction completes with
`relBase` equal to the old `relBase` plus `n` (Go `int` addition: the exact sum
whenever it fits in 64 bits), `pc` advanced by exactly 2, every cell that existed unchanged and both channels (and the running flag)
unchanged. -/
theorem rel_step_spec (c c0 c1 : computer) (w n : Int)
    (hfetch : c.next = .ok w c0)
    (hcode : (parseOpcodeModes w).1 = 9)
    (hn : c0.read (paramMode w 1 0) = .ok n c1) :
    ∃ c2, c.step = .ok () c2
      ∧ c2.relBase = wrapInt (c.relBase + n)
      ∧ (inRange (c.relBase + n) → c2.relBase = c.relBase + n)
      ∧ c2.pc = c.pc + 2
      ∧ c2.memory = c1.memory
      ∧ (∀ i : Nat, i < c.memory.length → c2.memory[i]? = c.memory[i]?)
      ∧ c2.input = c.input ∧ c2.output = c.output ∧ c2.running = c.running := by
  obtain ⟨-, -, -, hc0⟩ := next_inv hfetch
  obtain ⟨a1, a2, a3, a4, a5, -⟩ := read_ok_inv hn
  obtain ⟨-, ca⟩ := read_ok_cells hn
  have hc0pc : c0.pc = c.pc + 1 := by rw [hc0]
  have hc0rb : c0.relBase = c.relBase := by rw [hc0]
  have hc0in : c0.input = c.input := by rw [hc0]
  have hc0out : c0.output = c.output := by rw [hc0]
  have hc0run : c0.running = c.running := by rw [hc0]
  have hc0mem : c0.memory = c.memory := by rw [hc0]
  have hop : c.step = .ok () { c1 with relBase := wrapInt (c1.relBase + n) } := by
    rw [step_of_next hfetch, hcode]
    show rel c0 (parseOpcodeModes w).2 = _
    unfold rel
    show ((c0.read (paramMode w 1 0)).bind fun n c =>
      Res.ok () { c with relBase := wrapInt (c.relBase + n) }) = _
    rw [hn]
    rfl
  refine ⟨_, hop, ?_, ?_, ?_, rfl, ?_, ?_, ?_, ?_⟩
  · show wrapInt (c1.relBase + n) = _
    rw [a2, hc0rb]
  · intro hr
    show wrapInt (c1.relBase + n) = _
    rw [a2, hc0rb]
    exact wrapInt_of_inRange hr
  · show c1.pc = _
    rw [a1, hc0pc]; ring
  · intro i hi
    rw [← hc0mem] at hi ⊢
    exact ca i hi
  · show c1.input = _
    rw [a3, hc0in]
  · show c1.output = _
    rw [a4, hc0out]
  · show c1.running = _
    rw [a5, hc0run]

theorem rel_step_spec_witness :
    sampleRel.next = .ok 9 { sampleRel with pc := 1 }
    ∧ ∃ c2, sampleRel.step = .ok () c2 ∧ c2.relBase = 19 ∧ c2.pc = 2 := by
  obtain ⟨c2, h1, h2, -, h3, -⟩ :=
    rel_step_spec sampleRel { sampleRel with pc := 1 } { sampleRel with pc := 2 } 9 19
      (by decide) (by decide) (by decide)
  exact ⟨by decide, c2, h1, by rw [h2]; decide, by rw [h3]; decide⟩

end Day11

namespace Day11
open Go

theorem ReadInt_cons {rw : intBuffer} {x : Int} {rest : List Int} (hq : rw.ints = x :: rest)
    (hl : rw.locked = false) :
    rw.ReadInt = .ok (x, true) ⟨rest, rw.closed, false⟩ := by
  unfold intBuffer.ReadInt intBuffer.Lock
  rw [hl]
  simp only [Bool.false_eq_true, if_false]
  rw [hq]
  rfl

theorem WriteInt_free {rw : intBuffer} (n : Int) (hl : rw.locked = false) :
    rw.WriteInt n = .ok () ⟨rw.ints ++ [n], rw.closed, false⟩ := by
  unfold intBuffer.WriteInt intBuffer.Lock
  rw [hl]
  rfl

/-- C8 (as amended): input and output.  Code 3, with the input queue `x :: rest` (its
mutex free) and the first parameter, not immediate, resolving to `T ≥ 0`, where `T` is
below the length of memory or the slice of `T + 1` cells can be made
(`T + 1 ≤ maxSliceLen`): the instruction completes, the input queue is `rest`, cell `T`
holds `x`, and the output channel is unchanged.  Code 4, with the operand reading as `n`
(output mutex free): the instruction completes, the output queue is the old one followed
by `n`, the input channel and every cell that existed are unchanged.  In both cases `pc`
has advanced by exactly 2.  Code 3 with any other target `T` panics in `make`: the
oldest input is removed from the queue and stored nowhere. -/
theorem io_step_spec :
    (∀ (c c0 c1 : computer) (w x t T : Int) (rest : List Int),
      c.next = .ok w c0 → (parseOpcodeModes w).1 = 3 →
      c.input.ints = x :: rest → c.input.locked = false →
      c0.next = .ok t c1 → paramMode w 1 0 ≠ modeImmediate →
      T = (if paramMode w 1 0 = modeRelative then wrapInt (t + c.relBase) else t) → 0 ≤ T →
      T < c.memory.length ∨ T + 1 ≤ maxSliceLen →
      ∃ c2, c.step = .ok () c2
        ∧ c2.input = ⟨rest, c.input.closed, false⟩
        ∧ c2.memory = (c.memory ++ List.replicate ((T + 1).toNat - c.memory.length) 0).set
            T.toNat x
        ∧ c2.memory[T.toNat]? = some x
        ∧ c2.output = c.output
        ∧ c2.pc = c.pc + 2 ∧ c2.relBase = c.relBase ∧ c2.running = c.running)
    ∧ (∀ (c c0 c1 : computer) (w n : Int),
      c.next = .ok w c0 → (parseOpcodeModes w).1 = 4 →
      c0.read (paramMode w 1 0) = .ok n c1 → c.output.locked = false →
      ∃ c2, c.step = .ok () c2
        ∧ c2.output = ⟨c.output.ints ++ [n], c.output.closed, false⟩
        ∧ c2.input = c.input
        ∧ (∀ i : Nat, i < c.memory.length → c2.memory[i]? = c.memory[i]?)
        ∧ c2.pc = c.pc + 2 ∧ c2.relBase = c.relBase ∧ c2.running = c.running)
    ∧ (∀ (c c0 c1 : computer) (w x t T : Int) (rest : List Int),
      c.next = .ok w c0 → (parseOpcodeModes w).1 = 3 →
      c.input.ints = x :: rest → c.input.locked = false →
      c0.next = .ok t c1 → paramMode w 1 0 ≠ modeImmediate →
      T = (if paramMode w 1 0 = modeRelative then wrapInt (t + c.relBase) else t) →
      (c.memory.length : Int) ≤ T → maxSliceLen < T + 1 → T ≤ 9223372036854775807 →
      c.step = .fault .lenOutOfRange { c1 with input := ⟨rest, c.input.closed, false⟩ }) := by
  have hpre : ∀ (c c0 c1 : computer) (w x t T : Int) (rest : List Int),
      c.next = .ok w c0 → (parseOpcodeModes w).1 = 3 →
      c.input.ints = x :: rest → c.input.locked = false →
      c0.next = .ok t c1 → paramMode w 1 0 ≠ modeImmediate →
      T = (if paramMode w 1 0 = modeRelative then wrapInt (t + c.relBase) else t) →
      c.step = ({ c1 with input := ⟨rest, c.input.closed, false⟩ } : computer).store T x := by
    intro c c0 c1 w x t T rest hfetch hcode hq hl ht hm hT
    obtain ⟨-, -, -, hc0⟩ := next_inv hfetch
    obtain ⟨p0, p1, pw, hc1⟩ := next_inv ht
    have hin : c0.input = c.input := by rw [hc0]
    have hrd := @ReadInt_cons c0.input x rest (by rw [hin]; exact hq) (by rw [hin]; exact hl)
    have hnext : ({ c0 with input := ⟨rest, c0.input.closed, false⟩ } : computer).next
        = .ok t { c0 with input := ⟨rest, c0.input.closed, false⟩, pc := c0.pc + 1 } :=
      @next_of_get { c0 with input := ⟨rest, c0.input.closed, false⟩ } t p0 p1 pw
    have hop : c.step
        = ({ c0 with input := ⟨rest, c0.input.closed, false⟩ } : computer).write x
            (paramMode w 1 0) := by
      rw [step_of_next hfetch, hcode]
      show input c0 (parseOpcodeModes w).2 = _
      unfold input
      simp only []
      rw [hrd]
      rfl
    have hT2 : T = if paramMode w 1 0 = modeRelative then
        wrapInt (t + ({ c0 with input := ⟨rest, c0.input.closed, false⟩ } : computer).relBase)
        else t := by
      rw [hT, hc0]
    rw [hop, write_eq_store _ _ t T x (paramMode w 1 0) hnext hm hT2, hc1, hin]
  refine ⟨?_, ?_, ?_⟩
  · intro c c0 c1 w x t T rest hfetch hcode hq hl ht hm hT hT0 hg
    obtain ⟨-, -, -, hc0⟩ := next_inv hfetch
    obtain ⟨p0, p1, pw, -⟩ := next_inv ht
    have hin : c0.input = c.input := by rw [hc0]
    have hrd := @ReadInt_cons c0.input x rest (by rw [hin]; exact hq) (by rw [hin]; exact hl)
    have hnext : ({ c0 with input := ⟨rest, c0.input.closed, false⟩ } : computer).next
        = .ok t { c0 with input := ⟨rest, c0.input.closed, false⟩, pc := c0.pc + 1 } :=
      @next_of_get { c0 with input := ⟨rest, c0.input.closed, false⟩ } t p0 p1 pw
    have hop : c.step
        = ({ c0 with input := ⟨rest, c0.input.closed, false⟩ } : computer).write x
            (paramMode w 1 0) := by
      rw [step_of_next hfetch, hcode]
      show input c0 (parseOpcodeModes w).2 = _
      unfold input
      simp only []
      rw [hrd]
      rfl
    have hT2 : T = if paramMode w 1 0 = modeRelative then
        wrapInt (t + ({ c0 with input := ⟨rest, c0.input.closed, false⟩ } : computer).relBase)
        else t := by
      rw [hT, hc0]
    obtain ⟨c2, h1, hmem, hpc, hrb, hi2, hout, hrun⟩ :=
      write_resolved _ _ t T x (paramMode w 1 0) hnext hm hT2 hT0
        (by rw [hc0]; exact hg)
    have hmem2 : c2.memory
        = (c.memory ++ List.replicate ((T + 1).toNat - c.memory.length) 0).set T.toNat x := by
      rw [hmem, hc0]
    refine ⟨c2, hop.trans h1, ?_, hmem2, ?_, ?_, ?_, ?_, ?_⟩
    · rw [hi2, hc0]
    · rw [hmem2]
      exact (grown_set_facts c.memory T x hT0).1
    · rw [hout, hc0]
    · rw [hpc, hc0]
      show c.pc + 1 + 1 = _
      ring
    · rw [hrb, hc0]
    · rw [hrun, hc0]
  · intro c c0 c1 w n hfetch hcode hn hl
    obtain ⟨-, -, -, hc0⟩ := next_inv hfetch
    obtain ⟨a1, a2, a3, a4, a5, -⟩ := read_ok_inv hn
    obtain ⟨-, ca⟩ := read_ok_cells hn
    have hout : c1.output = c.output := by rw [a4, hc0]
    have hwr := @WriteInt_free c1.output n (by rw [hout]; exact hl)
    have hop : c.step
        = .ok () { c1 with output := ⟨c1.output.ints ++ [n], c1.output.closed, false⟩ } := by
      rw [step_of_next hfetch, hcode]
      show output c0 (parseOpcodeModes w).2 = _
      unfold output
      show ((c0.read (paramMode w 1 0)).bind fun n c =>
        match c.output.WriteInt n with
        | .blocked rw => Res.blocked { c with output := rw }
        | .ok _ rw => .ok () { c with output := rw }) = _
      rw [hn]
      show (match c1.output.WriteInt n with
        | .blocked rw => Res.blocked { c1 with output := rw }
        | .ok _ rw => .ok () { c1 with output := rw }) = _
      rw [hwr]
    refine ⟨_, hop, ?_, ?_, ?_, ?_, ?_, ?_⟩
    · show (⟨c1.output.ints ++ [n], c1.output.closed, false⟩ : intBuffer) = _
      rw [hout]
    · show c1.input = _
      rw [a3, hc0]
    · intro i hi
      show c1.memory[i]? = _
      have : c0.memory = c.memory := by rw [hc0]
      rw [← this] at hi ⊢
      exact ca i hi
    · show c1.pc = _
      rw [a1, hc0]
      show c.pc + 1 + 1 = _
      ring
    · show c1.relBase = _
      rw [a2, hc0]
    · show c1.running = _
      rw [a5, hc0]
  · intro c c0 c1 w x t T rest hfetch hcode hq hl ht hm hT h1 h2 h3
    obtain ⟨-, -, -, hc0⟩ := next_inv hfetch
    obtain ⟨-, -, -, hc1⟩ := next_inv ht
    rw [hpre c c0 c1 w x t T rest hfetch hcode hq hl ht hm hT]
    exact store_huge _ T x (by rw [hc1, hc0]; exact h1) h2 h3

theorem io_step_spec_witness :
    (sampleIn.next = .ok 3 { sampleIn with pc := 1 }
      ∧ ∃ c2, sampleIn.step = .ok () c2
        ∧ c2.input = ⟨[8], false, false⟩
        ∧ c2.memory[5]? = some 7 ∧ c2.pc = 2)
    ∧ (sampleOut.next = .ok 104 { sampleOut with pc := 1 }
      ∧ ∃ c2, sampleOut.step = .ok () c2
        ∧ c2.output = ⟨[6, 42], false, false⟩ ∧ c2.pc = 2) := by
  obtain ⟨c2, h1, h2, -, h3, -, h4, -⟩ :=
    io_step_spec.1 sampleIn { sampleIn with pc := 1 } { sampleIn with pc := 2 } 3 7 5 5 [8]
      (by decide) (by decide) (by decide) (by decide) (by decide) (by decide) (by decide)
      (by decide) (Or.inr (by decide))
  obtain ⟨d2, g1, g2, -, -, g4, -⟩ :=
    io_step_spec.2.1 sampleOut { sampleOut with pc := 1 } { sampleOut with pc := 2 } 104 42
      (by decide) (by decide) (by decide) (by decide)
  exact ⟨⟨by decide, c2, h1, h2, h3, by rw [h4]; decide⟩,
    ⟨by decide, d2, g1, g2, by rw [g4]; decide⟩⟩

/-- C8 (counterexample): the program `3,9223372036854775807,99` with the input queue
`[7]`.  The word at `pc` decodes to code 3, the queue is not empty and the parameter
resolves in position mode to `T = 2^63 - 1 ≥ 0`, but the instruction does not store the
input at `T`: it removes 7 from the queue and panics in `make`, whose length `T+1` has
wrapped to `-2^63`. -/
theorem input_far_panics :
    sampleInFar.next = .ok 3 { sampleInFar with pc := 1 }
    ∧ (parseOpcodeModes 3).1 = 3
    ∧ sampleInFar.input.ints = [7] ∧ sampleInFar.input.locked = false
    ∧ ({ sampleInFar with pc := 1 } : computer).next
        = .ok 9223372036854775807 { sampleInFar with pc := 2 }
    ∧ paramMode 3 1 0 = modePosition
    ∧ sampleInFar.step
        = .fault .lenOutOfRange { sampleInFar with pc := 2, input := ⟨[], false, false⟩ } := by
  decide

/-- C9: halt.  In every state whose word at `pc` decodes to code 99, whatever its mode
digits, `runProgram` returns with the running flag cleared and with memory, `relBase`
and both channels exactly as they were; from a running state it returns after that one
instruction, the final state being the initial one with `pc` one past the instruction
and the flag cleared.  The program `[99]` returns with memory `[99]` and its channels
untouched. -/
theorem halt_run_spec (c c0 : computer) (w : Int) (fuel : Nat)
    (hfetch : c.next = .ok w c0)
    (hcode : (parseOpcodeModes w).1 = 99) :
    (∃ c1, c.runProgram (fuel + 1) = .returned c1 ∧ c1.running = false
      ∧ c1.memory = c.memory ∧ c1.relBase = c.relBase ∧ c1.input = c.input
      ∧ c1.output = c.output)
    ∧ (c.running = true →
        c.runProgram (fuel + 1) = .returned { c with pc := c.pc + 1, running := false })
    ∧ ∀ i o : intBuffer, (newComputer [99] i o).runProgram (fuel + 1)
        = .returned { pc := 1, relBase := 0, memory := [99], input := i, output := o,
                      running := false } := by
  have main : ∀ (d d0 : computer) (u : Int), d.running = true → d.next = .ok u d0 →
      (parseOpcodeModes u).1 = 99 →
      d.runProgram (fuel + 1) = .returned { d with pc := d.pc + 1, running := false } := by
    intro d d0 u hr hf hc
    obtain ⟨-, -, -, hd0⟩ := next_inv hf
    have hstep : d.step = .ok () { d with pc := d.pc + 1, running := false } := by
      rw [step_of_next hf, hc, hd0]
      rfl
    unfold computer.runProgram
    rw [if_pos hr]
    simp only []
    rw [hstep]
    simp only []
    unfold computer.runProgram
    rw [if_neg (by simp)]
  refine ⟨?_, fun hr => main c c0 w hr hfetch hcode, ?_⟩
  · by_cases hr : c.running = true
    · exact ⟨_, main c c0 w hr hfetch hcode, rfl, rfl, rfl, rfl, rfl⟩
    · refine ⟨c, ?_, by simpa using hr, rfl, rfl, rfl, rfl⟩
      unfold computer.runProgram
      rw [if_neg hr]
  · intro i o
    exact main (newComputer [99] i o) { newComputer [99] i o with pc := 1 } 99 rfl rfl
      (by decide)

theorem halt_run_spec_witness :
    sampleHalt.running = true ∧ (parseOpcodeModes 1299).1 = 99
    ∧ sampleHalt.runProgram 1 = .returned { sampleHalt with pc := 1, running := false } :=
  ⟨by decide, by decide,
    (halt_run_spec sampleHalt { sampleHalt with pc := 1 } 1299 0 (by decide)
      (by decide)).2.1 (by decide)⟩

/-- C10: unknown opcode.  In a running state whose word at a valid `pc` decodes to a code
outside 1..9 and 99, `runProgram` panics with "unknown opcode" at that instruction; at
the panic memory, `relBase` and both channels are as before (only `pc` has moved past
the fetched word). -/
theorem unknown_opcode_spec (c c0 : computer) (w : Int) (fuel : Nat)
    (hrun : c.running = true)
    (hfetch : c.next = .ok w c0)
    (hcode : (parseOpcodeModes w).1 ≠ 1 ∧ (parseOpcodeModes w).1 ≠ 2
      ∧ (parseOpcodeModes w).1 ≠ 3 ∧ (parseOpcodeModes w).1 ≠ 4
      ∧ (parseOpcodeModes w).1 ≠ 5 ∧ (parseOpcodeModes w).1 ≠ 6
      ∧ (parseOpcodeModes w).1 ≠ 7 ∧ (parseOpcodeModes w).1 ≠ 8
      ∧ (parseOpcodeModes w).1 ≠ 9 ∧ (parseOpcodeModes w).1 ≠ 99) :
    c.runProgram (fuel + 1)
      = .fault (.unknownOpcode (parseOpcodeModes w).1) { c with pc := c.pc + 1 } := by
  obtain ⟨-, -, -, hc0⟩ := next_inv hfetch
  obtain ⟨h1, h2, h3, h4, h5, h6, h7, h8, h9, h99⟩ := hcode
  have hnone : opcodes (parseOpcodeModes w).1 = none := by
    unfold opcodes
    rw [if_neg h1, if_neg h2, if_neg h3, if_neg h4, if_neg h5, if_neg h6, if_neg h7,
      if_neg h8, if_neg h9, if_neg h99]
  have hstep : c.step
      = .fault (.unknownOpcode (parseOpcodeModes w).1) { c with pc := c.pc + 1 } := by
    rw [step_of_next hfetch, hnone, hc0]
  unfold computer.runProgram
  rw [if_pos hrun]
  simp only []
  rw [hstep]

theorem unknown_opcode_spec_witness :
    sampleUnknown.running = true
    ∧ sampleUnknown.runProgram 1
      = .fault (.unknownOpcode 55) { sampleUnknown with pc := 1 } :=
  ⟨by decide,
    unknown_opcode_spec sampleUnknown { sampleUnknown with pc := 1 } 155 0 (by decide)
      (by decide) (by decide)⟩

end Day11

namespace Day11
open Go

/-- C12 (as amended): out-of-bounds operand access within what `make` accepts is not a
fault.  With `w` the word at a valid `pc` and `A` the address resolved in position mode
(`A = w`) or relative mode (`A = w + relBase`, Go `int` addition), `A` non-negative: when
`A` is below the length of memory or the slice of `A + 1` cells can be made
(`A + 1 ≤ maxSliceLen`), `read` and `write` both return normally, and in the state they
leave `A` is a valid index of memory; for every other `A` both panic in `make`. -/
theorem oob_access_spec (c : computer) (w n : Int) (m : mode) (A : Int)
    (hpc0 : 0 ≤ c.pc) (hpc1 : c.pc < c.memory.length)
    (hw : c.memory[c.pc.toNat]? = some w)
    (hm : (m = modePosition ∧ A = w) ∨ (m = modeRelative ∧ A = wrapInt (w + c.relBase)))
    (hA : 0 ≤ A) :
    (A < c.memory.length ∨ A + 1 ≤ maxSliceLen →
      (∃ x c1, c.read m = .ok x c1 ∧ A < c1.memory.length)
      ∧ (∃ c1, c.write n m = .ok () c1 ∧ A < c1.memory.length))
    ∧ ((c.memory.length : Int) ≤ A → maxSliceLen < A + 1 → A ≤ 9223372036854775807 →
      c.read m = .fault .lenOutOfRange { c with pc := c.pc + 1 }
      ∧ c.write n m = .fault .lenOutOfRange { c with pc := c.pc + 1 }) := by
  have hn := next_of_get hpc0 hpc1 hw
  have hrd : c.read m = ({ c with pc := c.pc + 1 } : computer).load A := by
    rw [read_of_next hn]
    rcases hm with ⟨hm, rfl⟩ | ⟨hm, rfl⟩
    · subst hm
      rw [if_neg (by decide), if_pos rfl]
    · subst hm
      rw [if_neg (by decide), if_neg (by decide), if_pos rfl]
  have hwr : c.write n m = ({ c with pc := c.pc + 1 } : computer).store A n := by
    rw [write_of_next hn]
    rcases hm with ⟨hm, rfl⟩ | ⟨hm, rfl⟩
    · subst hm
      rw [if_neg (by decide), if_pos rfl]
    · subst hm
      rw [if_neg (by decide), if_neg (by decide), if_pos rfl]
  constructor
  · intro hg
    constructor
    · refine ⟨_, _, hrd.trans (load_ok ({ c with pc := c.pc + 1 } : computer) A hA hg), ?_⟩
      exact grown_length _ A hA
    · refine ⟨_, hwr.trans (store_ok ({ c with pc := c.pc + 1 } : computer) A n hA hg), ?_⟩
      show A < ((({ c with pc := c.pc + 1 } : computer).grown A).memory.set
        A.toNat n).length
      rw [List.length_set]
      exact grown_length _ A hA
  · intro h1 h2 h3
    exact ⟨hrd.trans (load_huge ({ c with pc := c.pc + 1 } : computer) A h1 h2 h3),
      hwr.trans (store_huge ({ c with pc := c.pc + 1 } : computer) A n h1 h2 h3)⟩

theorem oob_access_spec_witness :
    (0 ≤ sampleOperand.pc ∧ sampleOperand.pc < sampleOperand.memory.length
      ∧ sampleOperand.memory[sampleOperand.pc.toNat]? = some 3 ∧ (0 : Int) ≤ 5)
    ∧ (∃ x c1, sampleOperand.read modeRelative = .ok x c1 ∧ (5 : Int) < c1.memory.length)
    ∧ (∃ c1, sampleOperand.write 8 modeRelative = .ok () c1 ∧ (5 : Int) < c1.memory.length) :=
  ⟨by decide,
    (oob_access_spec sampleOperand 3 8 modeRelative 5 (by decide) (by decide) (by decide)
      (Or.inr (by decide)) (by decide)).1 (Or.inr (by decide))⟩

/-- C12 (counterexample): out-of-bounds operand access can fault.  In the state with
memory `[9223372036854775807]` and `pc = 0` the position-mode operand resolves to the
non-negative address `2^63 - 1`, and both `read` and `write` panic in `make`
(`makeslice: len out of range`); the same happens at the address `2^45`, where the
length `2^45 + 1` has not wrapped. -/
theorem oob_far_panics :
    sampleFar.pc = 0 ∧ sampleFar.memory = [9223372036854775807]
    ∧ sampleFar.read modePosition = .fault .lenOutOfRange { sampleFar with pc := 1 }
    ∧ sampleFar.write 8 modePosition = .fault .lenOutOfRange { sampleFar with pc := 1 }
    ∧ sampleLimit.memory = [35184372088832]
    ∧ sampleLimit.read modePosition = .fault .lenOutOfRange { sampleLimit with pc := 1 }
    ∧ sampleLimit.write 8 modePosition
        = .fault .lenOutOfRange { sampleLimit with pc := 1 } := by
  decide

/-- C13 (as amended): memory growth.  For `idx ≥ len(memory)` with `idx + 1` at most
`maxSliceLen`, `expandMemoryForIndex(idx)` returns and leaves a memory of length exactly
`idx + 1` that agrees with the old one below the old length and is 0 from the old length
up to `idx`, no other field of the machine being touched; for `idx < len(memory)` (in
particular `0 ≤ idx < len(memory)`) it returns and changes nothing; for a Go `int`
`idx ≥ len(memory)` with `idx + 1` above `maxSliceLen` it panics in `make` and changes
nothing; whatever the outcome, for a Go `int` `idx` the length never decreases, and no
field other than memory changes. -/
theorem expandMemoryForIndex_spec (c : computer) (idx : Int) :
    ((c.memory.length : Int) ≤ idx → idx + 1 ≤ maxSliceLen →
      ∃ c1, c.expandMemoryForIndex idx = .ok () c1
        ∧ (c1.memory.length : Int) = idx + 1
        ∧ (∀ i : Nat, i < c.memory.length → c1.memory[i]? = c.memory[i]?)
        ∧ (∀ i : Nat, c.memory.length ≤ i → (i : Int) ≤ idx → c1.memory[i]? = some 0)
        ∧ c1.pc = c.pc ∧ c1.relBase = c.relBase ∧ c1.input = c.input
        ∧ c1.output = c.output ∧ c1.running = c.running)
    ∧ (idx < c.memory.length → c.expandMemoryForIndex idx = .ok () c)
    ∧ ((c.memory.length : Int) ≤ idx → maxSliceLen < idx + 1 → idx ≤ 9223372036854775807 →
        c.expandMemoryForIndex idx = .fault .lenOutOfRange c)
    ∧ (idx ≤ 9223372036854775807 →
        c.memory.length ≤ (c.expandMemoryForIndex idx).state.memory.length)
    ∧ (c.expandMemoryForIndex idx).state.pc = c.pc
    ∧ (c.expandMemoryForIndex idx).state.relBase = c.relBase
    ∧ (c.expandMemoryForIndex idx).state.input = c.input
    ∧ (c.expandMemoryForIndex idx).state.output = c.output
    ∧ (c.expandMemoryForIndex idx).state.running = c.running := by
  have hmem := grown_memory c idx
  refine ⟨?_, ?_, ?_, ?_, expand_state c idx⟩
  · intro hge hmax
    refine ⟨c.grown idx, expand_ok c idx (Or.inr hmax), ?_, ?_, ?_, grown_frame c idx⟩
    · rw [hmem, List.length_append, List.length_replicate]
      omega
    · intro i hi
      rw [hmem, List.getElem?_append_left hi]
    · intro i h1 h2
      rw [hmem, List.getElem?_append_right h1, List.getElem?_replicate, if_pos (by omega)]
  · intro hlt
    unfold computer.expandMemoryForIndex
    rw [if_neg (by omega)]
  · intro h1 h2 h3
    exact expand_fault c idx h1 h2 h3
  · intro h3
    by_cases hlt : idx < c.memory.length
    · rw [expand_ok c idx (Or.inl hlt)]
      show c.memory.length ≤ (c.grown idx).memory.length
      rw [hmem, List.length_append]
      omega
    · by_cases hmax : idx + 1 ≤ maxSliceLen
      · rw [expand_ok c idx (Or.inr hmax)]
        show c.memory.length ≤ (c.grown idx).memory.length
        rw [hmem, List.length_append]
        omega
      · rw [expand_fault c idx (by omega) (by omega) h3]
        exact Nat.le_refl _

theorem expandMemoryForIndex_spec_witness :
    ((sampleOperand.memory.length : Int) ≤ 6 ∧ (6 : Int) + 1 ≤ maxSliceLen)
    ∧ (∃ c1, sampleOperand.expandMemoryForIndex 6 = .ok () c1
        ∧ (c1.memory.length : Int) = 6 + 1)
    ∧ ((2 : Int) < sampleOperand.memory.length)
    ∧ sampleOperand.expandMemoryForIndex 2 = .ok () sampleOperand := by
  obtain ⟨c1, h1, h2, -⟩ :=
    (expandMemoryForIndex_spec sampleOperand 6).1 (by decide) (by decide)
  exact ⟨⟨by decide, by decide⟩, ⟨c1, h1, h2⟩, by decide,
    (expandMemoryForIndex_spec sampleOperand 2).2.1 (by decide)⟩

/-- C13 (counterexample): for `idx ≥ len(memory)` the call does not always yield a memory
of length `idx + 1`.  On a one-cell memory `expandMemoryForIndex(2^63 - 1)` panics in
`make`, whose length `idx+1` has wrapped to `-2^63`, and `expandMemoryForIndex(2^45)`
panics because `2^45 + 1` cells are more than `make` accepts; memory keeps its one
cell. -/
theorem expand_far_panics :
    sampleFar.memory.length = 1
    ∧ sampleFar.expandMemoryForIndex 9223372036854775807 = .fault .lenOutOfRange sampleFar
    ∧ sampleFar.expandMemoryForIndex 35184372088832 = .fault .lenOutOfRange sampleFar
    ∧ sampleFar.expandMemoryForIndex 4
        = .ok () { sampleFar with memory := [9223372036854775807, 0, 0, 0, 0] } := by
  decide

/-- C14: negative addresses.  With `w` the word at a valid `pc` and `A` the address
resolved in position mode (`A = w`) or relative mode (`A = w + relBase`, Go `int`
addition), `A` negative: `read` and `write` panic (index out of range) instead of
returning a value or storing; at the panic the machine is the old one with `pc`
advanced past the fetched word, so memory is neither grown nor modified. -/
theorem negative_address_spec (c : computer) (w n : Int) (m : mode) (A : Int)
    (hpc0 : 0 ≤ c.pc) (hpc1 : c.pc < c.memory.length)
    (hw : c.memory[c.pc.toNat]? = some w)
    (hm : (m = modePosition ∧ A = w) ∨ (m = modeRelative ∧ A = wrapInt (w + c.relBase)))
    (hA : A < 0) :
    c.read m = .fault (.indexOutOfRange A) { c with pc := c.pc + 1 }
    ∧ c.write n m = .fault (.indexOutOfRange A) { c with pc := c.pc + 1 }
    ∧ (c.read m).state.memory = c.memory ∧ (c.write n m).state.memory = c.memory := by
  have hn := next_of_get hpc0 hpc1 hw
  have hrd : c.read m = .fault (.indexOutOfRange A) { c with pc := c.pc + 1 } := by
    rw [read_of_next hn]
    rcases hm with ⟨hm, rfl⟩ | ⟨hm, rfl⟩
    · subst hm
      rw [if_neg (by decide), if_pos rfl]
      exact load_neg _ _ hA
    · subst hm
      rw [if_neg (by decide), if_neg (by decide), if_pos rfl]
      exact load_neg _ _ hA
  have hwr : c.write n m = .fault (.indexOutOfRange A) { c with pc := c.pc + 1 } := by
    rw [write_of_next hn]
    rcases hm with ⟨hm, rfl⟩ | ⟨hm, rfl⟩
    · subst hm
      rw [if_neg (by decide), if_pos rfl]
      exact store_neg _ _ _ hA
    · subst hm
      rw [if_neg (by decide), if_neg (by decide), if_pos rfl]
      exact store_neg _ _ _ hA
  refine ⟨hrd, hwr, ?_, ?_⟩
  · rw [hrd]; rfl
  · rw [hwr]; rfl

theorem negative_address_spec_witness :
    (0 ≤ sampleNegative.pc ∧ sampleNegative.pc < sampleNegative.memory.length
      ∧ sampleNegative.memory[sampleNegative.pc.toNat]? = some (-3) ∧ (-1 : Int) < 0)
    ∧ sampleNegative.read modeRelative
        = .fault (.indexOutOfRange (-1)) { sampleNegative with pc := 2 }
    ∧ sampleNegative.write 8 modePosition
        = .fault (.indexOutOfRange (-3)) { sampleNegative with pc := 2 } :=
  ⟨by decide,
    (negative_address_spec sampleNegative (-3) 8 modeRelative (-1) (by decide) (by decide)
      (by decide) (Or.inr (by decide)) (by decide)).1,
    (negative_address_spec sampleNegative (-3) 8 modePosition (-3) (by decide) (by decide)
      (by decide) (Or.inl (by decide)) (by decide)).2.1⟩

end Day11

namespace Day11

theorem Close_free {rw : intBuffer} (hl : rw.locked = false) :
    rw.Close = .ok () ⟨rw.ints, true, false⟩ := by
  unfold intBuffer.Close intBuffer.Lock
  rw [hl]
  rfl

theorem writeAll_free (q vs : List Int) (cl : Bool) :
    (⟨q, cl, false⟩ : intBuffer).writeAll vs = .ok () ⟨q ++ vs, cl, false⟩ := by
  induction vs generalizing q with
  | nil => simp [intBuffer.writeAll]
  | cons v vs ih =>
    unfold intBuffer.writeAll
    rw [@WriteInt_free ⟨q, cl, false⟩ v rfl]
    simp only []
    rw [ih]
    simp

theorem readMany_free (q rest : List Int) (cl : Bool) :
    (⟨q ++ rest, cl, false⟩ : intBuffer).readMany q.length
      = .ok (q.map fun v => (v, true)) ⟨rest, cl, false⟩ := by
  induction q with
  | nil => simp [intBuffer.readMany]
  | cons v q ih =>
    show intBuffer.readMany ⟨v :: (q ++ rest), cl, false⟩ (q.length + 1) = _
    unfold intBuffer.readMany
    rw [@ReadInt_cons ⟨v :: (q ++ rest), cl, false⟩ v (q ++ rest) rfl rfl]
    simp only []
    rw [ih]
    rfl

theorem ReadInt_closed_empty :
    (⟨[], true, false⟩ : intBuffer).ReadInt = .ok (0, false) ⟨[], true, true⟩ := by
  rfl

end Day11

namespace Day7

theorem ReadInt_cons7 {rw : intBuffer} {x : Int} {rest : List Int} (hq : rw.ints = x :: rest)
    (hl : rw.locked = false) : rw.ReadInt = .ok x ⟨rest, false⟩ := by
  unfold intBuffer.ReadInt intBuffer.Lock
  rw [hl]
  simp only [Bool.false_eq_true, if_false]
  rw [hq]
  rfl

theorem WriteInt_free7 {rw : intBuffer} (n : Int) (hl : rw.locked = false) :
    rw.WriteInt n = .ok () ⟨rw.ints ++ [n], false⟩ := by
  unfold intBuffer.WriteInt intBuffer.Lock
  rw [hl]
  rfl

theorem writeAll_free7 (q vs : List Int) :
    (⟨q, false⟩ : intBuffer).writeAll vs = .ok () ⟨q ++ vs, false⟩ := by
  induction vs generalizing q with
  | nil => simp [intBuffer.writeAll]
  | cons v vs ih =>
    unfold intBuffer.writeAll
    rw [@WriteInt_free7 ⟨q, false⟩ v rfl]
    simp only []
    rw [ih]
    simp

theorem readMany_free7 (q rest : List Int) :
    (⟨q ++ rest, false⟩ : intBuffer).readMany q.length = .ok q ⟨rest, false⟩ := by
  induction q with
  | nil => simp [intBuffer.readMany]
  | cons v q ih =>
    show intBuffer.readMany ⟨v :: (q ++ rest), false⟩ (q.length + 1) = _
    unfold intBuffer.readMany
    rw [@ReadInt_cons7 ⟨v :: (q ++ rest), false⟩ v (q ++ rest) rfl rfl]
    simp only []
    rw [ih]

end Day7

/-- C15: the channel is first-in-first-out, in the closable variant (day 11) and the
plain one (day 7).  With the mutex free at the call: `WriteInt(v)` returns and leaves the
queue `q ++ [v]`, whether the buffer is open or closed; `ReadInt` on a queue `x :: rest`
returns `x` (with presence `true` on day 11) and leaves `rest`; hence writing `v1..vk` to
an empty channel and reading `k` times returns `v1, ..., vk` in that order. -/
theorem channel_fifo_spec :
    (∀ (rw : Day11.intBuffer) (v : Int), rw.locked = false →
      rw.WriteInt v = .ok () ⟨rw.ints ++ [v], rw.closed, false⟩)
    ∧ (∀ (rw : Day11.intBuffer) (x : Int) (rest : List Int), rw.ints = x :: rest →
      rw.locked = false → rw.ReadInt = .ok (x, true) ⟨rest, rw.closed, false⟩)
    ∧ (∀ (cl : Bool) (vs : List Int),
      (⟨[], cl, false⟩ : Day11.intBuffer).writeAll vs = .ok () ⟨vs, cl, false⟩
      ∧ (⟨vs, cl, false⟩ : Day11.intBuffer).readMany vs.length
          = .ok (vs.map fun v => (v, true)) ⟨[], cl, false⟩)
    ∧ (∀ (rw : Day7.intBuffer) (v : Int), rw.locked = false →
      rw.WriteInt v = .ok () ⟨rw.ints ++ [v], false⟩)
    ∧ (∀ (rw : Day7.intBuffer) (x : Int) (rest : List Int), rw.ints = x :: rest →
      rw.locked = false → rw.ReadInt = .ok x ⟨rest, false⟩)
    ∧ (∀ vs : List Int,
      (⟨[], false⟩ : Day7.intBuffer).writeAll vs = .ok () ⟨vs, false⟩
      ∧ (⟨vs, false⟩ : Day7.intBuffer).readMany vs.length = .ok vs ⟨[], false⟩) := by
  refine ⟨fun rw v hl => Day11.WriteInt_free v hl, fun rw x rest hq hl => Day11.ReadInt_cons hq hl,
    ?_, fun rw v hl => Day7.WriteInt_free7 v hl, fun rw x rest hq hl => Day7.ReadInt_cons7 hq hl,
    ?_⟩
  · intro cl vs
    constructor
    · have := Day11.writeAll_free [] vs cl
      simpa using this
    · have := Day11.readMany_free vs [] cl
      simpa using this
  · intro vs
    constructor
    · have := Day7.writeAll_free7 [] vs
      simpa using this
    · have := Day7.readMany_free7 vs []
      simpa using this

theorem channel_fifo_spec_witness :
    ((⟨[4], true, false⟩ : Day11.intBuffer).locked = false
      ∧ (⟨[4], true, false⟩ : Day11.intBuffer).WriteInt 7 = .ok () ⟨[4, 7], true, false⟩)
    ∧ ((⟨[4, 7], false⟩ : Day7.intBuffer).ints = 4 :: [7]
      ∧ (⟨[4, 7], false⟩ : Day7.intBuffer).ReadInt = .ok 4 ⟨[7], false⟩)
    ∧ (⟨[1, 2, 3], false, false⟩ : Day11.intBuffer).readMany 3
        = .ok [(1, true), (2, true), (3, true)] ⟨[], false, false⟩ :=
  ⟨⟨rfl, channel_fifo_spec.1 ⟨[4], true, false⟩ 7 rfl⟩,
    ⟨rfl, channel_fifo_spec.2.2.2.2.1 ⟨[4, 7], false⟩ 4 [7] rfl rfl⟩,
    (channel_fifo_spec.2.2.1 false [1, 2, 3]).2⟩

namespace Day11

/-- C16: closing.  On a buffer with queue `q` (mutex free), `Close` returns, sets the
closed flag and leaves `q` unchanged; the next `len(q)` reads return the elements of `q`
in order, each with presence `true`, and the read after them returns `(0, false)`
instead of waiting. -/
theorem close_spec (rw : intBuffer) (hl : rw.locked = false) :
    rw.Close = .ok () ⟨rw.ints, true, false⟩
    ∧ (⟨rw.ints, true, false⟩ : intBuffer).readMany rw.ints.length
        = .ok (rw.ints.map fun v => (v, true)) ⟨[], true, false⟩
    ∧ (⟨[], true, false⟩ : intBuffer).ReadInt = .ok (0, false) ⟨[], true, true⟩
    ∧ (⟨rw.ints, true, false⟩ : intBuffer).readMany (rw.ints.length + 1)
        = .ok ((rw.ints.map fun v => (v, true)) ++ [(0, false)]) ⟨[], true, true⟩ := by
  have h1 := readMany_free rw.ints [] true
  rw [List.append_nil] at h1
  refine ⟨Close_free hl, h1, ReadInt_closed_empty, ?_⟩
  generalize rw.ints = q
  induction q with
  | nil => rfl
  | cons v q ih =>
    show intBuffer.readMany ⟨v :: q, true, false⟩ (q.length + 1 + 1) = _
    unfold intBuffer.readMany
    rw [@ReadInt_cons ⟨v :: q, true, false⟩ v q rfl rfl]
    simp only []
    rw [ih]
    rfl

theorem close_spec_witness :
    (⟨[5, 6], false, false⟩ : intBuffer).locked = false
    ∧ (⟨[5, 6], false, false⟩ : intBuffer).Close = .ok () ⟨[5, 6], true, false⟩
    ∧ (⟨[5, 6], true, false⟩ : intBuffer).readMany 3
        = .ok [(5, true), (6, true), (0, false)] ⟨[], true, true⟩ :=
  ⟨rfl, (close_spec ⟨[5, 6], false, false⟩ rfl).1,
    (close_spec ⟨[5, 6], false, false⟩ rfl).2.2.2⟩

theorem return_paths_unlock :
    (∀ (rw rw1 : intBuffer) (v : Int), rw.WriteInt v = .ok () rw1 → rw1.locked = false)
    ∧ (∀ rw rw1 : intBuffer, rw.Close = .ok () rw1 → rw1.locked = false)
    ∧ (∀ (rw rw1 : intBuffer) (x : Int), rw.ReadInt = .ok (x, true) rw1 →
        rw1.locked = false) := by
  refine ⟨?_, ?_, ?_⟩
  · intro rw rw1 v h
    unfold intBuffer.WriteInt intBuffer.Lock at h
    split at h
    · cases h
    · rename_i rw2 heq
      cases h
      rfl
  · intro rw rw1 h
    unfold intBuffer.Close intBuffer.Lock at h
    split at h
    · cases h
    · cases h
      rfl
  · intro rw rw1 x h
    unfold intBuffer.ReadInt intBuffer.Lock at h
    split at h
    · cases h
    · rename_i rw2 heq
      split at h
      · split at h <;> cases h
      · cases h
        rfl

/-- C17 (what the code does): `ReadInt` on a closed, empty buffer whose mutex is free
returns `(0, false)` through the early `return` and leaves the mutex held; from then on a
second `ReadInt`, a `WriteInt` and a `Close` on that buffer never return. -/
theorem readInt_closed_empty_leaks_mutex :
    (⟨[], true, false⟩ : intBuffer).ReadInt = .ok (0, false) ⟨[], true, true⟩
    ∧ (⟨[], true, true⟩ : intBuffer).ReadInt = .blocked ⟨[], true, true⟩
    ∧ (∀ v : Int, (⟨[], true, true⟩ : intBuffer).WriteInt v = .blocked ⟨[], true, true⟩)
    ∧ (⟨[], true, true⟩ : intBuffer).Close = .blocked ⟨[], true, true⟩
    ∧ (⟨[], true, false⟩ : intBuffer).readMany 2 = .blocked ⟨[], true, true⟩ :=
  ⟨rfl, rfl, fun _ => rfl, rfl, rfl⟩

end Day11

namespace Day11

theorem next_not_blocked11 (c : computer) (c1 : computer) : c.next ≠ .blocked c1 := by
  unfold computer.next
  split <;> intro h <;> cases h

theorem next_cases11 (c : computer) :
    (∃ w, c.next = .ok w { c with pc := c.pc + 1 }) ∨ (∃ f, c.next = .fault f c) := by
  unfold computer.next
  split
  · exact Or.inr ⟨_, rfl⟩
  · exact Or.inl ⟨_, rfl⟩

theorem step_unfold11 {c c0 : computer} {w : Int} (h : c.next = .ok w c0) :
    c.step = match opcodes (parseOpcodeModes w).1 with
      | none => .fault (.unknownOpcode (parseOpcodeModes w).1) c0
      | some op => op c0 (parseOpcodeModes w).2 := by
  unfold computer.step
  rw [h]
  rfl

theorem write_immediate_fault11 (c : computer) (n : Int) :
    ∃ f c1, c.write n modeImmediate = .fault f c1 ∧ c1.memory = c.memory
      ∧ c1.relBase = c.relBase := by
  rcases next_cases11 c with ⟨w, hw⟩ | ⟨f, hf⟩
  · refine ⟨.immediateWrite, { c with pc := c.pc + 1 }, ?_, rfl, rfl⟩
    unfold computer.write
    rw [hw]
    rfl
  · refine ⟨f, c, ?_, rfl, rfl⟩
    unfold computer.write
    rw [hf]
    rfl

theorem load_not_blocked11 (c : computer) (idx : Int) (c1 : computer) :
    c.load idx ≠ .blocked c1 := by
  unfold computer.load computer.expandMemoryForIndex
  intro h
  split at h
  · split at h
    · cases h
    · simp only [Res.bind] at h
      split at h <;> cases h
  · simp only [Res.bind] at h
    split at h <;> cases h

theorem read_not_blocked11 (c : computer) (m : mode) (c1 : computer) :
    c.read m ≠ .blocked c1 := by
  unfold computer.read
  rcases next_cases11 c with ⟨w, hw⟩ | ⟨f, hf⟩
  · rw [hw]
    show (if m = modeImmediate then Res.ok w _
      else if m = modePosition then computer.load _ w
      else if m = modeRelative then computer.load _ _
      else Res.fault (.unknownMode m) _) ≠ _
    split
    · intro h; cases h
    · split
      · exact load_not_blocked11 _ _ _
      · split
        · exact load_not_blocked11 _ _ _
        · intro h; cases h
  · rw [hf]
    intro h
    cases h

theorem bind_read_fault11 (c : computer) (m : mode) (k : Int → computer → Res Unit)
    (hk : ∀ a c1, ∃ f c2, k a c1 = .fault f c2) :
    ∃ f c2, (c.read m).bind k = .fault f c2 := by
  cases h : c.read m with
  | ok a c1 => exact hk a c1
  | fault f c1 => exact ⟨f, c1, rfl⟩
  | blocked c1 => exact absurd h (read_not_blocked11 c m c1)

theorem alu_immediate_fault11 {c c0 : computer} {w : Int} (hfetch : c.next = .ok w c0)
    (hcode : (parseOpcodeModes w).1 = 1 ∨ (parseOpcodeModes w).1 = 2
      ∨ (parseOpcodeModes w).1 = 7 ∨ (parseOpcodeModes w).1 = 8)
    (hm : paramMode w 3 2 = modeImmediate) :
    ∃ f c1, c.step = .fault f c1 := by
  rw [step_unfold11 hfetch]
  rcases hcode with h | h | h | h
  · rw [h]
    show ∃ f c1, ((c0.read (paramMode w 3 0)).bind fun a c =>
      (c.read (paramMode w 3 1)).bind fun b c =>
        c.write (Go.wrapInt (a + b)) (paramMode w 3 2)) = .fault f c1
    rw [hm]
    refine bind_read_fault11 _ _ _ fun a c1 => bind_read_fault11 _ _ _ fun b c2 => ?_
    obtain ⟨f, c3, h3, -⟩ := write_immediate_fault11 c2 (Go.wrapInt (a + b))
    exact ⟨f, c3, h3⟩
  · rw [h]
    show ∃ f c1, ((c0.read (paramMode w 3 0)).bind fun a c =>
      (c.read (paramMode w 3 1)).bind fun b c =>
        c.write (Go.wrapInt (a * b)) (paramMode w 3 2)) = .fault f c1
    rw [hm]
    refine bind_read_fault11 _ _ _ fun a c1 => bind_read_fault11 _ _ _ fun b c2 => ?_
    obtain ⟨f, c3, h3, -⟩ := write_immediate_fault11 c2 (Go.wrapInt (a * b))
    exact ⟨f, c3, h3⟩
  · rw [h]
    show ∃ f c1, ((c0.read (paramMode w 3 0)).bind fun a c =>
      (c.read (paramMode w 3 1)).bind fun b c =>
        if a < b then c.write 1 (paramMode w 3 2) else c.write 0 (paramMode w 3 2))
          = .fault f c1
    rw [hm]
    refine bind_read_fault11 _ _ _ fun a c1 => bind_read_fault11 _ _ _ fun b c2 => ?_
    show ∃ f c3, (if a < b then c2.write 1 modeImmediate else c2.write 0 modeImmediate)
      = .fault f c3
    split
    · obtain ⟨f, c3, h3, -⟩ := write_immediate_fault11 c2 1
      exact ⟨f, c3, h3⟩
    · obtain ⟨f, c3, h3, -⟩ := write_immediate_fault11 c2 0
      exact ⟨f, c3, h3⟩
  · rw [h]
    show ∃ f c1, ((c0.read (paramMode w 3 0)).bind fun a c =>
      (c.read (paramMode w 3 1)).bind fun b c =>
        if a = b then c.write 1 (paramMode w 3 2) else c.write 0 (paramMode w 3 2))
          = .fault f c1
    rw [hm]
    refine bind_read_fault11 _ _ _ fun a c1 => bind_read_fault11 _ _ _ fun b c2 => ?_
    show ∃ f c3, (if a = b then c2.write 1 modeImmediate else c2.write 0 modeImmediate)
      = .fault f c3
    split
    · obtain ⟨f, c3, h3, -⟩ := write_immediate_fault11 c2 1
      exact ⟨f, c3, h3⟩
    · obtain ⟨f, c3, h3, -⟩ := write_immediate_fault11 c2 0
      exact ⟨f, c3, h3⟩

theorem input_immediate_outcome11 {c c0 : computer} {w : Int} (hfetch : c.next = .ok w c0)
    (hcode : (parseOpcodeModes w).1 = 3) (hm : paramMode w 1 0 = modeImmediate) :
    (∀ c1, c.step ≠ .ok () c1)
    ∧ (∀ r rw, c.input.ReadInt = .ok r rw → ∃ f c1, c.step = .fault f c1)
    ∧ (∀ rw, c.input.ReadInt = .blocked rw → ∃ c1, c.step = .blocked c1) := by
  have hin : c0.input = c.input := by
    rcases next_cases11 c with ⟨w1, hw1⟩ | ⟨f, hf⟩
    · rw [hw1] at hfetch
      cases hfetch
      rfl
    · rw [hf] at hfetch
      cases hfetch
  have hstep : c.step = match c.input.ReadInt with
      | .blocked rw => .blocked { c0 with input := rw }
      | .ok (n, _) rw => ({ c0 with input := rw } : computer).write n modeImmediate := by
    rw [step_unfold11 hfetch, hcode, ← hin, ← hm]
    rfl
  refine ⟨?_, ?_, ?_⟩
  · intro c1 h
    rw [hstep] at h
    cases hr : c.input.ReadInt with
    | blocked rw =>
      rw [hr] at h
      cases h
    | ok r rw =>
      rw [hr] at h
      obtain ⟨f, c3, h3, -⟩ := write_immediate_fault11 ({ c0 with input := rw } : computer) r.1
      simp only [] at h
      rw [h3] at h
      cases h
  · intro r rw hr
    rw [hstep, hr]
    obtain ⟨f, c3, h3, -⟩ := write_immediate_fault11 ({ c0 with input := rw } : computer) r.1
    exact ⟨f, c3, h3⟩
  · intro rw hr
    rw [hstep, hr]
    exact ⟨_, rfl⟩

end Day11

namespace Day13

theorem next_not_blocked13 (c : computer) (c1 : computer) : c.next ≠ .blocked c1 := by
  unfold computer.next
  split <;> intro h <;> cases h

theorem next_cases13 (c : computer) :
    (∃ w, c.next = .ok w { c with pc := c.pc + 1 }) ∨ (∃ f, c.next = .fault f c) := by
  unfold computer.next
  split
  · exact Or.inr ⟨_, rfl⟩
  · exact Or.inl ⟨_, rfl⟩

theorem step_unfold13 {c c0 : computer} {w : Int} (h : c.next = .ok w c0) :
    c.step = match opcodes (parseOpcodeModes w).1 with
      | none => .fault (.unknownOpcode (parseOpcodeModes w).1) c0
      | some op => op c0 (parseOpcodeModes w).2 := by
  unfold computer.step
  rw [h]
  rfl

theorem write_immediate_fault13 (c : computer) (n : Int) :
    ∃ f c1, c.write n modeImmediate = .fault f c1 ∧ c1.memory = c.memory
      ∧ c1.relBase = c.relBase := by
  rcases next_cases13 c with ⟨w, hw⟩ | ⟨f, hf⟩
  · refine ⟨.immediateWrite, { c with pc := c.pc + 1 }, ?_, rfl, rfl⟩
    unfold computer.write
    rw [hw]
    rfl
  · refine ⟨f, c, ?_, rfl, rfl⟩
    unfold computer.write
    rw [hf]
    rfl

theorem load_not_blocked13 (c : computer) (idx : Int) (c1 : computer) :
    c.load idx ≠ .blocked c1 := by
  unfold computer.load computer.expandMemoryForIndex
  intro h
  split at h
  · split at h
    · cases h
    · simp only [Res.bind] at h
      split at h <;> cases h
  · simp only [Res.bind] at h
    split at h <;> cases h

theorem read_not_blocked13 (c : computer) (m : mode) (c1 : computer) :
    c.read m ≠ .blocked c1 := by
  unfold computer.read
  rcases next_cases13 c with ⟨w, hw⟩ | ⟨f, hf⟩
  · rw [hw]
    show (if m = modeImmediate then Res.ok w _
      else if m = modePosition then computer.load _ w
      else if m = modeRelative then computer.load _ _
      else Res.fault (.unknownMode m) _) ≠ _
    split
    · intro h; cases h
    · split
      · exact load_not_blocked13 _ _ _
      · split
        · exact load_not_blocked13 _ _ _
        · intro h; cases h
  · rw [hf]
    intro h
    cases h

theorem bind_read_fault13 (c : computer) (m : mode) (k : Int → computer → Res Unit)
    (hk : ∀ a c1, ∃ f c2, k a c1 = .fault f c2) :
    ∃ f c2, (c.read m).bind k = .fault f c2 := by
  cases h : c.read m with
  | ok a c1 => exact hk a c1
  | fault f c1 => exact ⟨f, c1, rfl⟩
  | blocked c1 => exact absurd h (read_not_blocked13 c m c1)

theorem alu_immediate_fault13 {c c0 : computer} {w : Int} (hfetch : c.next = .ok w c0)
    (hcode : (parseOpcodeModes w).1 = 1 ∨ (parseOpcodeModes w).1 = 2
      ∨ (parseOpcodeModes w).1 = 7 ∨ (parseOpcodeModes w).1 = 8)
    (hm : paramMode w 3 2 = modeImmediate) :
    ∃ f c1, c.step = .fault f c1 := by
  rw [step_unfold13 hfetch]
  rcases hcode with h | h | h | h
  · rw [h]
    show ∃ f c1, ((c0.read (paramMode w 3 0)).bind fun a c =>
      (c.read (paramMode w 3 1)).bind fun b c =>
        c.write (Go.wrapInt (a + b)) (paramMode w 3 2)) = .fault f c1
    rw [hm]
    refine bind_read_fault13 _ _ _ fun a c1 => bind_read_fault13 _ _ _ fun b c2 => ?_
    obtain ⟨f, c3, h3, -⟩ := write_immediate_fault13 c2 (Go.wrapInt (a + b))
    exact ⟨f, c3, h3⟩
  · rw [h]
    show ∃ f c1, ((c0.read (paramMode w 3 0)).bind fun a c =>
      (c.read (paramMode w 3 1)).bind fun b c =>
        c.write (Go.wrapInt (a * b)) (paramMode w 3 2)) = .fault f c1
    rw [hm]
    refine bind_read_fault13 _ _ _ fun a c1 => bind_read_fault13 _ _ _ fun b c2 => ?_
    obtain ⟨f, c3, h3, -⟩ := write_immediate_fault13 c2 (Go.wrapInt (a * b))
    exact ⟨f, c3, h3⟩
  · rw [h]
    show ∃ f c1, ((c0.read (paramMode w 3 0)).bind fun a c =>
      (c.read (paramMode w 3 1)).bind fun b c =>
        if a < b then c.write 1 (paramMode w 3 2) else c.write 0 (paramMode w 3 2))
          = .fault f c1
    rw [hm]
    refine bind_read_fault13 _ _ _ fun a c1 => bind_read_fault13 _ _ _ fun b c2 => ?_
    show ∃ f c3, (if a < b then c2.write 1 modeImmediate else c2.write 0 modeImmediate)
      = .fault f c3
    split
    · obtain ⟨f, c3, h3, -⟩ := write_immediate_fault13 c2 1
      exact ⟨f, c3, h3⟩
    · obtain ⟨f, c3, h3, -⟩ := write_immediate_fault13 c2 0
      exact ⟨f, c3, h3⟩
  · rw [h]
    show ∃ f c1, ((c0.read (paramMode w 3 0)).bind fun a c =>
      (c.read (paramMode w 3 1)).bind fun b c =>
        if a = b then c.write 1 (paramMode w 3 2) else c.write 0 (paramMode w 3 2))
          = .fault f c1
    rw [hm]
    refine bind_read_fault13 _ _ _ fun a c1 => bind_read_fault13 _ _ _ fun b c2 => ?_
    show ∃ f c3, (if a = b then c2.write 1 modeImmediate else c2.write 0 modeImmediate)
      = .fault f c3
    split
    · obtain ⟨f, c3, h3, -⟩ := write_immediate_fault13 c2 1
      exact ⟨f, c3, h3⟩
    · obtain ⟨f, c3, h3, -⟩ := write_immediate_fault13 c2 0
      exact ⟨f, c3, h3⟩

theorem input_immediate_outcome13 {c c0 : computer} {w : Int} (hfetch : c.next = .ok w c0)
    (hcode : (parseOpcodeModes w).1 = 3) (hm : paramMode w 1 0 = modeImmediate) :
    (∀ c1, c.step ≠ .ok () c1)
    ∧ (∀ r rw, c.input.ReadInt = .ok r rw → ∃ f c1, c.step = .fault f c1)
    ∧ (∀ rw, c.input.ReadInt = .blocked rw → ∃ c1, c.step = .blocked c1) := by
  have hin : c0.input = c.input := by
    rcases next_cases13 c with ⟨w1, hw1⟩ | ⟨f, hf⟩
    · rw [hw1] at hfetch
      cases hfetch
      rfl
    · rw [hf] at hfetch
      cases hfetch
  have hstep : c.step = match c.input.ReadInt with
      | .blocked rw => .blocked { c0 with input := rw }
      | .ok n rw => ({ c0 with input := rw } : computer).write n modeImmediate := by
    rw [step_unfold13 hfetch, hcode, ← hin, ← hm]
    rfl
  refine ⟨?_, ?_, ?_⟩
  · intro c1 h
    rw [hstep] at h
    cases hr : c.input.ReadInt with
    | blocked rw =>
      rw [hr] at h
      cases h
    | ok r rw =>
      rw [hr] at h
      obtain ⟨f, c3, h3, -⟩ := write_immediate_fault13 ({ c0 with input := rw } : computer) r
      simp only [] at h
      rw [h3] at h
      cases h
  · intro r rw hr
    rw [hstep, hr]
    obtain ⟨f, c3, h3, -⟩ := write_immediate_fault13 ({ c0 with input := rw } : computer) r
    exact ⟨f, c3, h3⟩
  · intro rw hr
    rw [hstep, hr]
    exact ⟨_, rfl⟩

end Day13

/-- C11 (as amended): writing in immediate mode.  On both nine-opcode machines
`write(n, immediate)` panics in every state and stores nothing: memory is exactly as
before.  Consequently an instruction with code 1, 2, 7 or 8 whose third mode digit is 1
panics; an instruction with code 3 whose mode digit is 1 never completes: it panics as
soon as its read of the input channel has returned, and it stays blocked, without a
panic, while that read is blocked. -/
theorem write_immediate_spec :
    (∀ (c : Day11.computer) (n : Int),
      ∃ f c1, c.write n Day11.modeImmediate = .fault f c1 ∧ c1.memory = c.memory)
    ∧ (∀ (c : Day13.computer) (n : Int),
      ∃ f c1, c.write n Day13.modeImmediate = .fault f c1 ∧ c1.memory = c.memory)
    ∧ (∀ (c c0 : Day11.computer) (w : Int), c.next = .ok w c0 →
      ((Day11.parseOpcodeModes w).1 = 1 ∨ (Day11.parseOpcodeModes w).1 = 2
        ∨ (Day11.parseOpcodeModes w).1 = 7 ∨ (Day11.parseOpcodeModes w).1 = 8) →
      Day11.paramMode w 3 2 = Day11.modeImmediate → ∃ f c1, c.step = .fault f c1)
    ∧ (∀ (c c0 : Day13.computer) (w : Int), c.next = .ok w c0 →
      ((Day13.parseOpcodeModes w).1 = 1 ∨ (Day13.parseOpcodeModes w).1 = 2
        ∨ (Day13.parseOpcodeModes w).1 = 7 ∨ (Day13.parseOpcodeModes w).1 = 8) →
      Day13.paramMode w 3 2 = Day13.modeImmediate → ∃ f c1, c.step = .fault f c1)
    ∧ (∀ (c c0 : Day11.computer) (w : Int), c.next = .ok w c0 →
      (Day11.parseOpcodeModes w).1 = 3 → Day11.paramMode w 1 0 = Day11.modeImmediate →
      (∀ c1, c.step ≠ .ok () c1)
      ∧ (∀ r rw, c.input.ReadInt = .ok r rw → ∃ f c1, c.step = .fault f c1)
      ∧ (∀ rw, c.input.ReadInt = .blocked rw → ∃ c1, c.step = .blocked c1))
    ∧ (∀ (c c0 : Day13.computer) (w : Int), c.next = .ok w c0 →
      (Day13.parseOpcodeModes w).1 = 3 → Day13.paramMode w 1 0 = Day13.modeImmediate →
      (∀ c1, c.step ≠ .ok () c1)
      ∧ (∀ r rw, c.input.ReadInt = .ok r rw → ∃ f c1, c.step = .fault f c1)
      ∧ (∀ rw, c.input.ReadInt = .blocked rw → ∃ c1, c.step = .blocked c1)) := by
  refine ⟨?_, ?_, ?_, ?_, ?_, ?_⟩
  · intro c n
    obtain ⟨f, c1, h1, h2, -⟩ := Day11.write_immediate_fault11 c n
    exact ⟨f, c1, h1, h2⟩
  · intro c n
    obtain ⟨f, c1, h1, h2, -⟩ := Day13.write_immediate_fault13 c n
    exact ⟨f, c1, h1, h2⟩
  · intro c c0 w hf hc hm
    exact Day11.alu_immediate_fault11 hf hc hm
  · intro c c0 w hf hc hm
    exact Day13.alu_immediate_fault13 hf hc hm
  · intro c c0 w hf hc hm
    exact Day11.input_immediate_outcome11 hf hc hm
  · intro c c0 w hf hc hm
    exact Day13.input_immediate_outcome13 hf hc hm

theorem write_immediate_spec_witness :
    (Day11.sampleAddImm.next = .ok 10001 { Day11.sampleAddImm with pc := 1 }
      ∧ (Day11.parseOpcodeModes 10001).1 = 1
      ∧ Day11.paramMode 10001 3 2 = Day11.modeImmediate
      ∧ ∃ f c1, Day11.sampleAddImm.step = .fault f c1)
    ∧ (Day13.sampleInputImm.next = .ok 103 { Day13.sampleInputImm with pc := 1 }
      ∧ (Day13.parseOpcodeModes 103).1 = 3
      ∧ Day13.paramMode 103 1 0 = Day13.modeImmediate
      ∧ Day13.sampleInputImm.input.ReadInt = .ok 7 ⟨[], false⟩
      ∧ ∃ f c1, Day13.sampleInputImm.step = .fault f c1) :=
  ⟨⟨by decide, by decide, by decide,
      write_immediate_spec.2.2.1 Day11.sampleAddImm { Day11.sampleAddImm with pc := 1 } 10001
        (by decide) (Or.inl (by decide)) (by decide)⟩,
    ⟨by decide, by decide, by decide, by decide,
      (write_immediate_spec.2.2.2.2.2 Day13.sampleInputImm
        { Day13.sampleInputImm with pc := 1 } 103 (by decide) (by decide) (by decide)).2.1
        7 ⟨[], false⟩ (by decide)⟩⟩

/-- C11 (counterexample): on day 11 the instruction `103` (code 3, target mode digit 1)
executed with an open, empty input channel does not panic: it blocks in `ReadInt`. -/
theorem input_immediate_blocks :
    (Day11.parseOpcodeModes 103).1 = 3
    ∧ Day11.paramMode 103 1 0 = Day11.modeImmediate
    ∧ Day11.sampleInputImm.step = .blocked { Day11.sampleInputImm with pc := 1 }
    ∧ ¬ ∃ f c1, Day11.sampleInputImm.step = .fault f c1 := by
  refine ⟨by decide, by decide, by decide, ?_⟩
  rintro ⟨f, c1, h⟩
  have hb : Day11.sampleInputImm.step = .blocked { Day11.sampleInputImm with pc := 1 } := by
    decide
  rw [hb] at h
  cases h

namespace Day2

theorem runLoop_running2 (fuel : Nat) (c : computer) (h : c.running = true) :
    c.runLoop (fuel + 1) = match c.step with
      | .ok _ c1 => computer.runLoop fuel c1
      | .fault f c1 => .fault f c1 := by
  conv_lhs => unfold computer.runLoop
  rw [if_pos h]

theorem runLoop_halted2 (fuel : Nat) (c : computer) (h : c.running = false) :
    c.runLoop fuel = .returned c := by
  unfold computer.runLoop
  rw [if_neg (by simp [h])]

end Day2

namespace Day7

theorem runProgram_running7 (fuel : Nat) (c : computer) (hp : Heap) (h : c.running = true) :
    c.runProgram (fuel + 1) hp = match c.step hp with
      | .ok _ c1 h1 => computer.runProgram fuel c1 h1
      | .fault f c1 h1 => .fault f c1 h1
      | .blocked c1 h1 => .blocked c1 h1 := by
  conv_lhs => unfold computer.runProgram
  rw [if_pos h]

theorem runProgram_halted7 (fuel : Nat) (c : computer) (hp : Heap) (h : c.running = false) :
    c.runProgram fuel hp = .returned c hp := by
  unfold computer.runProgram
  rw [if_neg (by simp [h])]

end Day7

namespace Day11

theorem runProgram_running11 (fuel : Nat) (c : computer) (h : c.running = true) :
    c.runProgram (fuel + 1) = match c.step with
      | .ok _ c1 => computer.runProgram fuel c1
      | .fault f c1 => .fault f c1
      | .blocked c1 => .blocked c1 := by
  conv_lhs => unfold computer.runProgram
  rw [if_pos h]

theorem runProgram_halted11 (fuel : Nat) (c : computer) (h : c.running = false) :
    c.runProgram fuel = .returned c := by
  unfold computer.runProgram
  rw [if_neg (by simp [h])]

end Day11

/-- C20: the program `[1,0,0,0,99]` on the three machines.  On the two-opcode machine
(started by `tryWithInputs(prg, 0, 0)`), the eight-opcode machine (day 7) and the
nine-opcode machine (day 11): the first instruction leaves memory `[2,0,0,0,99]`
(cell 0 is the self-add 1+1), the run then halts at the `99` with that memory, and
`tryWithInputs` returns 2. -/
theorem self_add_spec :
    (Day2.tryInit [1, 0, 0, 0, 99] 0 0 = .ok () ⟨0, [1, 0, 0, 0, 99], true⟩
      ∧ (⟨0, [1, 0, 0, 0, 99], true⟩ : Day2.computer).step
          = .ok () ⟨4, [2, 0, 0, 0, 99], true⟩
      ∧ (∀ fuel : Nat, (⟨0, [1, 0, 0, 0, 99], true⟩ : Day2.computer).runLoop (fuel + 2)
          = .returned ⟨5, [2, 0, 0, 0, 99], false⟩)
      ∧ (∀ fuel : Nat, Day2.tryWithInputs (fuel + 2) [1, 0, 0, 0, 99] 0 0 = .returned 2))
    ∧ (∀ (i o : Nat) (h : Day7.Heap),
        (Day7.newComputer [1, 0, 0, 0, 99] i o).step h
          = .ok () ⟨4, [2, 0, 0, 0, 99], i, o, true⟩ h
        ∧ ∀ fuel : Nat, (Day7.newComputer [1, 0, 0, 0, 99] i o).runProgram (fuel + 2) h
          = .returned ⟨5, [2, 0, 0, 0, 99], i, o, false⟩ h)
    ∧ (∀ i o : Day11.intBuffer,
        (Day11.newComputer [1, 0, 0, 0, 99] i o).step
          = .ok () ⟨4, 0, [2, 0, 0, 0, 99], i, o, true⟩
        ∧ ∀ fuel : Nat, (Day11.newComputer [1, 0, 0, 0, 99] i o).runProgram (fuel + 2)
          = .returned ⟨5, 0, [2, 0, 0, 0, 99], i, o, false⟩) := by
  have a1 : (⟨0, [1, 0, 0, 0, 99], true⟩ : Day2.computer).step
      = .ok () ⟨4, [2, 0, 0, 0, 99], true⟩ := by decide
  have a2 : (⟨4, [2, 0, 0, 0, 99], true⟩ : Day2.computer).step
      = .ok () ⟨5, [2, 0, 0, 0, 99], false⟩ := by decide
  have a3 : ∀ fuel : Nat, (⟨0, [1, 0, 0, 0, 99], true⟩ : Day2.computer).runLoop (fuel + 2)
      = .returned ⟨5, [2, 0, 0, 0, 99], false⟩ := by
    intro fuel
    rw [Day2.runLoop_running2 _ _ rfl, a1]
    show Day2.computer.runLoop (fuel + 1) _ = _
    rw [Day2.runLoop_running2 _ _ rfl, a2]
    exact Day2.runLoop_halted2 _ _ rfl
  have a0 : Day2.tryInit [1, 0, 0, 0, 99] 0 0 = .ok () ⟨0, [1, 0, 0, 0, 99], true⟩ := by
    decide
  refine ⟨⟨a0, a1, a3, ?_⟩, ?_, ?_⟩
  · intro fuel
    unfold Day2.tryWithInputs
    rw [a0]
    simp only []
    rw [a3]
    rfl
  · intro i o h
    have b1 : (Day7.newComputer [1, 0, 0, 0, 99] i o).step h
        = .ok () ⟨4, [2, 0, 0, 0, 99], i, o, true⟩ h := rfl
    have b2 : (⟨4, [2, 0, 0, 0, 99], i, o, true⟩ : Day7.computer).step h
        = .ok () ⟨5, [2, 0, 0, 0, 99], i, o, false⟩ h := rfl
    refine ⟨b1, fun fuel => ?_⟩
    rw [Day7.runProgram_running7 _ _ _ rfl, b1]
    show Day7.computer.runProgram (fuel + 1) _ _ = _
    rw [Day7.runProgram_running7 _ _ _ rfl, b2]
    exact Day7.runProgram_halted7 _ _ _ rfl
  · intro i o
    have b1 : (Day11.newComputer [1, 0, 0, 0, 99] i o).step
        = .ok () ⟨4, 0, [2, 0, 0, 0, 99], i, o, true⟩ := rfl
    have b2 : (⟨4, 0, [2, 0, 0, 0, 99], i, o, true⟩ : Day11.computer).step
        = .ok () ⟨5, 0, [2, 0, 0, 0, 99], i, o, false⟩ := rfl
    refine ⟨b1, fun fuel => ?_⟩
    rw [Day11.runProgram_running11 _ _ rfl, b1]
    show Day11.computer.runProgram (fuel + 1) _ = _
    rw [Day11.runProgram_running11 _ _ rfl, b2]
    exact Day11.runProgram_halted11 _ _ rfl

namespace Day7

theorem allocPipes_eq (phases : List Int) (h : Heap) :
    allocPipes phases h
      = (List.range' h.length phases.length, h ++ List.replicate phases.length emptyBuffer) := by
  induction phases generalizing h with
  | nil => simp [allocPipes]
  | cons p rest ih =>
    unfold allocPipes
    simp only []
    rw [ih]
    simp [newIntBuffer, List.range'_succ, List.replicate_succ]

theorem heap_get_mid (pre post : Heap) (b : intBuffer) :
    (pre ++ b :: post)[pre.length]? = some b := by
  rw [List.getElem?_append_right (le_refl _)]
  simp

theorem heap_set_mid (pre post : Heap) (b b1 : intBuffer) :
    (pre ++ b :: post).set pre.length b1 = pre ++ b1 :: post := by
  rw [List.set_append_right _ _ (le_refl _)]
  simp

theorem writeAt_mid (pre post : Heap) (q : List Int) (n : Int) :
    writeAt (pre ++ ⟨q, false⟩ :: post) pre.length n
      = .ok () (pre ++ ⟨q ++ [n], false⟩ :: post) := by
  unfold writeAt
  rw [heap_get_mid]
  simp only []
  rw [@WriteInt_free7 ⟨q, false⟩ n rfl]
  simp only []
  rw [heap_set_mid]

theorem buildAmps_ok (prg : List Int) (N : Nat) (rest : List Int) (pre : Heap) (i : Nat)
    (hi : pre.length = i) (hN : i + rest.length = N) :
    ∃ amps, buildAmps prg (List.range' 0 N) N i rest
        (pre ++ List.replicate rest.length emptyBuffer)
        = .ok amps (pre ++ rest.map fun ph => ⟨[ph], false⟩)
      ∧ amps.length = rest.length
      ∧ ∀ k, k < rest.length →
          amps[k]? = some ⟨newComputer prg (i + k) ((i + k + 1) % N), i + k,
            (i + k + 1) % N⟩ := by
  induction rest generalizing pre i with
  | nil => exact ⟨[], by simp [buildAmps], rfl, fun k hk => absurd hk (by simp)⟩
  | cons ph rest ih =>
    have hlen : (ph :: rest).length = rest.length + 1 := rfl
    have hNpos : 0 < N := by omega
    have hiN : i < N := by omega
    have hp1 : (List.range' 0 N)[i]? = some i := by
      rw [List.getElem?_range' 0 1 hiN]
      simp
    have hp2 : (List.range' 0 N)[(i + 1) % N]? = some ((i + 1) % N) := by
      rw [List.getElem?_range' 0 1 (Nat.mod_lt _ hNpos)]
      simp
    have hw : writeAt (pre ++ List.replicate (ph :: rest).length emptyBuffer) i ph
        = .ok () ((pre ++ [⟨[ph], false⟩]) ++ List.replicate rest.length emptyBuffer) := by
      have := writeAt_mid pre (List.replicate rest.length emptyBuffer) [] ph
      rw [hi] at this
      rw [hlen, List.replicate_succ]
      show writeAt (pre ++ (⟨[], false⟩ : intBuffer) :: _) i ph = _
      rw [this]
      simp
    obtain ⟨amps, h1, h2, h3⟩ := ih (pre ++ [⟨[ph], false⟩]) (i + 1)
      (by rw [List.length_append, hi]; rfl) (by omega)
    refine ⟨⟨newComputer prg i ((i + 1) % N), i, (i + 1) % N⟩ :: amps, ?_, ?_, ?_⟩
    · unfold buildAmps
      rw [hp1, hp2]
      simp only []
      unfold newAmplifier
      simp only []
      rw [hw]
      simp only []
      rw [h1]
      simp
    · simp [h2]
    · intro k hk
      cases k with
      | zero => simp
      | succ k =>
        rw [List.getElem?_cons_succ, h3 k (by simpa using hk)]
        have e1 : i + 1 + k = i + (k + 1) := by omega
        rw [e1]

theorem tryPhasesSetup_eq (prg : List Int) (p0 : Int) (rest : List Int) :
    ∃ amps, tryPhasesSetup prg (p0 :: rest)
        = .ok amps (⟨[p0, 0], false⟩ :: rest.map fun ph => ⟨[ph], false⟩)
      ∧ amps.length = rest.length + 1
      ∧ ∀ k, k < rest.length + 1 →
          amps[k]? = some ⟨newComputer prg k ((k + 1) % (rest.length + 1)), k,
            (k + 1) % (rest.length + 1)⟩ := by
  obtain ⟨amps, h1, h2, h3⟩ := buildAmps_ok prg (p0 :: rest).length (p0 :: rest) [] 0 rfl
    (by simp)
  have ha0 := h3 0 (by simp)
  obtain ⟨a0, tl, rfl⟩ : ∃ a0 tl, amps = a0 :: tl := by
    cases amps with
    | nil => simp at h2
    | cons a0 tl => exact ⟨a0, tl, rfl⟩
  have ha0' : a0 = ⟨newComputer prg 0 (1 % (p0 :: rest).length), 0,
      1 % (p0 :: rest).length⟩ := by
    simpa using ha0
  have hadd : a0.addInput ([] ++ (p0 :: rest).map fun ph => (⟨[ph], false⟩ : intBuffer)) 0
      = .ok () (⟨[p0, 0], false⟩ :: rest.map fun ph => (⟨[ph], false⟩ : intBuffer)) := by
    rw [ha0']
    unfold amplifier.addInput
    have := writeAt_mid [] (rest.map fun ph => (⟨[ph], false⟩ : intBuffer)) [p0] 0
    simpa using this
  refine ⟨a0 :: tl, ?_, h2, ?_⟩
  · unfold tryPhasesSetup
    simp only []
    rw [allocPipes_eq]
    simp only [List.length_nil, List.nil_append]
    have h1' := h1
    simp only [List.nil_append] at h1'
    rw [h1']
    simp only []
    have hadd' := hadd
    simp only [List.nil_append] at hadd'
    rw [hadd']
  · intro k hk
    have := h3 k hk
    simpa using this

/-- C18: the wiring of the ring.  For every program and every non-empty phase list of
length `N`, the set-up part of `tryPhases` returns `N` amplifiers and `N` channels such
that amplifier `i` is a fresh machine on the program that reads from channel `i` and
writes to channel `(i+1) mod N`; before any goroutine runs, channel 0 holds exactly
`[phase_0, 0]` and every channel `i > 0` holds exactly `[phase_i]`. -/
theorem tryPhases_wiring_spec (prg phases : List Int) (hne : phases ≠ []) :
    ∃ amps h, tryPhasesSetup prg phases = .ok amps h
      ∧ amps.length = phases.length ∧ h.length = phases.length
      ∧ (∀ i, i < phases.length → ∃ a, amps[i]? = some a
          ∧ a.c = newComputer prg i ((i + 1) % phases.length)
          ∧ a.c.input = i ∧ a.c.output = (i + 1) % phases.length
          ∧ a.input = i ∧ a.output = (i + 1) % phases.length)
      ∧ (∃ p0, phases[0]? = some p0 ∧ h[0]? = some ⟨[p0, 0], false⟩)
      ∧ (∀ i ph, 0 < i → phases[i]? = some ph → h[i]? = some ⟨[ph], false⟩) := by
  obtain ⟨p0, rest, rfl⟩ : ∃ p0 rest, phases = p0 :: rest := by
    cases phases with
    | nil => exact absurd rfl hne
    | cons p0 rest => exact ⟨p0, rest, rfl⟩
  obtain ⟨amps, h1, h2, h3⟩ := tryPhasesSetup_eq prg p0 rest
  refine ⟨amps, ⟨[p0, 0], false⟩ :: rest.map fun ph => ⟨[ph], false⟩, h1, h2, by simp,
    ?_, ⟨p0, by simp, by simp⟩, ?_⟩
  · intro i hi
    refine ⟨_, h3 i hi, ?_⟩
    simp [newComputer]
  · intro i ph hi hph
    cases i with
    | zero => exact absurd hi (by decide)
    | succ i =>
      rw [List.getElem?_cons_succ] at hph ⊢
      rw [List.getElem?_map, hph]
      rfl

theorem tryPhases_wiring_spec_witness :
    ([9, 8, 7] : List Int) ≠ []
    ∧ ∃ amps h, tryPhasesSetup [3, 0, 4, 0, 99] [9, 8, 7] = .ok amps h
      ∧ h = [⟨[9, 0], false⟩, ⟨[8], false⟩, ⟨[7], false⟩] ∧ amps.length = 3 := by
  obtain ⟨amps, h, h1, h2, -⟩ := tryPhases_wiring_spec [3, 0, 4, 0, 99] [9, 8, 7] (by decide)
  refine ⟨by decide, amps, h, h1, ?_, h2⟩
  have hd : tryPhasesSetup [3, 0, 4, 0, 99] [9, 8, 7]
      = .ok [⟨newComputer [3, 0, 4, 0, 99] 0 1, 0, 1⟩, ⟨newComputer [3, 0, 4, 0, 99] 1 2, 1, 2⟩,
          ⟨newComputer [3, 0, 4, 0, 99] 2 0, 2, 0⟩]
        [⟨[9, 0], false⟩, ⟨[8], false⟩, ⟨[7], false⟩] := by decide
  rw [hd] at h1
  cases h1
  rfl

end Day7

namespace Day7

theorem ReadInt_ok_inv7 {rw rw1 : intBuffer} {v : Int} (h : rw.ReadInt = .ok v rw1) :
    rw.locked = false ∧ ∃ rest, rw.ints = v :: rest := by
  unfold intBuffer.ReadInt intBuffer.Lock at h
  by_cases hl : rw.locked = true
  · rw [if_pos hl] at h
    cases h
  · rw [if_neg hl] at h
    simp only [] at h
    refine ⟨by simpa using hl, ?_⟩
    cases hq : rw.ints with
    | nil =>
      rw [hq] at h
      cases h
    | cons x rest =>
      rw [hq] at h
      simp only [BufRes.ok.injEq] at h
      exact ⟨rest, by rw [h.1]⟩

theorem sched_ports {net net1 : Network} {i : Nat} (h : net.sched i = .ok net1) :
    net1.amps.map (fun a => a.output) = net.amps.map (fun a => a.output) := by
  unfold Network.sched at h
  cases ha : net.amps[i]? with
  | none =>
    rw [ha] at h
    cases h
    rfl
  | some amp =>
    rw [ha] at h
    simp only [] at h
    by_cases hr : amp.c.running = true
    · rw [if_pos hr] at h
      cases hs : amp.c.step net.heap with
      | ok u c1 h1 =>
        rw [hs] at h
        cases h
        show (net.amps.set i { amp with c := c1 }).map (fun a => a.output) = _
        rw [List.map_set]
        apply List.ext_getElem?
        intro j
        rw [List.getElem?_set]
        by_cases hij : i = j
        · subst hij
          rw [if_pos rfl, List.getElem?_map, ha]
          simp only [Option.map_some']
          rw [if_pos]
          have := (List.getElem?_eq_some_iff.mp ha).1
          simpa using this
        · rw [if_neg hij]
      | fault f c1 h1 =>
        rw [hs] at h
        cases h
      | blocked c1 h1 =>
        rw [hs] at h
        cases h
        rfl
    · rw [if_neg hr] at h
      cases h
      rfl

theorem exec_ports (order : List Nat) {net net1 : Network} (h : net.exec order = .ok net1) :
    net1.amps.map (fun a => a.output) = net.amps.map (fun a => a.output) := by
  induction order generalizing net with
  | nil =>
    unfold Network.exec at h
    cases h
    rfl
  | cons i rest ih =>
    unfold Network.exec at h
    cases hs : net.sched i with
    | ok net2 =>
      rw [hs] at h
      rw [ih h, sched_ports hs]
    | fault f net2 =>
      rw [hs] at h
      cases h

end Day7

namespace Day7

theorem tryPhases_returned_inv {order : List Nat} {prg phases : List Int} {v : Int}
    (hret : tryPhases order prg phases = .returned v) :
    ∃ amps h net lastAmp rw rw1, tryPhasesSetup prg phases = .ok amps h
      ∧ (Network.mk amps h []).exec order = .ok net ∧ net.halted = true
      ∧ net.amps.getLast? = some lastAmp ∧ net.heap[lastAmp.output]? = some rw
      ∧ rw.ReadInt = .ok v rw1 := by
  unfold tryPhases at hret
  cases hs : tryPhasesSetup prg phases with
  | fault f => rw [hs] at hret; cases hret
  | blocked => rw [hs] at hret; cases hret
  | ok amps h =>
    rw [hs] at hret
    simp only [] at hret
    cases he : (Network.mk amps h []).exec order with
    | fault f net => rw [he] at hret; cases hret
    | ok net =>
      rw [he] at hret
      simp only [] at hret
      by_cases hh : net.halted = true
      · rw [if_pos hh] at hret
        cases hl : net.amps.getLast? with
        | none => rw [hl] at hret; cases hret
        | some lastAmp =>
          rw [hl] at hret
          simp only [] at hret
          cases hb : net.heap[lastAmp.output]? with
          | none => rw [hb] at hret; cases hret
          | some rw0 =>
            rw [hb] at hret
            simp only [] at hret
            cases hr : rw0.ReadInt with
            | blocked rw1 => rw [hr] at hret; cases hret
            | ok x rw1 =>
              rw [hr] at hret
              simp only [TryRes.returned.injEq] at hret
              subst hret
              exact ⟨amps, h, net, lastAmp, rw0, rw1, rfl, he, hh, hl, hb, hr⟩
      · rw [if_neg hh] at hret
        cases hret

/-- C19 (as amended): what `tryPhases` returns.  Whenever `tryPhases` returns a value `v`
(under any scheduling of its goroutines), every machine of the ring has halted and `v` is
the oldest value still queued on the output channel of the last amplifier, which is
channel 0, the channel that also was amplifier 0's input and received the seed. -/
theorem tryPhases_result_spec (order : List Nat) (prg phases : List Int) (v : Int)
    (hret : tryPhases order prg phases = .returned v) :
    ∃ net lastAmp rest, ringAfter order prg phases = some net ∧ net.halted = true
      ∧ net.amps.getLast? = some lastAmp ∧ lastAmp.output = 0
      ∧ net.heap[0]? = some ⟨v :: rest, false⟩ := by
  obtain ⟨amps, h, net, lastAmp, rw0, rw1, hs, he, hh, hl, hb, hr⟩ :=
    tryPhases_returned_inv hret
  obtain ⟨hlock, rest, hq⟩ := ReadInt_ok_inv7 hr
  have hring : ringAfter order prg phases = some net := by
    unfold ringAfter
    rw [hs]
    simp only []
    rw [he]
  cases phases with
  | nil =>
    have : tryPhasesSetup prg [] = .fault (.indexOutOfRange 0) := rfl
    rw [this] at hs
    cases hs
  | cons p0 ps =>
    obtain ⟨amps0, e1, e2, e3⟩ := tryPhasesSetup_eq prg p0 ps
    rw [e1] at hs
    simp only [Setup.ok.injEq] at hs
    obtain ⟨ha, hh0⟩ := hs
    subst ha
    have hports := exec_ports order he
    have hlen : net.amps.length = ps.length + 1 := by
      have := congrArg List.length hports
      simpa [e2] using this
    have hlast : (net.amps.map fun a => a.output)[ps.length]? = some lastAmp.output := by
      rw [List.getElem?_map]
      rw [List.getLast?_eq_getElem?, hlen] at hl
      simp only [Nat.add_sub_cancel] at hl
      rw [hl]
      rfl
    have hout : lastAmp.output = 0 := by
      rw [hports] at hlast
      simp only [] at hlast
      rw [List.getElem?_map, e3 ps.length (by omega)] at hlast
      simp only [Option.map_some', Option.some.injEq] at hlast
      rw [← hlast]
      exact Nat.mod_self _
    refine ⟨net, lastAmp, rest, hring, hh, hl, hout, ?_⟩
    rw [← hout, hb]
    congr 1
    cases rw0
    simp only [] at hq hlock
    rw [hq, hlock]

theorem tryPhases_result_spec_witness :
    tryPhases sampleOrder [3, 0, 4, 0, 99] [9, 8, 7, 6, 5] = .returned 0
    ∧ ∃ net lastAmp rest, ringAfter sampleOrder [3, 0, 4, 0, 99] [9, 8, 7, 6, 5] = some net
      ∧ net.halted = true ∧ net.amps.getLast? = some lastAmp ∧ lastAmp.output = 0
      ∧ net.heap[0]? = some ⟨0 :: rest, false⟩ :=
  ⟨by decide, tryPhases_result_spec sampleOrder [3, 0, 4, 0, 99] [9, 8, 7, 6, 5] 0 (by decide)⟩

/-- C19 (counterexample): five amplifiers running `3,0,4,0,99` with phases `[9,8,7,6,5]`
and seed 0.  All five machines halt; the last value amplifier 4 wrote to its output
channel is 5 and channel 0 ends as `[0, 5]`; `tryPhases` returns the seed 0, which is not
the last value amplifier 4 wrote. -/
theorem tryPhases_returns_seed :
    (ringAfter sampleOrder [3, 0, 4, 0, 99] [9, 8, 7, 6, 5]).map Network.halted = some true
    ∧ (ringAfter sampleOrder [3, 0, 4, 0, 99] [9, 8, 7, 6, 5]).bind
        (fun net => net.lastWritten 4) = some 5
    ∧ (ringAfter sampleOrder [3, 0, 4, 0, 99] [9, 8, 7, 6, 5]).bind
        (fun net => net.heap[0]?) = some ⟨[0, 5], false⟩
    ∧ tryPhases sampleOrder [3, 0, 4, 0, 99] [9, 8, 7, 6, 5] = .returned 0
    ∧ ¬ (some (0 : Int) = (ringAfter sampleOrder [3, 0, 4, 0, 99] [9, 8, 7, 6, 5]).bind
        (fun net => net.lastWritten 4)) := by
  refine ⟨by decide, by decide, by decide, by decide, by decide⟩

end Day7

namespace Day11
open Go

theorem expand_fault_kind {c c1 : computer} {idx : Int} {f : Fault}
    (h : c.expandMemoryForIndex idx = .fault f c1) : f = .lenOutOfRange := by
  unfold computer.expandMemoryForIndex at h
  split at h
  · split at h
    · simp only [Res.fault.injEq] at h
      exact h.1.symm
    · cases h
  · cases h

theorem store_fault_kind {c c1 : computer} {idx n : Int} {f : Fault}
    (h : c.store idx n = .fault f c1) : f = .lenOutOfRange ∨ f = .indexOutOfRange idx := by
  unfold computer.store at h
  cases he : c.expandMemoryForIndex idx with
  | fault g c2 =>
    rw [he] at h
    simp only [Res.bind, Res.fault.injEq] at h
    rw [← h.1]
    exact Or.inl (expand_fault_kind he)
  | blocked c2 =>
    rw [he] at h
    cases h
  | ok u c2 =>
    rw [he] at h
    simp only [Res.bind] at h
    split at h
    · simp only [Res.fault.injEq] at h
      exact Or.inr h.1.symm
    · cases h

/-- C29: unrecognised mode digits.  For every state, value `n` and mode digit `d` in
3..9, `write(n, d)` does exactly what `write(n, position)` does (the `switch` of `write`
has no `default`): it stores at the fetched address.  With `w ≥ 0` the word at a valid
`pc`, below the length of memory or with `w + 1 ≤ maxSliceLen`, the call returns, cell
`w` holds `n`, every other cell that existed keeps its value, every other new cell is 0,
`pc` has advanced by one and nothing else has changed.  When `write(n, d)` panics, the
panic is that of the fetch, of `make` or of the store (an index out of range or a slice
length out of range), never one about the mode.  `read(d)` panics in every state: with
"unknown mode" as soon as the word at `pc` could be fetched. -/
theorem unknown_mode_spec (c : computer) (n d : Int) (h3 : 3 ≤ d) (h9 : d ≤ 9) :
    c.write n d = c.write n modePosition
    ∧ (∃ f c1, c.read d = .fault f c1)
    ∧ (∀ w c0, c.next = .ok w c0 →
        c.read d = .fault (.unknownMode d) c0 ∧ c.write n d = c0.store w n)
    ∧ (∀ w : Int, 0 ≤ c.pc → c.pc < c.memory.length → c.memory[c.pc.toNat]? = some w →
        0 ≤ w → w < c.memory.length ∨ w + 1 ≤ maxSliceLen →
        ∃ c1, c.write n d = .ok () c1
          ∧ c1.memory[w.toNat]? = some n
          ∧ (∀ i : Nat, i < c.memory.length → i ≠ w.toNat → c1.memory[i]? = c.memory[i]?)
          ∧ (∀ i : Nat, c.memory.length ≤ i → i < c1.memory.length → i ≠ w.toNat →
              c1.memory[i]? = some 0)
          ∧ c1.memory.length = max c.memory.length (w.toNat + 1)
          ∧ c1.pc = c.pc + 1 ∧ c1.relBase = c.relBase
          ∧ c1.input = c.input ∧ c1.output = c.output ∧ c1.running = c.running)
    ∧ (∀ f c1, c.write n d = .fault f c1 →
        f = .lenOutOfRange ∨ ∃ i, f = .indexOutOfRange i) := by
  have d1 : d ≠ modeImmediate := by show d ≠ 1; omega
  have d0 : d ≠ modePosition := by show d ≠ 0; omega
  have d2 : d ≠ modeRelative := by show d ≠ 2; omega
  have hrw : ∀ w c0, c.next = .ok w c0 →
      c.read d = .fault (.unknownMode d) c0 ∧ c.write n d = c0.store w n := by
    intro w c0 hn
    constructor
    · rw [read_of_next hn, if_neg d1, if_neg d0, if_neg d2]
    · rw [write_of_next hn, if_neg d1, if_neg d0, if_neg d2]
  have hst : ∀ w : Int, 0 ≤ c.pc → c.pc < c.memory.length → c.memory[c.pc.toNat]? = some w →
      0 ≤ w → w < c.memory.length ∨ w + 1 ≤ maxSliceLen →
      ∃ c1, c.write n d = .ok () c1
        ∧ c1.memory[w.toNat]? = some n
        ∧ (∀ i : Nat, i < c.memory.length → i ≠ w.toNat → c1.memory[i]? = c.memory[i]?)
        ∧ (∀ i : Nat, c.memory.length ≤ i → i < c1.memory.length → i ≠ w.toNat →
            c1.memory[i]? = some 0)
        ∧ c1.memory.length = max c.memory.length (w.toNat + 1)
        ∧ c1.pc = c.pc + 1 ∧ c1.relBase = c.relBase
        ∧ c1.input = c.input ∧ c1.output = c.output ∧ c1.running = c.running := by
    intro w p0 p1 pw hw0 hg
    have hn := next_of_get p0 p1 pw
    obtain ⟨c1, h1, hmem, hpc, hrb, hin, hout, hrun⟩ :=
      store_ok_memory ({ c with pc := c.pc + 1 }) w n hw0 hg
    obtain ⟨f1, f2, f3, f4⟩ := grown_set_facts c.memory w n hw0
    refine ⟨c1, ((hrw _ _ hn).2).trans h1, ?_, ?_, ?_, ?_, hpc, hrb, hin, hout, hrun⟩
    · rw [hmem]; exact f1
    · rw [hmem]; exact f2
    · rw [hmem]; exact f3
    · rw [hmem]; exact f4
  rcases next_cases11 c with ⟨w, hw⟩ | ⟨f, hf⟩
  · refine ⟨?_, ⟨_, _, (hrw _ _ hw).1⟩, hrw, hst, ?_⟩
    · rw [(hrw _ _ hw).2, write_of_next hw, if_neg (by decide), if_pos rfl]
    · intro f c1 hf
      rw [(hrw _ _ hw).2] at hf
      rcases store_fault_kind hf with h | h
      · exact Or.inl h
      · exact Or.inr ⟨_, h⟩
  · have hwf : c.write n d = .fault f c := by
      unfold computer.write
      rw [hf]
      rfl
    refine ⟨?_, ⟨f, c, ?_⟩, hrw, hst, ?_⟩
    · unfold computer.write
      rw [hf]
      rfl
    · unfold computer.read
      rw [hf]
      rfl
    · intro g c1 hg
      rw [hwf] at hg
      simp only [Res.fault.injEq] at hg
      rw [← hg.1]
      right
      unfold computer.next at hf
      split at hf
      · simp only [Res.fault.injEq] at hf
        exact ⟨_, hf.1.symm⟩
      · cases hf

theorem unknown_mode_spec_witness :
    ((3 : Int) ≤ 5 ∧ (5 : Int) ≤ 9)
    ∧ sampleOperand.write 8 5 = sampleOperand.write 8 modePosition
    ∧ (∃ f c1, sampleOperand.read 5 = .fault f c1)
    ∧ ∃ c1, sampleOperand.write 8 5 = .ok () c1 ∧ c1.memory[(3 : Int).toNat]? = some 8
        ∧ c1.pc = sampleOperand.pc + 1 := by
  obtain ⟨h1, h2, -, h4, -⟩ := unknown_mode_spec sampleOperand 8 5 (by decide) (by decide)
  obtain ⟨c1, g1, g2, -, -, -, g3, -⟩ :=
    h4 3 (by decide) (by decide) (by decide) (by decide) (Or.inl (by decide))
  exact ⟨by decide, h1, h2, c1, g1, g2, g3⟩

theorem input_step_of_read {c c0 : computer} {w x : Int} {p : Bool} {rw : intBuffer}
    (hfetch : c.next = .ok w c0) (hcode : (parseOpcodeModes w).1 = 3)
    (hr : c.input.ReadInt = .ok (x, p) rw) :
    c.step = ({ c0 with input := rw } : computer).write x (paramMode w 1 0) := by
  obtain ⟨-, -, -, hc0⟩ := next_inv hfetch
  have hin : c0.input = c.input := by rw [hc0]
  rw [step_of_next hfetch, hcode]
  show input c0 (parseOpcodeModes w).2 = _
  unfold input
  simp only []
  rw [hin, hr]
  rfl

theorem next_with_input {c c0 : computer} {w : Int} (h : c.next = .ok w c0) (rw : intBuffer) :
    ({ c with input := rw } : computer).next = .ok w { c0 with input := rw } := by
  obtain ⟨p0, p1, pw, hc0⟩ := next_inv h
  rw [hc0]
  exact @next_of_get { c with input := rw } w p0 p1 pw

/-- C30 (as amended): input on a closed, empty channel.  When the word fetched at `pc`
decodes to code 3, the input channel is closed and empty (its mutex free) and the
parameter, not immediate, resolves to `T ≥ 0`: the read returns `(0, false)` and the
presence flag is dropped.  When `T` is below the length of memory or the slice of `T + 1`
cells can be made (`T + 1 ≤ maxSliceLen`), the instruction completes without a panic;
cell `T` holds 0, `pc` has advanced by exactly 2 and the running flag is unchanged.  For
every other `T` the instruction panics in `make` and nothing is stored.  (The read leaves
the channel's mutex held.) -/
theorem input_closed_empty_spec (c c0 c1 : computer) (w t T : Int)
    (hfetch : c.next = .ok w c0) (hcode : (parseOpcodeModes w).1 = 3)
    (hin : c.input = ⟨[], true, false⟩)
    (ht : c0.next = .ok t c1) (hm : paramMode w 1 0 ≠ modeImmediate)
    (hT : T = if paramMode w 1 0 = modeRelative then wrapInt (t + c.relBase) else t)
    (hT0 : 0 ≤ T) :
    c.input.ReadInt = .ok (0, false) ⟨[], true, true⟩
    ∧ (T < c.memory.length ∨ T + 1 ≤ maxSliceLen →
      ∃ c2, c.step = .ok () c2
        ∧ c2.memory = (c.memory ++ List.replicate ((T + 1).toNat - c.memory.length) 0).set
            T.toNat 0
        ∧ c2.memory[T.toNat]? = some 0
        ∧ c2.pc = c.pc + 2 ∧ c2.running = c.running ∧ c2.relBase = c.relBase
        ∧ c2.output = c.output ∧ c2.input = ⟨[], true, true⟩)
    ∧ ((c.memory.length : Int) ≤ T → maxSliceLen < T + 1 → T ≤ 9223372036854775807 →
        c.step = .fault .lenOutOfRange { c1 with input := ⟨[], true, true⟩ }) := by
  obtain ⟨-, -, -, hc0⟩ := next_inv hfetch
  have hr : c.input.ReadInt = .ok (0, false) ⟨[], true, true⟩ := by
    rw [hin]
    rfl
  have hop := input_step_of_read hfetch hcode hr
  have hnext := next_with_input ht ⟨[], true, true⟩
  have hT2 : T = if paramMode w 1 0 = modeRelative then
      wrapInt (t + ({ c0 with input := ⟨[], true, true⟩ } : computer).relBase) else t := by
    rw [hT, hc0]
  refine ⟨hr, ?_, ?_⟩
  · intro hg
    obtain ⟨c2, h1, hmem, hpc, hrb, hi2, hout, hrun⟩ :=
      write_resolved _ _ t T 0 (paramMode w 1 0) hnext hm hT2 hT0 (by rw [hc0]; exact hg)
    have hmem2 : c2.memory
        = (c.memory ++ List.replicate ((T + 1).toNat - c.memory.length) 0).set T.toNat 0 := by
      rw [hmem, hc0]
    refine ⟨c2, hop.trans h1, hmem2, ?_, ?_, ?_, ?_, ?_, ?_⟩
    · rw [hmem2]
      exact (grown_set_facts c.memory T 0 hT0).1
    · rw [hpc, hc0]
      show c.pc + 1 + 1 = _
      ring
    · rw [hrun, hc0]
    · rw [hrb, hc0]
    · rw [hout, hc0]
    · rw [hi2]
  · intro h1 h2 h3
    rw [hop]
    exact write_resolved_huge _ _ t T 0 (paramMode w 1 0) hnext hm hT2
      (by rw [hc0]; exact h1) h2 h3

theorem input_closed_empty_spec_witness :
    (sampleClosedIn.next = .ok 3 { sampleClosedIn with pc := 1 }
      ∧ sampleClosedIn.input = ⟨[], true, false⟩)
    ∧ ∃ c2, sampleClosedIn.step = .ok () c2 ∧ c2.memory[0]? = some 0 ∧ c2.pc = 2
      ∧ c2.running = true := by
  obtain ⟨-, hok, -⟩ :=
    input_closed_empty_spec sampleClosedIn { sampleClosedIn with pc := 1 }
      { sampleClosedIn with pc := 2 } 3 0 0 (by decide) (by decide) (by decide) (by decide)
      (by decide) (by decide) (by decide)
  obtain ⟨c2, h1, -, h2, h3, h4, -⟩ := hok (Or.inl (by decide))
  exact ⟨⟨by decide, by decide⟩, c2, h1, h2, by rw [h3]; decide, by rw [h4]; decide⟩

/-- C30 (counterexample): the program `3,9223372036854775807,99` on a closed, empty input
channel.  The word at `pc` decodes to code 3 and the parameter resolves in position mode
to `T = 2^63 - 1 ≥ 0`, but the instruction faults: after the read has returned `(0,
false)` it panics in `make`, whose length `T+1` has wrapped to `-2^63`; 0 is stored
nowhere and `pc` stays at the second parameter word. -/
theorem input_closed_far_panics :
    sampleInFarClosed.next = .ok 3 { sampleInFarClosed with pc := 1 }
    ∧ (parseOpcodeModes 3).1 = 3
    ∧ sampleInFarClosed.input = ⟨[], true, false⟩
    ∧ ({ sampleInFarClosed with pc := 1 } : computer).next
        = .ok 9223372036854775807 { sampleInFarClosed with pc := 2 }
    ∧ paramMode 3 1 0 = modePosition
    ∧ sampleInFarClosed.step
        = .fault .lenOutOfRange
            { sampleInFarClosed with pc := 2, input := ⟨[], true, true⟩ } := by
  decide

end Day11

namespace Day11
open Go

theorem grown_of_lt (c : computer) (idx : Int)
    (h : idx < c.memory.length) : c.grown idx = c := by
  unfold computer.grown
  rw [if_neg (by omega)]

theorem store_in_range (c : computer) (A v : Int) (h0 : 0 ≤ A) (h1 : A < c.memory.length) :
    c.store A v = .ok () { c with memory := c.memory.set A.toNat v } := by
  have he : c.grown A = c := by
    unfold computer.grown
    rw [if_neg (by omega)]
  rw [store_ok c A v h0 (Or.inl h1), he]

theorem copySlice_same_length (dst src : List Int) (h : src.length = dst.length) :
    copySlice dst src = src := by
  unfold copySlice
  rw [← h, List.take_length, List.drop_of_length_le (by omega), List.append_nil]

theorem copySlice_length (dst src : List Int) : (copySlice dst src).length = dst.length := by
  unfold copySlice
  rw [List.length_append, List.length_take, List.length_drop]
  omega

theorem expand_idem (c : computer) (idx : Int) :
    ((c.expandMemoryForIndex idx).bind fun _ c1 => c1.expandMemoryForIndex idx)
      = c.expandMemoryForIndex idx := by
  cases he : c.expandMemoryForIndex idx with
  | fault f c1 => rfl
  | blocked c1 => rfl
  | ok u c1 =>
    show c1.expandMemoryForIndex idx = .ok u c1
    rcases expand_inv he with ⟨-, h2⟩ | ⟨-, h2, h3, h4⟩
    · rw [h2] at he ⊢
      exact he
    · have hl : c1.memory.length = (wrapInt (idx + 1)).toNat := by
        rw [h4]
        show (copySlice (makeSlice (wrapInt (idx + 1)).toNat) c.memory).length = _
        rw [copySlice_length]
        unfold makeSlice
        rw [List.length_replicate]
      unfold computer.expandMemoryForIndex
      by_cases hge : idx ≥ c1.memory.length
      · have hm : makeInts (wrapInt (idx + 1)) = some (makeSlice (wrapInt (idx + 1)).toNat) := by
          unfold makeInts
          rw [if_pos ⟨h2, h3⟩]
        rw [if_pos hge, hm]
        simp only []
        rw [copySlice_same_length]
        rw [hl]
        unfold makeSlice
        rw [List.length_replicate]
      · rw [if_neg hge]

theorem set_facts (mem : List Int) (k : Nat) (v : Int) (hk : k < mem.length) :
    (mem.set k v).length = mem.length ∧ (mem.set k v)[k]? = some v
      ∧ ∀ i : Nat, i ≠ k → (mem.set k v)[i]? = mem[i]? := by
  refine ⟨List.length_set _ _ _, ?_, ?_⟩
  · rw [List.getElem?_set_self hk]
  · intro i hi
    rw [List.getElem?_set_ne (Ne.symm hi)]

/-- C22 (as amended): growth is idempotent.  For every state and every address
`A ≥ len(memory)` with `A + 1` at most `maxSliceLen`: a first store to `A` (the tail of
`write`) leaves a memory of length exactly `A + 1`; a second store to `A` leaves the
length unchanged and changes only cell `A`.  The same holds for `write` itself: a write
whose target resolves to `A` leaves length `A + 1`, and in every state with that memory a
further write resolving to `A` keeps the length and changes only cell `A`.  For a Go
`int` `A ≥ len(memory)` with `A + 1` above `maxSliceLen` the first store panics in `make`
and memory keeps its length.  `expandMemoryForIndex` called twice with the same index
does what one call does, for every index and whatever the outcome. -/
theorem growth_idempotent_spec (c : computer) (A : Int) (hA : (c.memory.length : Int) ≤ A) :
    (A + 1 ≤ maxSliceLen →
      (∀ v : Int, ∃ c1, c.store A v = .ok () c1 ∧ (c1.memory.length : Int) = A + 1
        ∧ ∀ v2 : Int, ∃ c2, c1.store A v2 = .ok () c2
          ∧ c2.memory.length = c1.memory.length ∧ c2.memory[A.toNat]? = some v2
          ∧ ∀ i : Nat, i ≠ A.toNat → c2.memory[i]? = c1.memory[i]?)
      ∧ (∀ (w v : Int) (m : mode), 0 ≤ c.pc → c.pc < c.memory.length →
          c.memory[c.pc.toNat]? = some w →
          ((m = modePosition ∧ A = w) ∨ (m = modeRelative ∧ A = wrapInt (w + c.relBase))) →
          ∃ c1, c.write v m = .ok () c1 ∧ (c1.memory.length : Int) = A + 1
            ∧ ∀ (d : computer) (w2 v2 : Int) (m2 : mode), d.memory = c1.memory →
              0 ≤ d.pc → d.pc < d.memory.length → d.memory[d.pc.toNat]? = some w2 →
              ((m2 = modePosition ∧ A = w2)
                ∨ (m2 = modeRelative ∧ A = wrapInt (w2 + d.relBase))) →
              ∃ d2, d.write v2 m2 = .ok () d2
                ∧ d2.memory.length = d.memory.length ∧ d2.memory[A.toNat]? = some v2
                ∧ ∀ i : Nat, i ≠ A.toNat → d2.memory[i]? = d.memory[i]?))
    ∧ (maxSliceLen < A + 1 → A ≤ 9223372036854775807 →
        ∀ v : Int, c.store A v = .fault .lenOutOfRange c)
    ∧ (∀ idx : Int,
        ((c.expandMemoryForIndex idx).bind fun _ c1 => c1.expandMemoryForIndex idx)
          = c.expandMemoryForIndex idx) := by
  have hA0 : 0 ≤ A := by omega
  have hlen1 : ∀ v : Int, ((c.memory ++ List.replicate ((A + 1).toNat - c.memory.length) 0).set
      A.toNat v).length = A.toNat + 1 := by
    intro v
    rw [List.length_set, List.length_append, List.length_replicate]
    omega
  refine ⟨fun hmax => ⟨?_, ?_⟩, ?_, fun idx => expand_idem c idx⟩
  · intro v
    obtain ⟨c1, h1, hmem, -⟩ := store_ok_memory c A v hA0 (Or.inr hmax)
    have hl : c1.memory.length = A.toNat + 1 := by rw [hmem]; exact hlen1 v
    refine ⟨c1, h1, by omega, ?_⟩
    intro v2
    have hin : A < c1.memory.length := by omega
    obtain ⟨f1, f2, f3⟩ := set_facts c1.memory A.toNat v2 (by omega)
    exact ⟨_, store_in_range c1 A v2 hA0 hin, f1, f2, f3⟩
  · intro w v m hpc0 hpc1 hw hm
    have hn := next_of_get hpc0 hpc1 hw
    have hmne : m ≠ modeImmediate := by
      rcases hm with ⟨h, -⟩ | ⟨h, -⟩ <;> rw [h] <;> decide
    have hT : A = if m = modeRelative then wrapInt (w + c.relBase) else w := by
      rcases hm with ⟨h, e⟩ | ⟨h, e⟩
      · rw [h, if_neg (by decide)]; exact e
      · rw [h, if_pos rfl]; exact e
    obtain ⟨c1, h1, hmem, -⟩ := write_resolved c _ w A v m hn hmne hT hA0 (Or.inr hmax)
    have hl : c1.memory.length = A.toNat + 1 := by rw [hmem]; exact hlen1 v
    refine ⟨c1, h1, by omega, ?_⟩
    intro d w2 v2 m2 hd hd0 hd1 hdw hm2
    have hdn := next_of_get hd0 hd1 hdw
    have hm2ne : m2 ≠ modeImmediate := by
      rcases hm2 with ⟨h, -⟩ | ⟨h, -⟩ <;> rw [h] <;> decide
    have hT2 : A = if m2 = modeRelative then wrapInt (w2 + d.relBase) else w2 := by
      rcases hm2 with ⟨h, e⟩ | ⟨h, e⟩
      · rw [h, if_neg (by decide)]; exact e
      · rw [h, if_pos rfl]; exact e
    have hdl : d.memory.length = A.toNat + 1 := by rw [hd]; exact hl
    obtain ⟨d2, g1, gmem, -⟩ :=
      write_resolved d _ w2 A v2 m2 hdn hm2ne hT2 hA0 (Or.inl (by omega))
    have hz : (A + 1).toNat - d.memory.length = 0 := by omega
    rw [hz] at gmem
    simp only [List.replicate_zero, List.append_nil] at gmem
    obtain ⟨f1, f2, f3⟩ := set_facts d.memory A.toNat v2 (by omega)
    refine ⟨d2, g1, ?_, ?_, ?_⟩
    · rw [gmem]; exact f1
    · rw [gmem]; exact f2
    · rw [gmem]; exact f3
  · intro h2 h3 v
    exact store_huge c A v hA h2 h3

theorem growth_idempotent_spec_witness :
    ((sampleOperand.memory.length : Int) ≤ 6 ∧ (6 : Int) + 1 ≤ maxSliceLen)
    ∧ (∃ c1, sampleOperand.store 6 8 = .ok () c1 ∧ (c1.memory.length : Int) = 6 + 1
      ∧ ∀ v2 : Int, ∃ c2, c1.store 6 v2 = .ok () c2
        ∧ c2.memory.length = c1.memory.length ∧ c2.memory[(6 : Int).toNat]? = some v2
        ∧ ∀ i : Nat, i ≠ (6 : Int).toNat → c2.memory[i]? = c1.memory[i]?)
    ∧ ((sampleOperand.expandMemoryForIndex 6).bind fun _ c1 => c1.expandMemoryForIndex 6)
        = sampleOperand.expandMemoryForIndex 6 :=
  ⟨⟨by decide, by decide⟩,
    ((growth_idempotent_spec sampleOperand 6 (by decide)).1 (by decide)).1 8,
    (growth_idempotent_spec sampleOperand 6 (by decide)).2.2 6⟩

/-- C22 (counterexample): a first write to an address `A ≥ len(memory)` does not always
leave a memory of length `A + 1`.  On the one-cell memory `[9223372036854775807]` the
store to `A = 2^63 - 1` and the position-mode write that resolves to it panic in `make`
(the length `A+1` has wrapped to `-2^63`), and the store to `A = 2^45` panics because
`2^45 + 1` cells are more than `make` accepts; memory keeps its length 1. -/
theorem growth_far_panics :
    sampleFar.memory.length = 1
    ∧ sampleFar.store 9223372036854775807 8 = .fault .lenOutOfRange sampleFar
    ∧ sampleFar.write 8 modePosition = .fault .lenOutOfRange { sampleFar with pc := 1 }
    ∧ sampleFar.store 35184372088832 8 = .fault .lenOutOfRange sampleFar := by
  decide

end Day11

namespace Day11
open Go

theorem next_at (k : Nat) (rb : Int) (mem : List Int) (i o : intBuffer) (run : Bool)
    (w : Int) (h : mem[k]? = some w) :
    (⟨(k : Int), rb, mem, i, o, run⟩ : computer).next
      = .ok w ⟨(k : Int) + 1, rb, mem, i, o, run⟩ := by
  have hk : k < mem.length := (List.getElem?_eq_some_iff.mp h).1
  exact @next_of_get ⟨(k : Int), rb, mem, i, o, run⟩ w (Int.ofNat_nonneg k)
    (by show (k : Int) < (mem.length : Int); omega) (by simpa using h)

theorem rel_step_of_read {c c0 c1 : computer} {w n : Int}
    (hfetch : c.next = .ok w c0) (hcode : (parseOpcodeModes w).1 = 9)
    (hn : c0.read (paramMode w 1 0) = .ok n c1) :
    c.step = .ok () { c1 with relBase := wrapInt (c1.relBase + n) } := by
  rw [step_of_next hfetch, hcode]
  show rel c0 (parseOpcodeModes w).2 = _
  unfold rel
  show ((c0.read (paramMode w 1 0)).bind fun n c =>
    Res.ok () { c with relBase := wrapInt (c.relBase + n) }) = _
  rw [hn]
  rfl

theorem relative_reference (c : computer) (off v A : Int)
    (hpc0 : 0 ≤ c.pc) (hpc1 : c.pc < c.memory.length)
    (hw : c.memory[c.pc.toNat]? = some off)
    (hA : A = wrapInt (off + c.relBase)) (hA0 : 0 ≤ A)
    (hg : A < c.memory.length ∨ A + 1 ≤ maxSliceLen) :
    c.read modeRelative = .ok (c.memory.getD A.toNat 0)
        { c with
          pc := c.pc + 1,
          memory := c.memory ++ List.replicate ((A + 1).toNat - c.memory.length) 0 }
    ∧ ((c.memory.length : Int) ≤ A → c.memory.getD A.toNat 0 = 0)
    ∧ ∃ c2, c.write v modeRelative = .ok () c2
      ∧ c2.memory = (c.memory ++ List.replicate ((A + 1).toNat - c.memory.length) 0).set
          A.toNat v := by
  have hn := next_of_get hpc0 hpc1 hw
  refine ⟨?_, ?_, ?_⟩
  · rw [read_of_next hn, if_neg (by decide), if_neg (by decide), if_pos rfl]
    show computer.load _ (wrapInt (off + c.relBase)) = _
    rw [← hA]
    have hl := load_ok ({ c with pc := c.pc + 1 } : computer) A hA0 hg
    rw [grown_eq] at hl
    exact hl
  · intro hge
    have : c.memory.length ≤ A.toNat := by omega
    rw [List.getD_eq_getElem?_getD, List.getElem?_eq_none this]
    rfl
  · obtain ⟨c2, h1, hmem, -⟩ :=
      write_resolved c _ off A v modeRelative hn (by decide) (by rw [if_pos rfl]; exact hA) hA0
        hg
    exact ⟨c2, h1, hmem⟩

theorem relative_reference_huge (c : computer) (off v A : Int)
    (hpc0 : 0 ≤ c.pc) (hpc1 : c.pc < c.memory.length)
    (hw : c.memory[c.pc.toNat]? = some off)
    (hA : A = wrapInt (off + c.relBase))
    (h1 : (c.memory.length : Int) ≤ A) (h2 : maxSliceLen < A + 1) :
    c.read modeRelative = .fault .lenOutOfRange { c with pc := c.pc + 1 }
    ∧ c.write v modeRelative = .fault .lenOutOfRange { c with pc := c.pc + 1 } := by
  have hn := next_of_get hpc0 hpc1 hw
  have h3 : A ≤ 9223372036854775807 := by
    rw [hA]
    exact (wrapInt_inRange _).2
  constructor
  · rw [read_of_next hn, if_neg (by decide), if_neg (by decide), if_pos rfl]
    show computer.load _ (wrapInt (off + c.relBase)) = _
    rw [← hA]
    exact load_huge ({ c with pc := c.pc + 1 } : computer) A h1 h2 h3
  · exact write_resolved_huge c _ off A v modeRelative hn (by decide)
      (by rw [if_pos rfl]; exact hA) h1 h2 h3

/-- C21 (as amended): programs that set the relative base first.  For a program whose
first two words are `109` and `n` (the operand in immediate mode), the first instruction
leaves `relBase = n`, `pc = 2` and memory as loaded; in every state with `relBase = n` a
relative-mode reference with offset `o` resolves to `n + o` (Go `int` addition).  When
that address `A` is non-negative and is below the length of memory or has
`A + 1 ≤ maxSliceLen`, the reference does not panic: a read returns the cell there, 0
when it lies at or beyond the end of memory, and a write stores into memory extended
with zeros.  When `A` lies at or beyond the end of memory and `A + 1` is above
`maxSliceLen`, the read and the write panic in `make`.  For a program whose first two
words are `9` and `n` (position mode, the default) the first instruction sets `relBase`
to the content of cell `n` instead (0 when `n` lies beyond the program and the slice of
`n + 1` cells can be made). -/
theorem relative_base_program_spec (n : Int) (rest : List Int) (i o : intBuffer)
    (hn : inRange n) :
    (newComputer (109 :: n :: rest) i o).step
        = .ok () ⟨2, n, 109 :: n :: rest, i, o, true⟩
    ∧ (∀ (c : computer) (off v : Int), c.relBase = n → 0 ≤ c.pc → c.pc < c.memory.length →
        c.memory[c.pc.toNat]? = some off → 0 ≤ wrapInt (off + n) →
        wrapInt (off + n) < c.memory.length ∨ wrapInt (off + n) + 1 ≤ maxSliceLen →
        c.read modeRelative = .ok (c.memory.getD (wrapInt (off + n)).toNat 0)
            { c with
              pc := c.pc + 1,
              memory := c.memory
                ++ List.replicate ((wrapInt (off + n) + 1).toNat - c.memory.length) 0 }
        ∧ ((c.memory.length : Int) ≤ wrapInt (off + n) →
            c.memory.getD (wrapInt (off + n)).toNat 0 = 0)
        ∧ ∃ c2, c.write v modeRelative = .ok () c2
          ∧ c2.memory = (c.memory ++ List.replicate
              ((wrapInt (off + n) + 1).toNat - c.memory.length) 0).set
                (wrapInt (off + n)).toNat v)
    ∧ (∀ (c : computer) (off v : Int), c.relBase = n → 0 ≤ c.pc → c.pc < c.memory.length →
        c.memory[c.pc.toNat]? = some off →
        (c.memory.length : Int) ≤ wrapInt (off + n) → maxSliceLen < wrapInt (off + n) + 1 →
        c.read modeRelative = .fault .lenOutOfRange { c with pc := c.pc + 1 }
        ∧ c.write v modeRelative = .fault .lenOutOfRange { c with pc := c.pc + 1 })
    ∧ (0 ≤ n → n < ((9 :: n :: rest).length : Int) ∨ n + 1 ≤ maxSliceLen →
        ∃ c1, (newComputer (9 :: n :: rest) i o).step = .ok () c1
        ∧ c1.relBase = wrapInt ((9 :: n :: rest).getD n.toNat 0) ∧ c1.pc = 2) := by
  refine ⟨?_, ?_, ?_, ?_⟩
  · have hf : (newComputer (109 :: n :: rest) i o).next
        = .ok 109 ⟨1, 0, 109 :: n :: rest, i, o, true⟩ :=
      next_at 0 0 (109 :: n :: rest) i o true 109 rfl
    have hf1 : (⟨1, 0, 109 :: n :: rest, i, o, true⟩ : computer).next
        = .ok n ⟨2, 0, 109 :: n :: rest, i, o, true⟩ :=
      next_at 1 0 (109 :: n :: rest) i o true n (by simp)
    have hm : paramMode 109 1 0 = modeImmediate := by decide
    have hr : (⟨1, 0, 109 :: n :: rest, i, o, true⟩ : computer).read (paramMode 109 1 0)
        = .ok n ⟨2, 0, 109 :: n :: rest, i, o, true⟩ := by
      rw [hm, read_of_next hf1, if_pos rfl]
    rw [rel_step_of_read hf (by decide) hr]
    show Res.ok () (⟨2, wrapInt (0 + n), 109 :: n :: rest, i, o, true⟩ : computer) = _
    rw [zero_add, wrapInt_of_inRange hn]
  · intro c off v hrb hpc0 hpc1 hw hA0 hg
    have := relative_reference c off v (wrapInt (off + n)) hpc0 hpc1 hw (by rw [hrb]) hA0 hg
    exact this
  · intro c off v hrb hpc0 hpc1 hw h1 h2
    exact relative_reference_huge c off v (wrapInt (off + n)) hpc0 hpc1 hw (by rw [hrb]) h1 h2
  · intro hn0 hg
    have hf : (newComputer (9 :: n :: rest) i o).next
        = .ok 9 ⟨1, 0, 9 :: n :: rest, i, o, true⟩ :=
      next_at 0 0 (9 :: n :: rest) i o true 9 rfl
    have hf1 : (⟨1, 0, 9 :: n :: rest, i, o, true⟩ : computer).next
        = .ok n ⟨2, 0, 9 :: n :: rest, i, o, true⟩ :=
      next_at 1 0 (9 :: n :: rest) i o true n (by simp)
    have hm : paramMode 9 1 0 = modePosition := by decide
    have hr : (⟨1, 0, 9 :: n :: rest, i, o, true⟩ : computer).read (paramMode 9 1 0)
        = .ok ((9 :: n :: rest).getD n.toNat 0)
            ((⟨2, 0, 9 :: n :: rest, i, o, true⟩ : computer).grown n) := by
      rw [hm, read_of_next hf1, if_neg (by decide), if_pos rfl]
      exact load_ok (⟨2, 0, 9 :: n :: rest, i, o, true⟩ : computer) n hn0 hg
    refine ⟨_, rel_step_of_read hf (by decide) hr, ?_, ?_⟩
    · show wrapInt (((⟨2, 0, 9 :: n :: rest, i, o, true⟩ : computer).grown
        n).relBase + _) = _
      rw [(grown_frame _ n).2.1]
      show wrapInt (0 + _) = _
      rw [zero_add]
    · show ((⟨2, 0, 9 :: n :: rest, i, o, true⟩ : computer).grown n).pc = 2
      rw [(grown_frame _ n).1]

theorem relative_base_program_spec_witness :
    inRange 7
    ∧ sampleRelImm.step = .ok () ⟨2, 7, [109, 7, 204, 2, 99], newIntBuffer, newIntBuffer, true⟩
    ∧ (⟨3, 7, [109, 7, 204, 2, 99], newIntBuffer, newIntBuffer, true⟩ : computer).read
        modeRelative
      = .ok 0 ⟨4, 7, [109, 7, 204, 2, 99, 0, 0, 0, 0, 0], newIntBuffer, newIntBuffer, true⟩ := by
  have h := relative_base_program_spec 7 [204, 2, 99] newIntBuffer newIntBuffer
    (by unfold inRange; decide)
  refine ⟨by unfold inRange; decide, h.1, ?_⟩
  have h2 := (h.2.1 ⟨3, 7, [109, 7, 204, 2, 99], newIntBuffer, newIntBuffer, true⟩ 2 0 rfl
    (by decide) (by decide) (by decide) (by decide) (Or.inr (by decide))).1
  rw [h2]
  decide

/-- C21 (counterexample): the program `9, 0, 204, 2, 99`.  Its first two words are 9 and
`n = 0`, yet the first instruction leaves `relBase = 9`, the content of cell 0; the
reference with offset 2 then resolves to address 11, not to `n + 2 = 2`: it reads 0
from a cell beyond the program, whereas cell 2 holds 204.  And the program
`109, 9223372036854775807, 204, 0, 99`: its first instruction leaves
`relBase = 2^63 - 1`, and the reference with offset 0, which resolves to `2^63 - 1`
beyond the program, panics in `make` instead of reading 0. -/
theorem rel_position_operand :
    sampleRelPos.step
        = .ok () ⟨2, 9, [9, 0, 204, 2, 99], newIntBuffer, newIntBuffer, true⟩
    ∧ (⟨3, 9, [9, 0, 204, 2, 99], newIntBuffer, newIntBuffer, true⟩ : computer).read
        modeRelative
      = .ok 0 ⟨4, 9, [9, 0, 204, 2, 99, 0, 0, 0, 0, 0, 0, 0], newIntBuffer, newIntBuffer,
          true⟩
    ∧ ([9, 0, 204, 2, 99] : List Int)[2]? = some 204
    ∧ sampleRelPos.runProgram 3
      = .returned ⟨5, 9, [9, 0, 204, 2, 99, 0, 0, 0, 0, 0, 0, 0], newIntBuffer,
          ⟨[0], false, false⟩, false⟩
    ∧ sampleRelFar.step
        = .ok () ⟨2, 9223372036854775807, [109, 9223372036854775807, 204, 0, 99],
            newIntBuffer, newIntBuffer, true⟩
    ∧ (⟨3, 9223372036854775807, [109, 9223372036854775807, 204, 0, 99], newIntBuffer,
        newIntBuffer, true⟩ : computer).read modeRelative
      = .fault .lenOutOfRange ⟨4, 9223372036854775807,
          [109, 9223372036854775807, 204, 0, 99], newIntBuffer, newIntBuffer, true⟩
    ∧ sampleRelFar.runProgram 3
      = .fault .lenOutOfRange ⟨4, 9223372036854775807,
          [109, 9223372036854775807, 204, 0, 99], newIntBuffer, newIntBuffer, true⟩ := by
  refine ⟨by decide, by decide, by decide, by decide!, by decide, by decide, by decide!⟩

end Day11

namespace Day2
open Go

theorem bind_ok_inv2 {α β : Type} {r : Res α} {f : α → computer → Res β} {u : β}
    {c1 : computer} (h : r.bind f = .ok u c1) : ∃ a c0, r = .ok a c0 ∧ f a c0 = .ok u c1 := by
  cases r with
  | ok a c0 => exact ⟨a, c0, rfl, h⟩
  | fault e c0 => cases h

theorem next_ok_inv2 {c c0 : computer} {w : Int} (h : c.next = .ok w c0) :
    sliceGet c.memory c.pc = some w ∧ c0 = { c with pc := c.pc + 1 } := by
  unfold computer.next at h
  cases hg : sliceGet c.memory c.pc with
  | none => rw [hg] at h; cases h
  | some x =>
    rw [hg] at h
    simp only [Res.ok.injEq] at h
    exact ⟨by rw [h.1], h.2.symm⟩

theorem get_ok_inv2 {c c0 : computer} {idx a : Int} (h : c.get idx = .ok a c0) :
    sliceGet c.memory idx = some a ∧ c0 = c := by
  unfold computer.get at h
  cases hg : sliceGet c.memory idx with
  | none => rw [hg] at h; cases h
  | some x =>
    rw [hg] at h
    simp only [Res.ok.injEq] at h
    exact ⟨by rw [h.1], h.2.symm⟩

theorem set_ok_inv2 {c c0 : computer} {idx v : Int} (h : c.set idx v = .ok () c0) :
    (∃ old, sliceGet c.memory idx = some old)
      ∧ c0 = { c with memory := c.memory.set idx.toNat v } := by
  unfold computer.set at h
  cases hg : sliceGet c.memory idx with
  | none => rw [hg] at h; cases h
  | some x =>
    rw [hg] at h
    simp only [Res.ok.injEq, true_and] at h
    exact ⟨⟨x, rfl⟩, h.symm⟩

theorem alu_ok_inv2 {c c1 : computer} (k : Int → Int → Int)
    (h : (c.next.bind fun i c => (c.get i).bind fun a c =>
      c.next.bind fun j c => (c.get j).bind fun b c =>
      c.next.bind fun r c => c.set r (k a b)) = .ok () c1) :
    ∃ i a j b r, sliceGet c.memory c.pc = some i ∧ sliceGet c.memory i = some a
      ∧ sliceGet c.memory (c.pc + 1) = some j ∧ sliceGet c.memory j = some b
      ∧ sliceGet c.memory (c.pc + 1 + 1) = some r ∧ (∃ old, sliceGet c.memory r = some old)
      ∧ c1 = { c with pc := c.pc + 1 + 1 + 1, memory := c.memory.set r.toNat (k a b) } := by
  obtain ⟨i, d1, e1, h⟩ := bind_ok_inv2 h
  obtain ⟨g1, rfl⟩ := next_ok_inv2 e1
  obtain ⟨a, d2, e2, h⟩ := bind_ok_inv2 h
  obtain ⟨g2, rfl⟩ := get_ok_inv2 e2
  obtain ⟨j, d3, e3, h⟩ := bind_ok_inv2 h
  obtain ⟨g3, rfl⟩ := next_ok_inv2 e3
  obtain ⟨b, d4, e4, h⟩ := bind_ok_inv2 h
  obtain ⟨g4, rfl⟩ := get_ok_inv2 e4
  obtain ⟨r, d5, e5, h⟩ := bind_ok_inv2 h
  obtain ⟨g5, rfl⟩ := next_ok_inv2 e5
  obtain ⟨g6, rfl⟩ := set_ok_inv2 h
  exact ⟨i, a, j, b, r, g1, g2, g3, g4, g5, g6, rfl⟩

theorem step_ok_inv2 {c c1 : computer} (h : c.step = .ok () c1) :
    ∃ w, sliceGet c.memory c.pc = some w
      ∧ ((w = 99 ∧ c1 = { c with pc := c.pc + 1, running := false })
        ∨ ((w = 1 ∨ w = 2) ∧ ∃ i a j b r, sliceGet c.memory (c.pc + 1) = some i
            ∧ sliceGet c.memory i = some a
            ∧ sliceGet c.memory (c.pc + 1 + 1) = some j ∧ sliceGet c.memory j = some b
            ∧ sliceGet c.memory (c.pc + 1 + 1 + 1) = some r
            ∧ (∃ old, sliceGet c.memory r = some old)
            ∧ c1 = { c with pc := c.pc + 1 + 1 + 1 + 1,
                            memory := c.memory.set r.toNat
                              (wrapInt (if w = 1 then a + b else a * b)) })) := by
  unfold computer.step at h
  obtain ⟨w, c0, e0, h⟩ := bind_ok_inv2 h
  obtain ⟨g0, rfl⟩ := next_ok_inv2 e0
  refine ⟨w, g0, ?_⟩
  unfold opcodes at h
  by_cases h1 : w = 1
  · subst h1
    rw [if_pos rfl] at h
    right
    obtain ⟨i, a, j, b, r, q1, q2, q3, q4, q5, q6, q7⟩ :=
      alu_ok_inv2 (fun a b => wrapInt (a + b)) h
    exact ⟨Or.inl rfl, i, a, j, b, r, q1, q2, q3, q4, q5, q6, by rw [q7]; rfl⟩
  · rw [if_neg h1] at h
    by_cases h2 : w = 2
    · subst h2
      rw [if_pos rfl] at h
      right
      obtain ⟨i, a, j, b, r, q1, q2, q3, q4, q5, q6, q7⟩ :=
        alu_ok_inv2 (fun a b => wrapInt (a * b)) h
      exact ⟨Or.inr rfl, i, a, j, b, r, q1, q2, q3, q4, q5, q6, by rw [q7]; rfl⟩
    · rw [if_neg h2] at h
      by_cases h99 : w = 99
      · subst h99
        rw [if_pos rfl] at h
        left
        simp only [halt, Res.ok.injEq, true_and] at h
        exact ⟨rfl, h.symm⟩
      · rw [if_neg h99] at h
        simp only [] at h
        split at h <;> cases h

theorem sliceGet_some_bounds {s : List Int} {idx x : Int} (h : sliceGet s idx = some x) :
    0 ≤ idx ∧ idx < s.length ∧ s[idx.toNat]? = some x := by
  unfold sliceGet at h
  by_cases hb : 0 ≤ idx ∧ idx < s.length
  · rw [if_pos hb] at h
    exact ⟨hb.1, hb.2, h⟩
  · rw [if_neg hb] at h
    cases h

theorem step_ok_facts2 {c c1 : computer} (h : c.step = .ok () c1) :
    c.pc < c1.pc ∧ c1.memory.length = c.memory.length
      ∧ (c1.running = false ∨ (c1.running = c.running ∧ c1.pc = c.pc + 4
          ∧ c.pc + 3 < c.memory.length)) := by
  obtain ⟨w, hw, hcase⟩ := step_ok_inv2 h
  rcases hcase with ⟨-, rfl⟩ | ⟨-, i, a, j, b, r, -, -, -, -, hr, -, rfl⟩
  · exact ⟨by show c.pc < c.pc + 1; omega, rfl, Or.inl rfl⟩
  · obtain ⟨-, hlt, -⟩ := sliceGet_some_bounds hr
    refine ⟨by show c.pc < c.pc + 1 + 1 + 1 + 1; omega, ?_, Or.inr ⟨rfl, ?_, ?_⟩⟩
    · show (c.memory.set _ _).length = _
      rw [List.length_set]
    · show c.pc + 1 + 1 + 1 + 1 = _
      omega
    · omega

theorem runLoop_ends (F : Nat) (c : computer)
    (h : (c.memory.length : Int) - c.pc ≤ 4 * F + 3) (c1 : computer) :
    c.runLoop (F + 1) ≠ .unfinished c1 := by
  induction F generalizing c with
  | zero =>
    by_cases hr : c.running = true
    · rw [runLoop_running2 _ _ hr]
      cases hs : c.step with
      | fault f c2 => intro hh; cases hh
      | ok u c2 =>
        obtain ⟨-, -, hcase⟩ := step_ok_facts2 hs
        rcases hcase with h1 | ⟨-, -, h3⟩
        · simp only []
          rw [runLoop_halted2 _ _ h1]
          intro hh; cases hh
        · exfalso
          simp only [Nat.cast_zero, mul_zero, zero_add] at h
          omega
    · rw [runLoop_halted2 _ _ (by simpa using hr)]
      intro hh; cases hh
  | succ F ih =>
    by_cases hr : c.running = true
    · rw [runLoop_running2 _ _ hr]
      cases hs : c.step with
      | fault f c2 => intro hh; cases hh
      | ok u c2 =>
        obtain ⟨-, hl, hcase⟩ := step_ok_facts2 hs
        simp only []
        rcases hcase with h1 | ⟨-, h2, -⟩
        · rw [runLoop_halted2 _ _ h1]
          intro hh; cases hh
        · apply ih
          rw [hl, h2]
          push_cast at h ⊢
          omega
    · rw [runLoop_halted2 _ _ (by simpa using hr)]
      intro hh; cases hh

theorem runLoop_stable (F : Nat) (c : computer) (hne : ∀ c1, c.runLoop F ≠ .unfinished c1) :
    c.runLoop (F + 1) = c.runLoop F := by
  induction F generalizing c with
  | zero =>
    by_cases hr : c.running = true
    · exfalso
      apply hne c
      unfold computer.runLoop
      rw [if_pos hr]
    · rw [runLoop_halted2 _ _ (by simpa using hr), runLoop_halted2 _ _ (by simpa using hr)]
  | succ F ih =>
    by_cases hr : c.running = true
    · rw [runLoop_running2 _ _ hr] at hne
      rw [runLoop_running2 _ _ hr, runLoop_running2 _ _ hr]
      cases hs : c.step with
      | fault f c2 => rfl
      | ok u c2 =>
        rw [hs] at hne
        exact ih c2 hne
    · rw [runLoop_halted2 _ _ (by simpa using hr), runLoop_halted2 _ _ (by simpa using hr)]

theorem runLoop_stable_add (F k : Nat) (c : computer)
    (hne : ∀ c1, c.runLoop F ≠ .unfinished c1) : c.runLoop (F + k) = c.runLoop F := by
  induction k with
  | zero => rfl
  | succ k ih =>
    rw [← Nat.add_assoc, runLoop_stable (F + k) c (by rw [ih]; exact hne), ih]

theorem tryInit_ok (prg : List Int) (n v : Int) (hlen : 3 ≤ prg.length) :
    tryInit prg n v = .ok () ⟨0, (prg.set 1 n).set 2 v, true⟩ := by
  have h1 : ∃ x, sliceGet prg 1 = some x := by
    refine ⟨_, sliceGet_eq_some (by decide) (by omega)⟩
  have h2 : ∃ x, sliceGet (prg.set 1 n) 2 = some x := by
    refine ⟨_, sliceGet_eq_some (by decide) (by rw [List.length_set]; omega)⟩
  obtain ⟨x1, e1⟩ := h1
  obtain ⟨x2, e2⟩ := h2
  unfold tryInit
  simp only [newComputer, List.nil_append]
  unfold computer.set
  simp only []
  rw [e1]
  simp only [Res.bind]
  rw [show ((1 : Int).toNat) = 1 from rfl, e2]
  rfl

end Day2

namespace Day2
open Go

/-- C28: the two-opcode machine always terminates.  For a program of length at least 3
and any `n`, `v`: the set-up stores succeed; the run loop ends within `len(prg)`
iterations, so `tryWithInputs` is never unfinished with that many iterations and more
iterations change nothing; it ends by returning after a halt or by a panic.  The reason:
every completed instruction strictly increases `pc` (by 4 unless it halts) and leaves
the memory length unchanged. -/
theorem two_opcode_terminates (prg : List Int) (n v : Int) (hlen : 3 ≤ prg.length) :
    tryInit prg n v = .ok () ⟨0, (prg.set 1 n).set 2 v, true⟩
    ∧ (∀ c1, (⟨0, (prg.set 1 n).set 2 v, true⟩ : computer).runLoop prg.length
        ≠ .unfinished c1)
    ∧ tryWithInputs prg.length prg n v ≠ .unfinished
    ∧ ((∃ r, tryWithInputs prg.length prg n v = .returned r)
        ∨ (∃ f, tryWithInputs prg.length prg n v = .fault f))
    ∧ (∀ k, tryWithInputs (prg.length + k) prg n v = tryWithInputs prg.length prg n v)
    ∧ (∀ c c1 : computer, c.step = .ok () c1 →
        c.pc < c1.pc ∧ c1.memory.length = c.memory.length
        ∧ (c1.running = false ∨ c1.pc = c.pc + 4))
    ∧ (∀ (F : Nat) (c c1 : computer), c.runLoop F = .returned c1 → c1.running = false) := by
  have hinit := tryInit_ok prg n v hlen
  obtain ⟨F, hF⟩ : ∃ F, prg.length = F + 1 := ⟨prg.length - 1, by omega⟩
  have hend : ∀ c1, (⟨0, (prg.set 1 n).set 2 v, true⟩ : computer).runLoop prg.length
      ≠ .unfinished c1 := by
    intro c1
    rw [hF]
    apply runLoop_ends
    show (((prg.set 1 n).set 2 v).length : Int) - 0 ≤ 4 * F + 3
    rw [List.length_set, List.length_set]
    omega
  have hne : tryWithInputs prg.length prg n v ≠ .unfinished := by
    unfold tryWithInputs
    rw [hinit]
    simp only []
    cases hr : (⟨0, (prg.set 1 n).set 2 v, true⟩ : computer).runLoop prg.length with
    | unfinished c1 => exact absurd hr (hend c1)
    | fault f c1 => intro hh; cases hh
    | returned c1 =>
      simp only []
      split <;> intro hh <;> cases hh
  refine ⟨hinit, hend, hne, ?_, ?_, ?_, ?_⟩
  · cases hr : tryWithInputs prg.length prg n v with
    | returned r => exact Or.inl ⟨r, rfl⟩
    | fault f => exact Or.inr ⟨f, rfl⟩
    | unfinished => exact absurd hr hne
  · intro k
    unfold tryWithInputs
    rw [hinit]
    simp only []
    rw [runLoop_stable_add _ k _ hend]
  · intro c c1 hs
    obtain ⟨h1, h2, h3⟩ := step_ok_facts2 hs
    refine ⟨h1, h2, ?_⟩
    rcases h3 with h | ⟨-, h, -⟩
    · exact Or.inl h
    · exact Or.inr h
  · intro F
    induction F with
    | zero =>
      intro c c1 h
      by_cases hr : c.running = true
      · unfold computer.runLoop at h
        rw [if_pos hr] at h
        cases h
      · rw [runLoop_halted2 _ _ (by simpa using hr)] at h
        cases h
        simpa using hr
    | succ F ih =>
      intro c c1 h
      by_cases hr : c.running = true
      · rw [runLoop_running2 _ _ hr] at h
        cases hs : c.step with
        | fault f c2 => rw [hs] at h; cases h
        | ok u c2 =>
          rw [hs] at h
          exact ih c2 c1 h
      · rw [runLoop_halted2 _ _ (by simpa using hr)] at h
        cases h
        simpa using hr

theorem two_opcode_terminates_witness :
    3 ≤ ([1, 0, 0, 0, 99] : List Int).length
    ∧ tryWithInputs ([1, 0, 0, 0, 99] : List Int).length [1, 0, 0, 0, 99] 0 0 ≠ .unfinished
    ∧ tryWithInputs 5 [1, 0, 0, 0, 99] 0 0 = .returned 2 :=
  ⟨by decide, (two_opcode_terminates [1, 0, 0, 0, 99] 0 0 (by decide)).2.2.1, by decide⟩

end Day2

namespace Day11
open Go

theorem read_position_in_range (c : computer) (i a : Int)
    (h1 : sliceGet c.memory c.pc = some i) (h2 : sliceGet c.memory i = some a) :
    c.read modePosition = .ok a { c with pc := c.pc + 1 } := by
  obtain ⟨p0, p1, pw⟩ := Day2.sliceGet_some_bounds h1
  obtain ⟨q0, q1, qw⟩ := Day2.sliceGet_some_bounds h2
  have hn := next_of_get p0 p1 pw
  rw [read_of_next hn, if_neg (by decide), if_pos rfl,
    load_ok ({ c with pc := c.pc + 1 } : computer) i q0 (Or.inl q1),
    grown_of_lt ({ c with pc := c.pc + 1 } : computer) i q1]
  show Res.ok (c.memory.getD i.toNat 0) _ = _
  rw [List.getD_eq_getElem?_getD, qw]
  rfl

theorem write_position_in_range (c : computer) (r v old : Int)
    (h1 : sliceGet c.memory c.pc = some r) (h2 : sliceGet c.memory r = some old) :
    c.write v modePosition
      = .ok () { c with pc := c.pc + 1, memory := c.memory.set r.toNat v } := by
  obtain ⟨p0, p1, pw⟩ := Day2.sliceGet_some_bounds h1
  obtain ⟨q0, q1, -⟩ := Day2.sliceGet_some_bounds h2
  have hn := next_of_get p0 p1 pw
  rw [write_of_next hn, if_neg (by decide), if_pos rfl,
    store_in_range ({ c with pc := c.pc + 1 } : computer) r v q0 q1]

end Day11

namespace Day2
open Go

theorem two_opcode_halts (F : Nat) (c c1 : computer) (h : c.runLoop F = .returned c1) :
    c1.running = false := by
  induction F generalizing c with
  | zero =>
    by_cases hr : c.running = true
    · unfold computer.runLoop at h
      rw [if_pos hr] at h
      cases h
    · rw [runLoop_halted2 _ _ (by simpa using hr)] at h
      cases h
      simpa using hr
  | succ F ih =>
    by_cases hr : c.running = true
    · rw [runLoop_running2 _ _ hr] at h
      cases hs : c.step with
      | fault f c2 => rw [hs] at h; cases h
      | ok u c2 =>
        rw [hs] at h
        exact ih c2 h
    · rw [runLoop_halted2 _ _ (by simpa using hr)] at h
      cases h
      simpa using hr

theorem step_sim2 {c c1 : computer} (i o : Day11.intBuffer) (h : c.step = .ok () c1) :
    (toDay11 c i o).step = .ok () (toDay11 c1 i o) := by
  obtain ⟨w, hw, hcase⟩ := step_ok_inv2 h
  obtain ⟨p0, p1, pw⟩ := sliceGet_some_bounds hw
  have hn : (toDay11 c i o).next = .ok w (toDay11 { c with pc := c.pc + 1 } i o) :=
    @Day11.next_of_get (toDay11 c i o) w p0 p1 pw
  rcases hcase with ⟨rfl, rfl⟩ | ⟨hw12, a1, a, a2, b, r, g1, g2, g3, g4, g5, ⟨old, g6⟩, rfl⟩
  · rw [Day11.step_of_next hn]
    rfl
  · have e1 : (toDay11 { c with pc := c.pc + 1 } i o).read Day11.modePosition
        = .ok a (toDay11 { c with pc := c.pc + 1 + 1 } i o) :=
      Day11.read_position_in_range (toDay11 { c with pc := c.pc + 1 } i o) a1 a g1 g2
    have e2 : (toDay11 { c with pc := c.pc + 1 + 1 } i o).read Day11.modePosition
        = .ok b (toDay11 { c with pc := c.pc + 1 + 1 + 1 } i o) :=
      Day11.read_position_in_range (toDay11 { c with pc := c.pc + 1 + 1 } i o) a2 b g3 g4
    have e3 : ∀ v : Int,
        (toDay11 { c with pc := c.pc + 1 + 1 + 1 } i o).write v Day11.modePosition
        = .ok () (toDay11 { c with pc := c.pc + 1 + 1 + 1 + 1,
                                   memory := c.memory.set r.toNat v } i o) := fun v =>
      Day11.write_position_in_range (toDay11 { c with pc := c.pc + 1 + 1 + 1 } i o) r v old
        g5 g6
    rw [Day11.step_of_next hn]
    rcases hw12 with rfl | rfl
    · show ((toDay11 { c with pc := c.pc + 1 } i o).read Day11.modePosition).bind
        (fun a c => (c.read Day11.modePosition).bind fun b c =>
          c.write (wrapInt (a + b)) Day11.modePosition) = _
      rw [e1]
      show ((toDay11 { c with pc := c.pc + 1 + 1 } i o).read Day11.modePosition).bind
        (fun b c => c.write (wrapInt (a + b)) Day11.modePosition) = _
      rw [e2]
      show (toDay11 { c with pc := c.pc + 1 + 1 + 1 } i o).write (wrapInt (a + b))
        Day11.modePosition = _
      rw [e3]
      rfl
    · show ((toDay11 { c with pc := c.pc + 1 } i o).read Day11.modePosition).bind
        (fun a c => (c.read Day11.modePosition).bind fun b c =>
          c.write (wrapInt (a * b)) Day11.modePosition) = _
      rw [e1]
      show ((toDay11 { c with pc := c.pc + 1 + 1 } i o).read Day11.modePosition).bind
        (fun b c => c.write (wrapInt (a * b)) Day11.modePosition) = _
      rw [e2]
      show (toDay11 { c with pc := c.pc + 1 + 1 + 1 } i o).write (wrapInt (a * b))
        Day11.modePosition = _
      rw [e3]
      rfl

theorem run_sim2 (F : Nat) (c c1 : computer) (i o : Day11.intBuffer)
    (h : c.runLoop F = .returned c1) :
    (toDay11 c i o).runProgram F = .returned (toDay11 c1 i o)
      ∧ c1.memory.length = c.memory.length := by
  induction F generalizing c with
  | zero =>
    by_cases hr : c.running = true
    · unfold computer.runLoop at h
      rw [if_pos hr] at h
      cases h
    · rw [runLoop_halted2 _ _ (by simpa using hr)] at h
      cases h
      exact ⟨Day11.runProgram_halted11 _ _ (by simpa using hr), rfl⟩
  | succ F ih =>
    by_cases hr : c.running = true
    · rw [runLoop_running2 _ _ hr] at h
      cases hs : c.step with
      | fault f c2 => rw [hs] at h; cases h
      | ok u c2 =>
        rw [hs] at h
        obtain ⟨h1, h2⟩ := ih c2 h
        obtain ⟨-, hl, -⟩ := step_ok_facts2 hs
        refine ⟨?_, by rw [h2, hl]⟩
        rw [Day11.runProgram_running11 _ (toDay11 c i o) hr, step_sim2 i o hs]
        exact h1
    · rw [runLoop_halted2 _ _ (by simpa using hr)] at h
      cases h
      exact ⟨Day11.runProgram_halted11 _ _ (by simpa using hr), rfl⟩

/-- C27: the nine-opcode machine extends the two-opcode machine.  For a program of
length at least 3 and `n`, `v` such that `tryWithInputs(prg, n, v)` returns `r`: the
day-11 machine started on the same image (the program with cells 1 and 2 replaced by
`n` and `v`), with any channels `i`, `o`, returns from `runProgram` after the same number
of instructions, halted, with the final memory of the two-opcode run, whose cell 0 is
`r`; its channels are exactly `i` and `o`, `relBase` is 0 and the memory has the
program's length. -/
theorem two_opcode_refinement (fuel : Nat) (prg : List Int) (n v r : Int)
    (i o : Day11.intBuffer) (hlen : 3 ≤ prg.length)
    (h : tryWithInputs fuel prg n v = .returned r) :
    ∃ c2 : computer,
      (⟨0, (prg.set 1 n).set 2 v, true⟩ : computer).runLoop fuel = .returned c2
      ∧ (Day11.newComputer ((prg.set 1 n).set 2 v) i o).runProgram fuel
          = .returned ⟨c2.pc, 0, c2.memory, i, o, false⟩
      ∧ c2.memory[0]? = some r ∧ c2.memory.length = prg.length := by
  have hinit := tryInit_ok prg n v hlen
  unfold tryWithInputs at h
  rw [hinit] at h
  simp only [] at h
  cases hr : (⟨0, (prg.set 1 n).set 2 v, true⟩ : computer).runLoop fuel with
  | fault f c2 => rw [hr] at h; cases h
  | unfinished c2 => rw [hr] at h; cases h
  | returned c2 =>
    rw [hr] at h
    simp only [] at h
    cases hg : sliceGet c2.memory 0 with
    | none => rw [hg] at h; cases h
    | some x =>
      rw [hg] at h
      simp only [TryRes.returned.injEq] at h
      subst h
      obtain ⟨h1, h2⟩ := run_sim2 fuel _ c2 i o hr
      have hrun : c2.running = false :=
        (two_opcode_halts fuel _ c2 hr)
      refine ⟨c2, rfl, ?_, (sliceGet_some_bounds hg).2.2, ?_⟩
      · have : toDay11 c2 i o = ⟨c2.pc, 0, c2.memory, i, o, false⟩ := by
          unfold toDay11
          rw [hrun]
        rw [← this]
        exact h1
      · rw [h2]
        show ((prg.set 1 n).set 2 v).length = _
        rw [List.length_set, List.length_set]

theorem two_opcode_refinement_witness :
    3 ≤ ([1, 0, 0, 0, 99] : List Int).length
    ∧ tryWithInputs 2 [1, 0, 0, 0, 99] 0 0 = .returned 2
    ∧ ∃ c2 : computer,
      (⟨0, (([1, 0, 0, 0, 99] : List Int).set 1 0).set 2 0, true⟩ : computer).runLoop 2
          = .returned c2
      ∧ (Day11.newComputer ((([1, 0, 0, 0, 99] : List Int).set 1 0).set 2 0)
            Day11.newIntBuffer Day11.newIntBuffer).runProgram 2
          = .returned ⟨c2.pc, 0, c2.memory, Day11.newIntBuffer, Day11.newIntBuffer, false⟩
      ∧ c2.memory[0]? = some 2 ∧ c2.memory.length = ([1, 0, 0, 0, 99] : List Int).length :=
  ⟨by decide, by decide,
    two_opcode_refinement 2 [1, 0, 0, 0, 99] 0 0 2 Day11.newIntBuffer Day11.newIntBuffer
      (by decide) (by decide)⟩

end Day2

namespace Load

theorem splitComma_ne_nil (b : List Char) : splitComma b ≠ [] := by
  cases b with
  | nil => simp [splitComma]
  | cons ch rest =>
    unfold splitComma
    split
    · simp
    · split <;> simp

theorem splitComma_append_comma (t : List Char) :
    splitComma (t ++ [',']) = splitComma t ++ [[]] := by
  induction t with
  | nil => rfl
  | cons ch t ih =>
    show splitComma (ch :: (t ++ [','])) = splitComma (ch :: t) ++ [[]]
    unfold splitComma
    by_cases hc : ch = ','
    · rw [if_pos hc, if_pos hc, ih]
      rfl
    · rw [if_neg hc, if_neg hc, ih]
      cases hs : splitComma t with
      | nil => exact absurd hs (splitComma_ne_nil t)
      | cons tok toks => rfl

theorem parseTokens_cases (toks : List (List Char)) (prg : List Int) :
    ((∃ tok ∈ toks, ∀ n, atoi (trimSpace tok) ≠ .ok n)
      ∧ ∃ e, parseTokens toks prg = ([], some e))
    ∨ (∃ vals : List Int, toks.map (fun tok => atoi (trimSpace tok)) = vals.map AtoiRes.ok
      ∧ parseTokens toks prg = (prg ++ vals, none)) := by
  induction toks generalizing prg with
  | nil => exact Or.inr ⟨[], rfl, by simp [parseTokens]⟩
  | cons s rest ih =>
    cases ha : atoi (trimSpace s) with
    | err e =>
      left
      refine ⟨⟨s, List.mem_cons_self _ _, ?_⟩, e, ?_⟩
      · intro n hn
        rw [ha] at hn
        cases hn
      · unfold parseTokens
        rw [ha]
    | ok n =>
      have hstep : parseTokens (s :: rest) prg = parseTokens rest (prg ++ [n]) := by
        conv_lhs => unfold parseTokens
        rw [ha]
      rcases ih (prg ++ [n]) with ⟨⟨tok, hm, hbad⟩, e, he⟩ | ⟨vals, hv, hp⟩
      · left
        exact ⟨⟨tok, List.mem_cons_of_mem _ hm, hbad⟩, e, by rw [hstep, he]⟩
      · right
        refine ⟨n :: vals, ?_, ?_⟩
        · simp only [List.map_cons, ha, hv]
        · rw [hstep, hp]
          simp

/-- C23: the parsing step of `loadProgram`.  For every program text: the result is an
error together with the nil program exactly when some comma-separated token, trimmed,
is rejected by `strconv.Atoi`; never an error with a partial list; when every token
parses, no error and the parsed integers in their textual order.  The empty text and
a text that ends in a comma are errors (their last token is empty). -/
theorem loadProgram_spec (b : List Char) :
    ((∃ e, parseProgram b = ([], some e))
      ↔ ∃ tok ∈ splitComma b, ∀ n, atoi (trimSpace tok) ≠ .ok n)
    ∧ ((parseProgram b).2 ≠ none → (parseProgram b).1 = [])
    ∧ ((∀ tok ∈ splitComma b, ∃ n, atoi (trimSpace tok) = .ok n) →
        (parseProgram b).2 = none
        ∧ (parseProgram b).1.map AtoiRes.ok
            = (splitComma b).map fun tok => atoi (trimSpace tok))
    ∧ (∃ e, parseProgram [] = ([], some e))
    ∧ (∀ t : List Char, ∃ e, parseProgram (t ++ [',']) = ([], some e)) := by
  have bad_to_err : ∀ b : List Char,
      (∃ tok ∈ splitComma b, ∀ n, atoi (trimSpace tok) ≠ .ok n) →
      ∃ e, parseProgram b = ([], some e) := by
    intro b ⟨tok, hm, hbad⟩
    rcases parseTokens_cases (splitComma b) [] with ⟨-, e, he⟩ | ⟨vals, hv, -⟩
    · exact ⟨e, he⟩
    · exfalso
      have hmem : atoi (trimSpace tok) ∈ (splitComma b).map fun tok => atoi (trimSpace tok) :=
        List.mem_map_of_mem _ hm
      rw [hv] at hmem
      obtain ⟨n, -, hn⟩ := List.mem_map.mp hmem
      exact hbad n hn.symm
  refine ⟨⟨?_, bad_to_err b⟩, ?_, ?_, ?_, ?_⟩
  · rintro ⟨e, he⟩
    rcases parseTokens_cases (splitComma b) [] with ⟨hb, -⟩ | ⟨vals, -, hp⟩
    · exact hb
    · exfalso
      unfold parseProgram at he
      rw [hp] at he
      cases he
  · intro hne
    rcases parseTokens_cases (splitComma b) [] with ⟨-, e, he⟩ | ⟨vals, -, hp⟩
    · unfold parseProgram
      rw [he]
    · exfalso
      apply hne
      unfold parseProgram
      rw [hp]
  · intro hall
    rcases parseTokens_cases (splitComma b) [] with ⟨⟨tok, hm, hbad⟩, -⟩ | ⟨vals, hv, hp⟩
    · exfalso
      obtain ⟨n, hn⟩ := hall tok hm
      exact hbad n hn
    · unfold parseProgram
      rw [hp]
      exact ⟨rfl, by simpa using hv.symm⟩
  · exact ⟨.syntaxError, rfl⟩
  · intro t
    apply bad_to_err
    refine ⟨[], ?_, ?_⟩
    · rw [splitComma_append_comma]
      simp
    · intro n hn
      cases hn

theorem loadProgram_spec_witness :
    parseProgram ['1', ',', ' ', '-', '2', '0', '\n'] = ([1, -20], none)
    ∧ (parseProgram ['1', ',', 'x', ',', '3']).2 ≠ none
    ∧ (parseProgram ['1', ',', 'x', ',', '3']).1 = [] :=
  ⟨by decide!, by decide!,
    (loadProgram_spec ['1', ',', 'x', ',', '3']).2.1 (by decide!)⟩

/-- The error `strconv.Atoi` reports is that of the first offending byte: digits that
overflow before a bad character give a range error, a bad character first gives a syntax
error; `-2^63` is accepted and `2^63` is out of range. -/
theorem atoi_error_kinds :
    atoi ['9', '9', '9', '9', '9', '9', '9', '9', '9', '9', '9', '9', '9', '9', '9', '9',
      '9', '9', '9', '9', 'x'] = .err .rangeError
    ∧ atoi ['9', 'x'] = .err .syntaxError
    ∧ atoi ['-', '9', '2', '2', '3', '3', '7', '2', '0', '3', '6', '8', '5', '4', '7', '7',
      '5', '8', '0', '8'] = .ok (-9223372036854775808)
    ∧ atoi ['9', '2', '2', '3', '3', '7', '2', '0', '3', '6', '8', '5', '4', '7', '7',
      '5', '8', '0', '8'] = .err .rangeError
    ∧ atoi ['+'] = .err .syntaxError := by
  refine ⟨by decide!, by decide!, by decide!, by decide!, by decide!⟩

end Load

namespace Day11
open Go

theorem Grid_get_set (g : Grid) (p q : point) (v : Int) :
    (g.set p v).get q = if q = p then v else g.get q := by
  unfold Grid.get Grid.set
  by_cases h : q = p
  · subst h
    simp
  · rw [if_neg h]
    have hne : ¬ p = q := fun e => h e.symm
    have hfun : (fun a : point × Int =>
        decide (decide (a.1 ≠ p) = true ∧ decide (a.1 = q) = true))
        = fun e => decide (e.1 = q) := by
      funext a
      by_cases ha : a.1 = q
      · have hp : a.1 ≠ p := fun e => h (ha.symm.trans e)
        simp [ha, hp, h]
      · simp [ha]
    rw [List.find?_cons]
    simp only [hne, decide_False]
    rw [List.find?_filter, hfun]

theorem int_cases4 (d : Int) (h : 0 ≤ d ∧ d ≤ 3) : d = 0 ∨ d = 1 ∨ d = 2 ∨ d = 3 := by
  omega

theorem turn_range (d : Int) (rot : Int) (hd : 0 ≤ d ∧ d ≤ 3) :
    0 ≤ (if rot = 0 then turnLeft d else turnRight d)
      ∧ (if rot = 0 then turnLeft d else turnRight d) ≤ 3 := by
  have hd4 : d = 0 ∨ d = 1 ∨ d = 2 ∨ d = 3 := by omega
  by_cases hr : rot = 0
  · rw [if_pos hr]
    rcases hd4 with rfl | rfl | rfl | rfl <;> decide
  · rw [if_neg hr]
    rcases hd4 with rfl | rfl | rfl | rfl <;> decide

theorem turnMove_spec (r : robot) (rot : Int) (hdir : 0 ≤ r.dir ∧ r.dir ≤ 3)
    (hrot : rot = 0 ∨ rot = 1) :
    r.turnMove rot = some { r with
        dir := if rot = 0 then turnLeft r.dir else turnRight r.dir,
        x := (ahead (if rot = 0 then turnLeft r.dir else turnRight r.dir) ⟨r.x, r.y⟩).x,
        y := (ahead (if rot = 0 then turnLeft r.dir else turnRight r.dir) ⟨r.x, r.y⟩).y } := by
  obtain ⟨inp, out, x, y, dir, grid⟩ := r
  have hd : dir = 0 ∨ dir = 1 ∨ dir = 2 ∨ dir = 3 := int_cases4 dir hdir
  rcases hd with rfl | rfl | rfl | rfl <;> rcases hrot with rfl | rfl <;> rfl

theorem paintPairs_pair (color rot : Int) (rest : List Int) (s : Painter) :
    paintPairs (color :: rot :: rest) s
      = paintPairs rest
          { pos := ahead (if rot = 0 then turnLeft s.dir else turnRight s.dir) s.pos,
            dir := if rot = 0 then turnLeft s.dir else turnRight s.dir,
            grid := s.grid.set s.pos color,
            pushed := s.pushed ++ [(s.grid.set s.pos color).get
              (ahead (if rot = 0 then turnLeft s.dir else turnRight s.dir) s.pos)] } := by
  rfl

theorem handleIO_iter (fuel : Nat) (r : robot) (color rot : Int) (rest : List Int)
    (hout : r.output = ⟨color :: rot :: rest, true, false⟩)
    (hin : r.input.locked = false) (hdir : 0 ≤ r.dir ∧ r.dir ≤ 3)
    (hc : color = 0 ∨ color = 1) (hr : rot = 0 ∨ rot = 1) :
    r.handleIO (fuel + 1) = robot.handleIO fuel
      { input := ⟨r.input.ints ++ [(r.grid.set ⟨r.x, r.y⟩ color).get
            (ahead (if rot = 0 then turnLeft r.dir else turnRight r.dir) ⟨r.x, r.y⟩)],
          r.input.closed, false⟩,
        output := ⟨rest, true, false⟩,
        x := (ahead (if rot = 0 then turnLeft r.dir else turnRight r.dir) ⟨r.x, r.y⟩).x,
        y := (ahead (if rot = 0 then turnLeft r.dir else turnRight r.dir) ⟨r.x, r.y⟩).y,
        dir := if rot = 0 then turnLeft r.dir else turnRight r.dir,
        grid := r.grid.set ⟨r.x, r.y⟩ color } := by
  have h1 : r.output.ReadInt = .ok (color, true) ⟨rot :: rest, true, false⟩ := by
    rw [hout]
    rfl
  have h2 : (⟨rot :: rest, true, false⟩ : intBuffer).ReadInt
      = .ok (rot, true) ⟨rest, true, false⟩ := rfl
  have hcne : ¬ (color ≠ 0 ∧ color ≠ 1) := by omega
  have hrne : ¬ (rot ≠ 0 ∧ rot ≠ 1) := by omega
  have ht := turnMove_spec
    ({ r with output := ⟨rest, true, false⟩, grid := r.grid.set ⟨r.x, r.y⟩ color } : robot)
    rot hdir hr
  conv_lhs => unfold robot.handleIO
  rw [h1]
  simp only [Bool.true_eq_false, if_false]
  rw [h2]
  simp only [Bool.true_eq_false, if_false, if_neg hcne, if_neg hrne]
  rw [ht]
  simp only []
  rw [@WriteInt_free r.input _ hin]

end Day11

namespace Day11
open Go

theorem paintPairs_pushed_length : ∀ (s : List Int) (p : Painter),
    (paintPairs s p).pushed.length = p.pushed.length + s.length / 2
  | [], p => by simp [paintPairs]
  | [_], p => by simp [paintPairs]
  | color :: rot :: rest, p => by
    rw [paintPairs_pair, paintPairs_pushed_length rest]
    simp only [List.length_append, List.length_cons, List.length_nil]
    omega

theorem handleIO_stream : ∀ (s : List Int) (r : robot) (k : Nat),
    r.output = ⟨s, true, false⟩ → r.input.locked = false → (0 ≤ r.dir ∧ r.dir ≤ 3) →
    (∀ v ∈ s, v = 0 ∨ v = 1) →
    r.handleIO (s.length / 2 + 1 + k)
      = .done ⟨⟨(paintPairs s ⟨⟨r.x, r.y⟩, r.dir, r.grid, r.input.ints⟩).pushed,
                r.input.closed, false⟩,
              ⟨[], true, true⟩,
              (paintPairs s ⟨⟨r.x, r.y⟩, r.dir, r.grid, r.input.ints⟩).pos.x,
              (paintPairs s ⟨⟨r.x, r.y⟩, r.dir, r.grid, r.input.ints⟩).pos.y,
              (paintPairs s ⟨⟨r.x, r.y⟩, r.dir, r.grid, r.input.ints⟩).dir,
              (paintPairs s ⟨⟨r.x, r.y⟩, r.dir, r.grid, r.input.ints⟩).grid⟩
  | [], r, k, hout, hin, _, _ => by
    obtain ⟨inp, out, x, y, dir, grid⟩ := r
    obtain ⟨ii, ic, il⟩ := inp
    simp only at hout hin
    subst hout
    subst hin
    have hfuel : ([] : List Int).length / 2 + 1 + k = k + 1 := by simp; omega
    rw [hfuel]
    rfl
  | [a], r, k, hout, hin, _, _ => by
    obtain ⟨inp, out, x, y, dir, grid⟩ := r
    obtain ⟨ii, ic, il⟩ := inp
    simp only at hout hin
    subst hout
    subst hin
    have hfuel : [a].length / 2 + 1 + k = k + 1 := by simp; omega
    rw [hfuel]
    rfl
  | color :: rot :: rest, r, k, hout, hin, hdir, hv => by
    have hc : color = 0 ∨ color = 1 := hv color (by simp)
    have hr : rot = 0 ∨ rot = 1 := hv rot (by simp)
    have hrest : ∀ v ∈ rest, v = 0 ∨ v = 1 := fun v hm => hv v (by simp [hm])
    have hfuel : (color :: rot :: rest).length / 2 + 1 + k
        = (rest.length / 2 + 1 + k) + 1 := by
      simp only [List.length_cons]
      omega
    rw [hfuel, handleIO_iter _ r color rot rest hout hin hdir hc hr]
    rw [handleIO_stream rest _ k rfl rfl (turn_range r.dir rot hdir) hrest]
    rw [paintPairs_pair]

end Day11

namespace Day11
open Go

/-- C24: the robot driver.  For every stream `s` of values in {0,1} left by the machine
in the closed output channel, with the input channel's mutex free and the robot facing
one of the four directions, `handleIO` returns (for every number of loop iterations
above half the length of the stream), and the robot it leaves is the one described by
`paintPairs`: the stream is taken in pairs (colour, rotation); each complete pair paints
the current cell, turns (0 left, 1 right), moves one cell and appends to the input
queue the colour of the cell moved onto; an unpaired last value is dropped.  Exactly one
value is pushed for each complete pair.  The grid is a map: a cell reads as the colour
last painted on it, and as 0 when never painted.  The output channel ends empty, with
its mutex still held by the last read. -/
theorem handleIO_spec (s : List Int) (r : robot) (k : Nat)
    (hout : r.output = ⟨s, true, false⟩) (hin : r.input.locked = false)
    (hdir : 0 ≤ r.dir ∧ r.dir ≤ 3) (hv : ∀ v ∈ s, v = 0 ∨ v = 1) :
    r.handleIO (s.length / 2 + 1 + k)
      = .done ⟨⟨(paintPairs s ⟨⟨r.x, r.y⟩, r.dir, r.grid, r.input.ints⟩).pushed,
                r.input.closed, false⟩,
              ⟨[], true, true⟩,
              (paintPairs s ⟨⟨r.x, r.y⟩, r.dir, r.grid, r.input.ints⟩).pos.x,
              (paintPairs s ⟨⟨r.x, r.y⟩, r.dir, r.grid, r.input.ints⟩).pos.y,
              (paintPairs s ⟨⟨r.x, r.y⟩, r.dir, r.grid, r.input.ints⟩).dir,
              (paintPairs s ⟨⟨r.x, r.y⟩, r.dir, r.grid, r.input.ints⟩).grid⟩
    ∧ (paintPairs s ⟨⟨r.x, r.y⟩, r.dir, r.grid, r.input.ints⟩).pushed.length
        = r.input.ints.length + s.length / 2
    ∧ (∀ (color rot : Int) (rest : List Int) (p : Painter),
        paintPairs (color :: rot :: rest) p
          = paintPairs rest
              ⟨ahead (if rot = 0 then turnLeft p.dir else turnRight p.dir) p.pos,
               if rot = 0 then turnLeft p.dir else turnRight p.dir,
               p.grid.set p.pos color,
               p.pushed ++ [(p.grid.set p.pos color).get
                 (ahead (if rot = 0 then turnLeft p.dir else turnRight p.dir) p.pos)]⟩)
    ∧ (∀ (a : Int) (p : Painter), paintPairs [a] p = p ∧ paintPairs [] p = p)
    ∧ (∀ (g : Grid) (p q : point) (v : Int),
        (g.set p v).get q = if q = p then v else g.get q)
    ∧ (∀ q : point, Grid.get [] q = 0) := by
  refine ⟨handleIO_stream s r k hout hin hdir hv, ?_, ?_, ?_, ?_, ?_⟩
  · exact paintPairs_pushed_length s _
  · intro color rot rest p
    exact paintPairs_pair color rot rest p
  · intro a p
    exact ⟨rfl, rfl⟩
  · exact Grid_get_set
  · intro q
    rfl

theorem handleIO_spec_witness :
    sampleRobot.handleIO 3
      = .done ⟨⟨[1, 0, 0], false, false⟩, ⟨[], true, true⟩, -1, -1, up,
               [(⟨-1, 0⟩, 0), (⟨0, 0⟩, 1)]⟩ := by
  have h := handleIO_spec [1, 0, 0, 1, 1] sampleRobot 0 rfl rfl (by decide) (by decide)
  exact h.1

end Day11

namespace Day7

theorem copy_step_in (v : Int) (rest : List Int) (i o : Nat) (h : Heap)
    (hb : h[i]? = some ⟨v :: rest, false⟩) :
    (newComputer copyPrg i o).step h
      = .ok () ⟨2, [v, 0, 4, 0, 99], i, o, true⟩ (h.set i ⟨rest, false⟩) := by
  have hn : (newComputer copyPrg i o).next h
      = .ok 3 ⟨1, [3, 0, 4, 0, 99], i, o, true⟩ h := rfl
  unfold computer.step
  rw [hn]
  have hop : opcodes (parseOpcodeModes 3).1 = some input := rfl
  simp only [Res.bind, hop]
  unfold input
  simp only [hb]
  have hr : (⟨v :: rest, false⟩ : intBuffer).ReadInt = .ok v ⟨rest, false⟩ := rfl
  rw [hr]
  rfl

theorem copy_step_out (v : Int) (q : List Int) (i o : Nat) (h : Heap)
    (hb : h[o]? = some ⟨q, false⟩) :
    (⟨2, [v, 0, 4, 0, 99], i, o, true⟩ : computer).step h
      = .ok () ⟨4, [v, 0, 4, 0, 99], i, o, true⟩ (h.set o ⟨q ++ [v], false⟩) := by
  have hn : (⟨2, [v, 0, 4, 0, 99], i, o, true⟩ : computer).next h
      = .ok 4 ⟨3, [v, 0, 4, 0, 99], i, o, true⟩ h := rfl
  unfold computer.step
  rw [hn]
  have hop : opcodes (parseOpcodeModes 4).1 = some output := rfl
  have hm : (parseOpcodeModes 4).2 = [] := by decide
  simp only [Res.bind, hop, hm]
  unfold output
  have hrd : (⟨3, [v, 0, 4, 0, 99], i, o, true⟩ : computer).read h (modeAt (fillModes [] 1) 0)
      = .ok v ⟨4, [v, 0, 4, 0, 99], i, o, true⟩ h := rfl
  simp only [hrd, Res.bind, hb]
  have hw : (⟨q, false⟩ : intBuffer).WriteInt v = .ok () ⟨q ++ [v], false⟩ := rfl
  rw [hw]

theorem copy_step_halt (v : Int) (i o : Nat) (h : Heap) :
    (⟨4, [v, 0, 4, 0, 99], i, o, true⟩ : computer).step h
      = .ok () ⟨5, [v, 0, 4, 0, 99], i, o, false⟩ h := by
  rfl

end Day7
namespace Day7

theorem sched_none {net : Network} {i : Nat} (h : net.amps[i]? = none) :
    net.sched i = .ok net := by
  unfold Network.sched
  rw [h]

theorem sched_halted {net : Network} {i : Nat} {amp : amplifier}
    (h : net.amps[i]? = some amp) (hr : amp.c.running = false) :
    net.sched i = .ok net := by
  unfold Network.sched
  rw [h]
  simp only [hr, Bool.false_eq_true, if_false]

theorem sched_of_step {net : Network} {i : Nat} {amp : amplifier} {c1 : computer}
    {h1 : Heap} (h : net.amps[i]? = some amp) (hr : amp.c.running = true)
    (hs : amp.c.step net.heap = .ok () c1 h1) :
    ∃ log, net.sched i = .ok ⟨net.amps.set i { amp with c := c1 }, h1, log⟩ := by
  unfold Network.sched
  rw [h]
  simp only [hr, if_true, hs]
  exact ⟨_, rfl⟩

theorem ring_sched0 (a b c d e i : Nat) (hi : i < 5) (hk : [a, b, c, d, e].getD i 0 = 0)
    (log : List (Nat × Int)) :
    ∃ log1, (Network.mk (ringAmps [a, b, c, d, e]) (ringHeap [a, b, c, d, e]) log).sched i
      = .ok ⟨ringAmps (bump [a, b, c, d, e] i), ringHeap (bump [a, b, c, d, e] i), log1⟩ := by
  interval_cases i <;> simp at hk <;> subst hk
  · obtain ⟨log1, h⟩ := @sched_of_step ⟨ringAmps [0, b, c, d, e], ringHeap [0, b, c, d, e], log⟩
      0 (copyAmp 0 0) _ _ rfl rfl (copy_step_in _ _ _ _ _ rfl)
    exact ⟨log1, h⟩
  · obtain ⟨log1, h⟩ := @sched_of_step ⟨ringAmps [a, 0, c, d, e], ringHeap [a, 0, c, d, e], log⟩
      1 (copyAmp 1 0) _ _ rfl rfl (copy_step_in _ _ _ _ _ rfl)
    exact ⟨log1, h⟩
  · obtain ⟨log1, h⟩ := @sched_of_step ⟨ringAmps [a, b, 0, d, e], ringHeap [a, b, 0, d, e], log⟩
      2 (copyAmp 2 0) _ _ rfl rfl (copy_step_in _ _ _ _ _ rfl)
    exact ⟨log1, h⟩
  · obtain ⟨log1, h⟩ := @sched_of_step ⟨ringAmps [a, b, c, 0, e], ringHeap [a, b, c, 0, e], log⟩
      3 (copyAmp 3 0) _ _ rfl rfl (copy_step_in _ _ _ _ _ rfl)
    exact ⟨log1, h⟩
  · obtain ⟨log1, h⟩ := @sched_of_step ⟨ringAmps [a, b, c, d, 0], ringHeap [a, b, c, d, 0], log⟩
      4 (copyAmp 4 0) _ _ rfl rfl (copy_step_in _ _ _ _ _ rfl)
    exact ⟨log1, h⟩

end Day7
namespace Day7

theorem ring_sched1 (a b c d e i : Nat) (hi : i < 5) (hk : [a, b, c, d, e].getD i 0 = 1)
    (log : List (Nat × Int)) :
    ∃ log1, (Network.mk (ringAmps [a, b, c, d, e]) (ringHeap [a, b, c, d, e]) log).sched i
      = .ok ⟨ringAmps (bump [a, b, c, d, e] i), ringHeap (bump [a, b, c, d, e] i), log1⟩ := by
  interval_cases i <;> simp at hk <;> subst hk
  · obtain ⟨log1, h⟩ := @sched_of_step ⟨ringAmps [1, b, c, d, e], ringHeap [1, b, c, d, e], log⟩
      0 (copyAmp 0 1) _ _ rfl rfl (copy_step_out _ _ _ _ _ rfl)
    refine ⟨log1, h.trans ?_⟩
    simp [ringAmps, ringHeap, bump, copyBuf, copyAmp, ringPhases, List.range, List.range.loop]
  · obtain ⟨log1, h⟩ := @sched_of_step ⟨ringAmps [a, 1, c, d, e], ringHeap [a, 1, c, d, e], log⟩
      1 (copyAmp 1 1) _ _ rfl rfl (copy_step_out _ _ _ _ _ rfl)
    refine ⟨log1, h.trans ?_⟩
    simp [ringAmps, ringHeap, bump, copyBuf, copyAmp, ringPhases, List.range, List.range.loop]
  · obtain ⟨log1, h⟩ := @sched_of_step ⟨ringAmps [a, b, 1, d, e], ringHeap [a, b, 1, d, e], log⟩
      2 (copyAmp 2 1) _ _ rfl rfl (copy_step_out _ _ _ _ _ rfl)
    refine ⟨log1, h.trans ?_⟩
    simp [ringAmps, ringHeap, bump, copyBuf, copyAmp, ringPhases, List.range, List.range.loop]
  · obtain ⟨log1, h⟩ := @sched_of_step ⟨ringAmps [a, b, c, 1, e], ringHeap [a, b, c, 1, e], log⟩
      3 (copyAmp 3 1) _ _ rfl rfl (copy_step_out _ _ _ _ _ rfl)
    refine ⟨log1, h.trans ?_⟩
    simp [ringAmps, ringHeap, bump, copyBuf, copyAmp, ringPhases, List.range, List.range.loop]
  · obtain ⟨log1, h⟩ := @sched_of_step ⟨ringAmps [a, b, c, d, 1], ringHeap [a, b, c, d, 1], log⟩
      4 (copyAmp 4 1) _ _ rfl rfl (copy_step_out _ _ _ _ _ rfl)
    refine ⟨log1, h.trans ?_⟩
    simp [ringAmps, ringHeap, bump, copyBuf, copyAmp, ringPhases, List.range, List.range.loop]

theorem ring_sched2 (a b c d e i : Nat) (hi : i < 5) (hk : [a, b, c, d, e].getD i 0 = 2)
    (log : List (Nat × Int)) :
    ∃ log1, (Network.mk (ringAmps [a, b, c, d, e]) (ringHeap [a, b, c, d, e]) log).sched i
      = .ok ⟨ringAmps (bump [a, b, c, d, e] i), ringHeap (bump [a, b, c, d, e] i), log1⟩ := by
  interval_cases i <;> simp at hk <;> subst hk
  · obtain ⟨log1, h⟩ := @sched_of_step ⟨ringAmps [2, b, c, d, e], ringHeap [2, b, c, d, e], log⟩
      0 (copyAmp 0 2) _ _ rfl rfl (copy_step_halt _ _ _ _)
    refine ⟨log1, h.trans ?_⟩
    simp [ringAmps, ringHeap, bump, copyBuf, copyAmp, ringPhases, List.range, List.range.loop]
  · obtain ⟨log1, h⟩ := @sched_of_step ⟨ringAmps [a, 2, c, d, e], ringHeap [a, 2, c, d, e], log⟩
      1 (copyAmp 1 2) _ _ rfl rfl (copy_step_halt _ _ _ _)
    refine ⟨log1, h.trans ?_⟩
    simp [ringAmps, ringHeap, bump, copyBuf, copyAmp, ringPhases, List.range, List.range.loop]
  · obtain ⟨log1, h⟩ := @sched_of_step ⟨ringAmps [a, b, 2, d, e], ringHeap [a, b, 2, d, e], log⟩
      2 (copyAmp 2 2) _ _ rfl rfl (copy_step_halt _ _ _ _)
    refine ⟨log1, h.trans ?_⟩
    simp [ringAmps, ringHeap, bump, copyBuf, copyAmp, ringPhases, List.range, List.range.loop]
  · obtain ⟨log1, h⟩ := @sched_of_step ⟨ringAmps [a, b, c, 2, e], ringHeap [a, b, c, 2, e], log⟩
      3 (copyAmp 3 2) _ _ rfl rfl (copy_step_halt _ _ _ _)
    refine ⟨log1, h.trans ?_⟩
    simp [ringAmps, ringHeap, bump, copyBuf, copyAmp, ringPhases, List.range, List.range.loop]
  · obtain ⟨log1, h⟩ := @sched_of_step ⟨ringAmps [a, b, c, d, 2], ringHeap [a, b, c, d, 2], log⟩
      4 (copyAmp 4 2) _ _ rfl rfl (copy_step_halt _ _ _ _)
    refine ⟨log1, h.trans ?_⟩
    simp [ringAmps, ringHeap, bump, copyBuf, copyAmp, ringPhases, List.range, List.range.loop]

theorem ring_sched3 (a b c d e i : Nat) (hi : i < 5) (hk : [a, b, c, d, e].getD i 0 = 3)
    (log : List (Nat × Int)) :
    (Network.mk (ringAmps [a, b, c, d, e]) (ringHeap [a, b, c, d, e]) log).sched i
      = .ok ⟨ringAmps (bump [a, b, c, d, e] i), ringHeap (bump [a, b, c, d, e] i), log⟩ := by
  interval_cases i <;> simp at hk <;> subst hk
  · exact @sched_halted ⟨ringAmps [3, b, c, d, e], ringHeap [3, b, c, d, e], log⟩ 0 (copyAmp 0 3) rfl rfl
  · exact @sched_halted ⟨ringAmps [a, 3, c, d, e], ringHeap [a, 3, c, d, e], log⟩ 1 (copyAmp 1 3) rfl rfl
  · exact @sched_halted ⟨ringAmps [a, b, 3, d, e], ringHeap [a, b, 3, d, e], log⟩ 2 (copyAmp 2 3) rfl rfl
  · exact @sched_halted ⟨ringAmps [a, b, c, 3, e], ringHeap [a, b, c, 3, e], log⟩ 3 (copyAmp 3 3) rfl rfl
  · exact @sched_halted ⟨ringAmps [a, b, c, d, 3], ringHeap [a, b, c, d, 3], log⟩ 4 (copyAmp 4 3) rfl rfl

end Day7
namespace Day7

theorem ring_enabled (a b c d e i : Nat) (hi : i < 5) (hk : [a, b, c, d, e].getD i 0 < 3) :
    ∃ c1 h1, (copyAmp i ([a, b, c, d, e].getD i 0)).c.step (ringHeap [a, b, c, d, e])
      = .ok () c1 h1 := by
  interval_cases i <;> simp at hk
  · interval_cases a
    · exact ⟨_, _, copy_step_in _ _ _ _ _ rfl⟩
    · exact ⟨_, _, copy_step_out _ _ _ _ _ rfl⟩
    · exact ⟨_, _, copy_step_halt _ _ _ _⟩
  · interval_cases b
    · exact ⟨_, _, copy_step_in _ _ _ _ _ rfl⟩
    · exact ⟨_, _, copy_step_out _ _ _ _ _ rfl⟩
    · exact ⟨_, _, copy_step_halt _ _ _ _⟩
  · interval_cases c
    · exact ⟨_, _, copy_step_in _ _ _ _ _ rfl⟩
    · exact ⟨_, _, copy_step_out _ _ _ _ _ rfl⟩
    · exact ⟨_, _, copy_step_halt _ _ _ _⟩
  · interval_cases d
    · exact ⟨_, _, copy_step_in _ _ _ _ _ rfl⟩
    · exact ⟨_, _, copy_step_out _ _ _ _ _ rfl⟩
    · exact ⟨_, _, copy_step_halt _ _ _ _⟩
  · interval_cases e
    · exact ⟨_, _, copy_step_in _ _ _ _ _ rfl⟩
    · exact ⟨_, _, copy_step_out _ _ _ _ _ rfl⟩
    · exact ⟨_, _, copy_step_halt _ _ _ _⟩

theorem ringAmps_get (a b c d e i : Nat) (hi : i < 5) :
    (ringAmps [a, b, c, d, e])[i]? = some (copyAmp i ([a, b, c, d, e].getD i 0)) := by
  interval_cases i <;> rfl

theorem ringAmps_get_none (ks : List Nat) (i : Nat) (hi : 5 ≤ i) : (ringAmps ks)[i]? = none := by
  apply List.getElem?_eq_none
  simp [ringAmps]
  exact hi

theorem copyAmp_running (i k : Nat) : (copyAmp i k).c.running = decide (k < 3) := by
  unfold copyAmp
  split_ifs with h0 h1 h2
  · subst h0; rfl
  · subst h1; rfl
  · subst h2; rfl
  · have : ¬ k < 3 := by omega
    simp [this]

theorem ks_cases (ks : List Nat) (hlen : ks.length = 5) :
    ∃ a b c d e, ks = [a, b, c, d, e] := by
  match ks, hlen with
  | [a, b, c, d, e], _ => exact ⟨a, b, c, d, e, rfl⟩

theorem bump_length (ks : List Nat) (i : Nat) : (bump ks i).length = ks.length := by
  unfold bump
  simp

theorem bump_getD (ks : List Nat) (i j : Nat) (hj : j < ks.length) :
    (bump ks i).getD j 0 = if i = j then min 3 (ks.getD j 0 + 1) else ks.getD j 0 := by
  unfold bump
  rw [List.getD_eq_getElem?_getD, List.getD_eq_getElem?_getD, List.getElem?_set]
  by_cases h : i = j
  · subst h
    simp [hj]
  · simp [h]

theorem bump_out (ks : List Nat) (i : Nat) (hi : ks.length ≤ i) : bump ks i = ks := by
  unfold bump
  exact List.set_eq_of_length_le hi

theorem ring_sched (ks : List Nat) (hlen : ks.length = 5) (i : Nat) (hk : ks.getD i 0 ≤ 3)
    (log : List (Nat × Int)) :
    ∃ log1, (Network.mk (ringAmps ks) (ringHeap ks) log).sched i
      = .ok ⟨ringAmps (bump ks i), ringHeap (bump ks i), log1⟩ := by
  by_cases hi : i < 5
  · obtain ⟨a, b, c, d, e, rfl⟩ := ks_cases ks hlen
    have h4 : [a, b, c, d, e].getD i 0 = 0 ∨ [a, b, c, d, e].getD i 0 = 1
        ∨ [a, b, c, d, e].getD i 0 = 2 ∨ [a, b, c, d, e].getD i 0 = 3 := by omega
    rcases h4 with h | h | h | h
    · exact ring_sched0 a b c d e i hi h log
    · exact ring_sched1 a b c d e i hi h log
    · exact ring_sched2 a b c d e i hi h log
    · exact ⟨log, ring_sched3 a b c d e i hi h log⟩
  · have h5 : 5 ≤ i := by omega
    rw [bump_out ks i (by omega)]
    exact ⟨log, sched_none (ringAmps_get_none ks i h5)⟩

theorem progress_getD (order : List Nat) : ∀ (ks : List Nat) (j : Nat), j < ks.length →
    (order.foldl bump ks).getD j 0 = min 3 (ks.getD j 0 + order.count j) ∨ 3 < ks.getD j 0 := by
  induction order with
  | nil =>
    intro ks j _
    simp
    omega
  | cons i rest ih =>
    intro ks j hj
    rw [List.foldl_cons]
    have h := ih (bump ks i) j (by rw [bump_length]; exact hj)
    rw [bump_getD ks i j hj] at h
    rw [List.count_cons]
    by_cases hij : i = j
    · subst hij
      simp only [if_true, beq_self_eq_true] at h ⊢
      omega
    · have hb : (i == j) = false := by simpa using hij
      simp only [if_neg hij, hb] at h ⊢
      simp only [Bool.false_eq_true, if_false] at h ⊢
      omega

theorem progress_length (order : List Nat) (ks : List Nat) :
    (order.foldl bump ks).length = ks.length := by
  induction order generalizing ks with
  | nil => rfl
  | cons i rest ih =>
    rw [List.foldl_cons, ih, bump_length]

theorem ring_exec (order : List Nat) : ∀ (ks : List Nat) (log : List (Nat × Int)),
    ks.length = 5 → (∀ j, ks.getD j 0 ≤ 3) →
    ∃ log1, (Network.mk (ringAmps ks) (ringHeap ks) log).exec order
      = .ok ⟨ringAmps (order.foldl bump ks), ringHeap (order.foldl bump ks), log1⟩ := by
  induction order with
  | nil =>
    intro ks log _ _
    exact ⟨log, rfl⟩
  | cons i rest ih =>
    intro ks log hlen hk
    obtain ⟨log1, hs⟩ := ring_sched ks hlen i (hk i) log
    have hk1 : ∀ j, (bump ks i).getD j 0 ≤ 3 := by
      intro j
      by_cases hj : j < ks.length
      · rw [bump_getD ks i j hj]
        have := hk j
        split_ifs <;> omega
      · rw [List.getD_eq_getElem?_getD, List.getElem?_eq_none (by rw [bump_length]; omega)]
        simp
    obtain ⟨log2, he⟩ := ih (bump ks i) log1 (by rw [bump_length]; exact hlen) hk1
    refine ⟨log2, ?_⟩
    unfold Network.exec
    rw [hs]
    exact he

end Day7
namespace Day7

theorem progress_eq (order : List Nat) :
    order.foldl bump [0, 0, 0, 0, 0] = ringProgress order := by
  obtain ⟨a, b, c, d, e, h⟩ := ks_cases (order.foldl bump [0, 0, 0, 0, 0])
    (by rw [progress_length]; rfl)
  have h0 := progress_getD order [0, 0, 0, 0, 0] 0 (by decide)
  have h1 := progress_getD order [0, 0, 0, 0, 0] 1 (by decide)
  have h2 := progress_getD order [0, 0, 0, 0, 0] 2 (by decide)
  have h3 := progress_getD order [0, 0, 0, 0, 0] 3 (by decide)
  have h4 := progress_getD order [0, 0, 0, 0, 0] 4 (by decide)
  rw [h] at h0 h1 h2 h3 h4 ⊢
  simp at h0 h1 h2 h3 h4
  subst h0 h1 h2 h3 h4
  rfl

theorem ring_halted (a b c d e : Nat) (h : Heap) (l : List (Nat × Int)) :
    (Network.mk (ringAmps [a, b, c, d, e]) h l).halted = true
      ↔ 3 ≤ a ∧ 3 ≤ b ∧ 3 ≤ c ∧ 3 ≤ d ∧ 3 ≤ e := by
  simp [Network.halted, ringAmps, List.range, List.range.loop, copyAmp_running]

theorem ringProgress_eq (order : List Nat) :
    ringProgress order = [min 3 (order.count 0), min 3 (order.count 1),
      min 3 (order.count 2), min 3 (order.count 3), min 3 (order.count 4)] := rfl

theorem ringProgress_le (order : List Nat) (j : Nat) : (ringProgress order).getD j 0 ≤ 3 := by
  rw [ringProgress_eq]
  rcases j with _ | _ | _ | _ | _ | j <;> simp

theorem ring_all3 (order : List Nat) :
    (3 ≤ min 3 (order.count 0) ∧ 3 ≤ min 3 (order.count 1) ∧ 3 ≤ min 3 (order.count 2)
      ∧ 3 ≤ min 3 (order.count 3) ∧ 3 ≤ min 3 (order.count 4))
      ↔ ∀ i, i < 5 → 3 ≤ order.count i := by
  constructor
  · intro h i hi
    interval_cases i <;> omega
  · intro h
    have h0 := h 0 (by decide)
    have h1 := h 1 (by decide)
    have h2 := h 2 (by decide)
    have h3 := h 3 (by decide)
    have h4 := h 4 (by decide)
    omega

/-- C25: the copy ring under every scheduling.  Five machines run `3,0,4,0,99` in the
ring of `tryPhases` with phases `[9,8,7,6,5]` and seed 0, and their goroutines are
scheduled in any order whatever (`order` lists which goroutine runs its next
instruction).  No goroutine panics.  The state of the ring depends only on how many
instructions each goroutine has done, not on the order.  A machine that has not halted
is never blocked: its next instruction completes.  All five machines have halted exactly
when each goroutine has been scheduled at least three times; the channels then hold
`[0,5]`, `[9]`, `[8]`, `[7]`, `[6]`, and `tryPhases` returns 0, the same value for every
such scheduling. -/
theorem copy_ring_interleaving_spec (order : List Nat) :
    ∃ net, ringAfter order [3, 0, 4, 0, 99] [9, 8, 7, 6, 5] = some net
      ∧ net.amps = ringAmps (ringProgress order)
      ∧ net.heap = ringHeap (ringProgress order)
      ∧ (∀ (i : Nat) (amp : amplifier), net.amps[i]? = some amp → amp.c.running = true →
          ∃ c1 h1, amp.c.step net.heap = .ok () c1 h1)
      ∧ (net.halted = true ↔ ∀ i, i < 5 → 3 ≤ order.count i)
      ∧ (net.halted = true → net.heap
          = [⟨[0, 5], false⟩, ⟨[9], false⟩, ⟨[8], false⟩, ⟨[7], false⟩, ⟨[6], false⟩])
      ∧ tryPhases order [3, 0, 4, 0, 99] [9, 8, 7, 6, 5]
          = if net.halted = true then .returned 0 else .unfinished := by
  have hsetup : tryPhasesSetup [3, 0, 4, 0, 99] [9, 8, 7, 6, 5]
      = .ok (ringAmps [0, 0, 0, 0, 0]) (ringHeap [0, 0, 0, 0, 0]) := by decide
  have hle : ∀ j, ([0, 0, 0, 0, 0] : List Nat).getD j 0 ≤ 3 := by
    intro j
    rcases j with _ | _ | _ | _ | _ | j <;> simp
  obtain ⟨log1, he⟩ := ring_exec order [0, 0, 0, 0, 0] [] rfl hle
  rw [progress_eq] at he
  have hall : (Network.mk (ringAmps (ringProgress order)) (ringHeap (ringProgress order))
      log1).halted = true → ringProgress order = [3, 3, 3, 3, 3] := by
    intro hh
    rw [ringProgress_eq] at hh ⊢
    rw [ring_halted] at hh
    obtain ⟨h0, h1, h2, h3, h4⟩ := hh
    have e0 : min 3 (order.count 0) = 3 := by omega
    have e1 : min 3 (order.count 1) = 3 := by omega
    have e2 : min 3 (order.count 2) = 3 := by omega
    have e3 : min 3 (order.count 3) = 3 := by omega
    have e4 : min 3 (order.count 4) = 3 := by omega
    rw [e0, e1, e2, e3, e4]
  refine ⟨⟨ringAmps (ringProgress order), ringHeap (ringProgress order), log1⟩,
    ?_, rfl, rfl, ?_, ?_, ?_, ?_⟩
  · unfold ringAfter
    rw [hsetup]
    simp only []
    rw [he]
  · intro i amp hget hrun
    simp only at hget ⊢
    by_cases hi : i < 5
    · rw [ringProgress_eq] at hget ⊢
      rw [ringAmps_get _ _ _ _ _ i hi] at hget
      cases hget
      rw [copyAmp_running] at hrun
      exact ring_enabled _ _ _ _ _ i hi (by simpa using hrun)
    · rw [ringAmps_get_none _ i (by omega)] at hget
      cases hget
  · rw [ringProgress_eq, ring_halted]
    exact ring_all3 order
  · intro hh
    simp only []
    rw [hall hh]
    decide
  · unfold tryPhases
    rw [hsetup]
    simp only []
    rw [he]
    simp only []
    by_cases hh : (Network.mk (ringAmps (ringProgress order))
        (ringHeap (ringProgress order)) log1).halted = true
    · rw [if_pos hh, if_pos hh, hall hh]
      rfl
    · rw [if_neg hh, if_neg hh]

theorem copy_ring_interleaving_spec_witness :
    tryPhases roundRobin [3, 0, 4, 0, 99] [9, 8, 7, 6, 5] = .returned 0
    ∧ tryPhases backwards [3, 0, 4, 0, 99] [9, 8, 7, 6, 5] = .returned 0
    ∧ tryPhases [0, 1, 2, 3, 4, 0] [3, 0, 4, 0, 99] [9, 8, 7, 6, 5] = .unfinished := by
  obtain ⟨n1, -, -, -, -, h1, -, t1⟩ := copy_ring_interleaving_spec roundRobin
  obtain ⟨n2, -, -, -, -, h2, -, t2⟩ := copy_ring_interleaving_spec backwards
  obtain ⟨n3, -, -, -, -, h3, -, t3⟩ := copy_ring_interleaving_spec [0, 1, 2, 3, 4, 0]
  have c1 : n1.halted = true := h1.2 (by decide)
  have c2 : n2.halted = true := h2.2 (by decide)
  have c3 : ¬ n3.halted = true := fun hh => absurd (h3.1 hh) (by decide)
  rw [if_pos c1] at t1
  rw [if_pos c2] at t2
  rw [if_neg c3] at t3
  exact ⟨t1, t2, t3⟩

end Day7

namespace Day7
open Go

theorem frame_refl (c : computer) (h : Heap) : Frame c h c h := ⟨rfl, rfl, rfl, rfl⟩

theorem frame_trans {c c1 c2 : computer} {h h1 h2 : Heap} (f1 : Frame c h c1 h1)
    (f2 : Frame c1 h1 c2 h2) : Frame c h c2 h2 :=
  ⟨f2.1.trans f1.1, f2.2.1.trans f1.2.1, f2.2.2.1.trans f1.2.2.1, f2.2.2.2.trans f1.2.2.2⟩

theorem bind_ok_inv7 {α β : Type} {r : Res α} {f : α → computer → Heap → Res β} {u : β}
    {c2 : computer} {h2 : Heap} (h : r.bind f = .ok u c2 h2) :
    ∃ a c1 h1, r = .ok a c1 h1 ∧ f a c1 h1 = .ok u c2 h2 := by
  cases r with
  | ok a c1 h1 => exact ⟨a, c1, h1, rfl, h⟩
  | fault e c1 h1 => cases h
  | blocked c1 h1 => cases h

theorem sim_bind {α β : Type} {c : computer} {h : Heap} {r7 : Res α} {r11 : Day11.Res α}
    {f7 : α → computer → Heap → Res β} {f11 : α → Day11.computer → Day11.Res β}
    (hr : Sim c h r7 r11)
    (hf : ∀ a c1 h1, Frame c h c1 h1 → Sim c1 h1 (f7 a c1 h1) (f11 a (liftDay11 c1 h1))) :
    Sim c h (r7.bind f7) (r11.bind f11) := by
  intro b c2 h2 hb
  obtain ⟨a, c1, h1, e7, e⟩ := bind_ok_inv7 hb
  obtain ⟨e11, fr⟩ := hr a c1 h1 e7
  obtain ⟨e2, fr2⟩ := hf a c1 h1 fr b c2 h2 e
  rw [e11]
  exact ⟨e2, frame_trans fr fr2⟩

theorem sim_next (c : computer) (h : Heap) : Sim c h (c.next h) (liftDay11 c h).next := by
  intro a c1 h1 hn
  unfold computer.next at hn
  cases hg : sliceGet c.memory c.pc with
  | none => rw [hg] at hn; cases hn
  | some n =>
    rw [hg] at hn
    cases hn
    refine ⟨?_, rfl, rfl, rfl, rfl⟩
    unfold Day11.computer.next
    show (match sliceGet c.memory c.pc with
      | none => Day11.Res.fault (.indexOutOfRange c.pc) (liftDay11 c h)
      | some n => .ok n { liftDay11 c h with pc := c.pc + 1 }) = _
    rw [hg]
    rfl

theorem load_in_range11 (c : Day11.computer) (i x : Int) (hg : sliceGet c.memory i = some x) :
    c.load i = .ok x c := by
  obtain ⟨q0, q1, qw⟩ := Day2.sliceGet_some_bounds hg
  rw [Day11.load_ok c i q0 (Or.inl q1), Day11.grown_of_lt c i q1,
    List.getD_eq_getElem?_getD, qw]
  rfl

theorem read_of_next7 {c c0 : computer} {h h0 : Heap} {w : Int}
    (hn : c.next h = .ok w c0 h0) (m : mode) :
    c.read h m =
      if m = modePosition then
        match sliceGet c0.memory w with
        | none => .fault (.indexOutOfRange w) c0 h0
        | some x => .ok x c0 h0
      else if m = modeImmediate then .ok w c0 h0
      else .fault (.unknownMode m) c0 h0 := by
  unfold computer.read
  rw [hn]
  rfl

theorem write_of_next7 {c c0 : computer} {h h0 : Heap} {w : Int}
    (hn : c.next h = .ok w c0 h0) (n : Int) :
    c.write h n =
      match sliceGet c0.memory w with
      | none => .fault (.indexOutOfRange w) c0 h0
      | some _ => .ok () { c0 with memory := c0.memory.set w.toNat n } h0 := by
  unfold computer.write
  rw [hn]
  rfl

theorem next_cases7 (c : computer) (h : Heap) :
    (∃ w c0 h0, c.next h = .ok w c0 h0) ∨ (∃ f c0 h0, c.next h = .fault f c0 h0) := by
  unfold computer.next
  cases sliceGet c.memory c.pc with
  | none => exact Or.inr ⟨_, _, _, rfl⟩
  | some n => exact Or.inl ⟨_, _, _, rfl⟩

theorem sim_read (c : computer) (h : Heap) (m : mode) :
    Sim c h (c.read h m) ((liftDay11 c h).read m) := by
  intro a c2 h2 hr
  rcases next_cases7 c h with ⟨w, c0, h0, hn⟩ | ⟨f, c0, h0, hn⟩
  · obtain ⟨hn11, fr⟩ := sim_next c h w c0 h0 hn
    rw [read_of_next7 hn] at hr
    rw [Day11.read_of_next hn11]
    by_cases hm0 : m = modePosition
    · rw [if_pos hm0] at hr
      subst hm0
      rw [if_neg (by decide), if_pos rfl]
      cases hg : sliceGet c0.memory w with
      | none => rw [hg] at hr; cases hr
      | some x =>
        rw [hg] at hr
        cases hr
        exact ⟨load_in_range11 (liftDay11 c2 h2) w a hg, fr⟩
    · rw [if_neg hm0] at hr
      by_cases hm1 : m = modeImmediate
      · rw [if_pos hm1] at hr
        cases hr
        have hm1b : m = Day11.modeImmediate := hm1
        rw [if_pos hm1b]
        exact ⟨rfl, fr⟩
      · rw [if_neg hm1] at hr
        cases hr
  · unfold computer.read at hr
    rw [hn] at hr
    cases hr

theorem sim_write (c : computer) (h : Heap) (n : Int) (m : mode)
    (hm : m ≠ modeImmediate) (hlen : (c.memory.length : Int) ≤ 9223372036854775808) :
    Sim c h (c.write h n) ((liftDay11 c h).write n m) := by
  intro a c2 h2 hr
  rcases next_cases7 c h with ⟨w, c0, h0, hn⟩ | ⟨f, c0, h0, hn⟩
  · obtain ⟨hn11, fr⟩ := sim_next c h w c0 h0 hn
    rw [write_of_next7 hn] at hr
    rw [Day11.write_of_next hn11]
    have hm1 : ¬ m = Day11.modeImmediate := hm
    rw [if_neg hm1]
    cases hg : sliceGet c0.memory w with
    | none => rw [hg] at hr; cases hr
    | some x =>
      rw [hg] at hr
      cases hr
      obtain ⟨q0, q1, -⟩ := Day2.sliceGet_some_bounds hg
      have hst : (liftDay11 c0 h2).store w n
          = .ok () (liftDay11 { c0 with memory := c0.memory.set w.toNat n } h2) :=
        Day11.store_in_range (liftDay11 c0 h2) w n q0 q1
      have hfr : Frame c h { c0 with memory := c0.memory.set w.toNat n } h2 := by
        obtain ⟨f1, f2, f3, f4⟩ := fr
        exact ⟨by simp only [List.length_set]; exact f1, f2, f3, f4⟩
      have hw : wrapInt (w + (liftDay11 c0 h2).relBase) = w := by
        show wrapInt (w + 0) = w
        rw [Int.add_zero]
        apply wrapInt_of_inRange
        unfold inRange
        have := fr.1
        omega
      refine ⟨?_, hfr⟩
      by_cases hm0 : m = Day11.modePosition
      · rw [if_pos hm0]
        exact hst
      · rw [if_neg hm0]
        by_cases hm2 : m = Day11.modeRelative
        · rw [if_pos hm2, hw]
          exact hst
        · rw [if_neg hm2]
          exact hst
  · unfold computer.write at hr
    rw [hn] at hr
    cases hr

end Day7
namespace Day7
open Go

theorem sim_read2 {β : Type} (c : computer) (h : Heap) (m0 m1 : mode)
    (K7 : Int → Int → computer → Heap → Res β)
    (K11 : Int → Int → Day11.computer → Day11.Res β)
    (hK : ∀ a b c1 h1, Frame c h c1 h1 → Sim c1 h1 (K7 a b c1 h1) (K11 a b (liftDay11 c1 h1))) :
    Sim c h ((c.read h m0).bind fun a c h => (c.read h m1).bind fun b c h => K7 a b c h)
      (((liftDay11 c h).read m0).bind fun a c => (c.read m1).bind fun b c => K11 a b c) := by
  apply sim_bind (sim_read c h m0)
  intro a c1 h1 fr
  apply sim_bind (sim_read c1 h1 m1)
  intro b c2 h2 fr2
  exact hK a b c2 h2 (frame_trans fr fr2)

theorem frame_len {c c1 : computer} {h h1 : Heap} (fr : Frame c h c1 h1)
    (hlen : (c.memory.length : Int) ≤ 9223372036854775808) :
    (c1.memory.length : Int) ≤ 9223372036854775808 := by
  rw [fr.1]
  exact hlen

theorem sim_add (c : computer) (h : Heap) (ms : List mode)
    (hm : modeAt (fillModes ms 3) 2 ≠ modeImmediate)
    (hlen : (c.memory.length : Int) ≤ 9223372036854775808) :
    Sim c h (add c h ms) (Day11.add (liftDay11 c h) ms) :=
  sim_read2 c h _ _ (fun a b c h => c.write h (wrapInt (a + b)))
    (fun a b c => c.write (wrapInt (a + b)) (Day11.modeAt (Day11.fillModes ms 3) 2))
    (fun _ _ c1 h1 fr => sim_write c1 h1 _ _ hm (frame_len fr hlen))

theorem sim_mul (c : computer) (h : Heap) (ms : List mode)
    (hm : modeAt (fillModes ms 3) 2 ≠ modeImmediate)
    (hlen : (c.memory.length : Int) ≤ 9223372036854775808) :
    Sim c h (mul c h ms) (Day11.mul (liftDay11 c h) ms) :=
  sim_read2 c h _ _ (fun a b c h => c.write h (wrapInt (a * b)))
    (fun a b c => c.write (wrapInt (a * b)) (Day11.modeAt (Day11.fillModes ms 3) 2))
    (fun _ _ c1 h1 fr => sim_write c1 h1 _ _ hm (frame_len fr hlen))

theorem sim_lt (c : computer) (h : Heap) (ms : List mode)
    (hm : modeAt (fillModes ms 3) 2 ≠ modeImmediate)
    (hlen : (c.memory.length : Int) ≤ 9223372036854775808) :
    Sim c h (lt c h ms) (Day11.lt (liftDay11 c h) ms) :=
  sim_read2 c h _ _ (fun a b c h => if a < b then c.write h 1 else c.write h 0)
    (fun a b c => if a < b then c.write 1 (Day11.modeAt (Day11.fillModes ms 3) 2)
      else c.write 0 (Day11.modeAt (Day11.fillModes ms 3) 2))
    (fun a b c1 h1 fr => by
      by_cases hab : a < b
      · simp only [if_pos hab]
        exact sim_write c1 h1 _ _ hm (frame_len fr hlen)
      · simp only [if_neg hab]
        exact sim_write c1 h1 _ _ hm (frame_len fr hlen))

theorem sim_eq (c : computer) (h : Heap) (ms : List mode)
    (hm : modeAt (fillModes ms 3) 2 ≠ modeImmediate)
    (hlen : (c.memory.length : Int) ≤ 9223372036854775808) :
    Sim c h (eq c h ms) (Day11.eq (liftDay11 c h) ms) :=
  sim_read2 c h _ _ (fun a b c h => if a = b then c.write h 1 else c.write h 0)
    (fun a b c => if a = b then c.write 1 (Day11.modeAt (Day11.fillModes ms 3) 2)
      else c.write 0 (Day11.modeAt (Day11.fillModes ms 3) 2))
    (fun a b c1 h1 fr => by
      by_cases hab : a = b
      · simp only [if_pos hab]
        exact sim_write c1 h1 _ _ hm (frame_len fr hlen)
      · simp only [if_neg hab]
        exact sim_write c1 h1 _ _ hm (frame_len fr hlen))

theorem sim_jit (c : computer) (h : Heap) (ms : List mode) :
    Sim c h (jit c h ms) (Day11.jit (liftDay11 c h) ms) :=
  sim_read2 c h _ _ (fun n v c h => if n ≠ 0 then .ok () { c with pc := v } h else .ok () c h)
    (fun n v c => if n ≠ 0 then .ok () { c with pc := v } else .ok () c)
    (fun n v c1 h1 _ => by
      intro u c2 h2 hr
      by_cases hn : n ≠ 0
      · simp only [if_pos hn] at hr ⊢
        cases hr
        exact ⟨rfl, rfl, rfl, rfl, rfl⟩
      · simp only [if_neg hn] at hr ⊢
        cases hr
        exact ⟨rfl, rfl, rfl, rfl, rfl⟩)

theorem sim_jif (c : computer) (h : Heap) (ms : List mode) :
    Sim c h (jif c h ms) (Day11.jif (liftDay11 c h) ms) :=
  sim_read2 c h _ _ (fun n v c h => if n = 0 then .ok () { c with pc := v } h else .ok () c h)
    (fun n v c => if n = 0 then .ok () { c with pc := v } else .ok () c)
    (fun n v c1 h1 _ => by
      intro u c2 h2 hr
      by_cases hn : n = 0
      · simp only [if_pos hn] at hr ⊢
        cases hr
        exact ⟨rfl, rfl, rfl, rfl, rfl⟩
      · simp only [if_neg hn] at hr ⊢
        cases hr
        exact ⟨rfl, rfl, rfl, rfl, rfl⟩)

theorem sim_halt (c : computer) (h : Heap) (ms : List mode) :
    Sim c h (halt c h ms) (Day11.halt (liftDay11 c h) ms) := by
  intro u c2 h2 hr
  unfold halt at hr
  cases hr
  exact ⟨rfl, rfl, rfl, rfl, rfl⟩

theorem lift_set_input (c : computer) (h : Heap) (rw rw1 : intBuffer)
    (hb : h[c.input]? = some rw) (hne : c.input ≠ c.output) :
    liftDay11 c (h.set c.input rw1)
      = { liftDay11 c h with input := ⟨rw1.ints, false, rw1.locked⟩ } := by
  have hi : c.input < h.length := (List.getElem?_eq_some_iff.mp hb).1
  unfold liftDay11
  rw [List.getElem?_set_self hi, List.getElem?_set_ne hne]
  rfl

theorem lift_set_output (c : computer) (h : Heap) (rw rw1 : intBuffer)
    (hb : h[c.output]? = some rw) (hne : c.input ≠ c.output) :
    liftDay11 c (h.set c.output rw1)
      = { liftDay11 c h with output := ⟨rw1.ints, false, rw1.locked⟩ } := by
  have hi : c.output < h.length := (List.getElem?_eq_some_iff.mp hb).1
  unfold liftDay11
  rw [List.getElem?_set_self hi, List.getElem?_set_ne (fun e => hne e.symm)]
  rfl

theorem WriteInt_ok_inv7 {rw rw1 : intBuffer} {n : Int} {u : Unit}
    (h : rw.WriteInt n = .ok u rw1) : rw.locked = false ∧ rw1 = ⟨rw.ints ++ [n], false⟩ := by
  unfold intBuffer.WriteInt intBuffer.Lock at h
  by_cases hl : rw.locked = true
  · rw [if_pos hl] at h
    cases h
  · rw [if_neg hl] at h
    simp only [BufRes.ok.injEq] at h
    exact ⟨by simpa using hl, h.2.symm⟩

theorem sim_input (c : computer) (h : Heap) (ms : List mode)
    (hm : modeAt (fillModes ms 1) 0 ≠ modeImmediate)
    (hlen : (c.memory.length : Int) ≤ 9223372036854775808) (hne : c.input ≠ c.output) :
    Sim c h (input c h ms) (Day11.input (liftDay11 c h) ms) := by
  intro u c2 h2 hi
  unfold input at hi
  simp only [] at hi
  cases hb : h[c.input]? with
  | none => rw [hb] at hi; cases hi
  | some rw =>
    rw [hb] at hi
    simp only [] at hi
    cases hr : rw.ReadInt with
    | blocked rw1 => rw [hr] at hi; cases hi
    | ok n rw1 =>
      rw [hr] at hi
      simp only [] at hi
      obtain ⟨hlock, rest, hq⟩ := ReadInt_ok_inv7 hr
      have hrw1 : rw1 = ⟨rest, false⟩ := by
        rw [ReadInt_cons7 hq hlock] at hr
        cases hr
        rfl
      obtain ⟨e, fr⟩ := sim_write c (h.set c.input rw1) n _ hm hlen u c2 h2 hi
      refine ⟨?_, ⟨fr.1, fr.2.1, fr.2.2.1, by rw [fr.2.2.2, List.length_set]⟩⟩
      have hin : (liftDay11 c h).input = ⟨rw.ints, false, rw.locked⟩ := by
        show toBuffer11 h[c.input]? = _
        rw [hb]
        rfl
      have hrd : (liftDay11 c h).input.ReadInt = .ok (n, true) ⟨rest, false, false⟩ := by
        rw [hin]
        exact @Day11.ReadInt_cons ⟨rw.ints, false, rw.locked⟩ n rest hq hlock
      rw [lift_set_input c h rw rw1 hb hne, hrw1] at e
      unfold Day11.input
      simp only [hrd]
      exact e

theorem sim_output (c : computer) (h : Heap) (ms : List mode) (hne : c.input ≠ c.output) :
    Sim c h (output c h ms) (Day11.output (liftDay11 c h) ms) := by
  unfold output Day11.output
  apply sim_bind (sim_read c h _)
  intro n c1 h1 fr u c2 h2 ho
  have hne1 : c1.input ≠ c1.output := by
    rw [fr.2.1, fr.2.2.1]
    exact hne
  cases hb : h1[c1.output]? with
  | none => rw [hb] at ho; cases ho
  | some rw =>
    rw [hb] at ho
    simp only [] at ho
    cases hw : rw.WriteInt n with
    | blocked rw1 => rw [hw] at ho; cases ho
    | ok u1 rw1 =>
      rw [hw] at ho
      cases ho
      obtain ⟨hlock, hrw1⟩ := WriteInt_ok_inv7 hw
      refine ⟨?_, rfl, rfl, rfl, by rw [List.length_set]⟩
      have hout : (liftDay11 c1 h1).output = ⟨rw.ints, false, rw.locked⟩ := by
        show toBuffer11 h1[c1.output]? = _
        rw [hb]
        rfl
      have hwr : (liftDay11 c1 h1).output.WriteInt n
          = .ok () ⟨rw.ints ++ [n], false, false⟩ := by
        rw [hout]
        exact @Day11.WriteInt_free ⟨rw.ints, false, rw.locked⟩ n hlock
      simp only [hwr]
      rw [lift_set_output c1 h1 rw rw1 hb hne1, hrw1]

end Day7
namespace Day7
open Go

theorem parseLoop_eq (fuel : Nat) : ∀ (v : Int) (ms : List Int),
    Day11.parseLoop fuel v ms = parseLoop fuel v ms := by
  induction fuel with
  | zero =>
    intro v ms
    rfl
  | succ k ih =>
    intro v ms
    unfold Day11.parseLoop parseLoop
    by_cases hv : v > 0
    · rw [if_pos hv, if_pos hv]
      exact ih _ _
    · rw [if_neg hv, if_neg hv]

theorem parse_eq (w : Int) : Day11.parseOpcodeModes w = parseOpcodeModes w := by
  unfold Day11.parseOpcodeModes parseOpcodeModes
  simp only [parseLoop_eq]

theorem step_of_next7 {c c0 : computer} {h h0 : Heap} {w : Int}
    (hn : c.next h = .ok w c0 h0) :
    c.step h = match opcodes (parseOpcodeModes w).1 with
      | none => .fault (.unknownOpcode (parseOpcodeModes w).1) c0 h0
      | some op => op c0 h0 (parseOpcodeModes w).2 := by
  unfold computer.step
  rw [hn]
  rfl

theorem next_ok_get7 {c c0 : computer} {h h0 : Heap} {w : Int}
    (hn : c.next h = .ok w c0 h0) : sliceGet c.memory c.pc = some w := by
  unfold computer.next at hn
  cases hg : sliceGet c.memory c.pc with
  | none => rw [hg] at hn; cases hn
  | some n =>
    rw [hg] at hn
    simp only [Res.ok.injEq] at hn
    rw [hn.1]

theorem sim_step (c : computer) (h : Heap) (hok : targetOk c = true)
    (hlen : (c.memory.length : Int) ≤ 9223372036854775808) (hne : c.input ≠ c.output) :
    Sim c h (c.step h) (liftDay11 c h).step := by
  intro u c2 h2 hs
  rcases next_cases7 c h with ⟨w, c0, h0, hn⟩ | ⟨f, c0, h0, hn⟩
  · obtain ⟨hn11, fr⟩ := sim_next c h w c0 h0 hn
    have hg := next_ok_get7 hn
    rw [step_of_next7 hn] at hs
    rw [Day11.step_of_next hn11, parse_eq w]
    unfold targetOk at hok
    rw [hg] at hok
    simp only [] at hok
    have hlen0 := frame_len fr hlen
    have hne0 : c0.input ≠ c0.output := by
      rw [fr.2.1, fr.2.2.1]
      exact hne
    have fin : ∀ {op7 : opcode} {op11 : Day11.opcode},
        opcodes (parseOpcodeModes w).1 = some op7 →
        Day11.opcodes (parseOpcodeModes w).1 = some op11 →
        Sim c0 h0 (op7 c0 h0 (parseOpcodeModes w).2)
          (op11 (liftDay11 c0 h0) (parseOpcodeModes w).2) →
        (match Day11.opcodes (parseOpcodeModes w).1 with
          | none => Day11.Res.fault (.unknownOpcode (parseOpcodeModes w).1) (liftDay11 c0 h0)
          | some op => op (liftDay11 c0 h0) (parseOpcodeModes w).2)
          = .ok u (liftDay11 c2 h2) ∧ Frame c h c2 h2 := by
      intro op7 op11 e7 e11 hsim
      rw [e7] at hs
      rw [e11]
      obtain ⟨e, fr2⟩ := hsim u c2 h2 hs
      exact ⟨e, frame_trans fr fr2⟩
    by_cases h1 : (parseOpcodeModes w).1 = 1
    · rw [if_pos (Or.inl h1)] at hok
      exact fin (by rw [h1]; rfl) (by rw [h1]; rfl)
        (sim_add c0 h0 _ (of_decide_eq_true hok) hlen0)
    by_cases h2' : (parseOpcodeModes w).1 = 2
    · rw [if_pos (Or.inr (Or.inl h2'))] at hok
      exact fin (by rw [h2']; rfl) (by rw [h2']; rfl)
        (sim_mul c0 h0 _ (of_decide_eq_true hok) hlen0)
    by_cases h3 : (parseOpcodeModes w).1 = 3
    · rw [if_neg (by omega), if_pos h3] at hok
      exact fin (by rw [h3]; rfl) (by rw [h3]; rfl)
        (sim_input c0 h0 _ (of_decide_eq_true hok) hlen0 hne0)
    by_cases h4 : (parseOpcodeModes w).1 = 4
    · exact fin (by rw [h4]; rfl) (by rw [h4]; rfl) (sim_output c0 h0 _ hne0)
    by_cases h5 : (parseOpcodeModes w).1 = 5
    · exact fin (by rw [h5]; rfl) (by rw [h5]; rfl) (sim_jit c0 h0 _)
    by_cases h6 : (parseOpcodeModes w).1 = 6
    · exact fin (by rw [h6]; rfl) (by rw [h6]; rfl) (sim_jif c0 h0 _)
    by_cases h7 : (parseOpcodeModes w).1 = 7
    · rw [if_pos (Or.inr (Or.inr (Or.inl h7)))] at hok
      exact fin (by rw [h7]; rfl) (by rw [h7]; rfl)
        (sim_lt c0 h0 _ (of_decide_eq_true hok) hlen0)
    by_cases h8 : (parseOpcodeModes w).1 = 8
    · rw [if_pos (Or.inr (Or.inr (Or.inr h8)))] at hok
      exact fin (by rw [h8]; rfl) (by rw [h8]; rfl)
        (sim_eq c0 h0 _ (of_decide_eq_true hok) hlen0)
    by_cases h99 : (parseOpcodeModes w).1 = 99
    · exact fin (by rw [h99]; rfl) (by rw [h99]; rfl) (sim_halt c0 h0 _)
    have hnone : opcodes (parseOpcodeModes w).1 = none := by
      unfold opcodes
      rw [if_neg h1, if_neg h2', if_neg h3, if_neg h4, if_neg h5, if_neg h6, if_neg h7,
        if_neg h8, if_neg h99]
    rw [hnone] at hs
    cases hs
  · unfold computer.step at hs
    rw [hn] at hs
    cases hs

theorem run_sim7 (F : Nat) : ∀ (c : computer) (h : Heap) (c1 : computer) (h1 : Heap),
    c.input ≠ c.output → (c.memory.length : Int) ≤ 9223372036854775808 →
    c.runProgram F h = .returned c1 h1 → targetsOk F c h = true →
    (liftDay11 c h).runProgram F = .returned (liftDay11 c1 h1) ∧ Frame c h c1 h1
      ∧ c1.running = false := by
  induction F with
  | zero =>
    intro c h c1 h1 _ _ hrun _
    by_cases hr : c.running = true
    · unfold computer.runProgram at hrun
      rw [if_pos hr] at hrun
      cases hrun
    · have hr0 : c.running = false := by simpa using hr
      rw [runProgram_halted7 _ _ _ hr0] at hrun
      cases hrun
      exact ⟨Day11.runProgram_halted11 _ _ hr0, frame_refl _ _, hr0⟩
  | succ F ih =>
    intro c h c1 h1 hne hlen hrun hok
    by_cases hr : c.running = true
    · rw [runProgram_running7 _ _ _ hr] at hrun
      unfold targetsOk at hok
      rw [if_pos hr] at hok
      cases hs : c.step h with
      | fault f c2 h2 => rw [hs] at hrun; cases hrun
      | blocked c2 h2 => rw [hs] at hrun; cases hrun
      | ok u c2 h2 =>
        rw [hs] at hrun hok
        simp only [Bool.and_eq_true] at hok
        obtain ⟨e, fr⟩ := sim_step c h hok.1 hlen hne u c2 h2 hs
        have hne2 : c2.input ≠ c2.output := by
          rw [fr.2.1, fr.2.2.1]
          exact hne
        obtain ⟨e2, fr2, hh⟩ := ih c2 h2 c1 h1 hne2 (frame_len fr hlen) hrun hok.2
        refine ⟨?_, frame_trans fr fr2, hh⟩
        rw [Day11.runProgram_running11 _ (liftDay11 c h) hr, e]
        exact e2
    · have hr0 : c.running = false := by simpa using hr
      rw [runProgram_halted7 _ _ _ hr0] at hrun
      cases hrun
      exact ⟨Day11.runProgram_halted11 _ _ hr0, frame_refl _ _, hr0⟩

end Day7
namespace Day7
open Go

/-- C26 (amended): the nine-opcode machine extends the eight-opcode machine on runs that
never write through a parameter with mode digit 1.  For a program of at most 2^63 cells
and an input sequence `ins` on which the day-7 machine (input channel holding `ins`,
output channel empty) returns from `runProgram` within `fuel` iterations, every executed
instruction of code 1, 2, 3, 7 or 8 having a mode digit other than 1 on its target
parameter: the day-11 machine started on the same program and input returns after the
same number of iterations, halted, with `relBase` 0, the same `pc`, the same final
memory, the same remaining input and the same output sequence. -/
theorem eight_opcode_refinement (fuel : Nat) (prg ins : List Int) (c1 : computer) (h1 : Heap)
    (hlen : (prg.length : Int) ≤ 9223372036854775808)
    (hrun : (newComputer prg 0 1).runProgram fuel [⟨ins, false⟩, ⟨[], false⟩]
      = .returned c1 h1)
    (hok : targetsOk fuel (newComputer prg 0 1) [⟨ins, false⟩, ⟨[], false⟩] = true) :
    ∃ rest outs : intBuffer, h1 = [rest, outs]
      ∧ (Day11.newComputer prg ⟨ins, false, false⟩ Day11.newIntBuffer).runProgram fuel
          = .returned ⟨c1.pc, 0, c1.memory, ⟨rest.ints, false, rest.locked⟩,
              ⟨outs.ints, false, outs.locked⟩, false⟩
      ∧ c1.running = false ∧ c1.memory.length = prg.length := by
  have hlen0 : ((newComputer prg 0 1).memory.length : Int) ≤ 9223372036854775808 := by
    show ((([] : List Int) ++ prg).length : Int) ≤ _
    rw [List.nil_append]
    exact hlen
  obtain ⟨e, fr, hh⟩ := run_sim7 fuel (newComputer prg 0 1) [⟨ins, false⟩, ⟨[], false⟩] c1 h1
    (show (0 : Nat) ≠ 1 by decide) hlen0 hrun hok
  obtain ⟨f1, f2, f3, f4⟩ := fr
  have hi : c1.input = 0 := f2
  have ho : c1.output = 1 := f3
  obtain ⟨rest, outs, rfl⟩ : ∃ rest outs : intBuffer, h1 = [rest, outs] := by
    match h1, f4 with
    | [a, b], _ => exact ⟨a, b, rfl⟩
  refine ⟨rest, outs, rfl, ?_, hh, ?_⟩
  · have hl : liftDay11 c1 [rest, outs]
        = ⟨c1.pc, 0, c1.memory, ⟨rest.ints, false, rest.locked⟩,
            ⟨outs.ints, false, outs.locked⟩, false⟩ := by
      unfold liftDay11
      rw [hi, ho, hh]
      rfl
    rw [← hl]
    exact e
  · rw [f1]
    show (([] : List Int) ++ prg).length = prg.length
    rw [List.nil_append]

theorem eight_opcode_refinement_witness :
    (Day11.newComputer sampleDouble ⟨[21], false, false⟩ Day11.newIntBuffer).runProgram 4
      = .returned ⟨9, 0, [42, 0, 20001, 0, 0, 0, 4, 0, 99], ⟨[], false, false⟩,
          ⟨[42], false, false⟩, false⟩ := by
  obtain ⟨rest, outs, hh, hr, -⟩ := eight_opcode_refinement 4 sampleDouble [21]
    ⟨9, [42, 0, 20001, 0, 0, 0, 4, 0, 99], 0, 1, false⟩ [⟨[], false⟩, ⟨[42], false⟩]
    (by simp only [sampleDouble, List.length_cons, List.length_nil]; omega)
    (by decide!) (by decide)
  cases hh
  exact hr

/-- C26 (counterexample): the program `11101,1,1,0,99` adds two literals through a target
parameter with mode digit 1.  The day-7 machine, whose `write` takes no mode, stores the
sum 2 in cell 0 and halts without fault with memory `2,1,1,0,99`; the day-11 machine
started on the same program and (empty) input panics in `write` on its first
instruction, and returns for no number of iterations. -/
theorem immediate_target_diverges :
    (newComputer sampleImmediateTarget 0 1).runProgram 2 [⟨[], false⟩, ⟨[], false⟩]
      = .returned ⟨5, [2, 1, 1, 0, 99], 0, 1, false⟩ [⟨[], false⟩, ⟨[], false⟩]
    ∧ (Day11.newComputer sampleImmediateTarget Day11.newIntBuffer Day11.newIntBuffer).step
      = .fault .immediateWrite
          ⟨4, 0, [11101, 1, 1, 0, 99], Day11.newIntBuffer, Day11.newIntBuffer, true⟩
    ∧ ∀ (fuel : Nat) (c : Day11.computer),
        (Day11.newComputer sampleImmediateTarget Day11.newIntBuffer
          Day11.newIntBuffer).runProgram fuel ≠ .returned c := by
  have hstep : (Day11.newComputer sampleImmediateTarget Day11.newIntBuffer
      Day11.newIntBuffer).step = .fault .immediateWrite
        ⟨4, 0, [11101, 1, 1, 0, 99], Day11.newIntBuffer, Day11.newIntBuffer, true⟩ := by
    decide
  refine ⟨by decide, hstep, ?_⟩
  intro fuel c
  cases fuel with
  | zero =>
    intro hc
    have h0 : (Day11.newComputer sampleImmediateTarget Day11.newIntBuffer
      Day11.newIntBuffer).runProgram 0 = .unfinished (Day11.newComputer
        sampleImmediateTarget Day11.newIntBuffer Day11.newIntBuffer) := rfl
    rw [h0] at hc
    cases hc
  | succ k =>
    rw [Day11.runProgram_running11 _ _ rfl, hstep]
    intro hc
    cases hc

end Day7

namespace Day7

theorem rest_length (s : List Int) (i : Nat) (hi : i < s.length) :
    ([] ++ s.take i ++ s.drop (i + 1)).length + 1 = s.length := by
  simp only [List.nil_append, List.length_append, List.length_take, List.length_drop]
  omega

theorem permutationsAux_short (fuel : Nat) (s : List Int) (h : s.length ≤ 1) :
    permutationsAux fuel s = [s] := by
  unfold permutationsAux
  rw [if_pos h]

theorem permutationsAux_succ (fuel : Nat) (s : List Int) (h : ¬ s.length ≤ 1) :
    permutationsAux (fuel + 1) s
      = (List.range s.length).flatMap fun i =>
          (permutationsAux fuel ([] ++ s.take i ++ s.drop (i + 1))).map fun tail =>
            [s.getD i 0] ++ tail := by
  conv_lhs => unfold permutationsAux
  rw [if_neg h]

theorem flatMap_congr_mem {α β : Type} (l : List α) (f g : α → List β)
    (h : ∀ a ∈ l, f a = g a) : l.flatMap f = l.flatMap g := by
  induction l with
  | nil => rfl
  | cons a t ih =>
    rw [List.flatMap_cons, List.flatMap_cons, h a (List.mem_cons_self _ _),
      ih (fun b hb => h b (List.mem_cons_of_mem _ hb))]

theorem permutationsAux_stable (f1 : Nat) : ∀ (f2 : Nat) (s : List Int),
    s.length ≤ f1 + 1 → s.length ≤ f2 + 1 → permutationsAux f1 s = permutationsAux f2 s := by
  induction f1 with
  | zero =>
    intro f2 s h1 _
    rw [permutationsAux_short 0 s h1, permutationsAux_short f2 s h1]
  | succ k ih =>
    intro f2 s h1 h2
    by_cases hs : s.length ≤ 1
    · rw [permutationsAux_short _ s hs, permutationsAux_short f2 s hs]
    · obtain ⟨j, rfl⟩ : ∃ j, f2 = j + 1 := ⟨f2 - 1, by omega⟩
      rw [permutationsAux_succ k s hs, permutationsAux_succ j s hs]
      apply flatMap_congr_mem
      intro i hi
      have hl := rest_length s i (List.mem_range.mp hi)
      rw [ih j _ (by omega) (by omega)]

/-- The recursion of the source: the list itself when it has at most one element,
otherwise each element in turn put in front of every permutation of the others. -/
theorem permutations_unfold (s : List Int) :
    permutations s =
      if s.length ≤ 1 then [s]
      else (List.range s.length).flatMap fun i =>
        (permutations (s.take i ++ s.drop (i + 1))).map fun tail => s.getD i 0 :: tail := by
  unfold permutations
  by_cases hs : s.length ≤ 1
  · rw [if_pos hs, permutationsAux_short _ s hs]
  · rw [if_neg hs]
    obtain ⟨j, hj⟩ : ∃ j, s.length = j + 1 := ⟨s.length - 1, by omega⟩
    rw [hj, permutationsAux_succ j s hs, ← hj]
    apply flatMap_congr_mem
    intro i hi
    have hl := rest_length s i (List.mem_range.mp hi)
    rw [List.nil_append] at hl ⊢
    rw [permutationsAux_stable j (s.take i ++ s.drop (i + 1)).length _ (by omega) (by omega)]
    rfl

theorem pick_perm (s : List Int) (i : Nat) (hi : i < s.length) :
    (s.getD i 0 :: (s.take i ++ s.drop (i + 1))).Perm s := by
  have h1 : s.getD i 0 = s[i] := by
    rw [List.getD_eq_getElem?_getD, List.getElem?_eq_getElem hi]
    rfl
  have h2 : s = s.take i ++ s[i] :: s.drop (i + 1) := by
    rw [List.getElem_cons_drop, List.take_append_drop]
  rw [h1]
  conv_rhs => rw [h2]
  exact List.perm_middle.symm

theorem mem_permutations (n : Nat) : ∀ (s p : List Int), s.length = n →
    (p ∈ permutations s ↔ p.Perm s) := by
  induction n with
  | zero =>
    intro s p hs
    have : s = [] := List.length_eq_zero.mp hs
    subst this
    rw [permutations_unfold, if_pos (by simp)]
    simp
  | succ k ih =>
    intro s p hs
    rw [permutations_unfold]
    by_cases h1 : s.length ≤ 1
    · rw [if_pos h1]
      obtain ⟨a, rfl⟩ : ∃ a, s = [a] := by
        match s, hs, h1 with
        | [a], _, _ => exact ⟨a, rfl⟩
      simp
    · rw [if_neg h1]
      simp only [List.mem_flatMap, List.mem_range, List.mem_map]
      constructor
      · rintro ⟨i, hi, t, ht, rfl⟩
        have hl := rest_length s i hi
        rw [List.nil_append] at hl
        have htp : t.Perm (s.take i ++ s.drop (i + 1)) := (ih _ t (by omega)).mp ht
        exact (htp.cons _).trans (pick_perm s i hi)
      · intro hp
        cases p with
        | nil =>
          have := hp.length_eq
          simp at this
          omega
        | cons a t =>
          have ha : a ∈ s := hp.subset (List.mem_cons_self _ _)
          obtain ⟨i, hi, hget⟩ := List.getElem_of_mem ha
          have hd : s.getD i 0 = a := by
            rw [List.getD_eq_getElem?_getD, List.getElem?_eq_getElem hi]
            exact hget
          have hl := rest_length s i hi
          rw [List.nil_append] at hl
          refine ⟨i, hi, t, ?_, by rw [hd]⟩
          apply (ih _ t (by omega)).mpr
          have h2 := hp.trans (pick_perm s i hi).symm
          rw [hd] at h2
          exact h2.cons_inv

theorem sum_map_const (l : List Nat) (g : Nat → Nat) (c : Nat) (h : ∀ x ∈ l, g x = c) :
    (l.map g).sum = l.length * c := by
  induction l with
  | nil => simp
  | cons a t ih =>
    rw [List.map_cons, List.sum_cons, h a (List.mem_cons_self _ _),
      ih (fun b hb => h b (List.mem_cons_of_mem _ hb)), List.length_cons]
    ring

theorem length_permutations (n : Nat) : ∀ (s : List Int), s.length = n →
    (permutations s).length = n.factorial := by
  induction n with
  | zero =>
    intro s hs
    rw [permutations_unfold, if_pos (by omega)]
    rfl
  | succ k ih =>
    intro s hs
    rw [permutations_unfold]
    by_cases h1 : s.length ≤ 1
    · rw [if_pos h1]
      have hk : k = 0 := by omega
      subst hk
      rfl
    · rw [if_neg h1, List.length_flatMap, sum_map_const _ _ k.factorial, List.length_range, hs,
        Nat.factorial_succ]
      intro i hi
      have hl := rest_length s i (List.mem_range.mp hi)
      rw [List.nil_append] at hl
      show ((permutations (s.take i ++ s.drop (i + 1))).map _).length = _
      rw [List.length_map]
      exact ih _ (by omega)

theorem nodup_permutations (n : Nat) : ∀ (s : List Int), s.length = n → s.Nodup →
    (permutations s).Nodup := by
  induction n with
  | zero =>
    intro s hs _
    rw [permutations_unfold, if_pos (by omega)]
    simp
  | succ k ih =>
    intro s hs hnd
    rw [permutations_unfold]
    by_cases h1 : s.length ≤ 1
    · rw [if_pos h1]
      simp
    · rw [if_neg h1, List.nodup_flatMap]
      constructor
      · intro i hi
        have hi' := List.mem_range.mp hi
        have hl := rest_length s i hi'
        rw [List.nil_append] at hl
        have hsub : (s.take i ++ s.drop (i + 1)).Nodup := by
          rw [← List.eraseIdx_eq_take_drop_succ]
          exact hnd.sublist (List.eraseIdx_sublist s i)
        exact (ih _ (by omega) hsub).map (fun a b hab => (List.cons.inj hab).2)
      · apply (List.nodup_range s.length).pairwise_of_forall_ne
        intro i hi j hj hij
        have hi' := List.mem_range.mp hi
        have hj' := List.mem_range.mp hj
        show List.Disjoint _ _
        intro p hpi hpj
        simp only [List.mem_map] at hpi hpj
        obtain ⟨t1, -, rfl⟩ := hpi
        obtain ⟨t2, -, h2⟩ := hpj
        have hhead : s.getD j 0 = s.getD i 0 := (List.cons.inj h2).1
        rw [List.getD_eq_getElem?_getD, List.getElem?_eq_getElem hj',
          List.getD_eq_getElem?_getD, List.getElem?_eq_getElem hi'] at hhead
        have : s[j] = s[i] := hhead
        exact hij ((List.Nodup.getElem_inj_iff hnd).mp this).symm

/-- C31: `permutations`.  For every list `s` of pairwise distinct integers the result
has exactly `len(s)!` lists, pairwise distinct; each of them is a rearrangement of
`s`, and every rearrangement of `s` occurs in it.  (The count and the two membership
facts hold for every list, distinct or not.)  For the empty list the result is the
single empty list. -/
theorem permutations_spec (s : List Int) (hnd : s.Nodup) :
    (permutations s).length = s.length.factorial
    ∧ (permutations s).Nodup
    ∧ (∀ p ∈ permutations s, p.Perm s)
    ∧ (∀ p : List Int, p.Perm s → p ∈ permutations s)
    ∧ permutations [] = [[]] :=
  ⟨length_permutations s.length s rfl, nodup_permutations s.length s rfl hnd,
    fun p hp => (mem_permutations s.length s p rfl).mp hp,
    fun p hp => (mem_permutations s.length s p rfl).mpr hp, rfl⟩

theorem permutations_spec_witness :
    ([1, 2, 3] : List Int).Nodup
    ∧ permutations [1, 2, 3]
        = [[1, 2, 3], [1, 3, 2], [2, 1, 3], [2, 3, 1], [3, 1, 2], [3, 2, 1]]
    ∧ (permutations [1, 2, 3]).length = 6
    ∧ [3, 1, 2] ∈ permutations [1, 2, 3] := by
  have h := permutations_spec [1, 2, 3] (by decide)
  exact ⟨by decide, by decide, h.1, h.2.2.2.1 [3, 1, 2] (by decide)⟩

end Day7

namespace Day10
open Go

theorem KeySet_mem_add (m : KeySet) (k f : Int) : f ∈ m.add k ↔ f ∈ m ∨ f = k := by
  unfold KeySet.add
  by_cases h : k ∈ m
  · rw [if_pos h]
    constructor
    · intro hf
      exact Or.inl hf
    · rintro (hf | rfl)
      · exact hf
      · exact h
  · rw [if_neg h]
    simp

theorem KeySet_nodup_add (m : KeySet) (k : Int) (h : m.Nodup) : (m.add k).Nodup := by
  unfold KeySet.add
  by_cases hk : k ∈ m
  · rw [if_pos hk]
    exact h
  · rw [if_neg hk]
    rw [List.nodup_append]
    refine ⟨h, List.nodup_singleton k, ?_⟩
    intro a ha hb
    rw [List.mem_singleton] at hb
    subst hb
    exact hk ha

theorem factorsLoop_succ (fuel : Nat) (n dir i : Int) (m : KeySet) (hi : i ≠ 0) :
    factorsLoop (fuel + 1) n dir i m =
      if i = n then .ok (if goMod n i = 0 then (m.add i).add (goDiv n i) else m)
      else factorsLoop fuel n dir (wrapInt (i + dir))
        (if goMod n i = 0 then (m.add i).add (goDiv n i) else m) := by
  conv_lhs => unfold factorsLoop
  rw [if_neg hi]

/-- The loop of `factors` from its `k`-th iteration on: it ends after the iteration
with `i = n`, and the set it returns holds what it held before and, for each `j` from
`k` to `|n|` with `n % (dir*j) = 0`, the values `dir*j` and `n / (dir*j)`. -/
theorem factorsLoop_spec (n dir : Int) (N : Nat) (hdir : dir = 1 ∨ dir = -1)
    (hn : n = dir * N) (hr : inRange n) (r : Nat) :
    ∀ (k fuel : Nat) (m : KeySet), 1 ≤ k → k + r = N → r < fuel →
      ∃ m1, factorsLoop fuel n dir (dir * k) m = .ok m1
        ∧ (m.Nodup → m1.Nodup)
        ∧ ∀ f, f ∈ m1 ↔ f ∈ m ∨ ∃ j : Nat, k ≤ j ∧ j ≤ N ∧ goMod n (dir * j) = 0
            ∧ (f = dir * j ∨ f = goDiv n (dir * j)) := by
  induction r with
  | zero =>
    intro k fuel m hk hkN hf
    obtain ⟨g, rfl⟩ : ∃ g, fuel = g + 1 := ⟨fuel - 1, by omega⟩
    have hkN' : k = N := by omega
    subst hkN'
    have hi0 : dir * (k : Int) ≠ 0 := by
      rcases hdir with rfl | rfl <;> omega
    rw [factorsLoop_succ g n dir _ m hi0, if_pos hn.symm]
    refine ⟨_, rfl, ?_, ?_⟩
    · intro hnd
      split
      · exact KeySet_nodup_add _ _ (KeySet_nodup_add _ _ hnd)
      · exact hnd
    · intro f
      by_cases hmod : goMod n (dir * (k : Int)) = 0
      · rw [if_pos hmod, KeySet_mem_add, KeySet_mem_add]
        constructor
        · rintro ((h | h) | h)
          · exact Or.inl h
          · exact Or.inr ⟨k, le_refl _, le_refl _, hmod, Or.inl h⟩
          · exact Or.inr ⟨k, le_refl _, le_refl _, hmod, Or.inr h⟩
        · rintro (h | ⟨j, hj1, hj2, -, hj4⟩)
          · exact Or.inl (Or.inl h)
          · have : j = k := by omega
            subst this
            rcases hj4 with h | h
            · exact Or.inl (Or.inr h)
            · exact Or.inr h
      · rw [if_neg hmod]
        constructor
        · intro h
          exact Or.inl h
        · rintro (h | ⟨j, hj1, hj2, hj3, -⟩)
          · exact h
          · have : j = k := by omega
            subst this
            exact absurd hj3 hmod
  | succ r ih =>
    intro k fuel m hk hkN hf
    obtain ⟨g, rfl⟩ : ∃ g, fuel = g + 1 := ⟨fuel - 1, by omega⟩
    have hi0 : dir * (k : Int) ≠ 0 := by
      rcases hdir with rfl | rfl <;> omega
    have hne : ¬ dir * (k : Int) = n := by
      rw [hn]
      rcases hdir with rfl | rfl <;> omega
    have hnext : wrapInt (dir * (k : Int) + dir) = dir * ((k + 1 : Nat) : Int) := by
      have e : dir * (k : Int) + dir = dir * ((k + 1 : Nat) : Int) := by
        push_cast
        ring
      rw [e]
      apply wrapInt_of_inRange
      unfold inRange at hr ⊢
      rw [hn] at hr
      rcases hdir with rfl | rfl <;> omega
    rw [factorsLoop_succ g n dir _ m hi0, if_neg hne, hnext]
    obtain ⟨m1, h1, h2, h3⟩ := ih (k + 1) g
      (if goMod n (dir * (k : Int)) = 0 then (m.add (dir * k)).add (goDiv n (dir * k)) else m)
      (by omega) (by omega) (by omega)
    refine ⟨m1, h1, ?_, ?_⟩
    · intro hnd
      apply h2
      split
      · exact KeySet_nodup_add _ _ (KeySet_nodup_add _ _ hnd)
      · exact hnd
    · intro f
      rw [h3 f]
      by_cases hmod : goMod n (dir * (k : Int)) = 0
      · rw [if_pos hmod, KeySet_mem_add, KeySet_mem_add]
        constructor
        · rintro (((h | h) | h) | ⟨j, hj1, hj2, hj3, hj4⟩)
          · exact Or.inl h
          · exact Or.inr ⟨k, le_refl _, by omega, hmod, Or.inl h⟩
          · exact Or.inr ⟨k, le_refl _, by omega, hmod, Or.inr h⟩
          · exact Or.inr ⟨j, by omega, hj2, hj3, hj4⟩
        · rintro (h | ⟨j, hj1, hj2, hj3, hj4⟩)
          · exact Or.inl (Or.inl (Or.inl h))
          · by_cases hjk : j = k
            · subst hjk
              rcases hj4 with h | h
              · exact Or.inl (Or.inl (Or.inr h))
              · exact Or.inl (Or.inr h)
            · exact Or.inr ⟨j, by omega, hj2, hj3, hj4⟩
      · rw [if_neg hmod]
        constructor
        · rintro (h | ⟨j, hj1, hj2, hj3, hj4⟩)
          · exact Or.inl h
          · exact Or.inr ⟨j, by omega, hj2, hj3, hj4⟩
        · rintro (h | ⟨j, hj1, hj2, hj3, hj4⟩)
          · exact Or.inl h
          · by_cases hjk : j = k
            · subst hjk
              exact absurd hj3 hmod
            · exact Or.inr ⟨j, by omega, hj2, hj3, hj4⟩

end Day10
namespace Day10
open Go

theorem sortInts_perm (l : List Int) : (sortInts l).Perm l :=
  List.perm_insertionSort _ l

theorem mem_sortInts (l : List Int) (f : Int) : f ∈ sortInts l ↔ f ∈ l :=
  (sortInts_perm l).mem_iff

theorem nodup_sortInts (l : List Int) (h : l.Nodup) : (sortInts l).Nodup :=
  (sortInts_perm l).nodup_iff.mpr h

theorem natAbs_le_of_mul (n i c : Int) (h : n = i * c) (hi : i ≠ 0) :
    c.natAbs ≤ n.natAbs := by
  rw [h, Int.natAbs_mul]
  have : 1 ≤ i.natAbs := by omega
  exact Nat.le_mul_of_pos_left _ this

theorem wrapInt_quotient (n i c : Int) (h : n = i * c) (hi : i ≠ 0) (hr : inRange n) :
    wrapInt c = c ∨ (wrapInt c = n ∧ i = -1 ∧ n = -9223372036854775808) := by
  have hc := natAbs_le_of_mul n i c h hi
  unfold inRange at hr
  by_cases hcr : c ≤ 9223372036854775807
  · left
    apply wrapInt_of_inRange
    unfold inRange
    omega
  · right
    have hc2 : c = 9223372036854775808 := by omega
    rw [hc2] at h ⊢
    have hi3 : i = -1 := by omega
    refine ⟨?_, hi3, by omega⟩
    unfold wrapInt
    omega

theorem goDiv_dvd (n i : Int) (hr : inRange n) (hi : i ∣ n) (hi0 : i ≠ 0) :
    goDiv n i ∣ n := by
  obtain ⟨c, hc⟩ := hi
  have hq : n.tdiv i = c := by
    rw [hc]
    exact Int.mul_tdiv_cancel_left c hi0
  unfold goDiv
  rw [hq]
  rcases wrapInt_quotient n i c hc hi0 hr with h | ⟨h, -, -⟩
  · rw [h]
    exact ⟨i, by rw [hc]; ring⟩
  · rw [h]

theorem factors_spec (n : Int) (hn0 : n ≠ 0) (hr : inRange n) (fuel : Nat)
    (hf : n.natAbs ≤ fuel) :
    ∃ fs, factors fuel n = .ok fs ∧ fs.Nodup ∧ (∀ f ∈ fs, f ∣ n ∧ inRange f)
      ∧ (∀ g : Int, 0 < g → g ∣ n → g ≤ 9223372036854775807 → g ∈ fs) := by
  have hdir : (if n < 0 then (-1 : Int) else 1) = 1 ∨ (if n < 0 then (-1 : Int) else 1) = -1 := by
    split
    · exact Or.inr rfl
    · exact Or.inl rfl
  have hn : n = (if n < 0 then (-1 : Int) else 1) * (n.natAbs : Int) := by
    split <;> omega
  have hstart : wrapInt (1 * (if n < 0 then (-1 : Int) else 1))
      = (if n < 0 then (-1 : Int) else 1) * ((1 : Nat) : Int) := by
    split
    · unfold wrapInt
      omega
    · unfold wrapInt
      omega
  obtain ⟨m1, h1, h2, h3⟩ := factorsLoop_spec n (if n < 0 then (-1 : Int) else 1) n.natAbs
    hdir hn hr (n.natAbs - 1) 1 fuel [] (le_refl _) (by omega) (by omega)
  refine ⟨sortInts m1, ?_, nodup_sortInts _ (h2 List.nodup_nil), ?_, ?_⟩
  · unfold factors
    simp only []
    rw [hstart, h1]
  · intro f hfm
    rw [mem_sortInts, h3] at hfm
    rcases hfm with h | ⟨j, hj1, hj2, hj3, hj4⟩
    · cases h
    · have hd : (if n < 0 then (-1 : Int) else 1) * (j : Int) ∣ n :=
        Int.dvd_of_tmod_eq_zero hj3
      have hj0 : (if n < 0 then (-1 : Int) else 1) * (j : Int) ≠ 0 := by
        split <;> omega
      rcases hj4 with rfl | rfl
      · refine ⟨hd, ?_⟩
        unfold inRange at hr ⊢
        split <;> omega
      · exact ⟨goDiv_dvd n _ hr hd hj0, wrapInt_inRange _⟩
  · intro g hg0 hgn hgr
    rw [mem_sortInts, h3]
    right
    by_cases hneg : n < 0
    · obtain ⟨c, hc⟩ := hgn
      have hc0 : c ≠ 0 := by
        rintro rfl
        rw [hc] at hn0
        simp at hn0
      have hcneg : c < 0 := by
        by_contra hcp
        have : 0 ≤ g * c := Int.mul_nonneg (by omega) (by omega)
        omega
      have hle := natAbs_le_of_mul n g c hc (by omega)
      refine ⟨c.natAbs, by omega, hle, ?_, Or.inr ?_⟩
      · rw [if_pos hneg]
        have e : (-1 : Int) * (c.natAbs : Int) = c := by omega
        rw [e]
        exact Int.tmod_eq_zero_of_dvd ⟨g, by rw [hc]; ring⟩
      · rw [if_pos hneg]
        have e : (-1 : Int) * (c.natAbs : Int) = c := by omega
        rw [e]
        unfold goDiv
        have hq : n.tdiv c = g := by
          rw [hc, Int.mul_comm]
          exact Int.mul_tdiv_cancel_left g hc0
        rw [hq]
        symm
        apply wrapInt_of_inRange
        unfold inRange
        omega
    · have hpos : 0 < n := by omega
      have hle : g ≤ n := Int.le_of_dvd hpos hgn
      refine ⟨g.natAbs, by omega, by omega, ?_, Or.inl ?_⟩
      · rw [if_neg hneg]
        have e : (1 : Int) * (g.natAbs : Int) = g := by omega
        rw [e]
        exact Int.tmod_eq_zero_of_dvd hgn
      · rw [if_neg hneg]
        omega

end Day10
namespace Day10
open Go

theorem sorted_last_max : ∀ (s : List Int), s.Sorted (fun a b => a ≤ b) → s ≠ [] →
    s.getD (s.length - 1) 0 ∈ s ∧ ∀ y ∈ s, y ≤ s.getD (s.length - 1) 0
  | [], _, hne => absurd rfl hne
  | [a], _, _ => by
    refine ⟨by simp, ?_⟩
    intro y hy
    simp at hy
    subst hy
    simp
  | a :: b :: t, hs, _ => by
    have hs' := List.sorted_cons.mp hs
    obtain ⟨h1, h2⟩ := sorted_last_max (b :: t) hs'.2 (by simp)
    have e : (a :: b :: t).getD ((a :: b :: t).length - 1) 0
        = (b :: t).getD ((b :: t).length - 1) 0 := by
      simp only [List.length_cons]
      rfl
    rw [e]
    refine ⟨List.mem_cons_of_mem _ h1, ?_⟩
    intro y hy
    rcases List.mem_cons.mp hy with rfl | hy
    · exact hs'.1 _ h1
    · exact h2 y hy

theorem sortInts_last (l : List Int) (hne : l ≠ []) :
    (sortInts l).getD ((sortInts l).length - 1) 0 ∈ l
      ∧ ∀ y ∈ l, y ≤ (sortInts l).getD ((sortInts l).length - 1) 0 := by
  have hs : (sortInts l).Sorted (fun a b => a ≤ b) :=
    List.sorted_insertionSort (fun a b : Int => a ≤ b) l
  have hne2 : sortInts l ≠ [] := by
    intro h
    have := (sortInts_perm l).length_eq
    rw [h] at this
    exact hne (List.length_eq_zero.mp this.symm)
  obtain ⟨h1, h2⟩ := sorted_last_max (sortInts l) hs hne2
  exact ⟨(mem_sortInts l _).mp h1, fun y hy => h2 y ((mem_sortInts l y).mpr hy)⟩

theorem Counts_get_set (m : Counts) (k q v : Int) :
    (m.set k v).get q = if q = k then v else m.get q := by
  unfold Counts.get Counts.set
  by_cases h : q = k
  · subst h
    simp
  · rw [if_neg h]
    have hne : ¬ k = q := fun e => h e.symm
    have hfun : (fun a : Int × Int =>
        decide (decide (a.1 ≠ k) = true ∧ decide (a.1 = q) = true))
        = fun e => decide (e.1 = q) := by
      funext a
      by_cases ha : a.1 = q
      · have hp : a.1 ≠ k := fun e => h (ha.symm.trans e)
        simp [ha, hp, h]
      · simp [ha]
    rw [List.find?_cons]
    simp only [hne, decide_False]
    rw [List.find?_filter, hfun]

theorem Counts_get_foldl : ∀ (l : List Int), l.Nodup → ∀ (m : Counts) (f : Int),
    (l.foldl Counts.incr m).get f = if f ∈ l then wrapInt (m.get f + 1) else m.get f
  | [], _, m, f => by simp
  | a :: t, hnd, m, f => by
    have hnd' := List.nodup_cons.mp hnd
    rw [List.foldl_cons, Counts_get_foldl t hnd'.2]
    unfold Counts.incr
    rw [Counts_get_set]
    by_cases hfa : f = a
    · subst hfa
      rw [if_neg hnd'.1, if_pos rfl, if_pos (List.mem_cons_self _ _)]
    · rw [if_neg hfa]
      by_cases hft : f ∈ t
      · rw [if_pos hft, if_pos (List.mem_cons_of_mem _ hft)]
      · rw [if_neg hft, if_neg]
        intro hm
        rcases List.mem_cons.mp hm with h | h
        · exact hfa h
        · exact hft h

theorem Counts_keys_set (m : Counts) (k v : Int) (h : (m.map fun e => e.1).Nodup) :
    ((m.set k v).map fun e => e.1).Nodup := by
  unfold Counts.set
  rw [List.map_cons, List.nodup_cons]
  constructor
  · intro hk
    rw [List.mem_map] at hk
    obtain ⟨e, he, hek⟩ := hk
    have := (List.mem_filter.mp he).2
    simp at this
    exact this hek
  · exact h.sublist ((List.filter_sublist m).map _)

theorem Counts_keys_foldl : ∀ (l : List Int) (m : Counts), (m.map fun e => e.1).Nodup →
    ((l.foldl Counts.incr m).map fun e => e.1).Nodup
  | [], _, h => h
  | a :: t, m, h => by
    rw [List.foldl_cons]
    exact Counts_keys_foldl t _ (Counts_keys_set m a _ h)

theorem Counts_find_of_mem : ∀ (m : Counts), (m.map fun e => e.1).Nodup →
    ∀ e ∈ m, m.find? (fun x => x.1 = e.1) = some e
  | [], _, e, he => by cases he
  | x :: t, h, e, he => by
    have h' := List.nodup_cons.mp h
    rw [List.find?_cons]
    by_cases hx : x.1 = e.1
    · simp only [hx, decide_True]
      rcases List.mem_cons.mp he with rfl | het
      · rfl
      · exfalso
        apply h'.1
        rw [List.mem_map]
        exact ⟨e, het, hx.symm⟩
    · simp only [hx, decide_False]
      rcases List.mem_cons.mp he with rfl | het
      · exact absurd rfl hx
      · exact Counts_find_of_mem t h'.2 e het

theorem mem_commonOf (m : Counts) (hk : (m.map fun e => e.1).Nodup) (f : Int) :
    f ∈ commonOf m ↔ m.get f = 2 := by
  unfold commonOf
  rw [List.mem_map]
  constructor
  · rintro ⟨e, he, rfl⟩
    obtain ⟨hem, he2⟩ := List.mem_filter.mp he
    unfold Counts.get
    rw [Counts_find_of_mem m hk e hem]
    simpa using he2
  · intro hg
    unfold Counts.get at hg
    cases hfind : m.find? (fun e => e.1 = f) with
    | none =>
      rw [hfind] at hg
      cases hg
    | some e =>
      rw [hfind] at hg
      have h1 := List.find?_some hfind
      have h2 := List.mem_of_find?_eq_some hfind
      refine ⟨e, List.mem_filter.mpr ⟨h2, by simpa using hg⟩, by simpa using h1⟩

theorem mem_common (af bf : List Int) (ha : af.Nodup) (hb : bf.Nodup) (f : Int) :
    f ∈ commonOf (bf.foldl Counts.incr (af.foldl Counts.incr [])) ↔ f ∈ af ∧ f ∈ bf := by
  have hk : ((bf.foldl Counts.incr (af.foldl Counts.incr [])).map fun e => e.1).Nodup :=
    Counts_keys_foldl bf _ (Counts_keys_foldl af [] List.nodup_nil)
  rw [mem_commonOf _ hk, Counts_get_foldl bf hb, Counts_get_foldl af ha]
  have h0 : Counts.get [] f = 0 := rfl
  have w1 : wrapInt (0 + 1) = 1 := by unfold wrapInt; omega
  have w2 : wrapInt (1 + 1) = 2 := by unfold wrapInt; omega
  rw [h0, w1]
  by_cases hfa : f ∈ af <;> by_cases hfb : f ∈ bf
  · rw [if_pos hfb, if_pos hfa, w2]
    exact ⟨fun _ => ⟨hfa, hfb⟩, fun _ => rfl⟩
  · rw [if_neg hfb, if_pos hfa]
    exact ⟨fun h => absurd h (by decide), fun h => absurd h.2 hfb⟩
  · rw [if_pos hfb, if_neg hfa, w1]
    exact ⟨fun h => absurd h (by decide), fun h => absurd h.1 hfa⟩
  · rw [if_neg hfb, if_neg hfa]
    exact ⟨fun h => absurd h (by decide), fun h => absurd h.1 hfa⟩

theorem gcd_greatest (a b : Int) (ha : a ≠ 0) (hb : b ≠ 0) (hra : inRange a)
    (hrb : inRange b) (fuel : Nat) (hfa : a.natAbs ≤ fuel) (hfb : b.natAbs ≤ fuel) :
    ∃ x, gcd fuel a b = .ok x ∧ x ∣ a ∧ x ∣ b ∧ inRange x
      ∧ ∀ g : Int, 0 < g → g ∣ a → g ∣ b → g ≤ 9223372036854775807 → g ≤ x := by
  obtain ⟨af, e1, nd1, s1, c1⟩ := factors_spec a ha hra fuel hfa
  obtain ⟨bf, e2, nd2, s2, c2⟩ := factors_spec b hb hrb fuel hfb
  have h1mem : (1 : Int) ∈ commonOf (bf.foldl Counts.incr (af.foldl Counts.incr [])) :=
    (mem_common af bf nd1 nd2 _).mpr
      ⟨c1 1 (by decide) (one_dvd a) (by decide), c2 1 (by decide) (one_dvd b) (by decide)⟩
  have hne : commonOf (bf.foldl Counts.incr (af.foldl Counts.incr [])) ≠ [] :=
    List.ne_nil_of_mem h1mem
  have hlen : ¬ (commonOf (bf.foldl Counts.incr (af.foldl Counts.incr []))).length = 0 :=
    fun h => hne (List.length_eq_zero.mp h)
  obtain ⟨hx1, hx2⟩ := sortInts_last _ hne
  have hxab := (mem_common af bf nd1 nd2 _).mp hx1
  refine ⟨_, ?_, (s1 _ hxab.1).1, (s2 _ hxab.2).1, (s1 _ hxab.1).2, ?_⟩
  · unfold gcd
    rw [if_neg ha, if_neg hb, e1]
    simp only []
    rw [e2]
    simp only []
    rw [if_neg hlen]
  · intro g hg0 hga hgb hgr
    exact hx2 g ((mem_common af bf nd1 nd2 g).mpr ⟨c1 g hg0 hga hgr, c2 g hg0 hgb hgr⟩)

theorem gcd_spec (a b : Int) (ha : a ≠ 0) (hb : b ≠ 0) (hra : inRange a) (hrb : inRange b)
    (hnot : ¬ (a = -9223372036854775808 ∧ b = -9223372036854775808)) (fuel : Nat)
    (hfa : a.natAbs ≤ fuel) (hfb : b.natAbs ≤ fuel) :
    gcd fuel a b = .ok (Int.gcd a b : Int) := by
  obtain ⟨x, e, hxa, hxb, -, hmax⟩ := gcd_greatest a b ha hb hra hrb fuel hfa hfb
  have hgpos : 0 < Int.gcd a b := Int.gcd_pos_of_ne_zero_left b ha
  have hga : (Int.gcd a b : Int) ∣ a := Int.gcd_dvd_left
  have hgb : (Int.gcd a b : Int) ∣ b := Int.gcd_dvd_right
  have hla : Int.gcd a b ≤ a.natAbs :=
    Nat.le_of_dvd (by omega) (Int.natAbs_dvd_natAbs.mpr hga)
  have hlb : Int.gcd a b ≤ b.natAbs :=
    Nat.le_of_dvd (by omega) (Int.natAbs_dvd_natAbs.mpr hgb)
  have hgr : (Int.gcd a b : Int) ≤ 9223372036854775807 := by
    unfold inRange at hra hrb
    omega
  have hle1 := Int.le_of_dvd (by omega) (Int.dvd_gcd hxa hxb)
  have hle2 := hmax _ (by omega) hga hgb hgr
  rw [e]
  congr 1
  omega

end Day10
namespace Day10
open Go

theorem goDiv_exact (n g p : Int) (h : n = g * p) (hg : 0 < g) (hr : inRange n) :
    goDiv n g = p := by
  unfold goDiv
  have hq : n.tdiv g = p := by
    rw [h]
    exact Int.mul_tdiv_cancel_left p (by omega)
  rw [hq]
  rcases wrapInt_quotient n g p h (by omega) hr with h1 | ⟨-, h2, -⟩
  · exact h1
  · omega

theorem goDiv_self (n : Int) (hn : n ≠ 0) : goDiv n n = 1 := by
  unfold goDiv
  rw [Int.tdiv_self hn]
  unfold wrapInt
  omega

theorem goDiv_zero_left (n : Int) : goDiv 0 n = 0 := by
  unfold goDiv
  rw [Int.zero_tdiv]
  unfold wrapInt
  omega

theorem simplify_core (n1 d1 : Int) (fuel : Nat) (h00 : ¬ (n1 = 0 ∧ d1 = 0))
    (hn : inRange n1) (hd : inRange d1) (hd0 : 0 ≤ d1)
    (hfn : n1.natAbs ≤ fuel) (hfd : d1.natAbs ≤ fuel) :
    ∃ div, gcd fuel n1 d1 = .ok div ∧ div ≠ 0 ∧ 0 ≤ goDiv d1 div
      ∧ Int.gcd (goDiv n1 div) (goDiv d1 div) = 1
      ∧ goDiv n1 div * d1 = n1 * goDiv d1 div
      ∧ (goDiv d1 div = 0 ↔ d1 = 0) := by
  by_cases hd1 : d1 = 0
  · subst hd1
    have hn1 : n1 ≠ 0 := fun h => h00 ⟨h, rfl⟩
    refine ⟨n1, ?_, hn1, ?_, ?_, ?_, ?_⟩
    · unfold gcd
      rw [if_neg hn1, if_pos rfl]
    · rw [goDiv_zero_left]
    · rw [goDiv_zero_left, goDiv_self n1 hn1]
      rfl
    · rw [goDiv_zero_left]
      ring
    · rw [goDiv_zero_left]
  · by_cases hn1 : n1 = 0
    · subst hn1
      refine ⟨d1, ?_, hd1, ?_, ?_, ?_, ?_⟩
      · unfold gcd
        rw [if_pos rfl]
      · rw [goDiv_self d1 hd1]
        decide
      · rw [goDiv_zero_left, goDiv_self d1 hd1]
        rfl
      · rw [goDiv_zero_left]
        ring
      · rw [goDiv_self d1 hd1]
        constructor
        · intro h
          exact absurd h (by decide)
        · intro h
          exact absurd h hd1
    · have hgpos : 0 < Int.gcd n1 d1 := Int.gcd_pos_of_ne_zero_left d1 hn1
      have hgpos' : (0 : Int) < (Int.gcd n1 d1 : Int) := by omega
      have hg := gcd_spec n1 d1 hn1 hd1 hn hd (by omega) fuel hfn hfd
      have e1 : n1 = (Int.gcd n1 d1 : Int) * (n1 / (Int.gcd n1 d1 : Int)) :=
        (Int.mul_ediv_cancel' Int.gcd_dvd_left).symm
      have e2 : d1 = (Int.gcd n1 d1 : Int) * (d1 / (Int.gcd n1 d1 : Int)) :=
        (Int.mul_ediv_cancel' Int.gcd_dvd_right).symm
      have q1 := goDiv_exact n1 _ _ e1 hgpos' hn
      have q2 := goDiv_exact d1 _ _ e2 hgpos' hd
      have hqpos : 0 < d1 / (Int.gcd n1 d1 : Int) := by
        by_contra hq
        have : (Int.gcd n1 d1 : Int) * (d1 / (Int.gcd n1 d1 : Int)) ≤ 0 :=
          Int.mul_nonpos_of_nonneg_of_nonpos (by omega) (by omega)
        omega
      refine ⟨_, hg, by omega, ?_, ?_, ?_, ?_⟩
      · rw [q2]
        omega
      · rw [q1, q2]
        exact Int.gcd_div_gcd_div_gcd hgpos
      · rw [q1, q2]
        have hx : (n1 / (Int.gcd n1 d1 : Int)) * ((Int.gcd n1 d1 : Int) * (d1 / (Int.gcd n1 d1 : Int)))
            = ((Int.gcd n1 d1 : Int) * (n1 / (Int.gcd n1 d1 : Int))) * (d1 / (Int.gcd n1 d1 : Int)) := by
          ring
        rw [← e1, ← e2] at hx
        exact hx
      · rw [q2]
        constructor
        · intro h
          omega
        · intro h
          exact absurd h hd1

theorem signNormal_spec (n d : Int) (hn : inRange n) (hd : inRange d)
    (hdm : d ≠ -9223372036854775808) (hnm : n = -9223372036854775808 → 0 ≤ d) :
    (signNormal n d = (n, d) ∧ 0 ≤ d) ∨ (signNormal n d = (-n, -d) ∧ d < 0 ∧ inRange (-n)) := by
  unfold inRange at hn hd ⊢
  unfold signNormal
  by_cases hd0 : 0 ≤ d
  · left
    have c1 : ¬ (n < 0 ∧ d < 0) := by omega
    simp only [if_neg c1]
    have c2 : ¬ (n ≥ 0 ∧ d < 0) := by omega
    rw [if_neg c2]
    exact ⟨rfl, hd0⟩
  · right
    have hnn : n ≠ -9223372036854775808 := fun h => hd0 (hnm h)
    have w1 : wrapInt (n * -1) = -n := by
      unfold wrapInt
      omega
    have w2 : wrapInt (d * -1) = -d := by
      unfold wrapInt
      omega
    by_cases hn0 : n < 0
    · have c1 : n < 0 ∧ d < 0 := ⟨hn0, by omega⟩
      simp only [if_pos c1, w1, w2]
      have c2 : ¬ (-n ≥ 0 ∧ -d < 0) := by omega
      rw [if_neg c2]
      exact ⟨rfl, by omega, by omega⟩
    · have c1 : ¬ (n < 0 ∧ d < 0) := by omega
      simp only [if_neg c1]
      have c2 : n ≥ 0 ∧ d < 0 := ⟨by omega, by omega⟩
      rw [if_pos c2, w1, w2]
      exact ⟨rfl, by omega, by omega⟩

theorem simplifyFraction_of_gcd (fuel : Nat) (frac : fraction) (n1 d1 div : Int)
    (hs : signNormal frac.n frac.d = (n1, d1)) (hg : gcd fuel n1 d1 = .ok div)
    (hdiv : div ≠ 0) :
    simplifyFraction fuel frac = .ok (newFraction (goDiv n1 div) (goDiv d1 div)) := by
  unfold simplifyFraction
  simp only []
  rw [hs]
  simp only []
  rw [hg]
  simp only []
  rw [if_neg hdiv]

theorem newFraction_eq (n d : Int) : newFraction n d = ⟨n, d, decide (d = 0)⟩ := by
  unfold newFraction
  by_cases h : d = 0
  · rw [if_pos h]
    simp [h]
  · rw [if_neg h]
    simp [h]

end Day10
namespace Day10
open Go

/-- C32 (amended): `simplifyFraction` and `gcd` away from the most negative `int`.  For
every fraction `n/d` of Go `int`s with `(n, d) ≠ (0, 0)`, where `d` is -2^63 only if
`n = 0` and `n` is -2^63 only if `d ≥ 0`, and for every number of loop iterations at
least `|n|` and `|d|`: `simplifyFraction` returns `n'/d'` with `d' ≥ 0`, the greatest
common divisor of `|n'|` and `d'` equal to 1, `n'·d = n·d'`, and the `nan` flag set
exactly when `d = 0` (for `0 / -2^63` it returns `0 / 1`).  For all non-zero `a`, `b` of
either sign, not both -2^63, `gcd(a, b)` returns the greatest common divisor of `a` and
`b`: it is positive, divides both, and every common divisor is at most it. -/
theorem simplifyFraction_spec (n d : Int) (nan : Bool) (fuel : Nat)
    (h00 : ¬ (n = 0 ∧ d = 0)) (hn : inRange n) (hd : inRange d)
    (hdm : d = -9223372036854775808 → n = 0) (hnm : n = -9223372036854775808 → 0 ≤ d)
    (hfn : n.natAbs ≤ fuel) (hfd : d.natAbs ≤ fuel) :
    (∃ n' d', simplifyFraction fuel ⟨n, d, nan⟩ = .ok ⟨n', d', decide (d = 0)⟩
      ∧ 0 ≤ d' ∧ Int.gcd n' d' = 1 ∧ n' * d = n * d')
    ∧ (∀ (a b : Int) (F : Nat), a ≠ 0 → b ≠ 0 → inRange a → inRange b →
        ¬ (a = -9223372036854775808 ∧ b = -9223372036854775808) →
        a.natAbs ≤ F → b.natAbs ≤ F →
        gcd F a b = .ok (Int.gcd a b : Int) ∧ 0 < (Int.gcd a b : Int)
          ∧ (Int.gcd a b : Int) ∣ a ∧ (Int.gcd a b : Int) ∣ b
          ∧ ∀ c : Int, c ∣ a → c ∣ b → c ≤ (Int.gcd a b : Int)) := by
  constructor
  · by_cases hdmin : d = -9223372036854775808
    · have hn0 : n = 0 := hdm hdmin
      subst hn0
      subst hdmin
      have hw0 : wrapInt (0 * -1) = 0 := by
        unfold wrapInt
        omega
      have hwm : wrapInt (-9223372036854775808 * -1) = -9223372036854775808 := by
        unfold wrapInt
        omega
      have hs : signNormal 0 (-9223372036854775808) = (0, -9223372036854775808) := by
        unfold signNormal
        have c1 : ¬ ((0 : Int) < 0 ∧ (-9223372036854775808 : Int) < 0) := by omega
        simp only [if_neg c1]
        have c2 : (0 : Int) ≥ 0 ∧ (-9223372036854775808 : Int) < 0 := by omega
        rw [if_pos c2, hw0, hwm]
      have hg : gcd fuel 0 (-9223372036854775808) = .ok (-9223372036854775808) := by
        unfold gcd
        rw [if_pos rfl]
      have hne : (-9223372036854775808 : Int) ≠ 0 := by omega
      have h5 : (1 : Int) = 0 ↔ (-9223372036854775808 : Int) = 0 := by omega
      refine ⟨0, 1, ?_, by omega, rfl, by omega⟩
      rw [simplifyFraction_of_gcd fuel ⟨0, -9223372036854775808, nan⟩ 0
        (-9223372036854775808) (-9223372036854775808) hs hg hne, goDiv_zero_left,
        goDiv_self _ hne, newFraction_eq, decide_eq_decide.mpr h5]
    rcases signNormal_spec n d hn hd hdmin hnm with ⟨hs, hd0⟩ | ⟨hs, hd0, hnr⟩
    · obtain ⟨div, hg, hdiv, h1, h2, h3, h4⟩ := simplify_core n d fuel h00 hn hd hd0 hfn hfd
      refine ⟨goDiv n div, goDiv d div, ?_, h1, h2, h3⟩
      rw [simplifyFraction_of_gcd fuel ⟨n, d, nan⟩ n d div hs hg hdiv, newFraction_eq,
        decide_eq_decide.mpr h4]
    · have hdr : inRange (-d) := by
        unfold inRange at hd ⊢
        omega
      obtain ⟨div, hg, hdiv, h1, h2, h3, h4⟩ := simplify_core (-n) (-d) fuel
        (by omega) hnr hdr (by omega) (by omega) (by omega)
      refine ⟨goDiv (-n) div, goDiv (-d) div, ?_, h1, h2, ?_⟩
      · have h5 : goDiv (-d) div = 0 ↔ d = 0 := by
          rw [h4]
          omega
        rw [simplifyFraction_of_gcd fuel ⟨n, d, nan⟩ (-n) (-d) div hs hg hdiv, newFraction_eq,
          decide_eq_decide.mpr h5]
      · rw [mul_neg, neg_mul] at h3
        exact neg_injective h3
  · intro a b F ha hb hra hrb hnot hfa hfb
    have hgpos : 0 < Int.gcd a b := Int.gcd_pos_of_ne_zero_left b ha
    refine ⟨gcd_spec a b ha hb hra hrb hnot F hfa hfb, by omega, Int.gcd_dvd_left,
      Int.gcd_dvd_right, ?_⟩
    intro c hca hcb
    exact Int.le_of_dvd (by omega) (Int.dvd_gcd hca hcb)

theorem simplifyFraction_spec_witness :
    simplifyFraction 6 ⟨6, -4, false⟩ = .ok ⟨-3, 2, false⟩
    ∧ (∃ n' d', simplifyFraction 6 ⟨6, -4, false⟩ = .ok ⟨n', d', decide ((-4 : Int) = 0)⟩
      ∧ 0 ≤ d' ∧ Int.gcd n' d' = 1 ∧ n' * -4 = 6 * d')
    ∧ gcd 6 (-6) 4 = .ok 2 := by
  have h := simplifyFraction_spec 6 (-4) false 6 (by omega) (by unfold inRange; omega)
    (by unfold inRange; omega) (by omega) (by omega) (by decide) (by decide)
  exact ⟨by decide, h.1, by decide⟩

theorem goDiv_one (x : Int) (hx : inRange x) : goDiv x 1 = x := by
  unfold goDiv
  rw [Int.tdiv_one]
  exact wrapInt_of_inRange hx

/-- C32 (counterexample): the most negative `int`.  `simplifyFraction` of
`1 / -2^63` returns `-1 / -2^63`, whose denominator is negative (`d *= -1` overflows
and leaves `d` unchanged).  `simplifyFraction` of `-2^63 / -1` returns `-2^63 / 1`,
for which `n'·d = 2^63` differs from `n·d' = -2^63`.  `gcd(-2^63, -2^63)` returns
2^62, not the greatest common divisor 2^63, which no `int` holds.  Each of these calls
ends after 2^63 iterations of the loop of `factors`. -/
theorem simplifyFraction_minInt :
    simplifyFraction 9223372036854775808 ⟨1, -9223372036854775808, false⟩
      = .ok ⟨-1, -9223372036854775808, false⟩
    ∧ simplifyFraction 9223372036854775808 ⟨-9223372036854775808, -1, false⟩
      = .ok ⟨-9223372036854775808, 1, false⟩
    ∧ (-9223372036854775808 : Int) * -1 ≠ -9223372036854775808 * 1
    ∧ gcd 9223372036854775808 (-9223372036854775808) (-9223372036854775808)
      = .ok 4611686018427387904 := by
  have hmin : inRange (-9223372036854775808) := by
    unfold inRange
    omega
  have hm1 : inRange (-1) := by
    unfold inRange
    omega
  have h1 : inRange 1 := by
    unfold inRange
    omega
  have hw : wrapInt (-9223372036854775808 * -1) = -9223372036854775808 := by
    unfold wrapInt
    omega
  have hw1 : wrapInt (1 * -1) = -1 := by
    unfold wrapInt
    omega
  have hw2 : wrapInt (-1 * -1) = 1 := by
    unfold wrapInt
    omega
  refine ⟨?_, ?_, by omega, ?_⟩
  · have hs : signNormal 1 (-9223372036854775808) = (-1, -9223372036854775808) := by
      unfold signNormal
      have c1 : ¬ ((1 : Int) < 0 ∧ (-9223372036854775808 : Int) < 0) := by omega
      simp only [if_neg c1]
      have c2 : (1 : Int) ≥ 0 ∧ (-9223372036854775808 : Int) < 0 := by omega
      rw [if_pos c2, hw, hw1]
    have hg := gcd_spec (-1) (-9223372036854775808) (by omega) (by omega) hm1 hmin
      (by omega) 9223372036854775808 (by omega) (by omega)
    have hgv : ((Int.gcd (-1) (-9223372036854775808) : Nat) : Int) = 1 := by
      norm_num
    rw [hgv] at hg
    rw [simplifyFraction_of_gcd _ ⟨1, -9223372036854775808, false⟩ _ _ 1 hs hg (by omega),
      goDiv_one _ hm1, goDiv_one _ hmin, newFraction_eq]
    rfl
  · have hs : signNormal (-9223372036854775808) (-1) = (-9223372036854775808, 1) := by
      unfold signNormal
      have c1 : (-9223372036854775808 : Int) < 0 ∧ (-1 : Int) < 0 := by omega
      simp only [if_pos c1, hw, hw2]
      have c2 : ¬ ((-9223372036854775808 : Int) ≥ 0 ∧ (1 : Int) < 0) := by omega
      rw [if_neg c2]
    have hg := gcd_spec (-9223372036854775808) 1 (by omega) (by omega) hmin h1
      (by omega) 9223372036854775808 (by omega) (by omega)
    have hgv : ((Int.gcd (-9223372036854775808) 1 : Nat) : Int) = 1 := by
      norm_num
    rw [hgv] at hg
    rw [simplifyFraction_of_gcd _ ⟨-9223372036854775808, -1, false⟩ _ _ 1 hs hg (by omega),
      goDiv_one _ hmin, goDiv_one _ h1, newFraction_eq]
    rfl
  · obtain ⟨x, e, hxa, -, hxr, hmax⟩ := gcd_greatest (-9223372036854775808)
      (-9223372036854775808) (by omega) (by omega) hmin hmin 9223372036854775808
      (by omega) (by omega)
    have hlow : (4611686018427387904 : Int) ≤ x := by
      have hd : (4611686018427387904 : Int) ∣ -9223372036854775808 := ⟨-2, by norm_num⟩
      exact hmax _ (by omega) hd hd (by omega)
    obtain ⟨c, hc⟩ := hxa
    unfold inRange at hxr
    have hc1 : c < 0 := by
      by_contra hcn
      have : 0 ≤ x * c := Int.mul_nonneg (by omega) (by omega)
      omega
    have hc2 : -3 < c := by
      by_contra hcn
      have h3 : x * c ≤ x * (-3) := Int.mul_le_mul_of_nonneg_left (by omega) (by omega)
      omega
    have hc3 : c = -1 ∨ c = -2 := by omega
    have hx : x = 4611686018427387904 := by
      rcases hc3 with rfl | rfl <;> omega
    rw [e, hx]

end Day10
